import Mathlib

/-!
# AutoVersion: control-file interpreter and offset-tracked replacement engine

A shallow embedding of `AutoVersion.cpp` / `AutoVersion.h`.

Conventions of the embedding

* A byte (`char`) is a natural number (`Nat`); a `std::string` and a raw `char *` buffer of
  known size are lists of bytes.  `size_t` values are natural numbers (sizes of
  buffers that live in memory), the `int` correction offset of the control-file
  rewrite is an integer.
* A read cursor `char *p` into the NUL-terminated control-file buffer is the list of
  bytes from `p` up to (not including) the terminator, so `*p` is `p.headD 0`.
* Member functions that throw return the object state at the throw together with
  the error (`Res.throw`), because `main` runs `RescueRollback` on that state.
* The file system is a finite map from path to content; `stat`, `fopen`/`fread`,
  `fwrite`, `CopyFile`, `_unlink` and `rename` act on it and fail only for a missing
  file.  `malloc` is assumed to succeed.
* Loops are recursive functions with an explicit iteration budget; the budget handed
  in by the caller is the length of the scanned buffer plus one, which is enough
  whenever the loop of the source terminates.
-/

namespace AutoVersion

/-- The bytes of an ASCII string literal. -/
def bytes (s : String) : List Nat := s.toList.map Char.toNat

/-- A `std::string` built from a C string carries no NUL byte. -/
def NoNul (s : List Nat) : Prop := ∀ c ∈ s, c ≠ 0

instance (s : List Nat) : Decidable (NoNul s) := by
  unfold NoNul; infer_instance

/-! ## Errors -/

/-- The messages of `CParseException`. -/
inductive ParseMsg where
  /-- unexpected character. Expected white-space or newline while scanning for end of line -/
  | unexpectedChar (c : Nat)
  /-- name for contant too long -/
  | nameTooLong
  /-- expected identifier -/
  | expectedIdentifier
  /-- double quote expected -/
  | quoteExpected
  /-- literal too long -/
  | literalTooLong
  /-- missing double quote -/
  | missingQuote
  /-- empty literal not allowed -/
  | emptyLiteral
  /-- symbol undefined -/
  | symbolUndefined (ident : List Nat)
  /-- duplicate symbol -/
  | duplicateSymbol (ident : List Nat)
  /-- the @ symbol is missing -/
  | atMissing
  /-- constant not found -/
  | constantNotFound (ident : List Nat)
  /-- for binary replacements the length of the find string must be equal to the
  length of the replace string -/
  | binaryLength
  /-- message too long -/
  | messageTooLong
  /-- basepath already defined -/
  | basepathDefined
  /-- missing %end token for if-token -/
  | missingEnd
  /-- unkown %-command -/
  | unknownPercentCommand
  /-- unknown command in Control File -/
  | unknownCommand
  deriving DecidableEq, Repr

/-- What a run can end with other than success: the `CException`s and
`CParseException`s of the source, and the two ways in which the C++ program has no
defined result. -/
inductive Err where
  /-- file: the string what was not found! -/
  | notFound (file_name what : List Nat)
  /-- updating control file failed! The what-string was not found at the expected
  position! -/
  | updateFailed (what : List Nat)
  /-- the file bak already exists. Please perform a clean or a rollback first. -/
  | backupExists (bak : List Nat)
  /-- stat failed for file -/
  | statFailed (file_name : List Nat)
  /-- can not create rollback file -/
  | cannotBackup (new_name : List Nat)
  /-- a delayed command failed -/
  | delayedCommandFailed
  /-- a `CParseException`: message and line number -/
  | parse (msg : ParseMsg) (line : Nat)
  /-- the loop of the source does not terminate -/
  | diverges
  /-- a read or copy outside the allocated buffer -/
  | outOfBounds
  deriving DecidableEq, Repr

instance {ε α : Type} [DecidableEq ε] [DecidableEq α] : DecidableEq (Except ε α)
  | .ok a, .ok b => if h : a = b then isTrue (by rw [h]) else isFalse (by intro e; cases e; exact h rfl)
  | .error a, .error b =>
    if h : a = b then isTrue (by rw [h]) else isFalse (by intro e; cases e; exact h rfl)
  | .ok _, .error _ => isFalse (by intro e; cases e)
  | .error _, .ok _ => isFalse (by intro e; cases e)

/-- Outcome of a member function on state `σ`: normal return or throw, each with the
state it leaves behind. -/
inductive Res (σ α : Type) where
  | ok (a : α) (s : σ)
  | throw (e : Err) (s : σ)
  deriving DecidableEq, Repr

/-- State after the call, thrown or not. -/
def Res.state {σ α : Type} : Res σ α → σ
  | .ok _ s => s
  | .throw _ s => s

/-- The error of a throwing call. -/
def Res.err {σ α : Type} : Res σ α → Option Err
  | .ok _ _ => none
  | .throw e _ => some e

/-! ## C library -/

/-- Whether `strncmp(a, b, n) == 0`, for `a` a pointer to the raw bytes `a` (no
terminator of its own) and `b` a NUL-terminated string with content `b`.  The
comparison stops at the first difference, after `n` bytes, or at a NUL common to
both.  `none`: it reads past the end of `a`. -/
def strncmp : List Nat → List Nat → Nat → Option Bool
  | _, _, 0 => some true
  | [], _, _ + 1 => none
  | x :: a, b, n + 1 =>
    if x ≠ b.headD 0 then some false
    else if x = 0 then some true
    else strncmp a b.tail n

/-! ## FindReplace -/

/-- Loop of `FindReplace`: `j` is the read index, `newstr` the output so far. -/
def FindReplaceLoop (source pattern replace : List Nat) :
    Nat → Nat → List Nat → Option (List Nat)
  | 0, _, _ => none
  | fuel + 1, j, newstr =>
    if j + pattern.length ≤ source.length then
      if (source.drop j).take pattern.length = pattern then
        FindReplaceLoop source pattern replace fuel (j + pattern.length) (newstr ++ replace)
      else
        FindReplaceLoop source pattern replace fuel (j + 1) (newstr ++ [source.getD j 0])
    else some newstr

/-- Embedding of `FindReplace(source, pattern, replace)`; `none` when the loop does not
end within `source.length + 1` iterations (it never ends for an empty pattern). -/
def FindReplace (source pattern replace : List Nat) : Option (List Nat) :=
  FindReplaceLoop source pattern replace (source.length + 1) 0 []

/-! ## Replacement model -/

/-- `enum EReplaceOp`. -/
inductive EReplaceOp where
  | enRoText
  | enRoBinary
  deriving DecidableEq, Repr

/-- `class CReplace`: a single replacement operation. -/
structure CReplace where
  m_enReplaceOp : EReplaceOp
  m_strWhat : List Nat
  m_strWith : List Nat
  m_bMustReplace : Bool
  m_bDidReplace : Bool
  m_nControlFilePos : Nat
  deriving DecidableEq, Repr

/-- The constructor `CReplace(op, what, with, nControlFilePos)`. -/
def CReplace.new (op : EReplaceOp) (what with_ : List Nat) (nControlFilePos : Nat) :
    CReplace :=
  { m_enReplaceOp := op, m_strWhat := what, m_strWith := with_,
    m_bMustReplace := false, m_bDidReplace := false,
    m_nControlFilePos := nControlFilePos }

/-- Loop of `CReplace::CheckReplace` from index `pos`.  Returns the `bool` result and
the directive as the call leaves it. -/
def CReplace.CheckReplaceLoop (r : CReplace) (file_name buf : List Nat) :
    Nat → Nat → Except Err (Bool × CReplace)
  | 0, _ => .error .diverges
  | fuel + 1, pos =>
    if pos + r.m_strWhat.length ≤ buf.length then
      if strncmp (buf.drop pos) r.m_strWhat r.m_strWhat.length = some true then
        if r.m_strWhat = r.m_strWith then .ok (false, r)
        else .ok (true, { r with m_bMustReplace := true })
      else CReplace.CheckReplaceLoop r file_name buf fuel (pos + 1)
    else .error (.notFound file_name r.m_strWhat)

/-- Embedding of `CReplace::CheckReplace(file_name, buf, size)`, `size = buf.length`. -/
def CReplace.CheckReplace (r : CReplace) (file_name buf : List Nat) :
    Except Err (Bool × CReplace) :=
  r.CheckReplaceLoop file_name buf (buf.length + 1) 0

/-- The variables of the loop of `CReplace::DoReplace`: the current buffer (`size` is
its length), the cursor, and the number of times the replacing branch has run (in
verbose mode the number of "replacing ..." lines printed). -/
structure ReplaceCursor where
  buf : List Nat
  pos : Nat
  replaced : Nat
  deriving DecidableEq, Repr

/-- One iteration of the loop body of `CReplace::DoReplace`. -/
def DoReplaceStep (what with_ : List Nat) (c : ReplaceCursor) : ReplaceCursor :=
  if strncmp (c.buf.drop c.pos) what what.length = some true then
    { buf := c.buf.take c.pos ++ with_ ++ c.buf.drop (c.pos + what.length),
      pos := c.pos + with_.length,
      replaced := c.replaced + 1 }
  else
    { c with pos := c.pos + 1 }

/-- The loop `while (pos + what_len <= size)` of `CReplace::DoReplace`; `none` when it
has not ended after `fuel` iterations. -/
def DoReplaceLoop (what with_ : List Nat) : Nat → ReplaceCursor → Option ReplaceCursor
  | 0, _ => none
  | fuel + 1, c =>
    if c.pos + what.length ≤ c.buf.length then
      DoReplaceLoop what with_ fuel (DoReplaceStep what with_ c)
    else some c

/-- Embedding of `CReplace::DoReplace(buf, size)`: the returned buffer, the directive
as the call leaves it, and the number of substitutions made.  `.diverges` when the
loop does not end within `buf.length + 1` iterations (empty `what`). -/
def CReplace.DoReplace (r : CReplace) (buf : List Nat) :
    Except Err (List Nat × CReplace × Nat) :=
  if r.m_bMustReplace then
    match DoReplaceLoop r.m_strWhat r.m_strWith (buf.length + 1) ⟨buf, 0, 0⟩ with
    | some c => .ok (c.buf, { r with m_bDidReplace := true }, c.replaced)
    | none => .error .diverges
  else .ok (buf, r, 0)

/-- The control-file literal encoding computed at the top of
`CReplace::UpdateControlFile`: backslash becomes two backslashes, then the double
quote becomes backslash, double quote. -/
def encodeLiteral (s : List Nat) : Option (List Nat) :=
  match FindReplace s [92] [92, 92] with
  | some t => FindReplace t [34] [92, 34]
  | none => none

/-- Embedding of `CReplace::UpdateControlFile(buf, size, offset)`: the new buffer and
the new correction offset. -/
def CReplace.UpdateControlFile (r : CReplace) (buf : List Nat) (offset : Int) :
    Except Err (List Nat × Int) :=
  if r.m_bDidReplace then
    match encodeLiteral r.m_strWhat, encodeLiteral r.m_strWith with
    | some what, some with_ =>
      let ipos : Int := (r.m_nControlFilePos : Int) + offset
      if ipos < 0 then .error .outOfBounds
      else
        let pos := ipos.toNat
        match strncmp (buf.drop pos) what what.length with
        | none => .error .outOfBounds
        | some false => .error (.updateFailed what)
        | some true =>
          if pos + what.length ≤ buf.length then
            .ok (buf.take pos ++ with_ ++ buf.drop (pos + what.length),
                 offset + ((with_.length : Int) - (what.length : Int)))
          else .error .outOfBounds
    | _, _ => .error .diverges
  else .ok (buf, offset)

/-! ## File system -/

/-- The files that exist, by path, with their content. -/
abbrev FS := List Nat → Option (List Nat)

/-- Create or overwrite a file (`fopen(.., "wb")`, `fwrite`, `fclose`). -/
def FS.write (fs : FS) (path content : List Nat) : FS :=
  fun q => if q = path then some content else fs q

/-- Delete a file (`_unlink`). -/
def FS.remove (fs : FS) (path : List Nat) : FS :=
  fun q => if q = path then none else fs q

/-- The suffix `.avbak`. -/
def avbak : List Nat := [46, 97, 118, 98, 97, 107]

/-- Embedding of `Backup(file_name)`.  `CopyFile(from, to, FALSE)`: the third argument
is `bFailIfExists`, so an existing `to` is overwritten; the copy fails when `from`
does not exist. -/
def Backup (fs : FS) (file_name : List Nat) : Except Err FS :=
  let new_name := file_name ++ avbak
  match fs file_name with
  | some content => .ok (fs.write new_name content)
  | none => .error (.cannotBackup new_name)

/-- Embedding of `CanRollback(file_name)`. -/
def CanRollback (fs : FS) (file_name : List Nat) : Bool :=
  (fs (file_name ++ avbak)).isSome

/-- Embedding of the global `Rollback(file_name)`.  It reports failures on the console
and never throws. -/
def Rollback (fs : FS) (file_name : List Nat) : FS :=
  let bak := file_name ++ avbak
  match fs bak with
  | none => fs
  | some saved =>
    match fs file_name with
    | none => fs
    | some _ => ((fs.remove file_name).write file_name saved).remove bak

/-! ## CFileNode -/

/-- `class CFileNode`: a file and its replacement operations. -/
structure CFileNode where
  m_listReplacements : List CReplace
  m_bMustReplace : Bool
  m_bDidReplace : Bool
  deriving DecidableEq, Repr

/-- The constructor `CFileNode()`. -/
def CFileNode.new : CFileNode :=
  { m_listReplacements := [], m_bMustReplace := false, m_bDidReplace := false }

/-- `CFileNode::Add`. -/
def CFileNode.Add (n : CFileNode) (r : CReplace) : CFileNode :=
  { n with m_listReplacements := n.m_listReplacements ++ [r] }

/-- The loop `for (auto &it : m_listReplacements)` of `CFileNode::CheckReplacements`:
the directives as the loop leaves them, the flag `m_bMustReplace`, and the error when
a `CheckReplace` throws. -/
def CheckReplaceAll (file_name buf : List Nat) :
    List CReplace → Bool → List CReplace × Bool × Option Err
  | [], m => ([], m, none)
  | r :: rs, m =>
    match r.CheckReplace file_name buf with
    | .error e => (r :: rs, m, some e)
    | .ok (b, r') =>
      match CheckReplaceAll file_name buf rs (if b then true else m) with
      | (rs', m', e) => (r' :: rs', m', e)

/-- Embedding of `CFileNode::CheckReplacements(file_name)`. -/
def CFileNode.CheckReplacements (n : CFileNode) (fs : FS) (file_name : List Nat) :
    Res CFileNode Bool :=
  let bak := file_name ++ avbak
  match fs bak with
  | some _ => .throw (.backupExists bak) n
  | none =>
    match fs file_name with
    | none => .throw (.statFailed file_name) n
    | some buf =>
      match CheckReplaceAll file_name buf n.m_listReplacements n.m_bMustReplace with
      | (rs, m, some e) => .throw e { n with m_listReplacements := rs, m_bMustReplace := m }
      | (rs, m, none) => .ok m { n with m_listReplacements := rs, m_bMustReplace := m }

/-- The loop `for (auto &it : m_listReplacements) buf = it.DoReplace(buf, size);` of
`CFileNode::DoReplacments`: the directives as the loop leaves them, and the final
buffer or the error. -/
def DoReplaceAll : List CReplace → List Nat → List CReplace × Except Err (List Nat)
  | [], buf => ([], .ok buf)
  | r :: rs, buf =>
    match r.DoReplace buf with
    | .error e => (r :: rs, .error e)
    | .ok (buf', r', _) =>
      match DoReplaceAll rs buf' with
      | (rs', res) => (r' :: rs', res)

/-- Embedding of `CFileNode::DoReplacments(file_name)`. -/
def CFileNode.DoReplacments (n : CFileNode) (fs : FS) (file_name : List Nat) :
    Res (CFileNode × FS) Unit :=
  if n.m_bMustReplace then
    match fs file_name with
    | none => .throw (.statFailed file_name) (n, fs)
    | some buf =>
      match DoReplaceAll n.m_listReplacements buf with
      | (rs, .error e) => .throw e ({ n with m_listReplacements := rs }, fs)
      | (rs, .ok newbuf) =>
        match Backup fs file_name with
        | .error e => .throw e ({ n with m_listReplacements := rs }, fs)
        | .ok fs' =>
          .ok () ({ n with m_listReplacements := rs, m_bDidReplace := true },
                  fs'.write file_name newbuf)
  else .ok () (n, fs)

/-- Embedding of `CFileNode::Rollback(file_name)`. -/
def CFileNode.Rollback (n : CFileNode) (fs : FS) (file_name : List Nat) : FS :=
  if n.m_bDidReplace then AutoVersion.Rollback fs file_name else fs

/-! ## Scanner primitives -/

/-- Embedding of `CAutoVersion::SkipWhiteSpaces(p)`. -/
def SkipWhiteSpaces : List Nat → List Nat
  | [] => []
  | c :: p => if c = 32 ∨ c = 9 then SkipWhiteSpaces p else c :: p

/-- The `while` loop of `CAutoVersion::SkipLine`. -/
def SkipLineLoop (only_white_spaces : Bool) (line : Nat) :
    List Nat → Bool → Except Err (List Nat)
  | [], _ => .ok []
  | c :: p, is_comment =>
    if c ≠ 0 ∧ c ≠ 10 ∧ c ≠ 13 then
      let is_comment := if c = 35 then true else is_comment
      if only_white_spaces = true ∧ is_comment = false ∧ c ≠ 32 ∧ c ≠ 9 then
        .error (.parse (.unexpectedChar c) line)
      else SkipLineLoop only_white_spaces line p is_comment
    else .ok (c :: p)

/-- The three statements after the loop of `CAutoVersion::SkipLine`: count the line when
the cursor is not on the terminator, step over a carriage return, step over one more
byte unless it is the terminator. -/
def SkipLineEnd (p : List Nat) (line : Nat) : List Nat × Nat :=
  let line := if p.headD 0 ≠ 0 then line + 1 else line
  let p := if p.headD 0 = 13 then p.tail else p
  let p := if p.headD 0 ≠ 0 then p.tail else p
  (p, line)

/-- Embedding of `CAutoVersion::SkipLine(p, only_white_spaces)`; `line` is
`m_nCurrentLine`.  Returns the cursor and the line counter. -/
def SkipLine (p : List Nat) (only_white_spaces : Bool) (line : Nat) :
    Except Err (List Nat × Nat) :=
  match SkipLineLoop only_white_spaces line p false with
  | .error e => .error e
  | .ok p => .ok (SkipLineEnd p line)

/-- Embedding of `CAutoVersion::SkipComment(p)`. -/
def SkipComment : List Nat → List Nat
  | [] => []
  | c :: p => if c ≠ 0 ∧ c ≠ 10 ∧ c ≠ 13 then SkipComment p else c :: p

/-- The loop of `CAutoVersion::Scan(p, token)`. -/
def ScanLoop (token : List Nat) : Nat → List Nat → Nat → Except Err (List Nat × Nat)
  | 0, _, _ => .error .diverges
  | fuel + 1, p, line =>
    if p.headD 0 ≠ 0 then
      match SkipLine p false line with
      | .error e => .error e
      | .ok (p, line) =>
        let p := SkipWhiteSpaces p
        if strncmp (p ++ [0]) token token.length = some true then .ok (p, line)
        else ScanLoop token fuel p line
    else .ok (p, line)

/-- Embedding of `CAutoVersion::Scan(p, token)`. -/
def Scan (p token : List Nat) (line : Nat) : Except Err (List Nat × Nat) :=
  ScanLoop token (p.length + 1) p line

/-- The `while` loop of `CAutoVersion::GetIdentifier`; `ident` holds the `i` bytes
copied so far. -/
def GetIdentifierLoop (line : Nat) : List Nat → List Nat → Except Err (List Nat × List Nat)
  | [], ident => .ok (ident, [])
  | c :: p, ident =>
    if c ≠ 0 ∧ c ≠ 32 ∧ c ≠ 9 ∧ c ≠ 10 ∧ c ≠ 13 then
      if (ident ++ [c]).length ≥ 256 then .error (.parse .nameTooLong line)
      else GetIdentifierLoop line p (ident ++ [c])
    else .ok (ident, c :: p)

/-- Embedding of `CAutoVersion::GetIdentifier(p)`: the identifier and the cursor. -/
def GetIdentifier (p : List Nat) (line : Nat) : Except Err (List Nat × List Nat) :=
  match GetIdentifierLoop line (SkipWhiteSpaces p) [] with
  | .error e => .error e
  | .ok (ident, p) =>
    if ident.length = 0 then .error (.parse .expectedIdentifier line)
    else .ok (ident, p)

/-- The `while` loop of `CAutoVersion::GetLiteral`; `ident` holds the `i` bytes copied
so far. -/
def GetLiteralLoop (line : Nat) : List Nat → List Nat → Except Err (List Nat × List Nat)
  | [], ident => .ok (ident, [])
  | [c], ident =>
    if c ≠ 0 ∧ c ≠ 34 ∧ c ≠ 10 ∧ c ≠ 13 then
      if (ident ++ [c]).length ≥ 256 then .error (.parse .literalTooLong line)
      else GetLiteralLoop line [] (ident ++ [c])
    else .ok (ident, [c])
  | c :: d :: p, ident =>
    if c ≠ 0 ∧ c ≠ 34 ∧ c ≠ 10 ∧ c ≠ 13 then
      if c = 92 ∧ (d = 34 ∨ d = 92) then
        if (ident ++ [d]).length ≥ 256 then .error (.parse .literalTooLong line)
        else GetLiteralLoop line p (ident ++ [d])
      else
        if (ident ++ [c]).length ≥ 256 then .error (.parse .literalTooLong line)
        else GetLiteralLoop line (d :: p) (ident ++ [c])
    else .ok (ident, c :: d :: p)

/-- Embedding of `CAutoVersion::GetLiteral(p, offset)`: the literal, the offset
`p - m_pBuffer` taken just after the opening quote (`bufLen` is the length of the
control-file buffer, so the offset of cursor `p` is `bufLen - p.length`), and the
cursor. -/
def GetLiteral (bufLen : Nat) (p : List Nat) (line : Nat) :
    Except Err (List Nat × Nat × List Nat) :=
  match SkipWhiteSpaces p with
  | [] => .error (.parse .quoteExpected line)
  | c :: p =>
    if c ≠ 34 then .error (.parse .quoteExpected line)
    else
      let offset := bufLen - p.length
      match GetLiteralLoop line p [] with
      | .error e => .error e
      | .ok (ident, p) =>
        if p.headD 0 ≠ 34 then .error (.parse .missingQuote line)
        else if ident.length = 0 then .error (.parse .emptyLiteral line)
        else .ok (ident, offset, p.tail)

/-- `unordered_map::find` on a map kept as an association list. -/
def mapFind {β : Type} (m : List (List Nat × β)) (key : List Nat) : Option β :=
  (m.find? (fun kv => kv.1 = key)).map Prod.snd

/-- Embedding of `CAutoVersion::GetLiteralOrSymbol(p)`. -/
def GetLiteralOrSymbol (consts : List (List Nat × List Nat)) (bufLen : Nat)
    (p : List Nat) (line : Nat) : Except Err (List Nat × List Nat) :=
  let p := SkipWhiteSpaces p
  if p.headD 0 = 34 then
    match GetLiteral bufLen p line with
    | .error e => .error e
    | .ok (lit, _, p) => .ok (lit, p)
  else
    match GetIdentifier p line with
    | .error e => .error e
    | .ok (ident, p) =>
      match mapFind consts ident with
      | none => .error (.parse (.symbolUndefined ident) line)
      | some v => .ok (v, p)

/-! ## CAutoVersion -/

/-- `class CCommandShell` (with the argument list of its base `CCommand`). -/
structure CCommandShell where
  m_listArgs : List (List Nat)
  deriving DecidableEq, Repr

/-- `class CAutoVersion`.  The two `unordered_map`s are association lists in insertion
order, the `unordered_set` is a list; `m_pBuffer` is the content read from the control
file (the terminating NUL is implicit).  The order in which a `for` over `m_mapFiles`
visits the records is the choice of the container; `CAutoVersion.Replace` walks the list
as it stands, and `CAutoVersion.ReplaceBy` takes the order as a parameter. -/
structure CAutoVersion where
  m_bInteractive : Bool
  m_strControlFile : List Nat
  m_bControlFileSaved : Bool
  m_strBasePath : List Nat
  m_nCurrentLine : Nat
  m_pBuffer : List Nat
  m_setDefines : List (List Nat)
  m_mapConstantDefs : List (List Nat × List Nat)
  m_mapFiles : List (List Nat × CFileNode)
  m_listMessages : List (List Nat)
  m_listDelayedCommands : List CCommandShell
  deriving DecidableEq, Repr

/-- The constructor `CAutoVersion()`. -/
def CAutoVersion.new : CAutoVersion :=
  { m_bInteractive := true, m_strControlFile := [], m_bControlFileSaved := false,
    m_strBasePath := [], m_nCurrentLine := 1, m_pBuffer := [], m_setDefines := [],
    m_mapConstantDefs := [], m_mapFiles := [], m_listMessages := [],
    m_listDelayedCommands := [] }

/-- Embedding of `CAutoVersion::ParseConstantDef(p)`. -/
def CAutoVersion.ParseConstantDef (s : CAutoVersion) (p : List Nat) :
    Res CAutoVersion (List Nat) :=
  match GetIdentifier p s.m_nCurrentLine with
  | .error e => .throw e s
  | .ok (ident, p) =>
    match GetLiteralOrSymbol s.m_mapConstantDefs s.m_pBuffer.length p s.m_nCurrentLine with
    | .error e => .throw e s
    | .ok (what, p) =>
      match mapFind s.m_mapConstantDefs ident with
      | some _ => .throw (.parse (.duplicateSymbol ident) s.m_nCurrentLine) s
      | none => .ok p { s with m_mapConstantDefs := s.m_mapConstantDefs ++ [(ident, what)] }

/-- The tail of `CAutoVersion::ParseReplacement`: add the directive to the record of
`file_name`, creating the record when there is none. -/
def addReplacement (files : List (List Nat × CFileNode)) (file_name : List Nat)
    (replace : CReplace) : List (List Nat × CFileNode) :=
  match mapFind files file_name with
  | some _ => files.map (fun kv => if kv.1 = file_name then (kv.1, kv.2.Add replace) else kv)
  | none => files ++ [(file_name, CFileNode.new.Add replace)]

/-- The first part of `CAutoVersion::ParseReplacement(op, p)`, up to the construction
of `CReplace replace(op, what, with, offset)`: the file name, the directive and the
cursor. -/
def CAutoVersion.ReadReplacement (s : CAutoVersion) (op : EReplaceOp) (p : List Nat) :
    Except Err (List Nat × CReplace × List Nat) :=
  match GetLiteral s.m_pBuffer.length p s.m_nCurrentLine with
  | .error e => .error e
  | .ok (file_name, _, p) =>
    match GetLiteral s.m_pBuffer.length p s.m_nCurrentLine with
    | .error e => .error e
    | .ok (what, offset, p) =>
      match SkipWhiteSpaces p with
      | [] => .error (.parse .atMissing s.m_nCurrentLine)
      | c :: p =>
        if c ≠ 64 then .error (.parse .atMissing s.m_nCurrentLine)
        else
          match GetIdentifier p s.m_nCurrentLine with
          | .error e => .error e
          | .ok (ident, p) =>
            match mapFind s.m_mapConstantDefs ident with
            | none => .error (.parse (.constantNotFound ident) s.m_nCurrentLine)
            | some with_ =>
              if op = .enRoBinary ∧ what.length ≠ with_.length then
                .error (.parse .binaryLength s.m_nCurrentLine)
              else .ok (file_name, CReplace.new op what with_ offset, p)

/-- Embedding of `CAutoVersion::ParseReplacement(op, p)`. -/
def CAutoVersion.ParseReplacement (s : CAutoVersion) (op : EReplaceOp) (p : List Nat) :
    Res CAutoVersion (List Nat) :=
  match s.ReadReplacement op p with
  | .error e => .throw e s
  | .ok (file_name, replace, p) =>
    .ok p { s with m_mapFiles := addReplacement s.m_mapFiles file_name replace }

/-- The `while` loop of `CAutoVersion::ParseMessage`. -/
def ParseMessageLoop (line : Nat) : List Nat → List Nat → Except Err (List Nat × List Nat)
  | [], ident => .ok (ident, [])
  | c :: p, ident =>
    if c ≠ 0 ∧ c ≠ 10 ∧ c ≠ 13 then
      if (ident ++ [c]).length ≥ 2048 then .error (.parse .messageTooLong line)
      else ParseMessageLoop line p (ident ++ [c])
    else .ok (ident, c :: p)

/-- Embedding of `CAutoVersion::ParseMessage(p)`. -/
def CAutoVersion.ParseMessage (s : CAutoVersion) (p : List Nat) :
    Res CAutoVersion (List Nat) :=
  match ParseMessageLoop s.m_nCurrentLine p [] with
  | .error e => .throw e s
  | .ok (ident, p) => .ok p { s with m_listMessages := s.m_listMessages ++ [ident] }

/-- The loop `while (if_count > 0)` of `CAutoVersion::ParseCommand` that skips a
conditional block; `withElse` is true in the `if` branch (a `%else` at depth one ends
the skip) and false in the `else` branch.  The test `if (!p)` of the source compares
the pointer itself with null and never holds.  When the cursor is on the terminating
NUL and no token matches, `p++` moves past the buffer and the next `Scan` reads
there. -/
def SkipBlockLoop (withElse : Bool) :
    Nat → List Nat → Nat → Nat → Except Err (List Nat × Nat)
  | 0, _, _, _ => .error .diverges
  | fuel + 1, p, line, if_count =>
    if if_count > 0 then
      match Scan p [37] line with
      | .error e => .error e
      | .ok (p, line) =>
        if strncmp (p ++ [0]) [37, 105, 102] 3 = some true then
          SkipBlockLoop withElse fuel (p.drop 3) line (if_count + 1)
        else if withElse = true ∧ strncmp (p ++ [0]) [37, 101, 108, 115, 101] 5 = some true then
          SkipBlockLoop withElse fuel (p.drop 5) line (if if_count = 1 then 0 else if_count)
        else if strncmp (p ++ [0]) [37, 101, 110, 100] 4 = some true then
          SkipBlockLoop withElse fuel (p.drop 4) line (if_count - 1)
        else
          match p with
          | [] => .error .outOfBounds
          | _ :: p => SkipBlockLoop withElse fuel p line if_count
    else .ok (p, line)

/-- Embedding of `CAutoVersion::ParseCommand(p)`. -/
def CAutoVersion.ParseCommand (s : CAutoVersion) (p : List Nat) :
    Res CAutoVersion (List Nat) :=
  match GetIdentifier p s.m_nCurrentLine with
  | .error e => .throw e s
  | .ok (ident, p) =>
    if ident = [66, 97, 115, 101, 112, 97, 116, 104] then
      if s.m_strBasePath ≠ [] then .throw (.parse .basepathDefined s.m_nCurrentLine) s
      else
        match GetLiteral s.m_pBuffer.length p s.m_nCurrentLine with
        | .error e => .throw e s
        | .ok (lit, _, p) => .ok p { s with m_strBasePath := lit }
    else if ident = [105, 102] then
      match GetIdentifier p s.m_nCurrentLine with
      | .error e => .throw e s
      | .ok (ident, p) =>
        if ident ∈ s.m_setDefines then .ok p s
        else
          match SkipBlockLoop true (p.length + 2) p s.m_nCurrentLine 1 with
          | .error e => .throw e s
          | .ok (p, line) => .ok p { s with m_nCurrentLine := line }
    else if ident = [101, 108, 115, 101] then
      match SkipBlockLoop false (p.length + 2) p s.m_nCurrentLine 1 with
      | .error e => .throw e s
      | .ok (p, line) => .ok p { s with m_nCurrentLine := line }
    else if ident = [101, 110, 100] then .ok p s
    else if ident = [115, 104, 101, 108, 108] then
      match GetLiteral s.m_pBuffer.length p s.m_nCurrentLine with
      | .error e => .throw e s
      | .ok (arg, _, p) =>
        .ok p { s with m_listDelayedCommands := s.m_listDelayedCommands ++ [⟨[arg]⟩] }
    else .throw (.parse .unknownPercentCommand s.m_nCurrentLine) s

/-- The command dispatch in the loop body of `CAutoVersion::ParseControlFile`, with the
cursor after the leading blanks: `c = *p`, and unless `c` is a line break `p++` and the
branch for `c`.  When the command character is the terminating NUL, `p++` steps past the
buffer and the last branch throws before anything is read there. -/
def CAutoVersion.ParseDispatch (s : CAutoVersion) (p : List Nat) :
    Res CAutoVersion (List Nat) :=
  let c := p.headD 0
  if c ≠ 10 ∧ c ≠ 13 then
    let p := p.tail
    if c = 64 then s.ParseConstantDef p
    else if c = 38 then s.ParseReplacement .enRoText p
    else if c = 36 then s.ParseReplacement .enRoBinary p
    else if c = 33 then s.ParseMessage p
    else if c = 37 then s.ParseCommand p
    else if c = 35 then .ok (SkipComment p) s
    else .throw (.parse .unknownCommand s.m_nCurrentLine) s
  else .ok p s

/-- The body of the loop `while (*p)` of `CAutoVersion::ParseControlFile`: one
iteration, from the cursor at the start of a line to the cursor after its line break. -/
def CAutoVersion.ParseLine (s : CAutoVersion) (p : List Nat) : Res CAutoVersion (List Nat) :=
  match s.ParseDispatch (SkipWhiteSpaces p) with
  | .throw e s => .throw e s
  | .ok p s =>
    match SkipLine p true s.m_nCurrentLine with
    | .error e => .throw e s
    | .ok (p, line) => .ok p { s with m_nCurrentLine := line }

/-- The loop `while (*p)` of `CAutoVersion::ParseControlFile`. -/
def CAutoVersion.ParseLoop : Nat → CAutoVersion → List Nat → Res CAutoVersion Unit
  | 0, s, _ => .throw .diverges s
  | fuel + 1, s, p =>
    if p.headD 0 ≠ 0 then
      match s.ParseLine p with
      | .throw e s => .throw e s
      | .ok p s => CAutoVersion.ParseLoop fuel s p
    else .ok () s

/-- Embedding of `CAutoVersion::ParseControlFile()`. -/
def CAutoVersion.ParseControlFile (s : CAutoVersion) (fs : FS) : Res CAutoVersion Unit :=
  match fs s.m_strControlFile with
  | none => .throw (.statFailed s.m_strControlFile) s
  | some content =>
    CAutoVersion.ParseLoop (content.length + 1) { s with m_pBuffer := content } content

/-- The target path `m_strBasePath + "\\" + name`. -/
def CAutoVersion.fname (s : CAutoVersion) (name : List Nat) : List Nat :=
  s.m_strBasePath ++ [92] ++ name

/-- The loop `for (auto it : replacements) buf = it.UpdateControlFile(buf, size, offset);`
of `CAutoVersion::UpdateControlFile`. -/
def UpdateControlFileAll : List CReplace → List Nat → Int → Except Err (List Nat × Int)
  | [], buf, offset => .ok (buf, offset)
  | r :: rs, buf, offset =>
    match r.UpdateControlFile buf offset with
    | .error e => .error e
    | .ok (buf, offset) => UpdateControlFileAll rs buf offset

/-- The vector `replacements` of `CAutoVersion::UpdateControlFile`: every directive of
every file record. -/
def collectReplacements (files : List (List Nat × CFileNode)) : List CReplace :=
  files.flatMap (fun kv => kv.2.m_listReplacements)

/-- The call of `std::sort` in `CAutoVersion::UpdateControlFile`: ascending
`m_nControlFilePos`. -/
def sortReplacements (rs : List CReplace) : List CReplace :=
  rs.insertionSort (fun a b => a.m_nControlFilePos ≤ b.m_nControlFilePos)

/-- The buffer work of `CAutoVersion::UpdateControlFile`: collect, sort, splice. -/
def rewriteControlBuffer (files : List (List Nat × CFileNode)) (buf : List Nat) :
    Except Err (List Nat) :=
  match UpdateControlFileAll (sortReplacements (collectReplacements files)) buf 0 with
  | .error e => .error e
  | .ok (buf, _) => .ok buf

/-- Embedding of `CAutoVersion::UpdateControlFile()`. -/
def CAutoVersion.UpdateControlFile (s : CAutoVersion) (fs : FS) :
    Res (CAutoVersion × FS) Unit :=
  match fs s.m_strControlFile with
  | none => .throw (.statFailed s.m_strControlFile) (s, fs)
  | some buf =>
    match rewriteControlBuffer s.m_mapFiles buf with
    | .error e => .throw e (s, fs)
    | .ok newbuf =>
      match Backup fs s.m_strControlFile with
      | .error e => .throw e (s, fs)
      | .ok fs' =>
        .ok () ({ s with m_bControlFileSaved := true }, fs'.write s.m_strControlFile newbuf)

/-- The first loop of `CAutoVersion::Replace`: `CheckReplacements` on every file
record, in the order of the list it is given (`CAutoVersion.Replace` passes the records
in insertion order, `CAutoVersion.ReplaceBy` in the order of its parameter).  Returns the
records as the loop leaves them, `has_replacements`, and the error when a check
throws. -/
def CheckAll (basePath : List Nat) (fs : FS) :
    List (List Nat × CFileNode) → Bool → List (List Nat × CFileNode) × Bool × Option Err
  | [], has => ([], has, none)
  | (name, n) :: rest, has =>
    match n.CheckReplacements fs (basePath ++ [92] ++ name) with
    | .throw e n' => ((name, n') :: rest, has, some e)
    | .ok b n' =>
      match CheckAll basePath fs rest (if b then true else has) with
      | (rest', has', e) => ((name, n') :: rest', has', e)

/-- The second loop of `CAutoVersion::Replace`: `DoReplacments` on every file record. -/
def DoAll (basePath : List Nat) :
    List (List Nat × CFileNode) → FS → List (List Nat × CFileNode) × FS × Option Err
  | [], fs => ([], fs, none)
  | (name, n) :: rest, fs =>
    match n.DoReplacments fs (basePath ++ [92] ++ name) with
    | .throw e (n', fs') => ((name, n') :: rest, fs', some e)
    | .ok _ (n', fs') =>
      match DoAll basePath rest fs' with
      | (rest', fs'', e) => ((name, n') :: rest', fs'', e)

/-- Embedding of `CAutoVersion::Replace()`; `key` is the character `_getch()` returns
when the user is asked. -/
def CAutoVersion.Replace (s : CAutoVersion) (fs : FS) (key : Nat) :
    Res (CAutoVersion × FS) Unit :=
  match s.ParseControlFile fs with
  | .throw e s => .throw e (s, fs)
  | .ok _ s =>
    match CheckAll s.m_strBasePath fs s.m_mapFiles false with
    | (files, _, some e) => .throw e ({ s with m_mapFiles := files }, fs)
    | (files, has_replacements, none) =>
      let s := { s with m_mapFiles := files }
      if has_replacements = true ∧ ¬ (s.m_bInteractive = true ∧ key = 110) then
        match DoAll s.m_strBasePath s.m_mapFiles fs with
        | (files, fs, some e) => .throw e ({ s with m_mapFiles := files }, fs)
        | (files, fs, none) => { s with m_mapFiles := files }.UpdateControlFile fs
      else .ok () (s, fs)

/-- The order in which a `for` over `m_mapFiles` visits the records.  The container is a
`std::unordered_map`, whose iteration order is left to the library: it is fixed by the
keys and the order of their insertion, never by the values.  `ord` maps the keys in
insertion order to the keys in iteration order; the records are then looked up by
key. -/
def arrange (ord : List (List Nat) → List (List Nat)) (files : List (List Nat × CFileNode)) :
    List (List Nat × CFileNode) :=
  (ord (files.map Prod.fst)).filterMap (fun k => (mapFind files k).map (fun n => (k, n)))

/-- Embedding of `CAutoVersion::Replace()` with the iteration order of `m_mapFiles` as
the parameter `ord`: the body of `CAutoVersion.Replace`, with the records the parser
inserted put in the order `ord` gives before the three walks over them. -/
def CAutoVersion.ReplaceBy (ord : List (List Nat) → List (List Nat)) (s : CAutoVersion)
    (fs : FS) (key : Nat) : Res (CAutoVersion × FS) Unit :=
  match s.ParseControlFile fs with
  | .throw e s => .throw e (s, fs)
  | .ok _ s =>
    let s := { s with m_mapFiles := arrange ord s.m_mapFiles }
    match CheckAll s.m_strBasePath fs s.m_mapFiles false with
    | (files, _, some e) => .throw e ({ s with m_mapFiles := files }, fs)
    | (files, has_replacements, none) =>
      let s := { s with m_mapFiles := files }
      if has_replacements = true ∧ ¬ (s.m_bInteractive = true ∧ key = 110) then
        match DoAll s.m_strBasePath s.m_mapFiles fs with
        | (files, fs, some e) => .throw e ({ s with m_mapFiles := files }, fs)
        | (files, fs, none) => { s with m_mapFiles := files }.UpdateControlFile fs
      else .ok () (s, fs)

/-- The loop of `CAutoVersion::RescueRollback`. -/
def RescueAll (basePath : List Nat) : List (List Nat × CFileNode) → FS → FS
  | [], fs => fs
  | (name, n) :: rest, fs => RescueAll basePath rest (n.Rollback fs (basePath ++ [92] ++ name))

/-- Embedding of `CAutoVersion::RescueRollback()`. -/
def CAutoVersion.RescueRollback (s : CAutoVersion) (fs : FS) : FS :=
  let fs := RescueAll s.m_strBasePath s.m_mapFiles fs
  if s.m_bControlFileSaved then AutoVersion.Rollback fs s.m_strControlFile else fs

/-- The loop of `CAutoVersion::Rollback`. -/
def RollbackAll (basePath : List Nat) : List (List Nat × CFileNode) → FS → FS
  | [], fs => fs
  | (name, _) :: rest, fs =>
    let fname := basePath ++ [92] ++ name
    RollbackAll basePath rest (if CanRollback fs fname then AutoVersion.Rollback fs fname else fs)

/-- Embedding of `CAutoVersion::Rollback()`. -/
def CAutoVersion.Rollback (s : CAutoVersion) (fs : FS) (key : Nat) :
    Res (CAutoVersion × FS) Unit :=
  if s.m_bInteractive = true ∧ key = 110 then .ok () (s, fs)
  else
    match s.ParseControlFile fs with
    | .throw e s => .throw e (s, fs)
    | .ok _ s =>
      let fs := RollbackAll s.m_strBasePath s.m_mapFiles fs
      let fs :=
        if CanRollback fs s.m_strControlFile then AutoVersion.Rollback fs s.m_strControlFile
        else fs
      .ok () (s, fs)

/-- The loop of `CAutoVersion::Clean`. -/
def CleanAll (basePath : List Nat) : List (List Nat × CFileNode) → FS → FS
  | [], fs => fs
  | (name, _) :: rest, fs =>
    let fname := basePath ++ [92] ++ name
    CleanAll basePath rest (if CanRollback fs fname then fs.remove (fname ++ avbak) else fs)

/-- Embedding of `CAutoVersion::Clean()`. -/
def CAutoVersion.Clean (s : CAutoVersion) (fs : FS) (key : Nat) :
    Res (CAutoVersion × FS) Unit :=
  if s.m_bInteractive = true ∧ key = 110 then .ok () (s, fs)
  else
    match s.ParseControlFile fs with
    | .throw e s => .throw e (s, fs)
    | .ok _ s =>
      let fs := CleanAll s.m_strBasePath s.m_mapFiles fs
      let fs :=
        if CanRollback fs s.m_strControlFile then fs.remove (s.m_strControlFile ++ avbak)
        else fs
      .ok () (s, fs)

/-- The object `main` builds before it dispatches: control-file name, the `-d`
defines, and whether `-y` was absent. -/
def CAutoVersion.init (controlFile : List Nat) (defines : List (List Nat))
    (interactive : Bool) : CAutoVersion :=
  { CAutoVersion.new with
    m_strControlFile := controlFile, m_setDefines := defines, m_bInteractive := interactive }

/-- The `REPLACE_OP` case of `main` up to the end of `Replace`, with both `catch`
clauses: when `Replace` throws, `RescueRollback` runs on the object and the files as the
throw left them.  Returns the error, if any, and the final file system. -/
def mainReplace (controlFile : List Nat) (defines : List (List Nat)) (interactive : Bool)
    (key : Nat) (fs : FS) : Option Err × FS :=
  match (CAutoVersion.init controlFile defines interactive).Replace fs key with
  | .ok _ (_, fs') => (none, fs')
  | .throw e (s, fs') => (some e, s.RescueRollback fs')

/-! ## Specification-level definitions

These follow the wording of the specification, not the source; the theorems below
compare them with the embedded functions. -/

/-- The single forward pass of the specification: where `what` matches at the cursor,
emit `with_` and continue after the matched region; otherwise copy the current byte. -/
def onePass (what with_ : List Nat) : List Nat → List Nat
  | [] => []
  | c :: cs =>
    if what ≠ [] ∧ what <+: c :: cs then
      with_ ++ onePass what with_ ((c :: cs).drop what.length)
    else c :: onePass what with_ cs
termination_by l => l.length
decreasing_by
  all_goals simp_wf
  · rename_i h
    have : 0 < what.length := List.length_pos.mpr h.1
    omega

/-- The number of times the single forward pass of the specification finds `what` at
the cursor. -/
def countPass (what : List Nat) : List Nat → Nat
  | [] => 0
  | c :: cs =>
    if what ≠ [] ∧ what <+: c :: cs then
      countPass what ((c :: cs).drop what.length) + 1
    else countPass what cs
termination_by l => l.length
decreasing_by
  all_goals simp_wf
  · rename_i h
    have : 0 < what.length := List.length_pos.mpr h.1
    omega

/-- Pieces joined with a separator between neighbours. -/
def joinSep (sep : List Nat) : List (List Nat) → List Nat
  | [] => []
  | [g] => g
  | g :: g2 :: gs => g ++ sep ++ joinSep sep (g2 :: gs)

/-- The list `gaps` cuts `buf` at the leftmost non-overlapping occurrences of `what`:
`buf` is the gaps joined by `what`, no occurrence of `what` starts inside a gap that is
followed by an occurrence, and `what` does not occur in the last gap. -/
def LeftmostSplit (what buf : List Nat) (gaps : List (List Nat)) : Prop :=
  gaps ≠ [] ∧ buf = joinSep what gaps ∧
  (∀ g ∈ gaps.dropLast, ¬ what <:+: g ++ what.dropLast) ∧
  (∀ g ∈ gaps.getLast?, ¬ what <:+: g)

/-- The control-file literal encoding of one byte: backslash and double quote get a
backslash in front. -/
def escapeByte (c : Nat) : List Nat :=
  if c = 92 then [92, 92] else if c = 34 then [92, 34] else [c]

/-- The control-file literal encoding `enc` of the specification. -/
def enc (s : List Nat) : List Nat := s.flatMap escapeByte

/-- The range a directive occupies in the control file and what the rewrite puts
there: recorded offset, length of the encoded `what`, encoded `with`. -/
def CReplace.edit (r : CReplace) : Nat × Nat × List Nat :=
  (r.m_nControlFilePos, (enc r.m_strWhat).length, enc r.m_strWith)

/-- The buffer `B` from index `cur` on, with each range `(offset, length)` of `edits`
(ascending, not overlapping) replaced by its new bytes and every byte outside the
ranges kept in place. -/
def spliceFrom (B : List Nat) : Nat → List (Nat × Nat × List Nat) → List Nat
  | cur, [] => B.drop cur
  | cur, (o, l, w) :: es => (B.drop cur).take (o - cur) ++ w ++ spliceFrom B (o + l) es

/-- The directives the control-file rewrite acts on. -/
def activeReplacements (rs : List CReplace) : List CReplace :=
  rs.filter (fun r => r.m_bDidReplace)

/-- The hypotheses of the offset-correctness property on a buffer `B` and a collection
of directives: among those with `didReplace`, the recorded offsets are distinct, each
range lies inside `B` and holds the encoded `what`, and the ranges do not overlap. -/
def RangesOk (B : List Nat) (rs : List CReplace) : Prop :=
  ((activeReplacements rs).map (fun r => r.m_nControlFilePos)).Nodup ∧
  (∀ r ∈ activeReplacements rs,
    r.m_nControlFilePos + (enc r.m_strWhat).length ≤ B.length ∧
    enc r.m_strWhat <+: B.drop r.m_nControlFilePos) ∧
  (activeReplacements rs).Pairwise (fun a b =>
    a.m_nControlFilePos + (enc a.m_strWhat).length ≤ b.m_nControlFilePos ∨
    b.m_nControlFilePos + (enc b.m_strWhat).length ≤ a.m_nControlFilePos)

/-- Sum of the length changes of the directives with `didReplace`. -/
def deltaSum (L : List CReplace) : Int :=
  ((activeReplacements L).map
    (fun r => ((enc r.m_strWith).length : Int) - ((enc r.m_strWhat).length : Int))).sum

/-- What `GetLiteral` accepts as a value: at least one and at most 255 bytes, none of
them NUL, line feed or carriage return. -/
def LitOk (s : List Nat) : Prop :=
  s ≠ [] ∧ s.length ≤ 255 ∧ ∀ c ∈ s, c ≠ 0 ∧ c ≠ 10 ∧ c ≠ 13

/-- A directive as the parser creates it: `what` and `with` are literal values and
both flags are unset. -/
def CReplace.Fresh (r : CReplace) : Prop :=
  LitOk r.m_strWhat ∧ LitOk r.m_strWith ∧ r.m_bMustReplace = false ∧ r.m_bDidReplace = false

/-- A file record as the parser creates it. -/
def CFileNode.Fresh (n : CFileNode) : Prop :=
  n.m_bMustReplace = false ∧ n.m_bDidReplace = false ∧ ∀ r ∈ n.m_listReplacements, r.Fresh

/-- The object as parsing leaves it: no control-file backup recorded, every constant
value and file name a literal value, every file record fresh, one record per name. -/
def CAutoVersion.Parsed (s : CAutoVersion) : Prop :=
  s.m_bControlFileSaved = false ∧
  (∀ kv ∈ s.m_mapConstantDefs, LitOk kv.2) ∧
  (∀ kv ∈ s.m_mapFiles, LitOk kv.1 ∧ kv.2.Fresh) ∧
  (s.m_mapFiles.map Prod.fst).Nodup

/-- A directive `b` of the second parse against the directive `a` of the first parse it
stems from: same kind, same `with`, and `what` now equal to `with`; flags unset. -/
def CReplace.Reparsed (a b : CReplace) : Prop :=
  b.m_enReplaceOp = a.m_enReplaceOp ∧ b.m_strWith = a.m_strWith ∧
  b.m_strWhat = a.m_strWith ∧ b.m_bMustReplace = false ∧ b.m_bDidReplace = false

/-- File records of the second parse against those of the first: the same names in the
same order, and directive by directive `CReplace.Reparsed`. -/
def filesReparsed (fa fb : List (List Nat × CFileNode)) : Prop :=
  List.Forall₂ (fun a b => b.1 = a.1 ∧ b.2.m_bMustReplace = false ∧
    b.2.m_bDidReplace = false ∧
    List.Forall₂ CReplace.Reparsed a.2.m_listReplacements b.2.m_listReplacements) fa fb

/-- The object of a second parse `t` against the object `s` of the first parse at the
same line: everything agrees except the buffer, the recorded offsets and the `what` of
the directives. -/
def CAutoVersion.Reparse (s t : CAutoVersion) : Prop :=
  t.m_nCurrentLine = s.m_nCurrentLine ∧ t.m_strBasePath = s.m_strBasePath ∧
  t.m_setDefines = s.m_setDefines ∧ t.m_mapConstantDefs = s.m_mapConstantDefs ∧
  t.m_listMessages = s.m_listMessages ∧
  t.m_listDelayedCommands = s.m_listDelayedCommands ∧
  filesReparsed s.m_mapFiles t.m_mapFiles

/-- A fresh directive as a successful confirmed run leaves it: both flags are set when
`what` differs from `with`, and the directive is untouched when they are equal. -/
def CReplace.applied (r : CReplace) : CReplace :=
  if r.m_strWhat = r.m_strWith then r
  else { r with m_bMustReplace := true, m_bDidReplace := true }

/-- Two continuations of a text that the scanner cannot tell apart: as C strings they
agree on the first five bytes, its longest look-ahead. -/
def Agree (r r2 : List Nat) : Prop := (r ++ [0]).take 5 = (r2 ++ [0]).take 5

/-- The members parsing never assigns. -/
def CAutoVersion.SameSetup (s t : CAutoVersion) : Prop :=
  t.m_bInteractive = s.m_bInteractive ∧ t.m_strControlFile = s.m_strControlFile ∧
  t.m_bControlFileSaved = s.m_bControlFileSaved ∧ t.m_setDefines = s.m_setDefines ∧
  t.m_pBuffer = s.m_pBuffer

/-- File system `fs'` is `fs` with exactly the files at the paths in `P` backed up and
possibly rewritten: each such file existed in `fs` without a backup next to it, and in
`fs'` its backup holds the content it had in `fs`; every path that is neither in `P` nor
the backup of a path in `P` is in `fs'` what it is in `fs`. -/
def Backed (fs fs' : FS) (P : List (List Nat)) : Prop :=
  (∀ p ∈ P, (fs p).isSome = true ∧ fs (p ++ avbak) = none ∧ fs' (p ++ avbak) = fs p ∧
    (fs' p).isSome = true) ∧
  (∀ q, q ∉ P → (∀ p ∈ P, q ≠ p ++ avbak) → fs' q = fs q)

/-- A name as `GetIdentifier` reads it: one to 255 bytes, none of them NUL, blank, tab,
line feed or carriage return. -/
def IsIdent (n : List Nat) : Prop :=
  n ≠ [] ∧ n.length ≤ 255 ∧ ∀ c ∈ n, c ≠ 0 ∧ c ≠ 32 ∧ c ≠ 9 ∧ c ≠ 10 ∧ c ≠ 13

/-- The cursor is where `GetIdentifier` stops: on a NUL (or the end), a blank, a tab, a
line feed or a carriage return. -/
def AtIdentEnd (r : List Nat) : Prop :=
  r.headD 0 = 0 ∨ r.headD 0 = 32 ∨ r.headD 0 = 9 ∨ r.headD 0 = 10 ∨ r.headD 0 = 13

/-- The command character of a directive line: `&` for a text directive, `$` for a
binary one. -/
def cmdChar : EReplaceOp → Nat
  | .enRoText => 38
  | .enRoBinary => 36

/-- The recorded offset of directive `r` of the record `name` is right for the
control-file buffer `B`: the offset is at least one and inside `B`; the byte before it
is a double quote; that quote opens the second literal of a directive line, that is,
somewhere in `B` stands the command character of `r`, `GetLiteral` reads the file name
`name` after it, and after the blanks that follow comes the quote; and `GetLiteral`
started on the quote returns the `what` of `r` and reports the recorded offset. -/
def RecordedAt (B name : List Nat) (r : CReplace) : Prop :=
  1 ≤ r.m_nControlFilePos ∧ r.m_nControlFilePos ≤ B.length ∧
  (B.drop (r.m_nControlFilePos - 1)).headD 0 = 34 ∧
  (∃ pre q q1 off1 l1, B = pre ++ cmdChar r.m_enReplaceOp :: q ∧
    GetLiteral B.length q l1 = .ok (name, off1, q1) ∧
    SkipWhiteSpaces q1 = B.drop (r.m_nControlFilePos - 1)) ∧
  ∀ line, ∃ rest, GetLiteral B.length (B.drop (r.m_nControlFilePos - 1)) line
    = .ok (r.m_strWhat, r.m_nControlFilePos, rest)

/-! ## Concrete inputs of the scenarios -/

/-- The right-hand side of a constant definition line: a quoted literal with value `v`,
or the name `m` of a constant. -/
inductive ConstRhs where
  | lit (v : List Nat)
  | sym (m : List Nat)
  deriving DecidableEq, Repr

/-- The text of a right-hand side: the encoded value between double quotes, or the
name. -/
def ConstRhs.text : ConstRhs → List Nat
  | .lit v => 34 :: enc v ++ [34]
  | .sym m => m

/-- A well-formed right-hand side: a literal value, or a name that does not start with a
double quote. -/
def ConstRhs.Ok : ConstRhs → Prop
  | .lit v => LitOk v
  | .sym m => IsIdent m ∧ m.headD 0 ≠ 34

/-- What a right-hand side stands for in a table: the value itself, or the value the
table holds for the name. -/
def ConstRhs.resolve (table : List (List Nat × List Nat)) : ConstRhs → Option (List Nat)
  | .lit v => some v
  | .sym m => mapFind table m

/-- The text of the constant definition line of the name `l.1` with right-hand side
`l.2`: the @ sign, the name, a space, the right-hand side, a line feed. -/
def constLineText (l : List Nat × ConstRhs) : List Nat :=
  64 :: l.1 ++ 32 :: l.2.text ++ [10]

/-- A well-formed constant definition line. -/
def ConstLineOk (l : List Nat × ConstRhs) : Prop := IsIdent l.1 ∧ l.2.Ok

/-- The constant table of the specification.  The lines are taken in order, the first
one being line `line` and the table before it `table`.  A line whose right-hand side
names a constant that is not in the table is the parse error `symbol undefined`; a line
whose name is already in the table is the parse error `duplicate symbol`; both leave the
table as it is and end the parse.  Any other line adds its name with the value of its
right-hand side.  Returns the error, if any, and the table. -/
def constTable (table : List (List Nat × List Nat)) (line : Nat) :
    List (List Nat × ConstRhs) → Option Err × List (List Nat × List Nat)
  | [] => (none, table)
  | (n, rhs) :: ls =>
    match rhs.resolve table with
    | none => (some (.parse (.symbolUndefined rhs.text) line), table)
    | some v =>
      if (mapFind table n).isSome then (some (.parse (.duplicateSymbol n) line), table)
      else constTable (table ++ [(n, v)]) (line + 1) ls

/-- The text of a directive line: the command character, the file name and `what` as
quoted literals, the @ sign with the name of a constant, a line feed; single spaces in
between. -/
def directiveText (op : EReplaceOp) (file what const : List Nat) : List Nat :=
  cmdChar op :: 34 :: enc file ++ 34 :: 32 :: 34 :: enc what ++ 34 :: 32 :: 64 :: const ++ [10]

/-! ### Lines and conditional blocks -/

/-- The body of a line: no NUL, line feed or carriage return. -/
def IsBody (b : List Nat) : Prop := ∀ c ∈ b, c ≠ 0 ∧ c ≠ 10 ∧ c ≠ 13

/-- A line end: line feed, or carriage return and line feed. -/
def IsEol (e : List Nat) : Prop := e = [10] ∨ e = [13, 10]

/-- A line, given by its body and its line end. -/
def IsLine (l : List Nat × List Nat) : Prop := IsBody l.1 ∧ IsEol l.2

/-- The text of a line. -/
def lineText (l : List Nat × List Nat) : List Nat := l.1 ++ l.2

/-- The text of a sequence of lines. -/
def linesText (ls : List (List Nat × List Nat)) : List Nat := ls.flatMap lineText

/-- A line that does not begin, after leading blanks, with the percent sign. -/
def IsPlain (l : List Nat × List Nat) : Prop := (SkipWhiteSpaces l.1).headD 0 ≠ 37

/-- A line that begins, after leading blanks, with `%if`. -/
def IsOpen (l : List Nat × List Nat) : Prop := [37, 105, 102] <+: SkipWhiteSpaces l.1

/-- A line that begins, after leading blanks, with `%else`. -/
def IsElse (l : List Nat × List Nat) : Prop :=
  [37, 101, 108, 115, 101] <+: SkipWhiteSpaces l.1

/-- A line that begins, after leading blanks, with `%end`. -/
def IsClose (l : List Nat × List Nat) : Prop := [37, 101, 110, 100] <+: SkipWhiteSpaces l.1

/-- A line that begins, after leading blanks, with the percent sign but with none of
`%if`, `%else`, `%end`. -/
def IsOther (l : List Nat × List Nat) : Prop :=
  (SkipWhiteSpaces l.1).headD 0 = 37 ∧ ¬ IsOpen l ∧ ¬ IsElse l ∧ ¬ IsClose l

/-- A well-nested sequence of lines: lines that are no `%if`, `%else` or `%end` line,
and blocks `%if` ... `%end` or `%if` ... `%else` ... `%end` whose parts are well-nested
sequences. -/
inductive Nested : List (List Nat × List Nat) → Prop where
  | nil : Nested []
  | line (l : List Nat × List Nat) (R : List (List Nat × List Nat)) :
      IsPlain l ∨ IsOther l → Nested R → Nested (l :: R)
  | block (o c : List Nat × List Nat) (R1 R : List (List Nat × List Nat)) :
      IsOpen o → Nested R1 → IsClose c → Nested R → Nested (o :: (R1 ++ c :: R))
  | blockElse (o m c : List Nat × List Nat) (R1 R2 R : List (List Nat × List Nat)) :
      IsOpen o → Nested R1 → IsElse m → Nested R2 → IsClose c → Nested R →
      Nested (o :: (R1 ++ m :: (R2 ++ c :: R)))

/-- A directive without its recorded offset. -/
def CReplace.noPos (r : CReplace) : CReplace := { r with m_nControlFilePos := 0 }

/-- File records without the recorded offsets of their directives. -/
def eraseOffsets (files : List (List Nat × CFileNode)) : List (List Nat × CFileNode) :=
  files.map (fun kv =>
    (kv.1, { kv.2 with m_listReplacements := kv.2.m_listReplacements.map CReplace.noPos }))

/-- The same parsed program: the same constants, file records up to recorded offsets,
messages, deferred commands and base path. -/
def SameProgram (s t : CAutoVersion) : Prop :=
  t.m_mapConstantDefs = s.m_mapConstantDefs ∧
  eraseOffsets t.m_mapFiles = eraseOffsets s.m_mapFiles ∧
  t.m_listMessages = s.m_listMessages ∧
  t.m_listDelayedCommands = s.m_listDelayedCommands ∧
  t.m_strBasePath = s.m_strBasePath

/-- The text of the line `%if X` with line end `e`. -/
def ifLine (X e : List Nat) : List Nat := 37 :: 105 :: 102 :: 32 :: X ++ e

/-- The text of the line `%else` with line end `e`. -/
def elseLine (e : List Nat) : List Nat := 37 :: 101 :: 108 :: 115 :: 101 :: e

/-- The text of the line `%end` with line end `e`. -/
def endLine (e : List Nat) : List Nat := 37 :: 101 :: 110 :: 100 :: e

/-- A file system holding exactly the listed files. -/
def fsOf (files : List (List Nat × List Nat)) : FS := fun q => mapFind files q

/-- The control file of the scenario: `@V "2.0"`, new line, `&"app.h" "1.9" @V`, new
line. -/
def ctlScenario : List Nat := bytes "@V \"2.0\"\n&\"app.h\" \"1.9\" @V\n"

/-- The scenario: the control file under the name `ctl`, and `app.h` (the base path is
empty, so its path is a backslash followed by the name) holding `#define VER "1.9"`. -/
def fsScenario : FS :=
  fsOf [(bytes "ctl", ctlScenario), (bytes "\\app.h", bytes "#define VER \"1.9\"")]

/-- The scenario with `app.h` holding `"3.0"` instead of `"1.9"`. -/
def fsMismatch : FS :=
  fsOf [(bytes "ctl", ctlScenario), (bytes "\\app.h", bytes "#define VER \"3.0\"")]

/-- The mismatch scenario with a backup of `app.h` left over from an earlier run. -/
def fsStale : FS :=
  fsOf [(bytes "ctl", ctlScenario), (bytes "\\app.h", bytes "#define VER \"3.0\""),
        (bytes "\\app.h.avbak", bytes "#define VER \"1.8\"")]

/-- A control file with nothing to replace: `@V "2.0"`, new line, `&"app.h" "2.0" @V`,
new line. -/
def ctlIdle : List Nat := bytes "@V \"2.0\"\n&\"app.h\" \"2.0\" @V\n"

/-- The control file `ctlIdle` under the name `ctl`, `app.h` holding `#define VER "2.0"`,
and a backup of the control file left over from an earlier run. -/
def fsStaleIdle : FS :=
  fsOf [(bytes "ctl", ctlIdle), (bytes "\\app.h", bytes "#define VER \"2.0\""),
        (bytes "ctl.avbak", bytes "@V \"1.9\"\n")]

/-- A control file with the targets `k.avbak` and `g.avbak`, in this order, where nothing
changes in the first and `1` becomes `2` in the second: `@Z "a\"b"`,
`&"k.avbak" "a\"b" @Z`, `@V "2"`, `&"g.avbak" "1" @V`, each followed by a new line. -/
def ctlBakTarget : List Nat :=
  bytes "@Z \"a\\\"b\"\n&\"k.avbak\" \"a\\\"b\" @Z\n@V \"2\"\n&\"g.avbak\" \"1\" @V\n"

/-- The control file `ctlBakTarget` stored as `\k`, so that its first target is named
like its own backup: `\k.avbak` holds the three bytes `a"b`, `\g.avbak` holds `1`. -/
def fsBakTarget : FS :=
  fsOf [(bytes "\\k", ctlBakTarget), (bytes "\\k.avbak", bytes "a\"b"),
        (bytes "\\g.avbak", bytes "1")]

/-- A control file with the same targets in the same order, `k.avbak` and `g.avbak`,
where `1` becomes `2` in the first and nothing changes in the second: `@V "2"`,
`&"k.avbak" "1" @V`, `@Z "a\"b"`, `&"g.avbak" "a\"b" @Z`, each followed by a new line. -/
def ctlBakTargetB : List Nat :=
  bytes "@V \"2\"\n&\"k.avbak\" \"1\" @V\n@Z \"a\\\"b\"\n&\"g.avbak\" \"a\\\"b\" @Z\n"

/-- The control file `ctlBakTargetB` stored as `\g`, so that its second target is named
like its own backup: `\k.avbak` holds `1`, `\g.avbak` holds the three bytes `a"b`. -/
def fsBakTargetB : FS :=
  fsOf [(bytes "\\g", ctlBakTargetB), (bytes "\\k.avbak", bytes "1"),
        (bytes "\\g.avbak", bytes "a\"b")]

/-- A control file with carriage return, line feed line ends, an empty line, and two
directives, the first indented and with a tab between its literals, the second with an
escaped double quote in `what`: `@V "2.0"`, empty line, `  $"a.bin"` tab `"1.9" @V`,
`&"b" "x\"y" @V`. -/
def ctlOffsets : List Nat :=
  bytes "@V \"2.0\"\r\n\r\n  $\"a.bin\"\t\"1.9\" @V\r\n&\"b\" \"x\\\"y\" @V\r\n"

/-- The file system holding only `ctlOffsets`, as `ctl`. -/
def fsOffsets : FS := fsOf [(bytes "ctl", ctlOffsets)]

/-- The control file `@V "1.2.3"` followed by the line `rest`. -/
def ctlAfterV (rest : List Nat) : List Nat := bytes "@V \"1.2.3\"\n" ++ rest

/-- The file system holding only the control file `@V "1.2.3"` followed by `rest`, as
`ctl`. -/
def fsAfterV (rest : List Nat) : FS := fsOf [(bytes "ctl", ctlAfterV rest)]

/-- A control file with two constants, one of them holding a double quote, and one
directive for each of two files: `@V "2.0"`, `@Q "a\"b"`, `&"app.h" "1.9" @V`,
`&"b.txt" "q" @Q`. -/
def ctlRound : List Nat :=
  bytes "@V \"2.0\"\n@Q \"a\\\"b\"\n&\"app.h\" \"1.9\" @V\n&\"b.txt\" \"q\" @Q\n"

/-- The files for `ctlRound`: `app.h` holds `#define VER "1.9"` and `b.txt` holds
`q q`. -/
def fsRound : FS :=
  fsOf [(bytes "ctl", ctlRound), (bytes "\\app.h", bytes "#define VER \"1.9\""),
        (bytes "\\b.txt", bytes "q q")]

/-- A control file with two directives for the same file, the second of which replaces
the text the first one writes: `@X "x"`, `@Y "y"`, `&"f" "a" @X`, `&"f" "x" @Y`. -/
def ctlInteract : List Nat :=
  bytes "@X \"x\"\n@Y \"y\"\n&\"f\" \"a\" @X\n&\"f\" \"x\" @Y\n"

/-- The files for `ctlInteract`: the target `f` holds `ax`. -/
def fsInteract : FS := fsOf [(bytes "ctl", ctlInteract), (bytes "\\f", bytes "ax")]

/-- A control file made of one constant definition and one text directive that names
the control file itself as target (the control file is stored as `c` in the root
directory): `@aabababab "b"`, new line, `&"c" "ab" @aabababab`, new line. -/
def ctlAlias : List Nat := bytes "@aabababab \"b\"\n&\"c\" \"ab\" @aabababab\n"

/-- The file system holding only `ctlAlias`, under the path its directive names. -/
def fsAlias : FS := fsOf [(bytes "\\c", ctlAlias)]

/-- A control file whose constant holds a double quote: `@V "a\"b"`, new line,
`&"f" "x" @V`, new line. -/
def ctlQuote : List Nat := bytes "@V \"a\\\"b\"\n&\"f\" \"x\" @V\n"

/-- The control file `ctlQuote` under the name `ctl` and its target, which holds `x`. -/
def fsQuote : FS := fsOf [(bytes "ctl", ctlQuote), (bytes "\\f", bytes "x")]

/-- A control file whose `what` literal holds a backslash that escapes nothing:
`@V "x"`, new line, `&"f" "a\b" @V`, new line. -/
def ctlLoneBackslash : List Nat :=
  [64, 86, 32, 34, 120, 34, 10, 38, 34, 102, 34, 32, 34, 97, 92, 98, 34, 32, 64, 86, 10]

/-- The control file `ctlLoneBackslash` under the name `ctl` and its target file,
which holds the bytes `a\b`. -/
def fsLoneBackslash : FS := fun q =>
  if q = bytes "ctl" then some ctlLoneBackslash
  else if q = [92, 102] then some [97, 92, 98]
  else none

/-- A control-file buffer with two literals: `x "1.9" y "a\"b" z`. -/
def exBuffer : List Nat := bytes "x \"1.9\" y \"a\\\"b\" z"

/-- Two replaced directives for `exBuffer`, the later literal first: the literal at
offset 11 shrinks to `q`, the literal at offset 3 grows to `10.0.1`; a third directive
was not replaced. -/
def exFiles : List (List Nat × CFileNode) :=
  [(bytes "b.h",
    { m_listReplacements :=
        [{ CReplace.new .enRoText (bytes "a\"b") (bytes "q") 11 with
            m_bMustReplace := true, m_bDidReplace := true },
         CReplace.new .enRoText (bytes "zz") (bytes "zz") 40],
      m_bMustReplace := true, m_bDidReplace := true }),
   (bytes "a.h",
    { m_listReplacements :=
        [{ CReplace.new .enRoText (bytes "1.9") (bytes "10.0.1") 3 with
            m_bMustReplace := true, m_bDidReplace := true }],
      m_bMustReplace := true, m_bDidReplace := true })]

/-- The directive `"a"` to `"aa"`, flagged by the verify phase. -/
def dirA : CReplace := { CReplace.new .enRoText [97] [97, 97] 0 with m_bMustReplace := true }

/-- The directive of the scenario: `"1.9"` to `"2.0"`. -/
def dirV : CReplace := CReplace.new .enRoText [49, 46, 57] [50, 46, 48] 19

/-- Two constant definition lines: `@V "1.9"` and `@W V`. -/
def exConstLines : List (List Nat × ConstRhs) :=
  [(bytes "V", .lit (bytes "1.9")), (bytes "W", .sym (bytes "V"))]

/-- A skipped region with an inner block: a directive line, `%if B`, a constant line,
`%else`, a `%shell` line, `%end`, and a message line; line ends are line feeds except
for one carriage return, line feed. -/
def exRegion : List (List Nat × List Nat) :=
  [(bytes "&\"f\" \"1\" @V", [10]), (bytes "  %if B", [13, 10]), (bytes "@Q \"x\"", [10]),
   (bytes "%else", [10]), (bytes "%shell \"run\"", [10]), (bytes "%end", [10]),
   (bytes "!note", [10])]

/-- Plain lines defining a constant and a directive: `@V "2.0"`, `&"app.h" "1.9" @V`. -/
def exLinesA : List (List Nat × List Nat) :=
  [(bytes "@V \"2.0\"", [10]), (bytes "&\"app.h\" \"1.9\" @V", [13, 10])]

/-- Plain lines with a message and a constant: `!hello`, `@W "3"`. -/
def exLinesB : List (List Nat × List Nat) :=
  [(bytes "!hello", [10]), (bytes "@W \"3\"", [10])]

/-! ## Scanner vocabulary -/

/-- Blanks: spaces and tabs only. -/
def IsBlanks (w : List Nat) : Prop := ∀ c ∈ w, c = 32 ∨ c = 9

/-- A run of bytes as `GetIdentifier` copies them: none is a NUL, a space, a tab, a line
feed or a carriage return. -/
def IsRun (n : List Nat) : Prop := ∀ c ∈ n, c ≠ 0 ∧ c ≠ 32 ∧ c ≠ 9 ∧ c ≠ 10 ∧ c ≠ 13

/-- The strict end-of-line rule finds a byte to reject in the bytes `b` of the line from
the cursor on: some byte other than space and tab occurs that is not in a comment, that
is, it is not a `#` and no `#` stands before it. -/
def Offends (b : List Nat) : Prop :=
  ∃ pre c post, b = pre ++ c :: post ∧ c ≠ 32 ∧ c ≠ 9 ∧ c ≠ 35 ∧ 35 ∉ pre

/-- A blank line or a comment line: after its leading blanks the line is empty or begins
with `#`. -/
def IsSkipped (l : List Nat × List Nat) : Prop :=
  SkipWhiteSpaces l.1 = [] ∨ (SkipWhiteSpaces l.1).headD 0 = 35

/-- The keywords `ParseCommand` knows: `Basepath`, `if`, `else`, `end`, `shell`. -/
def keywords : List (List Nat) :=
  [bytes "Basepath", bytes "if", bytes "else", bytes "end", bytes "shell"]

/-- Two lines to skip: an empty line, and an indented comment line that ends with
carriage return and line feed. -/
def exSkipped : List (List Nat × List Nat) := [([], [10]), (bytes "  # note", [13, 10])]

/-- An error other than the parse error `missing %end token for if-token`. -/
def Err.NotMissingEnd (e : Err) : Prop := ∀ l, e ≠ .parse .missingEnd l

/-! ## Directives of one file record -/

/-- The apply phase of the specification for one file record, on the bytes `buf` of the
file: the directives are taken in the order of the record; a directive flagged
`mustReplace` runs its single forward pass on the output of the directives before it,
any other directive leaves the bytes as they are. -/
def applyInOrder (rs : List CReplace) (buf : List Nat) : List Nat :=
  rs.foldl
    (fun b r => if r.m_bMustReplace = true then onePass r.m_strWhat r.m_strWith b else b) buf

/-- Two directives that cannot act on each other's text: no byte of the `what` of one
occurs in the `what` or in the `with` of the other. -/
def CReplace.Apart (a b : CReplace) : Prop :=
  (∀ c ∈ a.m_strWhat, c ∉ b.m_strWhat ∧ c ∉ b.m_strWith) ∧
  (∀ c ∈ b.m_strWhat, c ∉ a.m_strWhat ∧ c ∉ a.m_strWith)

/-- The text directive `"a"` to `"x"` as the parser creates it. -/
def exDirAX : CReplace := CReplace.new .enRoText (bytes "a") (bytes "x") 0

/-- The text directive `"b"` to `"yy"`, flagged by the verify phase. -/
def exDirBY : CReplace :=
  { CReplace.new .enRoText (bytes "b") (bytes "yy") 0 with m_bMustReplace := true }

/-- The text directive `"a"` to `"x"`, flagged by the verify phase. -/
def exDirAXm : CReplace := { exDirAX with m_bMustReplace := true }

/-- A file record with the directives `rs`, flagged by the verify phase. -/
def exRecord (rs : List CReplace) : CFileNode :=
  { CFileNode.new with m_listReplacements := rs, m_bMustReplace := true }

/-- A file system with the single file `f`, which holds `abba`. -/
def fsAbba : FS := fsOf [(bytes "f", bytes "abba")]

/-! # Theorems -/

/-! ## The C library model -/

theorem strncmp_self_append (b a : List Nat) : strncmp (b ++ a) b b.length = some true := by
  induction b with
  | nil => simp [strncmp]
  | cons y b ih =>
    simp only [List.cons_append, List.length_cons, strncmp, List.headD_cons, ne_eq,
      not_true_eq_false, if_false, List.tail_cons]
    split
    · rfl
    · exact ih

theorem strncmp_noNul (b : List Nat) (hb : NoNul b) (a : List Nat) :
    strncmp a b b.length = some true ↔ b <+: a := by
  induction b generalizing a with
  | nil => simp [strncmp]
  | cons y b ih =>
    have hy : y ≠ 0 := hb y (List.mem_cons_self _ _)
    have hb' : NoNul b := fun c hc => hb c (List.mem_cons_of_mem _ hc)
    cases a with
    | nil => simp [strncmp]
    | cons x a =>
      simp only [List.length_cons, strncmp, List.headD_cons, ne_eq, List.tail_cons]
      by_cases hxy : x = y
      · subst hxy
        simp only [not_true_eq_false, if_false, hy]
        rw [ih hb']
        simp [List.cons_prefix_cons]
      · simp only [hxy, not_false_eq_true, if_true, List.cons_prefix_cons]
        constructor
        · intro h; cases h
        · rintro ⟨h, _⟩; exact absurd h.symm hxy

/-! ## CReplace::CheckReplace -/

theorem not_infix_of_length_lt {what l : List Nat} (h : l.length < what.length) :
    ¬ what <:+: l := fun hi => by
  have := hi.length_le
  omega

theorem CheckReplaceLoop_spec (r : CReplace) (file_name buf : List Nat)
    (hnul : NoNul r.m_strWhat) (fuel pos : Nat) (hpos : pos ≤ buf.length)
    (hfuel : buf.length + 1 ≤ fuel + pos) :
    r.CheckReplaceLoop file_name buf fuel pos =
      if r.m_strWhat <:+: buf.drop pos then
        (if r.m_strWhat = r.m_strWith then .ok (false, r)
         else .ok (true, { r with m_bMustReplace := true }))
      else .error (.notFound file_name r.m_strWhat) := by
  induction fuel generalizing pos with
  | zero => omega
  | succ fuel ih =>
    unfold CReplace.CheckReplaceLoop
    by_cases hlen : pos + r.m_strWhat.length ≤ buf.length
    · rw [if_pos hlen]
      by_cases hm : strncmp (buf.drop pos) r.m_strWhat r.m_strWhat.length = some true
      · rw [if_pos hm]
        have hp : r.m_strWhat <+: buf.drop pos := (strncmp_noNul _ hnul _).mp hm
        rw [if_pos hp.isInfix]
      · rw [if_neg hm]
        have hp : ¬ r.m_strWhat <+: buf.drop pos := fun h => hm ((strncmp_noNul _ hnul _).mpr h)
        have hlt : pos < buf.length := by
          rcases Nat.lt_or_ge pos buf.length with h | h
          · exact h
          · exfalso
            apply hp
            have : r.m_strWhat = [] := by
              apply List.eq_nil_of_length_eq_zero; omega
            rw [this]; exact List.nil_prefix
        rw [ih (pos + 1) hlt (by omega)]
        have hd : buf.drop pos = buf[pos] :: buf.drop (pos + 1) := List.drop_eq_getElem_cons hlt
        have : r.m_strWhat <:+: buf.drop pos ↔ r.m_strWhat <:+: buf.drop (pos + 1) := by
          rw [hd, List.infix_cons_iff, ← hd]
          constructor
          · rintro (h | h)
            · exact absurd h hp
            · exact h
          · exact Or.inr
        simp only [this]
    · rw [if_neg hlen]
      have : ¬ r.m_strWhat <:+: buf.drop pos := by
        apply not_infix_of_length_lt
        rw [List.length_drop]; omega
      rw [if_neg this]

theorem CheckReplace_spec (r : CReplace) (file_name buf : List Nat)
    (hnul : NoNul r.m_strWhat) :
    r.CheckReplace file_name buf =
      if r.m_strWhat <:+: buf then
        (if r.m_strWhat = r.m_strWith then .ok (false, r)
         else .ok (true, { r with m_bMustReplace := true }))
      else .error (.notFound file_name r.m_strWhat) := by
  have := CheckReplaceLoop_spec r file_name buf hnul (buf.length + 1) 0 (Nat.zero_le _) (by omega)
  simpa [CReplace.CheckReplace] using this



/-! ## The forward pass of the specification -/

theorem onePass_nil (what w : List Nat) : onePass what w [] = [] := by
  rw [onePass]

theorem onePass_append (what w rest : List Nat) (hne : what ≠ []) :
    onePass what w (what ++ rest) = w ++ onePass what w rest := by
  cases hw : what ++ rest with
  | nil => simp at hw; exact absurd hw.1 hne
  | cons c cs =>
    rw [onePass, if_pos ⟨hne, by rw [← hw]; exact List.prefix_append _ _⟩, ← hw]
    simp

theorem onePass_cons (what w : List Nat) (c : Nat) (cs : List Nat)
    (h : ¬ what <+: c :: cs) : onePass what w (c :: cs) = c :: onePass what w cs := by
  rw [onePass, if_neg (fun hh => h hh.2)]

theorem countPass_nil (what : List Nat) : countPass what [] = 0 := by
  rw [countPass]

theorem countPass_append (what rest : List Nat) (hne : what ≠ []) :
    countPass what (what ++ rest) = countPass what rest + 1 := by
  cases hw : what ++ rest with
  | nil => simp at hw; exact absurd hw.1 hne
  | cons c cs =>
    rw [countPass, if_pos ⟨hne, by rw [← hw]; exact List.prefix_append _ _⟩, ← hw]
    simp

theorem countPass_cons (what : List Nat) (c : Nat) (cs : List Nat)
    (h : ¬ what <+: c :: cs) : countPass what (c :: cs) = countPass what cs := by
  rw [countPass, if_neg (fun hh => h hh.2)]

theorem onePass_noOcc (what w g : List Nat) (h : ¬ what <:+: g) : onePass what w g = g := by
  induction g with
  | nil => exact onePass_nil _ _
  | cons c cs ih =>
    rw [List.infix_cons_iff, not_or] at h
    rw [onePass_cons _ _ _ _ h.1, ih h.2]

theorem countPass_noOcc (what g : List Nat) (h : ¬ what <:+: g) : countPass what g = 0 := by
  induction g with
  | nil => exact countPass_nil _
  | cons c cs ih =>
    rw [List.infix_cons_iff, not_or] at h
    rw [countPass_cons _ _ _ h.1, ih h.2]

/-- A prefix match inside `g ++ what ++ R` that starts in the first byte lies inside
`g ++ what.dropLast` as soon as `g` is not empty. -/
theorem prefix_gap (what g R : List Nat) (c : Nat) (hne : what ≠ [])
    (h : what <+: c :: g ++ what ++ R) : what <+: c :: g ++ what.dropLast := by
  have h1 : (c :: g ++ what.dropLast) <+: c :: g ++ what ++ R := by
    conv_rhs => rw [← List.dropLast_append_getLast hne]
    simp only [List.cons_append, List.append_assoc]
    rw [List.cons_prefix_cons]
    exact ⟨rfl, (List.prefix_append_right_inj _).mpr (List.prefix_append _ _)⟩
  refine List.prefix_of_prefix_length_le h h1 ?_
  simp only [List.cons_append, List.length_cons, List.length_append, List.length_dropLast]
  have : 0 < what.length := List.length_pos.mpr hne
  omega

theorem onePass_gap (what w g R : List Nat) (hne : what ≠ [])
    (h : ¬ what <:+: g ++ what.dropLast) :
    onePass what w (g ++ what ++ R) = g ++ w ++ onePass what w R := by
  induction g with
  | nil => simpa using onePass_append what w R hne
  | cons c g ih =>
    rw [List.cons_append, List.infix_cons_iff, not_or] at h
    have hp : ¬ what <+: c :: (g ++ what ++ R) := fun hh =>
      h.1 (by simpa using prefix_gap what g R c hne (by simpa using hh))
    simp only [List.cons_append]
    rw [onePass_cons _ _ _ _ hp, ih h.2]

theorem countPass_gap (what g R : List Nat) (hne : what ≠ [])
    (h : ¬ what <:+: g ++ what.dropLast) :
    countPass what (g ++ what ++ R) = countPass what R + 1 := by
  induction g with
  | nil => simpa using countPass_append what R hne
  | cons c g ih =>
    rw [List.cons_append, List.infix_cons_iff, not_or] at h
    have hp : ¬ what <+: c :: (g ++ what ++ R) := fun hh =>
      h.1 (by simpa using prefix_gap what g R c hne (by simpa using hh))
    simp only [List.cons_append]
    rw [countPass_cons _ _ _ hp, ih h.2]

theorem LeftmostSplit_tail {what buf g g2 : List Nat} {gs : List (List Nat)}
    (h : LeftmostSplit what buf (g :: g2 :: gs)) :
    LeftmostSplit what (joinSep what (g2 :: gs)) (g2 :: gs) ∧
      buf = g ++ what ++ joinSep what (g2 :: gs) ∧ ¬ what <:+: g ++ what.dropLast := by
  obtain ⟨_, hb, hd, hl⟩ := h
  refine ⟨⟨by simp, rfl, ?_, ?_⟩, ?_, ?_⟩
  · intro x hx
    apply hd
    simp only [List.dropLast_cons₂] at hx ⊢
    exact List.mem_cons_of_mem _ hx
  · intro x hx
    apply hl
    simpa [List.getLast?_cons_cons] using hx
  · rw [hb, joinSep]
  · apply hd
    simp [List.dropLast_cons₂]

/-- A leftmost split determines the output of the forward pass and the number of
matches. -/
theorem onePass_split (what w : List Nat) (hne : what ≠ []) (gaps : List (List Nat)) :
    ∀ buf, LeftmostSplit what buf gaps →
      onePass what w buf = joinSep w gaps ∧ countPass what buf + 1 = gaps.length := by
  induction gaps with
  | nil => intro buf h; exact absurd rfl h.1
  | cons g gs ih =>
    intro buf h
    cases gs with
    | nil =>
      obtain ⟨_, hb, _, hl⟩ := h
      have hg : ¬ what <:+: g := hl g (by simp)
      simp only [joinSep] at hb
      subst hb
      simp [joinSep, onePass_noOcc _ _ _ hg, countPass_noOcc _ _ hg]
    | cons g2 gs =>
      obtain ⟨ht, hb, hg⟩ := LeftmostSplit_tail h
      obtain ⟨i1, i2⟩ := ih _ ht
      subst hb
      rw [onePass_gap _ _ _ _ hne hg, countPass_gap _ _ _ hne hg, i1, joinSep]
      refine ⟨rfl, ?_⟩
      simp only [List.length_cons] at i2 ⊢
      omega

theorem LeftmostSplit_cons {what cs : List Nat} {c : Nat} {g : List Nat}
    {gs : List (List Nat)} (hne : what ≠ []) (hp : ¬ what <+: c :: cs)
    (h : LeftmostSplit what cs (g :: gs)) : LeftmostSplit what (c :: cs) ((c :: g) :: gs) := by
  cases gs with
  | nil =>
    obtain ⟨_, hb, _, hl⟩ := h
    simp only [joinSep] at hb
    subst hb
    refine ⟨by simp, by simp [joinSep], by simp, ?_⟩
    intro x hx
    simp at hx
    subst hx
    rw [List.infix_cons_iff, not_or]
    exact ⟨hp, hl _ (by simp)⟩
  | cons g2 gs =>
    obtain ⟨ht, hb, hg⟩ := LeftmostSplit_tail h
    obtain ⟨_, _, hd, hl⟩ := h
    refine ⟨by simp, by rw [hb]; simp [joinSep], ?_, ?_⟩
    · intro x hx
      simp only [List.dropLast_cons₂, List.mem_cons] at hx
      rcases hx with hx | hx
      · subst hx
        rw [List.cons_append, List.infix_cons_iff, not_or]
        refine ⟨fun hh => hp ?_, hg⟩
        rw [hb]
        have h1 : (c :: (g ++ what.dropLast)) <+: c :: (g ++ what ++ joinSep what (g2 :: gs)) := by
          conv_rhs => rw [← List.dropLast_append_getLast hne]
          simp only [List.append_assoc]
          rw [List.cons_prefix_cons]
          exact ⟨rfl, (List.prefix_append_right_inj _).mpr (List.prefix_append _ _)⟩
        exact hh.trans h1
      · apply hd
        simp only [List.dropLast_cons₂, List.mem_cons]
        exact Or.inr hx
    · intro x hx
      apply hl
      simpa [List.getLast?_cons_cons] using hx

theorem LeftmostSplit_match {what rest : List Nat} {gaps : List (List Nat)} (hne : what ≠ [])
    (h : LeftmostSplit what rest gaps) : LeftmostSplit what (what ++ rest) ([] :: gaps) := by
  obtain ⟨hn, hb, hd, hl⟩ := h
  cases gaps with
  | nil => exact absurd rfl hn
  | cons g gs =>
    refine ⟨by simp, by rw [hb]; simp [joinSep], ?_, ?_⟩
    · intro x hx
      simp only [List.dropLast_cons₂, List.mem_cons] at hx
      rcases hx with hx | hx
      · subst hx
        apply not_infix_of_length_lt
        have : 0 < what.length := List.length_pos.mpr hne
        simp; omega
      · exact hd x hx
    · intro x hx
      apply hl
      simpa [List.getLast?_cons_cons] using hx

theorem exists_LeftmostSplit (what : List Nat) (hne : what ≠ []) :
    ∀ (n : Nat) (buf : List Nat), buf.length ≤ n → ∃ gaps, LeftmostSplit what buf gaps := by
  intro n
  induction n with
  | zero =>
    intro buf hn
    have : buf = [] := List.eq_nil_of_length_eq_zero (by omega)
    subst this
    refine ⟨[[]], by simp, by simp [joinSep], by simp, ?_⟩
    intro x hx
    simp at hx
    subst hx
    simpa using hne
  | succ n ih =>
    intro buf hn
    cases buf with
    | nil =>
      refine ⟨[[]], by simp, by simp [joinSep], by simp, ?_⟩
      intro x hx
      simp at hx
      subst hx
      simpa using hne
    | cons c cs =>
      by_cases hp : what <+: c :: cs
      · obtain ⟨rest, hr⟩ := hp
        have hlen : rest.length ≤ n := by
          have := congrArg List.length hr
          simp only [List.length_append, List.length_cons] at this hn
          have : 0 < what.length := List.length_pos.mpr hne
          omega
        obtain ⟨gaps, hg⟩ := ih rest hlen
        exact ⟨[] :: gaps, hr ▸ LeftmostSplit_match hne hg⟩
      · obtain ⟨gaps, hg⟩ := ih cs (by simpa using hn)
        cases gaps with
        | nil => exact absurd rfl hg.1
        | cons g gs => exact ⟨(c :: g) :: gs, LeftmostSplit_cons hne hp hg⟩

/-! ## CReplace::DoReplace -/

theorem DoReplaceLoop_spec (what w : List Nat) (hne : what ≠ []) (hnul : NoNul what) :
    ∀ (fuel : Nat) (done rest : List Nat) (k : Nat), rest.length < fuel →
      ∃ pos, DoReplaceLoop what w fuel ⟨done ++ rest, done.length, k⟩ =
        some ⟨done ++ onePass what w rest, pos, k + countPass what rest⟩ := by
  intro fuel
  induction fuel with
  | zero => intro done rest k h; omega
  | succ fuel ih =>
    intro done rest k hfuel
    have hwl : 0 < what.length := List.length_pos.mpr hne
    unfold DoReplaceLoop
    by_cases hlen : what.length ≤ rest.length
    · have hc : done.length + what.length ≤ (done ++ rest).length := by
        simp only [List.length_append]; omega
      simp only [hc, if_true]
      unfold DoReplaceStep
      simp only [List.drop_left, List.take_left]
      by_cases hp : what <+: rest
      · rw [if_pos ((strncmp_noNul _ hnul _).mpr hp)]
        obtain ⟨rest', hr⟩ := hp
        subst hr
        have hd : List.drop (done.length + what.length) (done ++ (what ++ rest')) = rest' := by
          rw [← List.append_assoc, ← List.length_append, List.drop_left]
        rw [hd]
        have hl : rest'.length < fuel := by
          simp only [List.length_append] at hfuel; omega
        obtain ⟨pos, hpos⟩ := ih (done ++ w) rest' (k + 1) hl
        refine ⟨pos, ?_⟩
        simp only [List.length_append] at hpos
        rw [hpos, onePass_append _ _ _ hne, countPass_append _ _ hne]
        simp only [List.append_assoc, ReplaceCursor.mk.injEq, Option.some.injEq, true_and]
        omega
      · rw [if_neg (fun h => hp ((strncmp_noNul _ hnul _).mp h))]
        cases rest with
        | nil => simp only [List.length_nil] at hlen; omega
        | cons c cs =>
          have hl : cs.length < fuel := by
            simp only [List.length_cons] at hfuel; omega
          obtain ⟨pos, hpos⟩ := ih (done ++ [c]) cs k hl
          refine ⟨pos, ?_⟩
          simp only [List.length_append, List.length_singleton, List.append_assoc,
            List.singleton_append] at hpos
          rw [hpos, onePass_cons _ _ _ _ hp, countPass_cons _ _ _ hp]
    · have hc : ¬ done.length + what.length ≤ (done ++ rest).length := by
        simp only [List.length_append]; omega
      simp only [hc, if_false]
      have hno : ¬ what <:+: rest := not_infix_of_length_lt (by omega)
      rw [onePass_noOcc _ _ _ hno, countPass_noOcc _ _ hno]
      exact ⟨_, rfl⟩

theorem DoReplace_spec (r : CReplace) (buf : List Nat) (hmust : r.m_bMustReplace = true)
    (hne : r.m_strWhat ≠ []) (hnul : NoNul r.m_strWhat) :
    r.DoReplace buf =
      .ok (onePass r.m_strWhat r.m_strWith buf, { r with m_bDidReplace := true },
           countPass r.m_strWhat buf) := by
  obtain ⟨pos, h⟩ := DoReplaceLoop_spec r.m_strWhat r.m_strWith hne hnul (buf.length + 1) [] buf 0
    (Nat.lt_succ_self _)
  simp only [List.nil_append, List.length_nil, Nat.zero_add] at h
  simp only [CReplace.DoReplace, hmust, if_true, h]

theorem DoReplace_skip (r : CReplace) (buf : List Nat) (hmust : r.m_bMustReplace = false) :
    r.DoReplace buf = .ok (buf, r, 0) := by
  simp [CReplace.DoReplace, hmust]


theorem joinSep_length (sep g : List Nat) (gs : List (List Nat)) :
    (joinSep sep (g :: gs)).length + sep.length =
      ((g :: gs).map List.length).sum + sep.length * (g :: gs).length := by
  induction gs generalizing g with
  | nil => simp [joinSep]
  | cons g2 gs ih =>
    have := ih g2
    rw [joinSep]
    simp only [List.length_append, List.map_cons, List.sum_cons, List.length_cons,
      Nat.mul_succ] at this ⊢
    omega


/-- C1. For a directive with `mustReplace` set and a non-empty `what`, `DoReplace`
returns the buffer of the single left-to-right pass of the specification (`with` emitted
and the cursor moved past the whole match where `what` matches at the cursor, the
current byte copied otherwise); the input has a cut at the leftmost non-overlapping
occurrences of `what`, and for every such cut the output is the same gaps joined by
`with`, so exactly those occurrences are replaced, emitted text is never matched again
and every other byte, a short tail included, is kept in order. -/
theorem C1_DoReplace_single_pass (r : CReplace) (buf : List Nat)
    (hmust : r.m_bMustReplace = true) (hne : r.m_strWhat ≠ []) (hnul : NoNul r.m_strWhat) :
    (∃ k, r.DoReplace buf =
        .ok (onePass r.m_strWhat r.m_strWith buf, { r with m_bDidReplace := true }, k)) ∧
    (∃ gaps, LeftmostSplit r.m_strWhat buf gaps) ∧
    (∀ gaps, LeftmostSplit r.m_strWhat buf gaps →
        onePass r.m_strWhat r.m_strWith buf = joinSep r.m_strWith gaps) :=
  ⟨⟨_, DoReplace_spec r buf hmust hne hnul⟩,
   exists_LeftmostSplit _ hne _ buf (Nat.le_refl _),
   fun gaps h => (onePass_split _ _ hne gaps buf h).1⟩

/-- C1 at `what = "a"`, `with = "aa"`, buffer `"aaa"`: the result is `"aaaaaa"`. -/
theorem C1_DoReplace_single_pass_witness :
    dirA.DoReplace [97, 97, 97] =
        .ok ([97, 97, 97, 97, 97, 97], { dirA with m_bDidReplace := true }, 3) ∧
    LeftmostSplit [97] [97, 97, 97] [[], [], [], []] ∧
    joinSep [97, 97] [[], [], [], []] = [97, 97, 97, 97, 97, 97] ∧
    ((∃ k, dirA.DoReplace [97, 97, 97] =
        .ok (onePass dirA.m_strWhat dirA.m_strWith [97, 97, 97],
             { dirA with m_bDidReplace := true }, k)) ∧
     (∃ gaps, LeftmostSplit dirA.m_strWhat [97, 97, 97] gaps) ∧
     (∀ gaps, LeftmostSplit dirA.m_strWhat [97, 97, 97] gaps →
        onePass dirA.m_strWhat dirA.m_strWith [97, 97, 97] = joinSep dirA.m_strWith gaps)) :=
  ⟨by decide, by
      refine ⟨by decide, by decide, ?_, ?_⟩
      · intro g hg
        have hlen : g = [] := by
          simp only [List.dropLast, List.mem_cons, List.mem_singleton, List.not_mem_nil,
            or_false, or_self] at hg
          exact hg
        subst hlen
        intro h
        have := h.length_le
        simp at this
      · intro g hg
        simp at hg
        subst hg
        intro h
        have := h.length_le
        simp at this,
    by decide,
    C1_DoReplace_single_pass dirA [97, 97, 97] (by decide) (by decide) (by decide)⟩

/-- C2. For a directive with `mustReplace` set and a non-empty `what`, on a buffer of
length `n`, `DoReplace` returns a buffer of size `n - len(what)*k + len(with)*k`, where
`k` is the number of substitutions it made; `len(what)*k` is at most `n`, and `k` is the
number of leftmost non-overlapping occurrences of `what` in the input: every cut of the
input at those occurrences has `k + 1` gaps, and such a cut exists. -/
theorem C2_DoReplace_size (r : CReplace) (buf : List Nat)
    (hmust : r.m_bMustReplace = true) (hne : r.m_strWhat ≠ []) (hnul : NoNul r.m_strWhat) :
    ∃ out r' k, r.DoReplace buf = .ok (out, r', k) ∧
      r.m_strWhat.length * k ≤ buf.length ∧
      out.length = buf.length - r.m_strWhat.length * k + r.m_strWith.length * k ∧
      (∃ gaps, LeftmostSplit r.m_strWhat buf gaps) ∧
      (∀ gaps, LeftmostSplit r.m_strWhat buf gaps → gaps.length = k + 1) := by
  refine ⟨_, _, _, DoReplace_spec r buf hmust hne hnul, ?_, ?_,
    exists_LeftmostSplit _ hne _ buf (Nat.le_refl _),
    fun gaps h => ((onePass_split _ r.m_strWith hne gaps buf h).2).symm⟩
  · obtain ⟨gaps, hg⟩ := exists_LeftmostSplit _ hne _ buf (Nat.le_refl _)
    have h2 := (onePass_split _ r.m_strWith hne gaps buf hg).2
    obtain ⟨g, gs, rfl⟩ := List.exists_cons_of_ne_nil hg.1
    have hj := joinSep_length r.m_strWhat g gs
    rw [← hg.2.1, ← h2, Nat.mul_succ] at hj
    omega
  · obtain ⟨gaps, hg⟩ := exists_LeftmostSplit _ hne _ buf (Nat.le_refl _)
    obtain ⟨h1, h2⟩ := onePass_split _ r.m_strWith hne gaps buf hg
    obtain ⟨g, gs, rfl⟩ := List.exists_cons_of_ne_nil hg.1
    have hj := joinSep_length r.m_strWhat g gs
    have hk := joinSep_length r.m_strWith g gs
    rw [← hg.2.1, ← h2, Nat.mul_succ] at hj
    rw [← h1, ← h2, Nat.mul_succ] at hk
    omega

/-- C2 at `what = "a"`, `with = "aa"`, buffer `"aaa"`: three substitutions, size six. -/
theorem C2_DoReplace_size_witness :
    ∃ out r' k, dirA.DoReplace [97, 97, 97] = .ok (out, r', k) ∧
      dirA.m_strWhat.length * k ≤ [97, 97, 97].length ∧
      out.length = [97, 97, 97].length - dirA.m_strWhat.length * k + dirA.m_strWith.length * k ∧
      (∃ gaps, LeftmostSplit dirA.m_strWhat [97, 97, 97] gaps) ∧
      (∀ gaps, LeftmostSplit dirA.m_strWhat [97, 97, 97] gaps → gaps.length = k + 1) :=
  C2_DoReplace_size dirA [97, 97, 97] (by decide) (by decide) (by decide)


/-- C3. `CheckReplace` throws exactly when `what` is not a contiguous part of the
buffer, and the error is then `was not found`; when `what` occurs and equals `with` it
returns false and leaves the directive, `mustReplace` included, as it was; when `what`
occurs and differs from `with` it sets `mustReplace` and returns true.  The buffer is an
argument that the embedded function only reads. -/
theorem C3_CheckReplace (r : CReplace) (file_name buf : List Nat) (hnul : NoNul r.m_strWhat) :
    ((∃ e, r.CheckReplace file_name buf = .error e) ↔ ¬ r.m_strWhat <:+: buf) ∧
    (∀ e, r.CheckReplace file_name buf = .error e → e = .notFound file_name r.m_strWhat) ∧
    (r.m_strWhat <:+: buf → r.m_strWhat = r.m_strWith →
        r.CheckReplace file_name buf = .ok (false, r)) ∧
    (r.m_strWhat <:+: buf → r.m_strWhat ≠ r.m_strWith →
        r.CheckReplace file_name buf = .ok (true, { r with m_bMustReplace := true })) := by
  rw [CheckReplace_spec r file_name buf hnul]
  by_cases hi : r.m_strWhat <:+: buf
  · rw [if_pos hi]
    by_cases he : r.m_strWhat = r.m_strWith
    · rw [if_pos he]
      exact ⟨by simp [hi], by simp, fun _ _ => rfl, fun _ h => absurd he h⟩
    · rw [if_neg he]
      exact ⟨by simp [hi], by simp, fun _ h => absurd h he, fun _ _ => rfl⟩
  · rw [if_neg hi]
    exact ⟨by simp [hi], by simp, fun h => absurd h hi, fun h => absurd h hi⟩

/-- C3 on the scenario: `"1.9"` occurs in `#define VER "1.9"` and differs from `"2.0"`. -/
theorem C3_CheckReplace_witness :
    dirV.CheckReplace (bytes "app.h") (bytes "#define VER \"1.9\"") =
        .ok (true, { dirV with m_bMustReplace := true }) ∧
    dirV.CheckReplace (bytes "app.h") (bytes "#define VER \"3.0\"") =
        .error (.notFound (bytes "app.h") [49, 46, 57]) ∧
    (((∃ e, dirV.CheckReplace (bytes "app.h") (bytes "#define VER \"1.9\"") = .error e) ↔
        ¬ dirV.m_strWhat <:+: bytes "#define VER \"1.9\"") ∧
     (∀ e, dirV.CheckReplace (bytes "app.h") (bytes "#define VER \"1.9\"") = .error e →
        e = .notFound (bytes "app.h") dirV.m_strWhat) ∧
     (dirV.m_strWhat <:+: bytes "#define VER \"1.9\"" → dirV.m_strWhat = dirV.m_strWith →
        dirV.CheckReplace (bytes "app.h") (bytes "#define VER \"1.9\"") = .ok (false, dirV)) ∧
     (dirV.m_strWhat <:+: bytes "#define VER \"1.9\"" → dirV.m_strWhat ≠ dirV.m_strWith →
        dirV.CheckReplace (bytes "app.h") (bytes "#define VER \"1.9\"") =
          .ok (true, { dirV with m_bMustReplace := true }))) :=
  ⟨by decide, by decide,
   C3_CheckReplace dirV (bytes "app.h") (bytes "#define VER \"1.9\"") (by decide)⟩

/-! ## FindReplace with a one-byte pattern, and the literal encoding -/

theorem FindReplaceLoop_single (source : List Nat) (p : Nat) (rep : List Nat) :
    ∀ (fuel j : Nat) (newstr : List Nat), j ≤ source.length → source.length < fuel + j →
      FindReplaceLoop source [p] rep fuel j newstr =
        some (newstr ++ (source.drop j).flatMap (fun c => if c = p then rep else [c])) := by
  intro fuel
  induction fuel with
  | zero => intro j newstr h1 h2; omega
  | succ fuel ih =>
    intro j newstr h1 h2
    unfold FindReplaceLoop
    simp only [List.length_singleton]
    by_cases hj : j + 1 ≤ source.length
    · rw [if_pos hj]
      have hd : source.drop j = source[j] :: source.drop (j + 1) := List.drop_eq_getElem_cons hj
      have hg : source.getD j 0 = source[j] := by
        rw [List.getD_eq_getElem?_getD, List.getElem?_eq_getElem hj]; rfl
      rw [hd]
      simp only [List.take_succ_cons, List.take_zero, List.cons.injEq, and_true,
        List.flatMap_cons]
      by_cases hc : source[j] = p
      · rw [if_pos hc, ih (j + 1) _ hj (by omega), if_pos hc, List.append_assoc]
      · rw [if_neg hc, ih (j + 1) _ hj (by omega), if_neg hc, hg]
        simp
    · rw [if_neg hj]
      have : source.drop j = [] := List.drop_eq_nil_of_le (by omega)
      simp [this]

theorem FindReplace_single (source : List Nat) (p : Nat) (rep : List Nat) :
    FindReplace source [p] rep = some (source.flatMap (fun c => if c = p then rep else [c])) := by
  have := FindReplaceLoop_single source p rep (source.length + 1) 0 [] (Nat.zero_le _) (by omega)
  simpa [FindReplace] using this

theorem encodeLiteral_eq (s : List Nat) : encodeLiteral s = some (enc s) := by
  unfold encodeLiteral
  rw [FindReplace_single]
  simp only []
  rw [FindReplace_single]
  congr 1
  unfold enc
  induction s with
  | nil => rfl
  | cons c s ih =>
    simp only [List.flatMap_cons, List.flatMap_append, ih]
    congr 1
    unfold escapeByte
    by_cases h1 : c = 92
    · subst h1; simp
    · by_cases h2 : c = 34
      · subst h2; simp
      · simp [h1, h2]


/-! ## The control-file rewrite -/


theorem UpdateControlFile_skip (r : CReplace) (buf : List Nat) (offset : Int)
    (h : r.m_bDidReplace = false) : r.UpdateControlFile buf offset = .ok (buf, offset) := by
  simp [CReplace.UpdateControlFile, h]

theorem UpdateControlFile_step (r : CReplace) (B P : List Nat) (cur : Nat)
    (hd : r.m_bDidReplace = true) (hcur : cur ≤ r.m_nControlFilePos)
    (hin : r.m_nControlFilePos + (enc r.m_strWhat).length ≤ B.length)
    (hp : enc r.m_strWhat <+: B.drop r.m_nControlFilePos) :
    r.UpdateControlFile (P ++ B.drop cur) ((P.length : Int) - cur) =
      .ok ((P ++ (B.drop cur).take (r.m_nControlFilePos - cur) ++ enc r.m_strWith) ++
              B.drop (r.m_nControlFilePos + (enc r.m_strWhat).length),
           (((P ++ (B.drop cur).take (r.m_nControlFilePos - cur) ++ enc r.m_strWith).length : Int)
              - ((r.m_nControlFilePos + (enc r.m_strWhat).length : Nat) : Int))) := by
  unfold CReplace.UpdateControlFile
  simp only [hd, if_true, encodeLiteral_eq]
  have hneg : ¬ ((r.m_nControlFilePos : Int) + ((P.length : Int) - cur) < 0) := by omega
  rw [if_neg hneg]
  have hnat : ((r.m_nControlFilePos : Int) + ((P.length : Int) - cur)).toNat
      = P.length + (r.m_nControlFilePos - cur) := by omega
  simp only [hnat]
  have hdrop : List.drop (P.length + (r.m_nControlFilePos - cur)) (P ++ B.drop cur)
      = B.drop r.m_nControlFilePos := by
    rw [List.drop_append, List.drop_drop]
    congr 1; omega
  obtain ⟨t, ht⟩ := hp
  have hs : strncmp (B.drop r.m_nControlFilePos) (enc r.m_strWhat) (enc r.m_strWhat).length
      = some true := by
    rw [← ht]; exact strncmp_self_append _ _
  rw [hdrop, hs]
  simp only []
  have hlen : P.length + (r.m_nControlFilePos - cur) + (enc r.m_strWhat).length
      ≤ (P ++ B.drop cur).length := by
    simp only [List.length_append, List.length_drop]; omega
  rw [if_pos hlen]
  have htake : List.take (P.length + (r.m_nControlFilePos - cur)) (P ++ B.drop cur)
      = P ++ (B.drop cur).take (r.m_nControlFilePos - cur) := by
    rw [List.take_append]
  have hdrop2 : List.drop (P.length + (r.m_nControlFilePos - cur) + (enc r.m_strWhat).length)
      (P ++ B.drop cur) = B.drop (r.m_nControlFilePos + (enc r.m_strWhat).length) := by
    rw [Nat.add_assoc, List.drop_append, List.drop_drop]
    congr 1; omega
  rw [htake, hdrop2]
  congr 2
  simp only [List.length_append, List.length_take, List.length_drop]
  have : min (r.m_nControlFilePos - cur) (B.length - cur) = r.m_nControlFilePos - cur := by
    omega
  rw [this]
  push_cast
  omega

theorem UpdateControlFileAll_chain (B : List Nat) :
    ∀ (L : List CReplace) (P : List Nat) (cur : Nat),
      (∀ r ∈ L, r.m_bDidReplace = true →
        cur ≤ r.m_nControlFilePos ∧
        r.m_nControlFilePos + (enc r.m_strWhat).length ≤ B.length ∧
        enc r.m_strWhat <+: B.drop r.m_nControlFilePos) →
      L.Pairwise (fun a b => a.m_bDidReplace = true → b.m_bDidReplace = true →
        a.m_nControlFilePos + (enc a.m_strWhat).length ≤ b.m_nControlFilePos) →
      UpdateControlFileAll L (P ++ B.drop cur) ((P.length : Int) - cur) =
        .ok (P ++ spliceFrom B cur ((activeReplacements L).map CReplace.edit),
             (P.length : Int) - cur + deltaSum L) := by
  intro L
  induction L with
  | nil =>
    intro P cur _ _
    simp [UpdateControlFileAll, spliceFrom, activeReplacements, deltaSum]
  | cons r L ih =>
    intro P cur hall hpw
    rw [List.pairwise_cons] at hpw
    unfold UpdateControlFileAll
    by_cases hd : r.m_bDidReplace = true
    · obtain ⟨hcur, hin, hp⟩ := hall r (List.mem_cons_self _ _) hd
      rw [UpdateControlFile_step r B P cur hd hcur hin hp]
      simp only []
      rw [ih _ _ ?_ hpw.2]
      · have ha : activeReplacements (r :: L) = r :: activeReplacements L := by
          simp [activeReplacements, hd]
        simp only [ha, List.map_cons, CReplace.edit, spliceFrom, deltaSum, List.sum_cons,
          List.append_assoc, List.length_append]
        congr 2
        simp only [List.length_take, List.length_drop]
        have : min (r.m_nControlFilePos - cur) (B.length - cur) = r.m_nControlFilePos - cur := by
          omega
        rw [this]
        push_cast
        omega
      · intro r' hr' hd'
        obtain ⟨_, hin', hp'⟩ := hall r' (List.mem_cons_of_mem _ hr') hd'
        exact ⟨hpw.1 r' hr' hd hd', hin', hp'⟩
    · have hd' : r.m_bDidReplace = false := by simpa using hd
      rw [UpdateControlFile_skip r _ _ hd']
      simp only []
      rw [ih P cur (fun r' hr' => hall r' (List.mem_cons_of_mem _ hr')) hpw.2]
      have ha : activeReplacements (r :: L) = activeReplacements L := by
        simp [activeReplacements, hd']
      simp only [deltaSum, ha]

theorem sortReplacements_chain (B : List Nat) (rs : List CReplace) (h : RangesOk B rs) :
    (∀ r ∈ sortReplacements rs, r.m_bDidReplace = true →
        0 ≤ r.m_nControlFilePos ∧
        r.m_nControlFilePos + (enc r.m_strWhat).length ≤ B.length ∧
        enc r.m_strWhat <+: B.drop r.m_nControlFilePos) ∧
    (sortReplacements rs).Pairwise (fun a b => a.m_bDidReplace = true → b.m_bDidReplace = true →
        a.m_nControlFilePos + (enc a.m_strWhat).length ≤ b.m_nControlFilePos) := by
  obtain ⟨hnd, hin, hdj⟩ := h
  have hperm : (sortReplacements rs).Perm rs := List.perm_insertionSort _ _
  haveI : IsTotal CReplace (fun a b => a.m_nControlFilePos ≤ b.m_nControlFilePos) :=
    ⟨fun a b => Nat.le_total _ _⟩
  haveI : IsTrans CReplace (fun a b => a.m_nControlFilePos ≤ b.m_nControlFilePos) :=
    ⟨fun a b c h1 h2 => Nat.le_trans h1 h2⟩
  have hsorted : (sortReplacements rs).Pairwise
      (fun a b => a.m_nControlFilePos ≤ b.m_nControlFilePos) := List.sorted_insertionSort _ _
  constructor
  · intro r hr hd
    have hmem : r ∈ activeReplacements rs := by
      simp only [activeReplacements, List.mem_filter]
      exact ⟨hperm.mem_iff.mp hr, hd⟩
    exact ⟨Nat.zero_le _, hin r hmem⟩
  · -- distinct offsets and disjoint ranges, as guarded relations on the whole list
    have hfilter : rs.filter (fun r => r.m_bDidReplace)
        = rs.filter (fun b => decide (b.m_bDidReplace = true)) := by
      congr 1; funext r; simp
    have hnd' : rs.Pairwise (fun a b => a.m_bDidReplace = true → b.m_bDidReplace = true →
        a.m_nControlFilePos ≠ b.m_nControlFilePos) := by
      have := (List.pairwise_map (f := fun r : CReplace => r.m_nControlFilePos)).mp hnd
      simp only [activeReplacements, hfilter] at this
      exact List.pairwise_filter.mp this
    have hdj' : rs.Pairwise (fun a b => a.m_bDidReplace = true → b.m_bDidReplace = true →
        (a.m_nControlFilePos + (enc a.m_strWhat).length ≤ b.m_nControlFilePos ∨
         b.m_nControlFilePos + (enc b.m_strWhat).length ≤ a.m_nControlFilePos)) := by
      simp only [activeReplacements, hfilter] at hdj
      exact List.pairwise_filter.mp hdj
    have hboth : rs.Pairwise (fun a b => a.m_bDidReplace = true → b.m_bDidReplace = true →
        (a.m_nControlFilePos ≠ b.m_nControlFilePos ∧
        (a.m_nControlFilePos + (enc a.m_strWhat).length ≤ b.m_nControlFilePos ∨
         b.m_nControlFilePos + (enc b.m_strWhat).length ≤ a.m_nControlFilePos))) :=
      (hnd'.and hdj').imp (fun h h1 h2 => ⟨h.1 h1 h2, h.2 h1 h2⟩)
    have hsym : Symmetric (fun a b : CReplace => a.m_bDidReplace = true → b.m_bDidReplace = true →
        (a.m_nControlFilePos ≠ b.m_nControlFilePos ∧
        (a.m_nControlFilePos + (enc a.m_strWhat).length ≤ b.m_nControlFilePos ∨
         b.m_nControlFilePos + (enc b.m_strWhat).length ≤ a.m_nControlFilePos))) := by
      intro a b h hb ha
      obtain ⟨h1, h2⟩ := h ha hb
      exact ⟨fun e => h1 e.symm, h2.symm⟩
    have hboth' := (hperm.pairwise_iff (fun {x y} hxy => hsym hxy)).mpr hboth
    refine (hsorted.and hboth').imp ?_
    intro a b h ha hb
    obtain ⟨hle, hrest⟩ := h
    obtain ⟨hne, hor⟩ := hrest ha hb
    rcases hor with h1 | h1
    · exact h1
    · omega

theorem rewriteControlBuffer_ok (files : List (List Nat × CFileNode)) (B : List Nat)
    (h : RangesOk B (collectReplacements files)) :
    rewriteControlBuffer files B =
      .ok (spliceFrom B 0
        ((activeReplacements (sortReplacements (collectReplacements files))).map CReplace.edit)) := by
  obtain ⟨h1, h2⟩ := sortReplacements_chain B _ h
  have := UpdateControlFileAll_chain B _ [] 0 h1 h2
  simp only [List.nil_append, List.drop_zero, List.length_nil] at this
  unfold rewriteControlBuffer
  simp only [Nat.cast_zero, sub_zero] at this
  rw [this]


theorem UpdateControlFile_length (r : CReplace) (buf buf' : List Nat) (offset offset' : Int)
    (h : r.UpdateControlFile buf offset = .ok (buf', offset')) :
    (buf'.length : Int) - offset' = (buf.length : Int) - offset := by
  unfold CReplace.UpdateControlFile at h
  simp only [encodeLiteral_eq] at h
  split at h
  · split at h
    · cases h
    · split at h
      · cases h
      · cases h
      · split at h
        · rename_i hlen
          cases h
          simp only [List.length_append, List.length_take, List.length_drop]
          have hm : min ((r.m_nControlFilePos : Int) + offset).toNat buf.length
              = ((r.m_nControlFilePos : Int) + offset).toNat := by omega
          rw [hm]
          push_cast
          omega
        · cases h
  · cases h
    rfl

theorem UpdateControlFileAll_length :
    ∀ (L : List CReplace) (buf buf' : List Nat) (offset offset' : Int),
      UpdateControlFileAll L buf offset = .ok (buf', offset') →
      (buf'.length : Int) - offset' = (buf.length : Int) - offset := by
  intro L
  induction L with
  | nil =>
    intro buf buf' offset offset' h
    simp only [UpdateControlFileAll, Except.ok.injEq, Prod.mk.injEq] at h
    rw [h.1, h.2]
  | cons r L ih =>
    intro buf buf' offset offset' h
    unfold UpdateControlFileAll at h
    split at h
    · cases h
    · rename_i b1 o1 h1
      have := ih _ _ _ _ h
      have := UpdateControlFile_length _ _ _ _ _ h1
      omega

theorem deltaSum_perm {L L' : List CReplace} (h : L.Perm L') : deltaSum L = deltaSum L' := by
  unfold deltaSum activeReplacements
  exact ((h.filter _).map _).sum_eq

theorem sortReplacements_strict (B : List Nat) (rs : List CReplace) (h : RangesOk B rs) :
    (activeReplacements (sortReplacements rs)).Pairwise
      (fun a b => a.m_nControlFilePos < b.m_nControlFilePos) := by
  obtain ⟨hnd, _, _⟩ := h
  have hperm : (sortReplacements rs).Perm rs := List.perm_insertionSort _ _
  haveI : IsTotal CReplace (fun a b => a.m_nControlFilePos ≤ b.m_nControlFilePos) :=
    ⟨fun a b => Nat.le_total _ _⟩
  haveI : IsTrans CReplace (fun a b => a.m_nControlFilePos ≤ b.m_nControlFilePos) :=
    ⟨fun a b c h1 h2 => Nat.le_trans h1 h2⟩
  have hsorted : (sortReplacements rs).Pairwise
      (fun a b => a.m_nControlFilePos ≤ b.m_nControlFilePos) := List.sorted_insertionSort _ _
  have hs2 : (activeReplacements (sortReplacements rs)).Pairwise
      (fun a b => a.m_nControlFilePos ≤ b.m_nControlFilePos) :=
    hsorted.sublist (List.filter_sublist _)
  have hp2 : (activeReplacements (sortReplacements rs)).Perm (activeReplacements rs) :=
    hperm.filter _
  have hnd2 : ((activeReplacements (sortReplacements rs)).map
      (fun r => r.m_nControlFilePos)).Nodup := ((hp2.map _).nodup_iff).mpr hnd
  have hne := (List.pairwise_map (f := fun r : CReplace => r.m_nControlFilePos)).mp hnd2
  exact (hs2.and hne).imp (fun h => Nat.lt_of_le_of_ne h.1 h.2)

/-- C6. Offset correctness of the control-file rewrite: for a buffer `B` and file
records whose directives with `didReplace`, in whatever order they are stored, have
distinct recorded offsets and ranges that lie inside `B`, do not overlap and each hold
the encoded `what`, the sort-by-offset-then-splice pass returns a buffer: no step throws,
whatever the lengths of `what` and `with`. -/
theorem C6_rewrite_never_fails (files : List (List Nat × CFileNode)) (B : List Nat)
    (h : RangesOk B (collectReplacements files)) :
    ∃ out, rewriteControlBuffer files B = .ok out :=
  ⟨_, rewriteControlBuffer_ok files B h⟩

theorem exRangesOk : RangesOk exBuffer (collectReplacements exFiles) := by
  refine ⟨by decide, ?_, ?_⟩
  · intro r hr
    have : r ∈ [exFiles[0].2.m_listReplacements[0], exFiles[1].2.m_listReplacements[0]] := hr
    simp only [List.mem_cons, List.mem_singleton, List.not_mem_nil, or_false] at this
    rcases this with rfl | rfl
    · exact ⟨by decide, by decide⟩
    · exact ⟨by decide, by decide⟩
  · have : activeReplacements (collectReplacements exFiles)
        = [exFiles[0].2.m_listReplacements[0], exFiles[1].2.m_listReplacements[0]] := rfl
    rw [this]
    simp only [List.pairwise_cons, List.mem_singleton, forall_eq, List.not_mem_nil,
      IsEmpty.forall_iff, implies_true, List.Pairwise.nil, and_true]
    decide

/-- C6 on `exBuffer`: the directives are stored later literal first, one grows and one
shrinks, and the rewrite gives `x "10.0.1" y "q" z`. -/
theorem C6_rewrite_never_fails_witness :
    rewriteControlBuffer exFiles exBuffer = .ok (bytes "x \"10.0.1\" y \"q\" z") ∧
    RangesOk exBuffer (collectReplacements exFiles) ∧
    ∃ out, rewriteControlBuffer exFiles exBuffer = .ok out :=
  ⟨by decide, exRangesOk, C6_rewrite_never_fails exFiles exBuffer exRangesOk⟩

/-- C7. Result of the control-file rewrite under the hypotheses of C6: the rewritten
buffer is `B` with, for the directives with `didReplace` taken by ascending offset, the
range holding the encoded `what` replaced by the encoded `with` and every byte outside
the ranges kept in place; its size is the size of `B` plus the sum over those directives
of `len(enc(with)) - len(enc(what))`; a directive with `didReplace = false` changes
neither the buffer nor the running offset. -/
theorem C7_rewrite_result (files : List (List Nat × CFileNode)) (B : List Nat)
    (h : RangesOk B (collectReplacements files)) :
    (∃ (L : List CReplace) (out : List Nat), rewriteControlBuffer files B = .ok out ∧
      L.Perm (activeReplacements (collectReplacements files)) ∧
      L.Pairwise (fun a b => a.m_nControlFilePos < b.m_nControlFilePos) ∧
      out = spliceFrom B 0 (L.map CReplace.edit) ∧
      (out.length : Int) = (B.length : Int) + deltaSum (collectReplacements files)) ∧
    (∀ (r : CReplace) (buf : List Nat) (offset : Int), r.m_bDidReplace = false →
      r.UpdateControlFile buf offset = .ok (buf, offset)) := by
  refine ⟨⟨activeReplacements (sortReplacements (collectReplacements files)), _,
    rewriteControlBuffer_ok files B h, (List.perm_insertionSort _ _).filter _,
    sortReplacements_strict B _ h, rfl, ?_⟩, UpdateControlFile_skip⟩
  obtain ⟨h1, h2⟩ := sortReplacements_chain B _ h
  have hc := UpdateControlFileAll_chain B _ [] 0 h1 h2
  simp only [List.nil_append, List.drop_zero, List.length_nil, Nat.cast_zero, sub_zero] at hc
  have hl := UpdateControlFileAll_length _ _ _ _ _ hc
  have hp : deltaSum (sortReplacements (collectReplacements files))
      = deltaSum (collectReplacements files) :=
    deltaSum_perm (List.perm_insertionSort _ (collectReplacements files))
  rw [hp] at hl
  omega

/-- C7 on `exBuffer`: 18 bytes become 18 + 3 - 3. -/
theorem C7_rewrite_result_witness :
    rewriteControlBuffer exFiles exBuffer = .ok (bytes "x \"10.0.1\" y \"q\" z") ∧
    ((∃ (L : List CReplace) (out : List Nat), rewriteControlBuffer exFiles exBuffer = .ok out ∧
      L.Perm (activeReplacements (collectReplacements exFiles)) ∧
      L.Pairwise (fun a b => a.m_nControlFilePos < b.m_nControlFilePos) ∧
      out = spliceFrom exBuffer 0 (L.map CReplace.edit) ∧
      (out.length : Int) = (exBuffer.length : Int) + deltaSum (collectReplacements exFiles)) ∧
    (∀ (r : CReplace) (buf : List Nat) (offset : Int), r.m_bDidReplace = false →
      r.UpdateControlFile buf offset = .ok (buf, offset))) :=
  ⟨by decide, C7_rewrite_result exFiles exBuffer exRangesOk⟩

/-! ## GetLiteral -/

theorem enc_cons (c : Nat) (s : List Nat) : enc (c :: s) = escapeByte c ++ enc s := by
  simp [enc]

theorem enc_nil : enc [] = [] := rfl

theorem GetLiteralLoop_stop (line : Nat) (c : Nat) (p acc : List Nat)
    (hc : c = 0 ∨ c = 34 ∨ c = 10 ∨ c = 13) :
    GetLiteralLoop line (c :: p) acc = .ok (acc, c :: p) := by
  have hn : ¬ (c ≠ 0 ∧ c ≠ 34 ∧ c ≠ 10 ∧ c ≠ 13) := by omega
  cases p with
  | nil => rw [GetLiteralLoop, if_neg hn]
  | cons d p => rw [GetLiteralLoop, if_neg hn]

theorem GetLiteralLoop_escape (line : Nat) (d : Nat) (p acc : List Nat) (hd : d = 34 ∨ d = 92)
    (hlen : (acc ++ [d]).length < 256) :
    GetLiteralLoop line (92 :: d :: p) acc = GetLiteralLoop line p (acc ++ [d]) := by
  have h1 : (92 : Nat) ≠ 0 ∧ (92 : Nat) ≠ 34 ∧ (92 : Nat) ≠ 10 ∧ (92 : Nat) ≠ 13 := by omega
  have h2 : ¬ (acc ++ [d]).length ≥ 256 := by omega
  conv_lhs => rw [GetLiteralLoop, if_pos h1, if_pos ⟨rfl, hd⟩, if_neg h2]

theorem GetLiteralLoop_plain (line : Nat) (c : Nat) (p acc : List Nat)
    (hc : c ≠ 0 ∧ c ≠ 34 ∧ c ≠ 10 ∧ c ≠ 13) (h92 : c ≠ 92)
    (hlen : (acc ++ [c]).length < 256) :
    GetLiteralLoop line (c :: p) acc = GetLiteralLoop line p (acc ++ [c]) := by
  have h2 : ¬ (acc ++ [c]).length ≥ 256 := by omega
  cases p with
  | nil => conv_lhs => rw [GetLiteralLoop, if_pos hc, if_neg h2]
  | cons d p =>
    conv_lhs => rw [GetLiteralLoop, if_pos hc, if_neg (fun h => h92 h.1), if_neg h2]

/-- Reading an encoded string: the loop of `GetLiteral` appends the decoded bytes. -/
theorem GetLiteralLoop_enc (line : Nat) (s : List Nat)
    (hs : ∀ c ∈ s, c ≠ 0 ∧ c ≠ 10 ∧ c ≠ 13) :
    ∀ (acc t : List Nat), (acc ++ s).length < 256 →
      GetLiteralLoop line (enc s ++ t) acc = GetLiteralLoop line t (acc ++ s) := by
  induction s with
  | nil => intro acc t _; simp [enc_nil]
  | cons c s ih =>
    intro acc t hlen
    have hc := hs c (List.mem_cons_self _ _)
    have hs' : ∀ c ∈ s, c ≠ 0 ∧ c ≠ 10 ∧ c ≠ 13 := fun x hx => hs x (List.mem_cons_of_mem _ hx)
    have hl1 : (acc ++ [c]).length < 256 := by
      simp only [List.length_append, List.length_cons, List.length_nil] at hlen ⊢; omega
    have hl2 : (acc ++ [c] ++ s).length < 256 := by
      simp only [List.length_append, List.length_cons, List.length_nil] at hlen ⊢; omega
    have hfin : acc ++ [c] ++ s = acc ++ c :: s := by simp
    rw [enc_cons]
    unfold escapeByte
    by_cases h92 : c = 92
    · subst h92
      simp only [if_true, List.cons_append, List.nil_append]
      rw [GetLiteralLoop_escape line 92 _ acc (Or.inr rfl) hl1, ih hs' _ _ hl2, hfin]
    · by_cases h34 : c = 34
      · subst h34
        simp only [if_neg h92, if_true, List.cons_append, List.nil_append]
        rw [GetLiteralLoop_escape line 34 _ acc (Or.inl rfl) hl1, ih hs' _ _ hl2, hfin]
      · simp only [if_neg h92, if_neg h34, List.cons_append, List.nil_append]
        rw [GetLiteralLoop_plain line c _ acc ⟨hc.1, h34, hc.2.1, hc.2.2⟩ h92 hl1,
          ih hs' _ _ hl2, hfin]


theorem SkipWhiteSpaces_nonblank (c : Nat) (p : List Nat) (h : c ≠ 32 ∧ c ≠ 9) :
    SkipWhiteSpaces (c :: p) = c :: p := by
  rw [SkipWhiteSpaces, if_neg (by omega)]

theorem GetLiteral_of_loop (bufLen line : Nat) (p q q' ident : List Nat)
    (hskip : SkipWhiteSpaces p = 34 :: q)
    (hloop : GetLiteralLoop line q [] = .ok (ident, 34 :: q')) (hne : ident ≠ []) :
    GetLiteral bufLen p line = .ok (ident, bufLen - q.length, q') := by
  unfold GetLiteral
  rw [hskip]
  simp only [ne_eq, not_true_eq_false, if_false, hloop, List.headD_cons, List.tail_cons]
  rw [if_neg (fun h => hne (List.eq_nil_of_length_eq_zero h))]

theorem GetLiteral_enc (bufLen line : Nat) (s rest : List Nat) (hs : LitOk s) :
    GetLiteral bufLen (34 :: enc s ++ 34 :: rest) line =
      .ok (s, bufLen - (enc s ++ 34 :: rest).length, rest) := by
  obtain ⟨hne, hlen, hc⟩ := hs
  apply GetLiteral_of_loop bufLen line _ _ rest s
  · exact SkipWhiteSpaces_nonblank 34 _ (by omega)
  · rw [GetLiteralLoop_enc line s hc [] _ (by simpa using Nat.lt_succ_of_le hlen)]
    rw [GetLiteralLoop_stop line 34 rest _ (Or.inr (Or.inl rfl))]
    simp
  · exact hne


/-- C10. Parsing undoes encoding: for a byte string `s` of 1 to 255 bytes without NUL,
CR or LF, the two `FindReplace` calls of the rewrite give an encoding `e`, and
`GetLiteral` on a double quote, `e`, a double quote and any further text returns exactly
`s` and leaves the cursor just after the closing quote. -/
theorem C10_GetLiteral_undoes_encoding (s rest : List Nat) (bufLen line : Nat)
    (h1 : 1 ≤ s.length) (h2 : s.length ≤ 255) (h3 : ∀ c ∈ s, c ≠ 0 ∧ c ≠ 13 ∧ c ≠ 10) :
    ∃ t e, FindReplace s [92] [92, 92] = some t ∧ FindReplace t [34] [92, 34] = some e ∧
      GetLiteral bufLen (34 :: e ++ 34 :: rest) line =
        .ok (s, bufLen - (e ++ 34 :: rest).length, rest) := by
  have hlit : LitOk s :=
    ⟨fun h => by rw [h] at h1; simp at h1, h2, fun c hc => ⟨(h3 c hc).1, (h3 c hc).2.2, (h3 c hc).2.1⟩⟩
  have he := encodeLiteral_eq s
  unfold encodeLiteral at he
  rw [FindReplace_single] at he
  simp only [] at he
  exact ⟨_, enc s, FindReplace_single _ _ _, he, GetLiteral_enc bufLen line s rest hlit⟩

/-- C10 at `s = a\"b`: the encoding is `a\\\"b` and the literal reads back as `s`. -/
theorem C10_GetLiteral_undoes_encoding_witness :
    encodeLiteral [97, 92, 34, 98] = some [97, 92, 92, 92, 34, 98] ∧
    GetLiteral 20 (34 :: [97, 92, 92, 92, 34, 98] ++ 34 :: [32, 64, 86]) 1 =
      .ok ([97, 92, 34, 98], 10, [32, 64, 86]) ∧
    ∃ t e, FindReplace [97, 92, 34, 98] [92] [92, 92] = some t ∧
      FindReplace t [34] [92, 34] = some e ∧
      GetLiteral 20 (34 :: e ++ 34 :: [32, 64, 86]) 1 =
        .ok ([97, 92, 34, 98], 20 - (e ++ 34 :: [32, 64, 86]).length, [32, 64, 86]) :=
  ⟨by decide, by decide,
   C10_GetLiteral_undoes_encoding [97, 92, 34, 98] [32, 64, 86] 20 1 (by decide) (by decide)
     (by decide)⟩

/-- C9, the code at the failing input.  `GetLiteral` accepts the literal `"a\b"` and
returns the three bytes `a\b`; their encoding is the four bytes `a\\b`, not what stands
between the quotes; on the control file `ctlLoneBackslash` the parse and the verify
phase succeed, the target file is rewritten and backed up, and then the comparison of
`CReplace::UpdateControlFile` at the recorded offset fails. -/
theorem C9_lone_backslash_not_reencoded :
    GetLiteral 5 [34, 97, 92, 98, 34] 1 = .ok ([97, 92, 98], 1, []) ∧
    encodeLiteral [97, 92, 98] = some [97, 92, 92, 98] ∧
    ((CAutoVersion.init (bytes "ctl") [] false).ParseControlFile fsLoneBackslash).err = none ∧
    ((CAutoVersion.init (bytes "ctl") [] false).Replace fsLoneBackslash 0).err
      = some (.updateFailed [97, 92, 92, 98]) ∧
    ((CAutoVersion.init (bytes "ctl") [] false).Replace fsLoneBackslash 0).state.2 [92, 102]
      = some [120] := by
  decide

/-! ## What the parser guarantees -/

/-- One iteration of the loop of `GetLiteral`, written with the look-ahead `*(p + 1)` of
the source. -/
theorem GetLiteralLoop_cons (line c : Nat) (p acc : List Nat) :
    GetLiteralLoop line (c :: p) acc =
      if c ≠ 0 ∧ c ≠ 34 ∧ c ≠ 10 ∧ c ≠ 13 then
        if c = 92 ∧ (p.headD 0 = 34 ∨ p.headD 0 = 92) then
          if (acc ++ [p.headD 0]).length ≥ 256 then .error (.parse .literalTooLong line)
          else GetLiteralLoop line p.tail (acc ++ [p.headD 0])
        else
          if (acc ++ [c]).length ≥ 256 then .error (.parse .literalTooLong line)
          else GetLiteralLoop line p (acc ++ [c])
      else .ok (acc, c :: p) := by
  cases p with
  | nil =>
    conv_lhs => rw [GetLiteralLoop]
    simp [GetLiteralLoop]
  | cons d p =>
    conv_lhs => rw [GetLiteralLoop]
    simp

theorem GetLiteralLoop_inv (line : Nat) :
    ∀ (n : Nat) (p acc v p' : List Nat), p.length ≤ n →
      (∀ c ∈ acc, c ≠ 0 ∧ c ≠ 10 ∧ c ≠ 13) → acc.length ≤ 255 →
      GetLiteralLoop line p acc = .ok (v, p') →
      (∀ c ∈ v, c ≠ 0 ∧ c ≠ 10 ∧ c ≠ 13) ∧ v.length ≤ 255 ∧ acc.length ≤ v.length := by
  intro n
  induction n with
  | zero =>
    intro p acc v p' hn hacc hlen h
    have : p = [] := List.eq_nil_of_length_eq_zero (by omega)
    subst this
    simp only [GetLiteralLoop, Except.ok.injEq, Prod.mk.injEq] at h
    rw [← h.1]
    exact ⟨hacc, hlen, Nat.le_refl _⟩
  | succ n ih =>
    intro p acc v p' hn hacc hlen h
    cases p with
    | nil =>
      simp only [GetLiteralLoop, Except.ok.injEq, Prod.mk.injEq] at h
      rw [← h.1]
      exact ⟨hacc, hlen, Nat.le_refl _⟩
    | cons c p =>
      rw [GetLiteralLoop_cons] at h
      split at h
      · rename_i hc
        split at h
        · rename_i he
          split at h
          · cases h
          · rename_i hl
            have hp : p.tail.length ≤ n := by
              simp only [List.length_cons, List.length_tail] at hn ⊢; omega
            have := ih p.tail (acc ++ [p.headD 0]) v p' hp (by
              intro x hx
              simp only [List.mem_append, List.mem_singleton] at hx
              rcases hx with hx | hx
              · exact hacc x hx
              · subst hx; omega) (by
              simp only [List.length_append, List.length_singleton] at hl ⊢; omega) h
            simp only [List.length_append, List.length_singleton] at this
            exact ⟨this.1, this.2.1, by omega⟩
        · split at h
          · cases h
          · rename_i hl
            have hp : p.length ≤ n := by
              simp only [List.length_cons] at hn; omega
            have := ih p (acc ++ [c]) v p' hp (by
              intro x hx
              simp only [List.mem_append, List.mem_singleton] at hx
              rcases hx with hx | hx
              · exact hacc x hx
              · subst hx; omega) (by
              simp only [List.length_append, List.length_singleton] at hl ⊢; omega) h
            simp only [List.length_append, List.length_singleton] at this
            exact ⟨this.1, this.2.1, by omega⟩
      · simp only [Except.ok.injEq, Prod.mk.injEq] at h
        rw [← h.1]
        exact ⟨hacc, hlen, Nat.le_refl _⟩

theorem GetLiteral_LitOk (bufLen line : Nat) (p v p' : List Nat) (off : Nat)
    (h : GetLiteral bufLen p line = .ok (v, off, p')) : LitOk v := by
  unfold GetLiteral at h
  split at h
  · cases h
  · split at h
    · cases h
    · split at h
      · cases h
      · rename_i ident q hloop
        split at h
        · cases h
        · split at h
          · cases h
          · rename_i hne
            simp only [Except.ok.injEq, Prod.mk.injEq] at h
            obtain ⟨rfl, _, _⟩ := h
            have := GetLiteralLoop_inv line _ _ [] _ _ (Nat.le_refl _) (by simp) (by simp) hloop
            exact ⟨fun e => hne (by rw [e]; rfl), this.2.1, this.1⟩

theorem mapFind_mem {β : Type} (m : List (List Nat × β)) (key : List Nat) (v : β)
    (h : mapFind m key = some v) : (key, v) ∈ m := by
  unfold mapFind at h
  cases hf : m.find? (fun kv => decide (kv.1 = key)) with
  | none => rw [hf] at h; cases h
  | some kv =>
    rw [hf] at h
    simp only [Option.map_some', Option.some.injEq] at h
    have hm := List.mem_of_find?_eq_some hf
    have hk := List.find?_some hf
    simp only [decide_eq_true_eq] at hk
    rw [← h, ← hk]
    exact hm

theorem mapFind_none {β : Type} (m : List (List Nat × β)) (key : List Nat)
    (h : mapFind m key = none) : key ∉ m.map Prod.fst := by
  unfold mapFind at h
  simp only [Option.map_eq_none', List.find?_eq_none, decide_eq_true_eq] at h
  intro hmem
  obtain ⟨kv, hkv, hk⟩ := List.mem_map.mp hmem
  exact h kv hkv hk

theorem GetLiteralOrSymbol_LitOk (consts : List (List Nat × List Nat)) (bufLen line : Nat)
    (p v p' : List Nat) (hc : ∀ kv ∈ consts, LitOk kv.2)
    (h : GetLiteralOrSymbol consts bufLen p line = .ok (v, p')) : LitOk v := by
  unfold GetLiteralOrSymbol at h
  simp only [] at h
  split at h
  · split at h
    · cases h
    · rename_i lit off q hl
      simp only [Except.ok.injEq, Prod.mk.injEq] at h
      rw [← h.1]
      exact GetLiteral_LitOk _ _ _ _ _ _ hl
  · split at h
    · cases h
    · split at h
      · cases h
      · rename_i val hf
        simp only [Except.ok.injEq, Prod.mk.injEq] at h
        rw [← h.1]
        exact hc _ (mapFind_mem _ _ _ hf)

theorem CAutoVersion.SameSetup.refl (s : CAutoVersion) : s.SameSetup s := ⟨rfl, rfl, rfl, rfl, rfl⟩

theorem CAutoVersion.SameSetup.trans {s t u : CAutoVersion} (h1 : s.SameSetup t) (h2 : t.SameSetup u) :
    s.SameSetup u :=
  ⟨h2.1.trans h1.1, h2.2.1.trans h1.2.1, h2.2.2.1.trans h1.2.2.1, h2.2.2.2.1.trans h1.2.2.2.1,
    h2.2.2.2.2.trans h1.2.2.2.2⟩

theorem ParseConstantDef_inv (s s' : CAutoVersion) (p p' : List Nat)
    (h : s.ParseConstantDef p = .ok p' s') (hs : s.Parsed) : s'.Parsed ∧ s.SameSetup s' := by
  unfold CAutoVersion.ParseConstantDef at h
  split at h
  · cases h
  · split at h
    · cases h
    · rename_i what q hl
      split at h
      · cases h
      · simp only [Res.ok.injEq] at h
        obtain ⟨_, rfl⟩ := h
        refine ⟨⟨hs.1, ?_, hs.2.2.1, hs.2.2.2⟩, CAutoVersion.SameSetup.refl _⟩
        intro kv hkv
        simp only [List.mem_append, List.mem_singleton] at hkv
        rcases hkv with hkv | hkv
        · exact hs.2.1 kv hkv
        · subst hkv
          exact GetLiteralOrSymbol_LitOk _ _ _ _ _ _ hs.2.1 hl

theorem addReplacement_keys (files : List (List Nat × CFileNode)) (name : List Nat)
    (r : CReplace) (h : (files.map Prod.fst).Nodup) :
    ((addReplacement files name r).map Prod.fst).Nodup := by
  unfold addReplacement
  split
  · have : (files.map (fun kv => if kv.1 = name then (kv.1, kv.2.Add r) else kv)).map Prod.fst
        = files.map Prod.fst := by
      rw [List.map_map]
      apply List.map_congr_left
      intro kv _
      simp only [Function.comp]
      split <;> rfl
    rw [this]; exact h
  · rename_i hnone
    rw [List.map_append, List.map_singleton]
    apply List.Nodup.append h (List.nodup_singleton _)
    intro x hx hx2
    simp only [List.mem_singleton] at hx2
    subst hx2
    exact mapFind_none _ _ hnone hx

theorem addReplacement_fresh (files : List (List Nat × CFileNode)) (name : List Nat)
    (r : CReplace) (hn : LitOk name) (hr : r.Fresh)
    (h : ∀ kv ∈ files, LitOk kv.1 ∧ kv.2.Fresh) :
    ∀ kv ∈ addReplacement files name r, LitOk kv.1 ∧ kv.2.Fresh := by
  unfold addReplacement
  split
  · intro kv hkv
    obtain ⟨kv0, hkv0, rfl⟩ := List.mem_map.mp hkv
    have h0 := h kv0 hkv0
    split
    · refine ⟨h0.1, h0.2.1, h0.2.2.1, ?_⟩
      intro x hx
      simp only [CFileNode.Add, List.mem_append, List.mem_singleton] at hx
      rcases hx with hx | hx
      · exact h0.2.2.2 x hx
      · subst hx; exact hr
    · exact h0
  · intro kv hkv
    simp only [List.mem_append, List.mem_singleton] at hkv
    rcases hkv with hkv | hkv
    · exact h kv hkv
    · subst hkv
      refine ⟨hn, rfl, rfl, ?_⟩
      intro x hx
      simp only [CFileNode.Add, CFileNode.new, List.nil_append, List.mem_singleton] at hx
      subst hx; exact hr

theorem ReadReplacement_fresh (s : CAutoVersion) (op : EReplaceOp) (p p' name : List Nat)
    (r : CReplace) (h : s.ReadReplacement op p = .ok (name, r, p')) (hs : s.Parsed) :
    LitOk name ∧ r.Fresh := by
  unfold CAutoVersion.ReadReplacement at h
  split at h
  · cases h
  · rename_i file_name o1 q1 hl1
    split at h
    · cases h
    · rename_i what offset q2 hl2
      split at h
      · cases h
      · split at h
        · cases h
        · split at h
          · cases h
          · split at h
            · cases h
            · rename_i with_ hf
              split at h
              · cases h
              · simp only [Except.ok.injEq, Prod.mk.injEq] at h
                obtain ⟨rfl, rfl, _⟩ := h
                exact ⟨GetLiteral_LitOk _ _ _ _ _ _ hl1, GetLiteral_LitOk _ _ _ _ _ _ hl2,
                  hs.2.1 _ (mapFind_mem _ _ _ hf), rfl, rfl⟩

theorem ParseReplacement_inv (s s' : CAutoVersion) (op : EReplaceOp) (p p' : List Nat)
    (h : s.ParseReplacement op p = .ok p' s') (hs : s.Parsed) :
    s'.Parsed ∧ s.SameSetup s' := by
  unfold CAutoVersion.ParseReplacement at h
  split at h
  · cases h
  · rename_i file_name replace q hr
    simp only [Res.ok.injEq] at h
    obtain ⟨_, rfl⟩ := h
    obtain ⟨hn, hf⟩ := ReadReplacement_fresh _ _ _ _ _ _ hr hs
    exact ⟨⟨hs.1, hs.2.1, addReplacement_fresh _ _ _ hn hf hs.2.2.1,
      addReplacement_keys _ _ _ hs.2.2.2⟩, CAutoVersion.SameSetup.refl _⟩

theorem ParseMessage_inv (s s' : CAutoVersion) (p p' : List Nat)
    (h : s.ParseMessage p = .ok p' s') (hs : s.Parsed) : s'.Parsed ∧ s.SameSetup s' := by
  unfold CAutoVersion.ParseMessage at h
  split at h
  · cases h
  · simp only [Res.ok.injEq] at h
    obtain ⟨_, rfl⟩ := h
    exact ⟨hs, CAutoVersion.SameSetup.refl _⟩

theorem ParseCommand_inv (s s' : CAutoVersion) (p p' : List Nat)
    (h : s.ParseCommand p = .ok p' s') (hs : s.Parsed) : s'.Parsed ∧ s.SameSetup s' := by
  unfold CAutoVersion.ParseCommand at h
  split at h
  · cases h
  · split at h
    · split at h
      · cases h
      · split at h
        · cases h
        · simp only [Res.ok.injEq] at h
          obtain ⟨_, rfl⟩ := h
          exact ⟨hs, CAutoVersion.SameSetup.refl _⟩
    · split at h
      · split at h
        · cases h
        · split at h
          · simp only [Res.ok.injEq] at h
            obtain ⟨_, rfl⟩ := h
            exact ⟨hs, CAutoVersion.SameSetup.refl _⟩
          · split at h
            · cases h
            · simp only [Res.ok.injEq] at h
              obtain ⟨_, rfl⟩ := h
              exact ⟨hs, CAutoVersion.SameSetup.refl _⟩
      · split at h
        · split at h
          · cases h
          · simp only [Res.ok.injEq] at h
            obtain ⟨_, rfl⟩ := h
            exact ⟨hs, CAutoVersion.SameSetup.refl _⟩
        · split at h
          · simp only [Res.ok.injEq] at h
            obtain ⟨_, rfl⟩ := h
            exact ⟨hs, CAutoVersion.SameSetup.refl _⟩
          · split at h
            · split at h
              · cases h
              · simp only [Res.ok.injEq] at h
                obtain ⟨_, rfl⟩ := h
                exact ⟨hs, CAutoVersion.SameSetup.refl _⟩
            · cases h

theorem ParseLine_inv (s s' : CAutoVersion) (p p' : List Nat)
    (h : s.ParseLine p = .ok p' s') (hs : s.Parsed) : s'.Parsed ∧ s.SameSetup s' := by
  unfold CAutoVersion.ParseLine at h
  split at h
  · cases h
  · rename_i q s1 hr
    have h1 : s1.Parsed ∧ s.SameSetup s1 := by
      unfold CAutoVersion.ParseDispatch at hr
      simp only [] at hr
      split at hr
      · split at hr
        · exact ParseConstantDef_inv _ _ _ _ hr hs
        · split at hr
          · exact ParseReplacement_inv _ _ _ _ _ hr hs
          · split at hr
            · exact ParseReplacement_inv _ _ _ _ _ hr hs
            · split at hr
              · exact ParseMessage_inv _ _ _ _ hr hs
              · split at hr
                · exact ParseCommand_inv _ _ _ _ hr hs
                · split at hr
                  · simp only [Res.ok.injEq] at hr
                    rw [← hr.2]; exact ⟨hs, CAutoVersion.SameSetup.refl _⟩
                  · cases hr
      · simp only [Res.ok.injEq] at hr
        rw [← hr.2]; exact ⟨hs, CAutoVersion.SameSetup.refl _⟩
    split at h
    · cases h
    · simp only [Res.ok.injEq] at h
      obtain ⟨_, rfl⟩ := h
      exact ⟨h1.1, h1.2⟩

theorem ParseLoop_inv : ∀ (fuel : Nat) (s s' : CAutoVersion) (p : List Nat),
    CAutoVersion.ParseLoop fuel s p = .ok () s' → s.Parsed → s'.Parsed ∧ s.SameSetup s' := by
  intro fuel
  induction fuel with
  | zero => intro s s' p h _; simp [CAutoVersion.ParseLoop] at h
  | succ fuel ih =>
    intro s s' p h hs
    unfold CAutoVersion.ParseLoop at h
    split at h
    · split at h
      · cases h
      · rename_i q s1 hl
        obtain ⟨h1, h2⟩ := ParseLine_inv _ _ _ _ hl hs
        obtain ⟨h3, h4⟩ := ih _ _ _ h h1
        exact ⟨h3, h2.trans h4⟩
    · simp only [Res.ok.injEq, true_and] at h
      rw [← h]; exact ⟨hs, CAutoVersion.SameSetup.refl _⟩

theorem init_Parsed (ctl : List Nat) (defines : List (List Nat)) (interactive : Bool) :
    (CAutoVersion.init ctl defines interactive).Parsed := by
  refine ⟨rfl, ?_, ?_, ?_⟩
  · intro kv hkv; simp [CAutoVersion.init, CAutoVersion.new] at hkv
  · intro kv hkv; simp [CAutoVersion.init, CAutoVersion.new] at hkv
  · simp [CAutoVersion.init, CAutoVersion.new]

theorem ParseControlFile_inv (s s' : CAutoVersion) (fs : FS)
    (h : s.ParseControlFile fs = .ok () s') (hs : s.Parsed) :
    s'.Parsed ∧ s'.m_bInteractive = s.m_bInteractive ∧
      s'.m_strControlFile = s.m_strControlFile ∧ s'.m_setDefines = s.m_setDefines ∧
      fs s.m_strControlFile = some s'.m_pBuffer := by
  unfold CAutoVersion.ParseControlFile at h
  split at h
  · cases h
  · rename_i content hc
    obtain ⟨h1, h2⟩ := ParseLoop_inv _ _ _ _ h hs
    exact ⟨h1, h2.1, h2.2.1, h2.2.2.2.1, by rw [hc, h2.2.2.2.2]⟩

/-! ## The verify phase -/

theorem LitOk.noNul {s : List Nat} (h : LitOk s) : NoNul s := fun c hc => (h.2.2 c hc).1

theorem CheckReplaceAll_none (file_name buf : List Nat) :
    ∀ (rs rs' : List CReplace) (m m' : Bool),
      CheckReplaceAll file_name buf rs m = (rs', m', none) →
      ∀ r ∈ rs, NoNul r.m_strWhat → r.m_strWhat <:+: buf := by
  intro rs
  induction rs with
  | nil => intro rs' m m' _ r hr; cases hr
  | cons r0 rs ih =>
    intro rs' m m' h r hr hnul
    unfold CheckReplaceAll at h
    split at h
    · cases h
    · rename_i b r0' hc
      split at h
      rename_i rs2 m2 e2 hrec
      simp only [Prod.mk.injEq] at h
      obtain ⟨_, _, rfl⟩ := h
      rcases List.mem_cons.mp hr with rfl | hr
      · rw [CheckReplace_spec r file_name buf hnul] at hc
        by_contra hno
        rw [if_neg hno] at hc
        cases hc
      · exact ih _ _ _ hrec r hr hnul

theorem CheckReplaceAll_err (file_name buf : List Nat) :
    ∀ (rs rs' : List CReplace) (m m' : Bool) (e : Err),
      CheckReplaceAll file_name buf rs m = (rs', m', some e) →
      (∀ r ∈ rs, NoNul r.m_strWhat) → ∃ w, e = .notFound file_name w := by
  intro rs
  induction rs with
  | nil => intro rs' m m' e h; simp [CheckReplaceAll] at h
  | cons r0 rs ih =>
    intro rs' m m' e h hnul
    unfold CheckReplaceAll at h
    split at h
    · rename_i e0 hc
      simp only [Prod.mk.injEq, Option.some.injEq] at h
      obtain ⟨_, _, rfl⟩ := h
      rw [CheckReplace_spec r0 file_name buf (hnul r0 (List.mem_cons_self _ _))] at hc
      split at hc
      · split at hc <;> cases hc
      · simp only [Except.error.injEq] at hc
        exact ⟨_, hc.symm⟩
    · split at h
      rename_i rs2 m2 e2 hrec
      simp only [Prod.mk.injEq] at h
      obtain ⟨_, _, rfl⟩ := h
      exact ih _ _ _ _ hrec (fun r hr => hnul r (List.mem_cons_of_mem _ hr))

theorem CheckReplacements_did (n : CFileNode) (fs : FS) (file_name : List Nat) :
    (n.CheckReplacements fs file_name).state.m_bDidReplace = n.m_bDidReplace := by
  unfold CFileNode.CheckReplacements
  simp only []
  split
  · rfl
  · split
    · rfl
    · split <;> rfl

theorem CheckAll_did (basePath : List Nat) (fs : FS) :
    ∀ (files : List (List Nat × CFileNode)) (has : Bool),
      (∀ kv ∈ files, kv.2.m_bDidReplace = false) →
      ∀ kv ∈ (CheckAll basePath fs files has).1, kv.2.m_bDidReplace = false := by
  intro files
  induction files with
  | nil => intro has _ kv hkv; simp [CheckAll] at hkv
  | cons f files ih =>
    intro has h kv hkv
    obtain ⟨name, n⟩ := f
    have hn := CheckReplacements_did n fs (basePath ++ [92] ++ name)
    unfold CheckAll at hkv
    split at hkv
    · rename_i e n' hc
      rw [hc] at hn
      simp only [List.mem_cons] at hkv
      rcases hkv with rfl | hkv
      · exact hn.trans (h _ (List.mem_cons_self _ _))
      · exact h _ (List.mem_cons_of_mem _ hkv)
    · rename_i b n' hc
      rw [hc] at hn
      split at hkv
      rename_i rest' has' e' hrec
      simp only [List.mem_cons] at hkv
      rcases hkv with rfl | hkv
      · exact hn.trans (h _ (List.mem_cons_self _ _))
      · have := ih (if b then true else has) (fun kv hkv => h kv (List.mem_cons_of_mem _ hkv)) kv
        rw [hrec] at this
        exact this hkv

theorem RescueAll_none (basePath : List Nat) :
    ∀ (files : List (List Nat × CFileNode)) (fs : FS),
      (∀ kv ∈ files, kv.2.m_bDidReplace = false) → RescueAll basePath files fs = fs := by
  intro files
  induction files with
  | nil => intro fs _; rfl
  | cons f files ih =>
    intro fs h
    obtain ⟨name, n⟩ := f
    have hn : n.m_bDidReplace = false := h (name, n) (List.mem_cons_self _ _)
    unfold RescueAll
    rw [show n.Rollback fs (basePath ++ [92] ++ name) = fs by
      simp [CFileNode.Rollback, hn]]
    exact ih fs (fun kv hkv => h kv (List.mem_cons_of_mem _ hkv))

/-- The verify phase throws when some directive of some record is not found. -/
theorem CheckAll_fails (basePath : List Nat) (fs : FS) :
    ∀ (files : List (List Nat × CFileNode)) (has : Bool),
      (∃ name node r, (name, node) ∈ files ∧ r ∈ node.m_listReplacements ∧
        NoNul r.m_strWhat ∧
        ∀ T, fs (basePath ++ [92] ++ name) = some T → ¬ r.m_strWhat <:+: T) →
      ∃ e, (CheckAll basePath fs files has).2.2 = some e := by
  intro files
  induction files with
  | nil => intro has ⟨_, _, _, h, _⟩; cases h
  | cons f files ih =>
    intro has ⟨name, node, r, hmem, hr, hnul, hbad⟩
    obtain ⟨name0, n0⟩ := f
    unfold CheckAll
    split
    · exact ⟨_, rfl⟩
    · rename_i b n' hc
      split
      rename_i rest' has' e' hrec
      rcases List.mem_cons.mp hmem with heq | hmem
      · simp only [Prod.mk.injEq] at heq
        obtain ⟨rfl, rfl⟩ := heq
        exfalso
        unfold CFileNode.CheckReplacements at hc
        simp only [] at hc
        split at hc
        · cases hc
        · split at hc
          · cases hc
          · rename_i buf hbuf
            split at hc
            · cases hc
            · rename_i rs m hall
              exact hbad buf hbuf (CheckReplaceAll_none _ _ _ _ _ _ hall r hr hnul)
      · have := ih (if b then true else has) ⟨name, node, r, hmem, hr, hnul, hbad⟩
        rw [hrec] at this
        exact this

/-- With every target present and no backup in the way, the verify phase can only throw
the not-found error. -/
theorem CheckAll_err (basePath : List Nat) (fs : FS) :
    ∀ (files : List (List Nat × CFileNode)) (has : Bool) (e : Err),
      (CheckAll basePath fs files has).2.2 = some e →
      (∀ kv ∈ files, fs (basePath ++ [92] ++ kv.1 ++ avbak) = none ∧
        (fs (basePath ++ [92] ++ kv.1)).isSome = true ∧
        ∀ r ∈ kv.2.m_listReplacements, NoNul r.m_strWhat) →
      ∃ f w, e = .notFound f w := by
  intro files
  induction files with
  | nil => intro has e h; simp [CheckAll] at h
  | cons f files ih =>
    intro has e h hall
    obtain ⟨name0, n0⟩ := f
    obtain ⟨hbak, hex, hnul⟩ := hall (name0, n0) (List.mem_cons_self _ _)
    unfold CheckAll at h
    split at h
    · rename_i e0 n' hc
      simp only [Option.some.injEq] at h
      subst h
      unfold CFileNode.CheckReplacements at hc
      simp only [] at hc
      split at hc
      · rename_i x hx
        rw [hbak] at hx; cases hx
      · split at hc
        · rename_i hx
          simp only [] at hex
          rw [hx] at hex; cases hex
        · split at hc
          · rename_i rs m e1 hr
            simp only [Res.throw.injEq] at hc
            obtain ⟨w, hw⟩ := CheckReplaceAll_err _ _ _ _ _ _ _ hr hnul
            exact ⟨_, w, hc.1 ▸ hw⟩
          · cases hc
    · rename_i b n' hc
      split at h
      rename_i rest' has' e' hrec
      simp only [] at h
      have := ih (if b then true else has) e (by rw [hrec]; exact h)
        (fun kv hkv => hall kv (List.mem_cons_of_mem _ hkv))
      exact this

theorem Replace_fails_in_check (s0 s : CAutoVersion) (fs : FS) (key : Nat)
    (hparse : s0.ParseControlFile fs = .ok () s) (e : Err)
    (hcheck : (CheckAll s.m_strBasePath fs s.m_mapFiles false).2.2 = some e) :
    s0.Replace fs key =
      .throw e ({ s with m_mapFiles := (CheckAll s.m_strBasePath fs s.m_mapFiles false).1 }, fs) := by
  unfold CAutoVersion.Replace
  rw [hparse]
  simp only []
  split
  · rename_i files has e' hc
    rw [hc] at hcheck
    simp only [Option.some.injEq] at hcheck
    rw [hc, hcheck]
  · rename_i files has hc
    rw [hc] at hcheck
    cases hcheck

/-- C4 (amended). Two-phase atomicity: when the control file parses and some directive's
`what` does not occur in its target file, `Replace` throws and leaves every file as it
was, and the rescue rollback that `main` then runs changes nothing either: the contents
of every target file and of the control file and the set of existing backups are those
from before the run.  The error is the not-found error when every target file exists
and none has a backup next to it. -/
theorem C4_failed_verification_is_atomic (ctl : List Nat) (defines : List (List Nat))
    (interactive : Bool) (key : Nat) (fs : FS) (s : CAutoVersion)
    (hparse : (CAutoVersion.init ctl defines interactive).ParseControlFile fs = .ok () s)
    (hbad : ∃ name node r, (name, node) ∈ s.m_mapFiles ∧ r ∈ node.m_listReplacements ∧
      ∀ T, fs (s.fname name) = some T → ¬ r.m_strWhat <:+: T) :
    ∃ e s', (CAutoVersion.init ctl defines interactive).Replace fs key = .throw e (s', fs) ∧
      mainReplace ctl defines interactive key fs = (some e, fs) ∧
      ((∀ kv ∈ s.m_mapFiles, fs (s.fname kv.1 ++ avbak) = none ∧
          (fs (s.fname kv.1)).isSome = true) → ∃ f w, e = .notFound f w) := by
  obtain ⟨hP, _, _, _, _⟩ := ParseControlFile_inv _ _ _ hparse (init_Parsed _ _ _)
  obtain ⟨name, node, r, hmem, hr, hno⟩ := hbad
  have hnul : NoNul r.m_strWhat := ((hP.2.2.1 _ hmem).2.2.2 r hr).1.noNul
  obtain ⟨e, he⟩ := CheckAll_fails s.m_strBasePath fs s.m_mapFiles false
    ⟨name, node, r, hmem, hr, hnul, hno⟩
  have hrep := Replace_fails_in_check _ s fs key hparse e he
  refine ⟨e, _, hrep, ?_, ?_⟩
  · unfold mainReplace
    rw [hrep]
    simp only [CAutoVersion.RescueRollback, hP.1, Bool.false_eq_true, if_false]
    rw [RescueAll_none]
    exact CheckAll_did _ _ _ _ (fun kv hkv => (hP.2.2.1 kv hkv).2.2.1)
  · intro hall
    apply CheckAll_err s.m_strBasePath fs s.m_mapFiles false e he
    intro kv hkv
    have := hall kv hkv
    simp only [CAutoVersion.fname] at this
    exact ⟨this.1, this.2, fun r hr => ((hP.2.2.1 kv hkv).2.2.2 r hr).1.noNul⟩

/-- C4 on the scenario with `app.h` holding `"3.0"`: the run fails with the not-found
error for `"1.9"`. -/
theorem C4_failed_verification_is_atomic_witness :
    (mainReplace (bytes "ctl") [] false 0 fsMismatch).1
      = some (.notFound (bytes "\\app.h") (bytes "1.9")) ∧
    ∃ e s', (CAutoVersion.init (bytes "ctl") [] false).Replace fsMismatch 0
        = .throw e (s', fsMismatch) ∧
      mainReplace (bytes "ctl") [] false 0 fsMismatch = (some e, fsMismatch) ∧
      ((∀ kv ∈ ((CAutoVersion.init (bytes "ctl") [] false).ParseControlFile
            fsMismatch).state.m_mapFiles,
          fsMismatch (((CAutoVersion.init (bytes "ctl") [] false).ParseControlFile
            fsMismatch).state.fname kv.1 ++ avbak) = none ∧
          (fsMismatch (((CAutoVersion.init (bytes "ctl") [] false).ParseControlFile
            fsMismatch).state.fname kv.1)).isSome = true) → ∃ f w, e = .notFound f w) :=
  ⟨by decide,
   C4_failed_verification_is_atomic (bytes "ctl") [] false 0 fsMismatch
     ((CAutoVersion.init (bytes "ctl") [] false).ParseControlFile fsMismatch).state
     (by decide)
     ⟨bytes "app.h", CFileNode.new.Add dirV, dirV, by decide, by decide, by
        intro T hT
        have h : T = bytes "#define VER \"3.0\"" := by
          have h2 : fsMismatch (((CAutoVersion.init (bytes "ctl") [] false).ParseControlFile
              fsMismatch).state.fname (bytes "app.h")) = some (bytes "#define VER \"3.0\"") := by
            decide
          rw [h2] at hT
          exact (Option.some.inj hT).symm
        subst h
        decide⟩⟩

/-- C4 as stated fails: in the mismatch scenario with a backup of `app.h` left over,
`"1.9"` does not occur in `app.h`, the control file parses, and the run ends with the
error that the backup already exists, not with the not-found error. -/
theorem C4_counterexample_stale_backup :
    ((CAutoVersion.init (bytes "ctl") [] false).ParseControlFile fsStale).err = none ∧
    fsStale (bytes "\\app.h") = some (bytes "#define VER \"3.0\"") ∧
    ¬ (bytes "1.9" <:+: bytes "#define VER \"3.0\"") ∧
    (mainReplace (bytes "ctl") [] false 0 fsStale).1
      = some (.backupExists (bytes "\\app.h.avbak")) ∧
    ∀ f w, (mainReplace (bytes "ctl") [] false 0 fsStale).1 ≠ some (.notFound f w) := by
  have h : (mainReplace (bytes "ctl") [] false 0 fsStale).1
      = some (.backupExists (bytes "\\app.h.avbak")) := by decide
  refine ⟨by decide, by decide, by decide, h, ?_⟩
  intro f w hfw
  rw [h] at hfw
  cases hfw

/-! ## One directive, end to end -/

theorem enc_ne_nil {s : List Nat} (h : s ≠ []) : enc s ≠ [] := by
  cases s with
  | nil => exact absurd rfl h
  | cons c s =>
    rw [enc_cons]
    unfold escapeByte
    split
    · simp
    · split <;> simp

theorem append_avbak_ne (p : List Nat) : p ++ avbak ≠ p := by
  intro h
  have := congrArg List.length h
  simp [avbak] at this

theorem rewrite_single (name : List Nat) (n : CFileNode) (r : CReplace) (B : List Nat)
    (hn : n.m_listReplacements = [r]) (hd : r.m_bDidReplace = true)
    (hne : r.m_strWhat ≠ []) (hcanon : enc r.m_strWhat <+: B.drop r.m_nControlFilePos) :
    rewriteControlBuffer [(name, n)] B =
      .ok (B.take r.m_nControlFilePos ++ enc r.m_strWith ++
            B.drop (r.m_nControlFilePos + (enc r.m_strWhat).length)) := by
  have hc : collectReplacements [(name, n)] = [r] := by
    simp [collectReplacements, hn]
  have ha : activeReplacements [r] = [r] := by simp [activeReplacements, hd]
  have hpos : 0 < (enc r.m_strWhat).length := List.length_pos.mpr (enc_ne_nil hne)
  have hlen : r.m_nControlFilePos + (enc r.m_strWhat).length ≤ B.length := by
    have := hcanon.length_le
    rw [List.length_drop] at this
    omega
  have hok : RangesOk B (collectReplacements [(name, n)]) := by
    rw [hc]
    refine ⟨by simp [ha], ?_, by simp [ha]⟩
    intro x hx
    rw [ha, List.mem_singleton] at hx
    subst hx
    exact ⟨hlen, hcanon⟩
  rw [rewriteControlBuffer_ok _ _ hok, hc]
  have hs : sortReplacements [r] = [r] := by simp [sortReplacements]
  rw [hs, ha]
  simp [spliceFrom, CReplace.edit]

/-- C5 (amended). End-to-end replace for a control file that parses to one file record
with one directive, written with its `what` literal in the encoding the rewrite produces
(the buffer holds the encoded `what` at the recorded offset), whose target is a file
other than the control file and holds `what`, with `what` different from the constant's
value, no backup present and the run confirmed: `Replace` returns, and afterwards (1) the
target holds its original bytes with every leftmost non-overlapping occurrence of `what`
replaced by `with`, (2) the target's backup holds the original target, (3) the control
file holds its original bytes with the range of the `what` literal replaced by the
encoded `with`, and (4) the control file's backup holds the original control file. -/
theorem C5_replace_end_to_end (ctl : List Nat) (defines : List (List Nat))
    (interactive : Bool) (key : Nat) (fs : FS) (s : CAutoVersion)
    (B T name : List Nat) (r : CReplace)
    (hparse : (CAutoVersion.init ctl defines interactive).ParseControlFile fs = .ok () s)
    (hfiles : s.m_mapFiles = [(name, CFileNode.new.Add r)])
    (hB : fs ctl = some B) (hT : fs (s.fname name) = some T)
    (hocc : r.m_strWhat <:+: T) (hne : r.m_strWhat ≠ r.m_strWith)
    (hbak1 : fs (s.fname name ++ avbak) = none) (hbak2 : fs (ctl ++ avbak) = none)
    (hconf : ¬ (interactive = true ∧ key = 110))
    (hcanon : enc r.m_strWhat <+: B.drop r.m_nControlFilePos)
    (halias : s.fname name ≠ ctl) :
    ∃ s' fs', (CAutoVersion.init ctl defines interactive).Replace fs key = .ok () (s', fs') ∧
      fs' (s.fname name) = some (onePass r.m_strWhat r.m_strWith T) ∧
      fs' (s.fname name ++ avbak) = some T ∧
      fs' ctl = some (B.take r.m_nControlFilePos ++ enc r.m_strWith ++
                        B.drop (r.m_nControlFilePos + (enc r.m_strWhat).length)) ∧
      fs' (ctl ++ avbak) = some B := by
  obtain ⟨hP, hint, hctl, _, hbuf⟩ := ParseControlFile_inv _ _ _ hparse (init_Parsed _ _ _)
  have hctl' : s.m_strControlFile = ctl := hctl
  have hint' : s.m_bInteractive = interactive := hint
  have hfresh : r.Fresh := by
    have := (hP.2.2.1 (name, CFileNode.new.Add r) (by rw [hfiles]; simp)).2.2.2
    exact this r (by simp [CFileNode.Add, CFileNode.new])
  obtain ⟨hwhat, _, hmust, hdid⟩ := hfresh
  have hnul : NoNul r.m_strWhat := hwhat.noNul
  -- verify
  have hcr : r.CheckReplace (s.fname name) T = .ok (true, { r with m_bMustReplace := true }) := by
    rw [CheckReplace_spec r _ T hnul, if_pos hocc, if_neg hne]
  have hcheck : CheckAll s.m_strBasePath fs s.m_mapFiles false =
      ([(name, { m_listReplacements := [{ r with m_bMustReplace := true }],
                 m_bMustReplace := true, m_bDidReplace := false })], true, none) := by
    have hT' : fs (s.m_strBasePath ++ [92] ++ name) = some T := hT
    have hb' : fs (s.m_strBasePath ++ [92] ++ name ++ avbak) = none := hbak1
    have hcr' : r.CheckReplace (s.m_strBasePath ++ [92] ++ name) T
        = .ok (true, { r with m_bMustReplace := true }) := hcr
    rw [hfiles]
    simp only [CheckAll, CFileNode.CheckReplacements, hb', hT', CFileNode.Add, CFileNode.new,
      List.nil_append, CheckReplaceAll, hcr', if_true]
  -- apply
  have hdr := DoReplace_spec { r with m_bMustReplace := true } T rfl hwhat.1 hnul
  simp only [] at hdr
  have hdo : DoAll s.m_strBasePath
      [(name, { m_listReplacements := [{ r with m_bMustReplace := true }],
                m_bMustReplace := true, m_bDidReplace := false })] fs =
      ([(name, { m_listReplacements :=
                   [{ r with m_bMustReplace := true, m_bDidReplace := true }],
                 m_bMustReplace := true, m_bDidReplace := true })],
       (fs.write (s.fname name ++ avbak) T).write (s.fname name)
         (onePass r.m_strWhat r.m_strWith T), none) := by
    have hT' : fs (s.m_strBasePath ++ [92] ++ name) = some T := hT
    simp only [DoAll, CFileNode.DoReplacments, if_true, hT', DoReplaceAll, hdr, Backup,
      CAutoVersion.fname]
  -- the control file is untouched by the apply phase
  have hne1 : ctl ≠ s.fname name := fun h => halias h.symm
  have hne2 : ctl ≠ s.fname name ++ avbak := by
    intro h; rw [h, hbak1] at hB; cases hB
  have hne3 : s.fname name ≠ ctl ++ avbak := by
    intro h; rw [h, hbak2] at hT; cases hT
  have hne4 : s.fname name ++ avbak ≠ ctl ++ avbak := by
    intro h; exact halias (List.append_cancel_right h)
  have hB2 : ((fs.write (s.fname name ++ avbak) T).write (s.fname name)
      (onePass r.m_strWhat r.m_strWith T)) ctl = some B := by
    simp only [FS.write, if_neg hne1, if_neg hne2, hB]
  have hrw := rewrite_single name
    { m_listReplacements := [{ r with m_bMustReplace := true, m_bDidReplace := true }],
      m_bMustReplace := true, m_bDidReplace := true }
    { r with m_bMustReplace := true, m_bDidReplace := true } B rfl rfl hwhat.1 hcanon
  simp only [] at hrw
  have hrep : ∃ s', (CAutoVersion.init ctl defines interactive).Replace fs key =
      .ok () (s', ((((fs.write (s.fname name ++ avbak) T).write (s.fname name)
        (onePass r.m_strWhat r.m_strWith T)).write (ctl ++ avbak) B).write ctl
        (B.take r.m_nControlFilePos ++ enc r.m_strWith ++
          B.drop (r.m_nControlFilePos + (enc r.m_strWhat).length)))) := by
    unfold CAutoVersion.Replace
    rw [hparse]
    simp only [hcheck, hint', true_and, hconf, not_false_eq_true, if_true, hdo]
    unfold CAutoVersion.UpdateControlFile
    simp only [hctl', hB2, hrw, Backup]
    exact ⟨_, rfl⟩
  obtain ⟨s', hs'⟩ := hrep
  refine ⟨s', _, hs', ?_, ?_, ?_, ?_⟩
  · simp only [FS.write, if_neg halias, if_neg hne3, if_true]
  · simp only [FS.write, if_neg hne2.symm, if_neg hne4, if_neg (append_avbak_ne _), if_true]
  · simp only [FS.write, if_true]
  · simp only [FS.write, if_neg (append_avbak_ne ctl), if_true]

/-- C5 on the scenario: `app.h` becomes `#define VER "2.0"`, the control file holds
`&"app.h" "2.0" @V`, and both backups hold the original bytes. -/
theorem C5_replace_end_to_end_witness :
    (((CAutoVersion.init (bytes "ctl") [] false).Replace fsScenario 0).err = none ∧
     ((CAutoVersion.init (bytes "ctl") [] false).Replace fsScenario 0).state.2 (bytes "\\app.h")
        = some (bytes "#define VER \"2.0\"") ∧
     ((CAutoVersion.init (bytes "ctl") [] false).Replace fsScenario 0).state.2
        (bytes "\\app.h.avbak") = some (bytes "#define VER \"1.9\"") ∧
     ((CAutoVersion.init (bytes "ctl") [] false).Replace fsScenario 0).state.2 (bytes "ctl")
        = some (bytes "@V \"2.0\"\n&\"app.h\" \"2.0\" @V\n") ∧
     ((CAutoVersion.init (bytes "ctl") [] false).Replace fsScenario 0).state.2
        (bytes "ctl.avbak") = some ctlScenario) ∧
    ∃ s' fs', (CAutoVersion.init (bytes "ctl") [] false).Replace fsScenario 0 = .ok () (s', fs') ∧
      fs' (((CAutoVersion.init (bytes "ctl") [] false).ParseControlFile fsScenario).state.fname
          (bytes "app.h"))
        = some (onePass dirV.m_strWhat dirV.m_strWith (bytes "#define VER \"1.9\"")) ∧
      fs' (((CAutoVersion.init (bytes "ctl") [] false).ParseControlFile fsScenario).state.fname
          (bytes "app.h") ++ avbak) = some (bytes "#define VER \"1.9\"") ∧
      fs' (bytes "ctl") = some (ctlScenario.take dirV.m_nControlFilePos ++ enc dirV.m_strWith ++
          ctlScenario.drop (dirV.m_nControlFilePos + (enc dirV.m_strWhat).length)) ∧
      fs' (bytes "ctl" ++ avbak) = some ctlScenario :=
  ⟨by decide,
   C5_replace_end_to_end (bytes "ctl") [] false 0 fsScenario
     ((CAutoVersion.init (bytes "ctl") [] false).ParseControlFile fsScenario).state
     ctlScenario (bytes "#define VER \"1.9\"") (bytes "app.h") dirV
     (by decide) (by decide) (by decide) (by decide) (by decide) (by decide) (by decide)
     (by decide) (by decide) (by decide) (by decide)⟩

/-- C5 as stated fails on two counts.  First, the control file `ctlAlias` consists of
one constant definition and one text directive whose target is the control file itself;
`ab` occurs in it and differs from the constant's value `b`, no backup exists, and
`Replace` returns normally, yet the control file's backup is not the original control
file and the control file is not the original with the `what` literal replaced.
Second, on `ctlQuote` the constant's value `a"b` holds a double quote and the rewritten
control file carries its encoding `a\"b`, not the value itself, in place of the `what`
literal. -/
theorem C5_counterexample_alias_and_encoding :
    (((CAutoVersion.init (bytes "\\c") [] false).ParseControlFile fsAlias).state.m_mapConstantDefs
        = [(bytes "aabababab", bytes "b")] ∧
     ((CAutoVersion.init (bytes "\\c") [] false).ParseControlFile fsAlias).state.m_mapFiles
        = [(bytes "c", CFileNode.new.Add (CReplace.new .enRoText (bytes "ab") (bytes "b") 21))] ∧
     fsAlias (bytes "\\c") = some ctlAlias ∧ bytes "ab" <:+: ctlAlias ∧
     fsAlias (bytes "\\c.avbak") = none ∧
     ((CAutoVersion.init (bytes "\\c") [] false).Replace fsAlias 0).err = none ∧
     ((CAutoVersion.init (bytes "\\c") [] false).Replace fsAlias 0).state.2 (bytes "\\c.avbak")
        = some (bytes "@abbbb \"b\"\n&\"c\" \"b\" @abbbb\n") ∧
     ((CAutoVersion.init (bytes "\\c") [] false).Replace fsAlias 0).state.2 (bytes "\\c.avbak")
        ≠ some ctlAlias ∧
     ((CAutoVersion.init (bytes "\\c") [] false).Replace fsAlias 0).state.2 (bytes "\\c")
        = some (bytes "@abbbb \"b\"\n&\"c\" \"b\" @bbbb\n") ∧
     ((CAutoVersion.init (bytes "\\c") [] false).Replace fsAlias 0).state.2 (bytes "\\c")
        ≠ some (bytes "@aabababab \"b\"\n&\"c\" \"b\" @aabababab\n")) ∧
    (((CAutoVersion.init (bytes "ctl") [] false).ParseControlFile fsQuote).state.m_mapConstantDefs
        = [(bytes "V", bytes "a\"b")] ∧
     ((CAutoVersion.init (bytes "ctl") [] false).Replace fsQuote 0).err = none ∧
     ((CAutoVersion.init (bytes "ctl") [] false).Replace fsQuote 0).state.2 (bytes "ctl")
        = some (bytes "@V \"a\\\"b\"\n&\"f\" \"a\\\"b\" @V\n") ∧
     ((CAutoVersion.init (bytes "ctl") [] false).Replace fsQuote 0).state.2 (bytes "ctl")
        ≠ some (bytes "@V \"a\\\"b\"\n&\"f\" \"a\"b\" @V\n")) := by
  decide

/-! ## The scanner reads only what it consumes, plus a short look-ahead -/

theorem headD_append_congr (c r r2 : List Nat) (h : r2.headD 0 = r.headD 0) :
    (c ++ r2).headD 0 = (c ++ r).headD 0 := by
  cases c with
  | nil => simpa using h
  | cons a c => rfl

theorem Agree.same (r : List Nat) : Agree r r := rfl

theorem Agree.head {r r2 : List Nat} (h : Agree r r2) : r2.headD 0 = r.headD 0 := by
  unfold Agree at h
  cases r with
  | nil =>
    cases r2 with
    | nil => rfl
    | cons b r2 =>
      simp only [List.nil_append, List.cons_append, List.take_succ_cons, List.cons.injEq] at h
      simp [h.1]
  | cons a r =>
    cases r2 with
    | nil =>
      simp only [List.nil_append, List.cons_append, List.take_succ_cons, List.cons.injEq] at h
      simp [h.1]
    | cons b r2 =>
      simp only [List.cons_append, List.take_succ_cons, List.cons.injEq] at h
      simp [h.1]

theorem Agree.append (c : List Nat) {r r2 : List Nat} (h : Agree r r2) :
    Agree (c ++ r) (c ++ r2) := by
  unfold Agree at h ⊢
  have a1 : List.take 5 (c ++ (r ++ [0]))
      = List.take 5 c ++ List.take (5 - c.length) (r ++ [0]) := List.take_append_eq_append_take
  have a2 : List.take 5 (c ++ (r2 ++ [0]))
      = List.take 5 c ++ List.take (5 - c.length) (r2 ++ [0]) := List.take_append_eq_append_take
  have e1 : List.take (5 - c.length) (r ++ [0])
      = List.take (5 - c.length) (List.take 5 (r ++ [0])) := by
    rw [List.take_take]; congr 1; omega
  have e2 : List.take (5 - c.length) (r2 ++ [0])
      = List.take (5 - c.length) (List.take 5 (r2 ++ [0])) := by
    rw [List.take_take]; congr 1; omega
  rw [List.append_assoc, List.append_assoc, a1, a2, e1, e2, h]

theorem strncmp_take : ∀ (n : Nat) (a b : List Nat), strncmp a b n = strncmp (a.take n) b n := by
  intro n
  induction n with
  | zero => intro a b; simp [strncmp]
  | succ n ih =>
    intro a b
    cases a with
    | nil => simp [strncmp]
    | cons x a =>
      simp only [List.take_succ_cons, strncmp]
      rw [ih a b.tail]

theorem Agree.strncmp {r r2 : List Nat} (h : Agree r r2) (tok : List Nat) (n : Nat)
    (hn : n ≤ 5) : strncmp (r ++ [0]) tok n = strncmp (r2 ++ [0]) tok n := by
  unfold Agree at h
  rw [strncmp_take n (r ++ [0]), strncmp_take n (r2 ++ [0])]
  have e1 : List.take n (r ++ [0]) = List.take n (List.take 5 (r ++ [0])) := by
    rw [List.take_take]; congr 1; omega
  have e2 : List.take n (r2 ++ [0]) = List.take n (List.take 5 (r2 ++ [0])) := by
    rw [List.take_take]; congr 1; omega
  rw [e1, e2, h]

/-! ### SkipWhiteSpaces -/

theorem SkipWhiteSpaces_stop (r : List Nat) (h : r.headD 0 ≠ 32 ∧ r.headD 0 ≠ 9) :
    SkipWhiteSpaces r = r := by
  cases r with
  | nil => rfl
  | cons a r =>
    simp only [List.headD_cons] at h
    rw [SkipWhiteSpaces, if_neg (by omega)]

theorem SkipWhiteSpaces_local (p : List Nat) :
    ∃ c, p = c ++ SkipWhiteSpaces p ∧
      ((SkipWhiteSpaces p).headD 0 ≠ 32 ∧ (SkipWhiteSpaces p).headD 0 ≠ 9) ∧
      ∀ r2, r2.headD 0 = (SkipWhiteSpaces p).headD 0 → SkipWhiteSpaces (c ++ r2) = r2 := by
  induction p with
  | nil =>
    refine ⟨[], rfl, by simp [SkipWhiteSpaces], ?_⟩
    intro r2 h
    simp only [SkipWhiteSpaces, List.headD_nil] at h
    exact SkipWhiteSpaces_stop r2 (by rw [h]; omega)
  | cons a p ih =>
    by_cases ha : a = 32 ∨ a = 9
    · obtain ⟨c, hc, hh, hl⟩ := ih
      have e : SkipWhiteSpaces (a :: p) = SkipWhiteSpaces p := by
        rw [SkipWhiteSpaces, if_pos ha]
      rw [e]
      refine ⟨a :: c, by rw [List.cons_append, ← hc], hh, ?_⟩
      intro r2 h
      rw [List.cons_append, SkipWhiteSpaces, if_pos ha]
      exact hl r2 h
    · have e : SkipWhiteSpaces (a :: p) = a :: p := by
        rw [SkipWhiteSpaces, if_neg ha]
      rw [e]
      refine ⟨[], rfl, by simp only [List.headD_cons]; omega, ?_⟩
      intro r2 h
      simp only [List.headD_cons] at h
      exact SkipWhiteSpaces_stop r2 (by rw [h]; omega)

/-! ### SkipComment -/

theorem SkipComment_local (p : List Nat) :
    ∃ c, p = c ++ SkipComment p ∧
      ∀ r2, r2.headD 0 = (SkipComment p).headD 0 → SkipComment (c ++ r2) = r2 := by
  have stop : ∀ r : List Nat, (r.headD 0 = 0 ∨ r.headD 0 = 10 ∨ r.headD 0 = 13) →
      SkipComment r = r := by
    intro r h
    cases r with
    | nil => rfl
    | cons a r =>
      simp only [List.headD_cons] at h
      rw [SkipComment, if_neg (by omega)]
  induction p with
  | nil =>
    refine ⟨[], rfl, ?_⟩
    intro r2 h
    simp only [SkipComment, List.headD_nil] at h
    exact stop r2 (Or.inl h)
  | cons a p ih =>
    by_cases ha : a ≠ 0 ∧ a ≠ 10 ∧ a ≠ 13
    · obtain ⟨c, hc, hl⟩ := ih
      have e : SkipComment (a :: p) = SkipComment p := by
        rw [SkipComment, if_pos ha]
      rw [e]
      refine ⟨a :: c, by rw [List.cons_append, ← hc], ?_⟩
      intro r2 h
      rw [List.cons_append, SkipComment, if_pos ha]
      exact hl r2 h
    · have e : SkipComment (a :: p) = a :: p := by
        rw [SkipComment, if_neg ha]
      rw [e]
      refine ⟨[], rfl, ?_⟩
      intro r2 h
      simp only [List.headD_cons] at h
      exact stop r2 (by rw [h]; omega)

/-! ### SkipLine -/

theorem SkipLineLoop_stop (b : Bool) (line : Nat) (r : List Nat) (ic : Bool)
    (h : r.headD 0 = 0 ∨ r.headD 0 = 10 ∨ r.headD 0 = 13) :
    SkipLineLoop b line r ic = .ok r := by
  cases r with
  | nil => rfl
  | cons a r =>
    simp only [List.headD_cons] at h
    rw [SkipLineLoop, if_neg (by omega)]

theorem SkipLineLoop_local (b : Bool) (line : Nat) :
    ∀ (p : List Nat) (ic : Bool) (r : List Nat), SkipLineLoop b line p ic = .ok r →
      ∃ c, p = c ++ r ∧ (r.headD 0 = 0 ∨ r.headD 0 = 10 ∨ r.headD 0 = 13) ∧
        ∀ r2, r2.headD 0 = r.headD 0 → SkipLineLoop b line (c ++ r2) ic = .ok r2 := by
  intro p
  induction p with
  | nil =>
    intro ic r h
    simp only [SkipLineLoop, Except.ok.injEq] at h
    subst h
    refine ⟨[], rfl, Or.inl rfl, ?_⟩
    intro r2 h2
    exact SkipLineLoop_stop b line r2 ic (Or.inl (by simpa using h2))
  | cons a p ih =>
    intro ic r h
    rw [SkipLineLoop] at h
    split at h
    · rename_i ha
      simp only [] at h
      by_cases hstrict : b = true ∧ (if a = 35 then true else ic) = false ∧ a ≠ 32 ∧ a ≠ 9
      · rw [if_pos hstrict] at h
        cases h
      · rw [if_neg hstrict] at h
        obtain ⟨c, hc, hr, hl⟩ := ih _ r h
        refine ⟨a :: c, by rw [List.cons_append, ← hc], hr, ?_⟩
        intro r2 h2
        rw [List.cons_append, SkipLineLoop, if_pos ha]
        simp only []
        rw [if_neg hstrict]
        exact hl r2 h2
    · rename_i ha
      simp only [Except.ok.injEq] at h
      subst h
      refine ⟨[], rfl, by simp only [List.headD_cons]; omega, ?_⟩
      intro r2 h2
      simp only [List.headD_cons] at h2
      exact SkipLineLoop_stop b line r2 ic (by rw [h2]; omega)

theorem SkipLineEnd_local (line : Nat) (p1 : List Nat)
    (hstop : p1.headD 0 = 0 ∨ p1.headD 0 = 10 ∨ p1.headD 0 = 13) :
    ∃ cb, p1 = cb ++ (SkipLineEnd p1 line).1 ∧ (p1.headD 0 ≠ 0 → cb ≠ []) ∧
      ∀ r2, r2.headD 0 = (SkipLineEnd p1 line).1.headD 0 →
        SkipLineEnd (cb ++ r2) line = (r2, (SkipLineEnd p1 line).2) ∧
        (cb ++ r2).headD 0 = p1.headD 0 := by
  cases p1 with
  | nil =>
    refine ⟨[], by simp [SkipLineEnd], by simp, ?_⟩
    intro r2 h2
    simp only [SkipLineEnd, List.headD_nil, ne_eq, not_true_eq_false, if_false,
      OfNat.zero_ne_ofNat] at h2
    have h3 : r2.head?.getD 0 = 0 := by simpa using h2
    simp [SkipLineEnd, h3]
  | cons a p1 =>
    simp only [List.headD_cons] at hstop
    rcases hstop with rfl | rfl | rfl
    · refine ⟨[], by simp [SkipLineEnd], by simp, ?_⟩
      intro r2 h2
      simp only [SkipLineEnd, List.headD_cons, ne_eq, not_true_eq_false, if_false,
        OfNat.zero_ne_ofNat] at h2
      have h3 : r2.head?.getD 0 = 0 := by simpa using h2
      simp [SkipLineEnd, h3]
    · refine ⟨[10], by simp [SkipLineEnd], by simp, ?_⟩
      intro r2 _
      simp [SkipLineEnd]
    · cases p1 with
      | nil =>
        refine ⟨[13], by simp [SkipLineEnd], by simp, ?_⟩
        intro r2 h2
        simp only [SkipLineEnd, List.headD_cons, ne_eq, OfNat.ofNat_ne_zero, not_false_eq_true,
          if_true, List.tail_cons, List.headD_nil, not_true_eq_false, if_false] at h2
        have h3 : r2.head?.getD 0 = 0 := by simpa using h2
        simp [SkipLineEnd, h3]
      | cons d p2 =>
        by_cases hd : d = 0
        · subst hd
          refine ⟨[13], by simp [SkipLineEnd], by simp, ?_⟩
          intro r2 h2
          simp only [SkipLineEnd, List.headD_cons, ne_eq, OfNat.ofNat_ne_zero,
            not_false_eq_true, if_true, List.tail_cons, not_true_eq_false, if_false] at h2
          have h3 : r2.head?.getD 0 = 0 := by simpa using h2
          simp [SkipLineEnd, h3]
        · refine ⟨[13, d], by simp [SkipLineEnd, hd], by simp, ?_⟩
          intro r2 _
          simp [SkipLineEnd, hd]

theorem SkipLine_local (b : Bool) (line line' : Nat) (p r : List Nat)
    (h : SkipLine p b line = .ok (r, line')) :
    ∃ c, p = c ++ r ∧ (p.headD 0 ≠ 0 → c ≠ []) ∧
      ∀ r2, r2.headD 0 = r.headD 0 → SkipLine (c ++ r2) b line = .ok (r2, line') := by
  unfold SkipLine at h
  split at h
  · cases h
  · rename_i p1 hloop
    obtain ⟨c, hc, hstop, hl⟩ := SkipLineLoop_local b line p false p1 hloop
    obtain ⟨cb, hcb, hne, hlb⟩ := SkipLineEnd_local line p1 hstop
    simp only [Except.ok.injEq] at h
    rw [h] at hcb hlb
    simp only [] at hcb hlb
    refine ⟨c ++ cb, by rw [hc, List.append_assoc, ← hcb], ?_, ?_⟩
    · intro hp hcn
      have hc0 : c = [] := (List.append_eq_nil.mp hcn).1
      have hcb0 : cb = [] := (List.append_eq_nil.mp hcn).2
      rw [hc, hc0, List.nil_append] at hp
      exact hne hp hcb0
    · intro r2 h2
      obtain ⟨e1, e2⟩ := hlb r2 h2
      unfold SkipLine
      rw [List.append_assoc, hl (cb ++ r2) e2]
      simp only [e1]

/-! ### GetIdentifier -/

theorem GetIdentifierLoop_stop (line : Nat) (r acc : List Nat)
    (h : r.headD 0 = 0 ∨ r.headD 0 = 32 ∨ r.headD 0 = 9 ∨ r.headD 0 = 10 ∨ r.headD 0 = 13) :
    GetIdentifierLoop line r acc = .ok (acc, r) := by
  cases r with
  | nil => rfl
  | cons a r =>
    simp only [List.headD_cons] at h
    rw [GetIdentifierLoop, if_neg (by omega)]

theorem GetIdentifierLoop_local (line : Nat) :
    ∀ (p acc v r : List Nat), GetIdentifierLoop line p acc = .ok (v, r) →
      ∃ c, p = c ++ r ∧ acc.length + c.length = v.length ∧
        ∀ r2, r2.headD 0 = r.headD 0 → GetIdentifierLoop line (c ++ r2) acc = .ok (v, r2) := by
  intro p
  induction p with
  | nil =>
    intro acc v r h
    simp only [GetIdentifierLoop, Except.ok.injEq, Prod.mk.injEq] at h
    obtain ⟨rfl, rfl⟩ := h
    refine ⟨[], rfl, rfl, ?_⟩
    intro r2 h2
    exact GetIdentifierLoop_stop line r2 acc (Or.inl (by simpa using h2))
  | cons a p ih =>
    intro acc v r h
    rw [GetIdentifierLoop] at h
    split at h
    · rename_i ha
      split at h
      · cases h
      · rename_i hlen
        obtain ⟨c, hc, hl, hloc⟩ := ih _ v r h
        refine ⟨a :: c, by rw [List.cons_append, ← hc], ?_, ?_⟩
        · simp only [List.length_append, List.length_cons, List.length_nil] at hl ⊢; omega
        · intro r2 h2
          rw [List.cons_append, GetIdentifierLoop, if_pos ha, if_neg hlen]
          exact hloc r2 h2
    · rename_i ha
      simp only [Except.ok.injEq, Prod.mk.injEq] at h
      obtain ⟨rfl, rfl⟩ := h
      refine ⟨[], rfl, rfl, ?_⟩
      intro r2 h2
      simp only [List.headD_cons] at h2
      exact GetIdentifierLoop_stop line r2 acc (by rw [h2]; omega)

theorem GetIdentifier_local (line : Nat) (p v r : List Nat)
    (h : GetIdentifier p line = .ok (v, r)) :
    ∃ c, p = c ++ r ∧ c ≠ [] ∧
      ∀ r2, r2.headD 0 = r.headD 0 → GetIdentifier (c ++ r2) line = .ok (v, r2) := by
  unfold GetIdentifier at h
  obtain ⟨c1, hc1, _, hl1⟩ := SkipWhiteSpaces_local p
  split at h
  · cases h
  · rename_i ident q hloop
    split at h
    · cases h
    · rename_i hne
      simp only [Except.ok.injEq, Prod.mk.injEq] at h
      obtain ⟨rfl, rfl⟩ := h
      obtain ⟨c2, hc2, hlen, hl2⟩ := GetIdentifierLoop_local line _ _ _ _ hloop
      refine ⟨c1 ++ c2, by rw [List.append_assoc, ← hc2, ← hc1], ?_, ?_⟩
      · intro hcn
        have : c2 = [] := (List.append_eq_nil.mp hcn).2
        rw [this] at hlen
        simp only [List.length_nil, Nat.add_zero] at hlen
        exact hne hlen.symm
      · intro r2 h2
        unfold GetIdentifier
        rw [List.append_assoc, hl1 (c2 ++ r2) (by rw [hc2]; exact headD_append_congr _ _ _ h2),
          hl2 r2 h2]
        simp only [hne, if_false]

/-! ### GetLiteral -/

theorem GetLiteralLoop_stop2 (line : Nat) (r acc : List Nat)
    (h : r.headD 0 = 0 ∨ r.headD 0 = 34 ∨ r.headD 0 = 10 ∨ r.headD 0 = 13) :
    GetLiteralLoop line r acc = .ok (acc, r) := by
  cases r with
  | nil => rfl
  | cons a r =>
    simp only [List.headD_cons] at h
    exact GetLiteralLoop_stop line a r acc h

theorem GetLiteralLoop_local (line : Nat) :
    ∀ (n : Nat) (p acc v r : List Nat), p.length ≤ n →
      GetLiteralLoop line p acc = .ok (v, r) →
      ∃ c, p = c ++ r ∧
        (r.headD 0 = 0 ∨ r.headD 0 = 34 ∨ r.headD 0 = 10 ∨ r.headD 0 = 13) ∧
        (c = [] → v = acc) ∧ (c ≠ [] → acc.length < v.length) ∧
        ∀ r2, r2.headD 0 = r.headD 0 → GetLiteralLoop line (c ++ r2) acc = .ok (v, r2) := by
  intro n
  induction n with
  | zero =>
    intro p acc v r hn h
    have : p = [] := List.eq_nil_of_length_eq_zero (by omega)
    subst this
    simp only [GetLiteralLoop, Except.ok.injEq, Prod.mk.injEq] at h
    obtain ⟨rfl, rfl⟩ := h
    refine ⟨[], rfl, Or.inl rfl, fun _ => rfl, fun h => absurd rfl h, ?_⟩
    intro r2 h2
    exact GetLiteralLoop_stop2 line r2 acc (Or.inl (by simpa using h2))
  | succ n ih =>
    intro p acc v r hn h
    cases p with
    | nil =>
      simp only [GetLiteralLoop, Except.ok.injEq, Prod.mk.injEq] at h
      obtain ⟨rfl, rfl⟩ := h
      refine ⟨[], rfl, Or.inl rfl, fun _ => rfl, fun h => absurd rfl h, ?_⟩
      intro r2 h2
      exact GetLiteralLoop_stop2 line r2 acc (Or.inl (by simpa using h2))
    | cons a p =>
      rw [GetLiteralLoop_cons] at h
      split at h
      · rename_i ha
        split at h
        · rename_i hesc
          split at h
          · cases h
          · rename_i hlen
            have hpne : p ≠ [] := by
              intro hp; rw [hp] at hesc; simp at hesc
            obtain ⟨d, p2, rfl⟩ := List.exists_cons_of_ne_nil hpne
            simp only [List.headD_cons, List.tail_cons] at h hesc hlen
            obtain ⟨c, hc, hstop, hnil, hgrow, hloc⟩ := ih p2 _ v r (by
              simp only [List.length_cons] at hn; omega) h
            have hg : acc.length < v.length := by
              by_cases hcn : c = []
              · rw [hnil hcn]; simp
              · have := hgrow hcn
                simp only [List.length_append, List.length_singleton] at this; omega
            refine ⟨a :: d :: c, by rw [hc]; rfl, hstop, by simp, fun _ => hg, ?_⟩
            intro r2 h2
            rw [List.cons_append, GetLiteralLoop_cons, if_pos ha]
            simp only [List.cons_append, List.headD_cons, List.tail_cons]
            rw [if_pos hesc, if_neg hlen]
            exact hloc r2 h2
        · rename_i hesc
          split at h
          · cases h
          · rename_i hlen
            obtain ⟨c, hc, hstop, hnil, hgrow, hloc⟩ := ih p _ v r (by
              simp only [List.length_cons] at hn; omega) h
            have hg : acc.length < v.length := by
              by_cases hcn : c = []
              · rw [hnil hcn]; simp
              · have := hgrow hcn
                simp only [List.length_append, List.length_singleton] at this; omega
            refine ⟨a :: c, by rw [List.cons_append, ← hc], hstop, by simp, fun _ => hg, ?_⟩
            intro r2 h2
            rw [List.cons_append, GetLiteralLoop_cons, if_pos ha]
            have hh : (c ++ r2).headD 0 = p.headD 0 := by
              rw [hc]; exact headD_append_congr _ _ _ h2
            rw [hh, if_neg hesc, if_neg hlen]
            exact hloc r2 h2
      · rename_i ha
        simp only [Except.ok.injEq, Prod.mk.injEq] at h
        obtain ⟨rfl, rfl⟩ := h
        refine ⟨[], rfl, by simp only [List.headD_cons]; omega, fun _ => rfl,
          fun h => absurd rfl h, ?_⟩
        intro r2 h2
        simp only [List.headD_cons] at h2
        exact GetLiteralLoop_stop2 line r2 acc (by rw [h2]; omega)

/-- What a successful `GetLiteral` has read: blanks, the opening quote, the literal text,
the closing quote; the offset is that of the literal text; and the same blanks and
quotes around any other literal text read the same way. -/
theorem GetLiteral_struct (bufLen line : Nat) (p v r : List Nat) (off : Nat)
    (h : GetLiteral bufLen p line = .ok (v, off, r)) :
    ∃ ws lit, p = ws ++ 34 :: (lit ++ 34 :: r) ∧ lit ≠ [] ∧
      off = bufLen - (lit ++ 34 :: r).length ∧
      GetLiteralLoop line (lit ++ 34 :: r) [] = .ok (v, 34 :: r) ∧
      (∀ Y, GetLiteralLoop line (lit ++ 34 :: Y) [] = .ok (v, 34 :: Y)) ∧
      ∀ (n2 : Nat) (lit2 v2 Y : List Nat),
        GetLiteralLoop line (lit2 ++ 34 :: Y) [] = .ok (v2, 34 :: Y) → v2 ≠ [] →
        GetLiteral n2 (ws ++ 34 :: (lit2 ++ 34 :: Y)) line
          = .ok (v2, n2 - (lit2 ++ 34 :: Y).length, Y) := by
  obtain ⟨ws, hws, _, hlws⟩ := SkipWhiteSpaces_local p
  unfold GetLiteral at h
  split at h
  · cases h
  · rename_i a q hskip
    split at h
    · cases h
    · rename_i ha
      have ha' : a = 34 := by simpa using ha
      subst ha'
      simp only [] at h
      split at h
      · cases h
      · rename_i ident q2 hloop
        split at h
        · cases h
        · rename_i hq
          split at h
          · cases h
          · rename_i hne
            simp only [Except.ok.injEq, Prod.mk.injEq] at h
            obtain ⟨rfl, rfl, rfl⟩ := h
            have hq' : q2.headD 0 = 34 := by simpa using hq
            have hq2 : q2 = 34 :: q2.tail := by
              cases q2 with
              | nil => simp at hq'
              | cons b q2 => simp only [List.headD_cons] at hq'; rw [hq']; rfl
            obtain ⟨lit, hlit, _, hnil, _, hloc⟩ :=
              GetLiteralLoop_local line _ q [] ident q2 (Nat.le_refl _) hloop
            have hvne : ident ≠ [] := fun e => hne (by rw [e]; rfl)
            have hlitne : lit ≠ [] := fun e => hvne (hnil e)
            rw [hq2] at hlit hloop hloc
            refine ⟨ws, lit, ?_, hlitne, by rw [hlit], by rw [← hlit]; exact hloop, ?_, ?_⟩
            · rw [← hlit, ← hskip]; exact hws
            · intro Y
              exact hloc (34 :: Y) rfl
            · intro n2 lit2 v2 Y hl2 hv2
              apply GetLiteral_of_loop n2 line _ (lit2 ++ 34 :: Y) Y v2 _ hl2 hv2
              exact hlws (34 :: (lit2 ++ 34 :: Y)) (by rw [hskip]; rfl)

theorem GetLiteral_local (bufLen line : Nat) (p v r : List Nat) (off : Nat)
    (h : GetLiteral bufLen p line = .ok (v, off, r)) :
    ∃ c, p = c ++ r ∧ 3 ≤ c.length ∧
      ∀ (n2 : Nat) (r2 : List Nat), ∃ off2, GetLiteral n2 (c ++ r2) line = .ok (v, off2, r2) := by
  obtain ⟨ws, lit, hp, hlit, _, hloop, hany, hre⟩ := GetLiteral_struct bufLen line p v r off h
  have hv : v ≠ [] := GetLiteral_LitOk _ _ _ _ _ _ h |>.1
  refine ⟨ws ++ 34 :: (lit ++ [34]), by rw [hp]; simp, ?_, ?_⟩
  · have : 0 < lit.length := List.length_pos.mpr hlit
    simp only [List.length_append, List.length_cons, List.length_nil]; omega
  · intro n2 r2
    refine ⟨n2 - (lit ++ 34 :: r2).length, ?_⟩
    have := hre n2 lit v r2 (hany r2) hv
    simpa using this

theorem GetLiteralOrSymbol_local (consts : List (List Nat × List Nat)) (bufLen line : Nat)
    (p v r : List Nat) (h : GetLiteralOrSymbol consts bufLen p line = .ok (v, r)) :
    ∃ c, p = c ++ r ∧
      ∀ (n2 : Nat) (r2 : List Nat), r2.headD 0 = r.headD 0 →
        GetLiteralOrSymbol consts n2 (c ++ r2) line = .ok (v, r2) := by
  obtain ⟨c1, hc1, _, hl1⟩ := SkipWhiteSpaces_local p
  unfold GetLiteralOrSymbol at h
  simp only [] at h
  split at h
  · rename_i hq
    split at h
    · cases h
    · rename_i lit off q hlit
      simp only [Except.ok.injEq, Prod.mk.injEq] at h
      obtain ⟨rfl, rfl⟩ := h
      obtain ⟨c2, hc2, hc2len, hl2⟩ := GetLiteral_local _ _ _ _ _ _ hlit
      refine ⟨c1 ++ c2, by rw [List.append_assoc, ← hc2, ← hc1], ?_⟩
      intro n2 r2 _
      have hc2ne : c2 ≠ [] := by
        intro e; rw [e] at hc2len; simp at hc2len
      have hh : (c2 ++ r2).headD 0 = (SkipWhiteSpaces p).headD 0 := by
        rw [hc2]
        obtain ⟨x, xs, rfl⟩ := List.exists_cons_of_ne_nil hc2ne
        rfl
      obtain ⟨off2, ho⟩ := hl2 n2 r2
      unfold GetLiteralOrSymbol
      simp only []
      rw [List.append_assoc, hl1 (c2 ++ r2) hh, hh, if_pos hq, ho]
  · rename_i hq
    split at h
    · cases h
    · rename_i ident q hid
      split at h
      · cases h
      · rename_i val hf
        simp only [Except.ok.injEq, Prod.mk.injEq] at h
        obtain ⟨rfl, rfl⟩ := h
        obtain ⟨c2, hc2, hc2ne, hl2⟩ := GetIdentifier_local _ _ _ _ hid
        refine ⟨c1 ++ c2, by rw [List.append_assoc, ← hc2, ← hc1], ?_⟩
        intro n2 r2 h2
        have hh : (c2 ++ r2).headD 0 = (SkipWhiteSpaces p).headD 0 := by
          rw [hc2]
          obtain ⟨x, xs, rfl⟩ := List.exists_cons_of_ne_nil hc2ne
          rfl
        unfold GetLiteralOrSymbol
        simp only []
        rw [List.append_assoc, hl1 (c2 ++ r2) hh, hh, if_neg hq, hl2 r2 h2]
        simp only [hf]

/-! ### ParseMessage -/

theorem ParseMessageLoop_local (line : Nat) :
    ∀ (p acc v r : List Nat), ParseMessageLoop line p acc = .ok (v, r) →
      ∃ c, p = c ++ r ∧
        ∀ r2, r2.headD 0 = r.headD 0 → ParseMessageLoop line (c ++ r2) acc = .ok (v, r2) := by
  have stop : ∀ (r acc : List Nat), (r.headD 0 = 0 ∨ r.headD 0 = 10 ∨ r.headD 0 = 13) →
      ParseMessageLoop line r acc = .ok (acc, r) := by
    intro r acc h
    cases r with
    | nil => rfl
    | cons a r =>
      simp only [List.headD_cons] at h
      rw [ParseMessageLoop, if_neg (by omega)]
  intro p
  induction p with
  | nil =>
    intro acc v r h
    simp only [ParseMessageLoop, Except.ok.injEq, Prod.mk.injEq] at h
    obtain ⟨rfl, rfl⟩ := h
    refine ⟨[], rfl, ?_⟩
    intro r2 h2
    exact stop r2 acc (Or.inl (by simpa using h2))
  | cons a p ih =>
    intro acc v r h
    rw [ParseMessageLoop] at h
    split at h
    · rename_i ha
      split at h
      · cases h
      · rename_i hlen
        obtain ⟨c, hc, hloc⟩ := ih _ v r h
        refine ⟨a :: c, by rw [List.cons_append, ← hc], ?_⟩
        intro r2 h2
        rw [List.cons_append, ParseMessageLoop, if_pos ha, if_neg hlen]
        exact hloc r2 h2
    · rename_i ha
      simp only [Except.ok.injEq, Prod.mk.injEq] at h
      obtain ⟨rfl, rfl⟩ := h
      refine ⟨[], rfl, ?_⟩
      intro r2 h2
      simp only [List.headD_cons] at h2
      exact stop r2 acc (by rw [h2]; omega)

/-! ### Scan and the skipping of conditional blocks -/

theorem strncmp_tok_length (p1 tok : List Nat) (hnul : NoNul tok)
    (h : strncmp (p1 ++ [0]) tok tok.length = some true) : tok.length ≤ p1.length := by
  have hp : tok <+: p1 ++ [0] := (strncmp_noNul tok hnul _).mp h
  by_contra hlt
  have hl := hp.length_le
  simp only [List.length_append, List.length_singleton] at hl
  have hlen : tok.length = (p1 ++ [0]).length := by
    simp only [List.length_append, List.length_singleton]; omega
  have heq : tok = p1 ++ [0] := hp.eq_of_length hlen
  exact hnul 0 (by rw [heq]; simp) rfl

theorem ScanLoop_local (tok : List Nat) (htok : tok.length ≤ 5) :
    ∀ (f : Nat) (p : List Nat) (line : Nat) (r : List Nat) (line' : Nat),
      ScanLoop tok f p line = .ok (r, line') →
      ∃ c, p = c ++ r ∧ (p.headD 0 ≠ 0 → c ≠ []) ∧
        ∀ (r2 : List Nat) (f2 : Nat), Agree r r2 → (c ++ r2).length < f2 →
          ScanLoop tok f2 (c ++ r2) line = .ok (r2, line') := by
  intro f
  induction f with
  | zero => intro p line r line' h; simp [ScanLoop] at h
  | succ f ih =>
    intro p line r line' h
    unfold ScanLoop at h
    split at h
    · rename_i hp0
      split at h
      · cases h
      · rename_i p1 l1 hsl
        obtain ⟨c1, hc1, hc1ne, hl1⟩ := SkipLine_local _ _ _ _ _ hsl
        obtain ⟨cw, hcw, _, hlw⟩ := SkipWhiteSpaces_local p1
        simp only [] at h
        split at h
        · rename_i hm
          simp only [Except.ok.injEq, Prod.mk.injEq] at h
          obtain ⟨rfl, rfl⟩ := h
          refine ⟨c1 ++ cw, by rw [List.append_assoc, ← hcw, ← hc1], ?_, ?_⟩
          · intro _ hcn
            exact hc1ne hp0 (List.append_eq_nil.mp hcn).1
          · intro r2 f2 hag hf2
            obtain ⟨f2', rfl⟩ : ∃ f2', f2 = f2' + 1 := ⟨f2 - 1, by omega⟩
            have hhead : (c1 ++ cw ++ r2).headD 0 = p.headD 0 := by
              obtain ⟨x, xs, hx⟩ := List.exists_cons_of_ne_nil (hc1ne hp0)
              rw [hc1, hx]; rfl
            unfold ScanLoop
            rw [hhead, if_pos hp0, List.append_assoc,
              hl1 (cw ++ r2) (by rw [hcw]; exact headD_append_congr _ _ _ hag.head)]
            simp only []
            rw [hlw r2 hag.head, ← hag.strncmp tok tok.length htok, if_pos hm]
        · rename_i hm
          obtain ⟨c3, hc3, _, hl3⟩ := ih _ _ _ _ h
          refine ⟨c1 ++ cw ++ c3, by
            rw [List.append_assoc, List.append_assoc, ← hc3, ← hcw, ← hc1], ?_, ?_⟩
          · intro _ hcn
            exact hc1ne hp0 (List.append_eq_nil.mp (List.append_eq_nil.mp hcn).1).1
          · intro r2 f2 hag hf2
            obtain ⟨f2', rfl⟩ : ∃ f2', f2 = f2' + 1 := ⟨f2 - 1, by omega⟩
            have hhead : (c1 ++ cw ++ c3 ++ r2).headD 0 = p.headD 0 := by
              obtain ⟨x, xs, hx⟩ := List.exists_cons_of_ne_nil (hc1ne hp0)
              rw [hc1, hx]; rfl
            have hag3 : Agree (SkipWhiteSpaces p1) (c3 ++ r2) := by
              rw [hc3]; exact hag.append c3
            unfold ScanLoop
            rw [hhead, if_pos hp0, List.append_assoc, List.append_assoc,
              hl1 (cw ++ (c3 ++ r2)) (by rw [hcw]; exact headD_append_congr _ _ _ hag3.head)]
            simp only []
            rw [hlw (c3 ++ r2) hag3.head, ← hag3.strncmp tok tok.length htok, if_neg hm]
            apply hl3 r2 f2' hag
            have hc1len : 0 < c1.length := List.length_pos.mpr (hc1ne hp0)
            simp only [List.length_append] at hf2 ⊢
            omega
    · rename_i hp0
      simp only [Except.ok.injEq, Prod.mk.injEq] at h
      obtain ⟨rfl, rfl⟩ := h
      refine ⟨[], rfl, fun hh => absurd hh hp0, ?_⟩
      intro r2 f2 hag hf2
      obtain ⟨f2', rfl⟩ : ∃ f2', f2 = f2' + 1 := ⟨f2 - 1, by omega⟩
      unfold ScanLoop
      rw [List.nil_append, hag.head, if_neg hp0]

theorem Scan_local (tok : List Nat) (htok : tok.length ≤ 5) (p : List Nat) (line : Nat)
    (r : List Nat) (line' : Nat) (h : Scan p tok line = .ok (r, line')) :
    ∃ c, p = c ++ r ∧ (p.headD 0 ≠ 0 → c ≠ []) ∧
      ∀ r2, Agree r r2 → Scan (c ++ r2) tok line = .ok (r2, line') := by
  obtain ⟨c, hc, hne, hl⟩ := ScanLoop_local tok htok _ _ _ _ _ h
  exact ⟨c, hc, hne, fun r2 hag => hl r2 _ hag (Nat.lt_succ_self _)⟩

/-- One continuation step of the skip loop: after `Scan` stopped at `p1`, the loop
goes on at `p1.drop k`, having consumed `k` bytes that are there. -/
theorem SkipBlock_continue (cs p1 c3 r r2 : List Nat) (k : Nat) (hk : k ≤ p1.length)
    (hc3 : p1.drop k = c3 ++ r) (hag : Agree r r2) :
    Agree p1 (p1.take k ++ (c3 ++ r2)) ∧
    (p1.take k ++ (c3 ++ r2)).drop k = c3 ++ r2 ∧
    cs ++ p1 = cs ++ p1.take k ++ c3 ++ r := by
  have e : p1 = p1.take k ++ (c3 ++ r) := by rw [← hc3, List.take_append_drop]
  refine ⟨?_, ?_, ?_⟩
  · conv_lhs => rw [e]
    exact (hag.append c3).append _
  · have hl : (p1.take k).length = k := by rw [List.length_take]; omega
    have := List.drop_left (p1.take k) (c3 ++ r2)
    rw [hl] at this
    exact this
  · conv_lhs => rw [e]
    simp

theorem SkipBlockLoop_local (w : Bool) :
    ∀ (f : Nat) (p : List Nat) (line n : Nat) (r : List Nat) (line' : Nat),
      SkipBlockLoop w f p line n = .ok (r, line') →
      ∃ c, p = c ++ r ∧
        ∀ (r2 : List Nat) (f2 : Nat), Agree r r2 → (c ++ r2).length + 1 < f2 →
          SkipBlockLoop w f2 (c ++ r2) line n = .ok (r2, line') := by
  intro f
  induction f with
  | zero => intro p line n r line' h; simp [SkipBlockLoop] at h
  | succ f ih =>
    intro p line n r line' h
    unfold SkipBlockLoop at h
    split at h
    · rename_i hn
      split at h
      · cases h
      · rename_i p1 l1 hscan
        obtain ⟨cs, hcs, hcsne, hls⟩ := Scan_local [37] (by simp) _ _ _ _ hscan
        -- the four branches continue at `p1.drop k`
        have key : ∀ (k n' : Nat), 0 < k → k ≤ p1.length →
            SkipBlockLoop w f (p1.drop k) l1 n' = .ok (r, line') →
            ∃ c, p = c ++ r ∧ ∀ (r2 : List Nat) (f2 : Nat), Agree r r2 →
              (c ++ r2).length + 1 < f2 →
              ∃ f2', f2 = f2' + 1 ∧
                Scan (c ++ r2) [37] line = .ok (p1.take k ++ (c.drop (cs.length + k) ++ r2), l1) ∧
                Agree p1 (p1.take k ++ (c.drop (cs.length + k) ++ r2)) ∧
                SkipBlockLoop w f2' ((p1.take k ++ (c.drop (cs.length + k) ++ r2)).drop k) l1 n'
                  = .ok (r2, line') := by
          intro k n' hk0 hk hrec
          obtain ⟨c3, hc3, hl3⟩ := ih _ _ _ _ _ hrec
          refine ⟨cs ++ p1.take k ++ c3, ?_, ?_⟩
          · rw [hcs]
            exact (SkipBlock_continue cs p1 c3 r r (k := k) hk hc3 (Agree.same _)).2.2
          · intro r2 f2 hag hf2
            obtain ⟨f2', rfl⟩ : ∃ f2', f2 = f2' + 1 := ⟨f2 - 1, by omega⟩
            obtain ⟨hag1, hdrop, _⟩ := SkipBlock_continue cs p1 c3 r r2 (k := k) hk hc3 hag
            have htl : (p1.take k).length = k := by rw [List.length_take]; omega
            have hcd : (cs ++ p1.take k ++ c3).drop (cs.length + k) = c3 := by
              rw [List.append_assoc, List.drop_append]
              have := List.drop_left (p1.take k) c3
              rw [htl] at this
              exact this
            rw [hcd]
            refine ⟨f2', rfl, ?_, hag1, ?_⟩
            · have := hls _ hag1
              rw [List.append_assoc, List.append_assoc]
              exact this
            · rw [hdrop]
              apply hl3 r2 f2' hag
              simp only [List.length_append, htl] at hf2 ⊢
              omega
        -- how the loop on the other text takes the same branch
        split at h
        · rename_i hif
          have hk := strncmp_tok_length p1 [37, 105, 102] (by decide) hif
          obtain ⟨c, hc, hl⟩ := key 3 (n + 1) (by omega) hk h
          refine ⟨c, hc, ?_⟩
          intro r2 f2 hag hf2
          obtain ⟨f2', rfl, hsc, hag1, hrec⟩ := hl r2 f2 hag hf2
          unfold SkipBlockLoop
          rw [if_pos hn, hsc]
          simp only []
          rw [← hag1.strncmp _ 3 (by omega), if_pos hif]
          exact hrec
        · rename_i hif
          split at h
          · rename_i helse
            have hk := strncmp_tok_length p1 [37, 101, 108, 115, 101] (by decide) helse.2
            obtain ⟨c, hc, hl⟩ := key 5 _ (by omega) hk h
            refine ⟨c, hc, ?_⟩
            intro r2 f2 hag hf2
            obtain ⟨f2', rfl, hsc, hag1, hrec⟩ := hl r2 f2 hag hf2
            unfold SkipBlockLoop
            rw [if_pos hn, hsc]
            simp only []
            rw [← hag1.strncmp _ 3 (by omega), if_neg hif,
              ← hag1.strncmp _ 5 (by omega), if_pos helse]
            exact hrec
          · rename_i helse
            split at h
            · rename_i hend
              have hk := strncmp_tok_length p1 [37, 101, 110, 100] (by decide) hend
              obtain ⟨c, hc, hl⟩ := key 4 _ (by omega) hk h
              refine ⟨c, hc, ?_⟩
              intro r2 f2 hag hf2
              obtain ⟨f2', rfl, hsc, hag1, hrec⟩ := hl r2 f2 hag hf2
              unfold SkipBlockLoop
              rw [if_pos hn, hsc]
              simp only []
              rw [← hag1.strncmp _ 3 (by omega), if_neg hif,
                ← hag1.strncmp _ 5 (by omega), if_neg helse,
                ← hag1.strncmp _ 4 (by omega), if_pos hend]
              exact hrec
            · rename_i hend
              split at h
              · cases h
              · rename_i x p' 
                obtain ⟨c, hc, hl⟩ := key 1 n (by omega) (by simp) (by simpa using h)
                refine ⟨c, hc, ?_⟩
                intro r2 f2 hag hf2
                obtain ⟨f2', rfl, hsc, hag1, hrec⟩ := hl r2 f2 hag hf2
                unfold SkipBlockLoop
                rw [if_pos hn, hsc]
                simp only []
                rw [← hag1.strncmp _ 3 (by omega), if_neg hif,
                  ← hag1.strncmp _ 5 (by omega), if_neg helse,
                  ← hag1.strncmp _ 4 (by omega), if_neg hend]
                simp only [List.take_succ_cons, List.take_zero, List.cons_append,
                  List.nil_append, List.drop_succ_cons, List.drop_zero] at hrec ⊢
                exact hrec
    · rename_i hn
      simp only [Except.ok.injEq, Prod.mk.injEq] at h
      obtain ⟨rfl, rfl⟩ := h
      refine ⟨[], rfl, ?_⟩
      intro r2 f2 _ hf2
      obtain ⟨f2', rfl⟩ : ∃ f2', f2 = f2' + 1 := ⟨f2 - 1, by omega⟩
      unfold SkipBlockLoop
      rw [if_neg hn]
      rfl

/-! ## State-level simulation: the same line parsed in front of another continuation -/

theorem ParseConstantDef_sim (s s' : CAutoVersion) (p r : List Nat)
    (h : s.ParseConstantDef p = .ok r s') :
    ∃ c, p = c ++ r ∧ s'.m_mapFiles = s.m_mapFiles ∧
      ∀ (t : CAutoVersion) (r2 : List Nat), s.Reparse t → r2.headD 0 = r.headD 0 →
        ∃ t', t.ParseConstantDef (c ++ r2) = .ok r2 t' ∧ s'.Reparse t' := by
  unfold CAutoVersion.ParseConstantDef at h
  split at h
  · cases h
  · rename_i ident p1 h1
    split at h
    · cases h
    · rename_i what q h2
      split at h
      · cases h
      · rename_i h3
        simp only [Res.ok.injEq] at h
        obtain ⟨rfl, rfl⟩ := h
        obtain ⟨c1, hc1, _, hl1⟩ := GetIdentifier_local _ _ _ _ h1
        obtain ⟨c2, hc2, hl2⟩ := GetLiteralOrSymbol_local _ _ _ _ _ _ h2
        refine ⟨c1 ++ c2, by rw [hc1, hc2, List.append_assoc], rfl, ?_⟩
        intro t r2 hst hr2
        obtain ⟨e1, e2, e3, e4, e5, e6, e7⟩ := hst
        refine ⟨{ t with m_mapConstantDefs := t.m_mapConstantDefs ++ [(ident, what)] }, ?_, ?_⟩
        · unfold CAutoVersion.ParseConstantDef
          rw [List.append_assoc, e1,
            hl1 (c2 ++ r2) (by rw [hc2]; exact headD_append_congr _ _ _ hr2)]
          simp only
          rw [e4, hl2 _ r2 hr2]
          simp only
          rw [h3]
        · exact ⟨e1, e2, e3, by simp only [e4], e5, e6, e7⟩

theorem ParseMessage_sim (s s' : CAutoVersion) (p r : List Nat)
    (h : s.ParseMessage p = .ok r s') :
    ∃ c, p = c ++ r ∧ s'.m_mapFiles = s.m_mapFiles ∧
      ∀ (t : CAutoVersion) (r2 : List Nat), s.Reparse t → r2.headD 0 = r.headD 0 →
        ∃ t', t.ParseMessage (c ++ r2) = .ok r2 t' ∧ s'.Reparse t' := by
  unfold CAutoVersion.ParseMessage at h
  split at h
  · cases h
  · rename_i ident q h1
    simp only [Res.ok.injEq] at h
    obtain ⟨rfl, rfl⟩ := h
    obtain ⟨c1, hc1, hl1⟩ := ParseMessageLoop_local _ _ _ _ _ h1
    refine ⟨c1, hc1, rfl, ?_⟩
    intro t r2 hst hr2
    obtain ⟨e1, e2, e3, e4, e5, e6, e7⟩ := hst
    refine ⟨{ t with m_listMessages := t.m_listMessages ++ [ident] }, ?_, ?_⟩
    · unfold CAutoVersion.ParseMessage
      rw [e1, hl1 r2 hr2]
    · exact ⟨e1, e2, e3, e4, by simp only [e5], e6, e7⟩

theorem ParseCommand_sim (s s' : CAutoVersion) (p r : List Nat)
    (h : s.ParseCommand p = .ok r s') :
    ∃ c, p = c ++ r ∧ s'.m_mapFiles = s.m_mapFiles ∧
      ∀ (t : CAutoVersion) (r2 : List Nat), s.Reparse t → Agree r r2 →
        ∃ t', t.ParseCommand (c ++ r2) = .ok r2 t' ∧ s'.Reparse t' := by
  unfold CAutoVersion.ParseCommand at h
  split at h
  · cases h
  · rename_i ident p1 h1
    obtain ⟨c1, hc1, _, hl1⟩ := GetIdentifier_local _ _ _ _ h1
    split at h
    · rename_i hid
      split at h
      · cases h
      · rename_i hbase
        split at h
        · cases h
        · rename_i lit o q h2
          simp only [Res.ok.injEq] at h
          obtain ⟨rfl, rfl⟩ := h
          obtain ⟨c2, hc2, _, hl2⟩ := GetLiteral_local _ _ _ _ _ _ h2
          refine ⟨c1 ++ c2, by rw [hc1, hc2, List.append_assoc], rfl, ?_⟩
          intro t r2 hst hr2
          obtain ⟨e1, e2, e3, e4, e5, e6, e7⟩ := hst
          obtain ⟨off2, hg⟩ := hl2 t.m_pBuffer.length r2
          refine ⟨{ t with m_strBasePath := lit }, ?_, ?_⟩
          · unfold CAutoVersion.ParseCommand
            rw [List.append_assoc, e1,
              hl1 (c2 ++ r2) (by rw [hc2]; exact headD_append_congr _ _ _ hr2.head)]
            simp only
            rw [if_pos hid, e2, if_neg hbase, hg]
          · exact ⟨e1, rfl, e3, e4, e5, e6, e7⟩
    · rename_i hid
      split at h
      · rename_i hif
        split at h
        · cases h
        · rename_i id2 p2 h2
          obtain ⟨c2, hc2, _, hl2⟩ := GetIdentifier_local _ _ _ _ h2
          split at h
          · rename_i hdef
            simp only [Res.ok.injEq] at h
            obtain ⟨rfl, rfl⟩ := h
            refine ⟨c1 ++ c2, by rw [hc1, hc2, List.append_assoc], rfl, ?_⟩
            intro t r2 hst hr2
            obtain ⟨e1, e2, e3, e4, e5, e6, e7⟩ := hst
            refine ⟨t, ?_, ⟨e1, e2, e3, e4, e5, e6, e7⟩⟩
            unfold CAutoVersion.ParseCommand
            rw [List.append_assoc, e1,
              hl1 (c2 ++ r2) (by rw [hc2]; exact headD_append_congr _ _ _ hr2.head)]
            simp only
            rw [if_neg hid, if_pos hif, hl2 r2 hr2.head]
            simp only
            rw [e3, if_pos hdef]
          · rename_i hdef
            split at h
            · cases h
            · rename_i q line' h3
              simp only [Res.ok.injEq] at h
              obtain ⟨rfl, rfl⟩ := h
              obtain ⟨c3, hc3, hl3⟩ := SkipBlockLoop_local _ _ _ _ _ _ _ h3
              refine ⟨c1 ++ c2 ++ c3, by rw [hc1, hc2, hc3]; simp only [List.append_assoc],
                rfl, ?_⟩
              intro t r2 hst hr2
              obtain ⟨e1, e2, e3, e4, e5, e6, e7⟩ := hst
              refine ⟨{ t with m_nCurrentLine := line' }, ?_, ⟨rfl, e2, e3, e4, e5, e6, e7⟩⟩
              unfold CAutoVersion.ParseCommand
              have hA : Agree (c3 ++ q) (c3 ++ r2) := hr2.append c3
              rw [List.append_assoc, List.append_assoc, e1,
                hl1 (c2 ++ (c3 ++ r2)) (by
                  rw [hc2, hc3]; exact headD_append_congr _ _ _ hA.head)]
              simp only
              rw [if_neg hid, if_pos hif, hl2 (c3 ++ r2) (by rw [hc3]; exact hA.head)]
              simp only
              rw [e3, if_neg hdef, hl3 r2 _ hr2 (by omega)]
      · rename_i hif
        split at h
        · rename_i helse
          split at h
          · cases h
          · rename_i q line' h3
            simp only [Res.ok.injEq] at h
            obtain ⟨rfl, rfl⟩ := h
            obtain ⟨c3, hc3, hl3⟩ := SkipBlockLoop_local _ _ _ _ _ _ _ h3
            refine ⟨c1 ++ c3, by rw [hc1, hc3]; simp only [List.append_assoc], rfl, ?_⟩
            intro t r2 hst hr2
            obtain ⟨e1, e2, e3, e4, e5, e6, e7⟩ := hst
            refine ⟨{ t with m_nCurrentLine := line' }, ?_, ⟨rfl, e2, e3, e4, e5, e6, e7⟩⟩
            unfold CAutoVersion.ParseCommand
            have hA : Agree (c3 ++ q) (c3 ++ r2) := hr2.append c3
            rw [List.append_assoc, e1,
              hl1 (c3 ++ r2) (by rw [hc3]; exact hA.head)]
            simp only
            rw [if_neg hid, if_neg hif, if_pos helse, hl3 r2 _ hr2 (by omega)]
        · rename_i helse
          split at h
          · rename_i hend
            simp only [Res.ok.injEq] at h
            obtain ⟨rfl, rfl⟩ := h
            refine ⟨c1, hc1, rfl, ?_⟩
            intro t r2 hst hr2
            obtain ⟨e1, e2, e3, e4, e5, e6, e7⟩ := hst
            refine ⟨t, ?_, ⟨e1, e2, e3, e4, e5, e6, e7⟩⟩
            unfold CAutoVersion.ParseCommand
            rw [e1, hl1 r2 hr2.head]
            simp only
            rw [if_neg hid, if_neg hif, if_neg helse, if_pos hend]
          · rename_i hend
            split at h
            · rename_i hshell
              split at h
              · cases h
              · rename_i arg o q h2
                simp only [Res.ok.injEq] at h
                obtain ⟨rfl, rfl⟩ := h
                obtain ⟨c2, hc2, _, hl2⟩ := GetLiteral_local _ _ _ _ _ _ h2
                refine ⟨c1 ++ c2, by rw [hc1, hc2, List.append_assoc], rfl, ?_⟩
                intro t r2 hst hr2
                obtain ⟨e1, e2, e3, e4, e5, e6, e7⟩ := hst
                obtain ⟨off2, hg⟩ := hl2 t.m_pBuffer.length r2
                refine ⟨{ t with m_listDelayedCommands :=
                  t.m_listDelayedCommands ++ [⟨[arg]⟩] }, ?_, ?_⟩
                · unfold CAutoVersion.ParseCommand
                  rw [List.append_assoc, e1,
                    hl1 (c2 ++ r2) (by rw [hc2]; exact headD_append_congr _ _ _ hr2.head)]
                  simp only
                  rw [if_neg hid, if_neg hif, if_neg helse, if_neg hend, if_pos hshell, hg]
                · exact ⟨e1, e2, e3, e4, e5, by simp only [e6], e7⟩
            · cases h

/-- The text of a directive line after its command character: a chunk `c1` up to and
including the opening quote of `what`, the raw literal `lit`, the closing quote, a chunk
`c2` and the rest.  With the raw literal replaced by the encoding of `with`, or left
alone when `what` equals `with`, the line reads as the directive that replaces `with`
by `with`. -/
theorem ReadReplacement_sim (s : CAutoVersion) (op : EReplaceOp) (p r name : List Nat)
    (d : CReplace) (h : s.ReadReplacement op p = .ok (name, d, r)) (hs : s.Parsed) :
    ∃ c1 lit c2, p = c1 ++ (lit ++ 34 :: (c2 ++ r)) ∧ 4 ≤ c1.length ∧
      d.m_nControlFilePos = s.m_pBuffer.length - (lit ++ 34 :: (c2 ++ r)).length ∧
      GetLiteralLoop s.m_nCurrentLine (lit ++ 34 :: (c2 ++ r)) []
        = .ok (d.m_strWhat, 34 :: (c2 ++ r)) ∧
      ∀ (t : CAutoVersion) (r2 lit2 : List Nat), s.Reparse t → r2.headD 0 = r.headD 0 →
        (lit2 = lit ∧ d.m_strWhat = d.m_strWith ∨ lit2 = enc d.m_strWith) →
        ∃ d2, t.ReadReplacement op (c1 ++ (lit2 ++ 34 :: (c2 ++ r2))) = .ok (name, d2, r2) ∧
          d.Reparsed d2 := by
  have hfresh := ReadReplacement_fresh _ _ _ _ _ _ h hs
  unfold CAutoVersion.ReadReplacement at h
  split at h
  · cases h
  · rename_i file_name o1 p1 hl1
    split at h
    · cases h
    · rename_i what offset p2 hl2
      split at h
      · cases h
      · rename_i c p3 hw
        split at h
        · cases h
        · rename_i hc
          have hc64 : c = 64 := by omega
          subst hc64
          split at h
          · cases h
          · rename_i ident q hl3
            split at h
            · cases h
            · rename_i with_ hf
              split at h
              · cases h
              · rename_i hbin
                simp only [Except.ok.injEq, Prod.mk.injEq] at h
                obtain ⟨rfl, rfl, rfl⟩ := h
                obtain ⟨cf, hcf, hcf3, hlf⟩ := GetLiteral_local _ _ _ _ _ _ hl1
                obtain ⟨ws, lit, hp1, _, hoff, hloop, hloopY, hrec⟩ :=
                  GetLiteral_struct _ _ _ _ _ _ hl2
                obtain ⟨cw, hcw, _, hlw⟩ := SkipWhiteSpaces_local p2
                rw [hw] at hcw hlw
                obtain ⟨ci, hci, _, hli⟩ := GetIdentifier_local _ _ _ _ hl3
                have hp2 : p2 = (cw ++ 64 :: ci) ++ q := by
                  rw [hcw, hci]; simp
                refine ⟨cf ++ (ws ++ [34]), lit, cw ++ 64 :: ci, ?_, ?_, ?_, ?_, ?_⟩
                · rw [hcf, hp1, hp2]; simp
                · simp only [List.length_append, List.length_singleton]; omega
                · simp only [CReplace.new]; rw [hoff, hp2]
                · simp only [CReplace.new]; rw [← hp2]; exact hloop
                · intro t r2 lit2 hst hr2 hlit
                  obtain ⟨e1, e2, e3, e4, e5, e6, e7⟩ := hst
                  simp only [CReplace.new] at hlit
                  have hwith : LitOk with_ := hfresh.2.2.1
                  have hwhat : LitOk what := hfresh.2.1
                  have hv : GetLiteralLoop s.m_nCurrentLine
                      (lit2 ++ 34 :: ((cw ++ 64 :: ci) ++ r2)) []
                      = .ok (with_, 34 :: ((cw ++ 64 :: ci) ++ r2)) := by
                    rcases hlit with ⟨rfl, hww⟩ | rfl
                    · rw [← hww]; exact hloopY _
                    · rw [GetLiteralLoop_enc _ _ hwith.2.2 [] _ (by
                        simp only [List.nil_append]; have := hwith.2.1; omega)]
                      exact GetLiteralLoop_stop _ 34 _ _ (by omega)
                  have hg2 := hrec t.m_pBuffer.length lit2 with_ _ hv hwith.1
                  obtain ⟨off2, hg1⟩ := hlf t.m_pBuffer.length
                    (ws ++ 34 :: (lit2 ++ 34 :: ((cw ++ 64 :: ci) ++ r2)))
                  refine ⟨CReplace.new op with_ with_
                    (t.m_pBuffer.length - (lit2 ++ 34 :: ((cw ++ 64 :: ci) ++ r2)).length),
                    ?_, ⟨rfl, rfl, rfl, rfl, rfl⟩⟩
                  unfold CAutoVersion.ReadReplacement
                  have e0 : cf ++ (ws ++ [34]) ++ (lit2 ++ 34 :: ((cw ++ 64 :: ci) ++ r2))
                      = cf ++ (ws ++ 34 :: (lit2 ++ 34 :: ((cw ++ 64 :: ci) ++ r2))) := by
                    simp
                  rw [e0, e1, hg1]
                  simp only
                  rw [hg2]
                  simp only
                  have e9 : (cw ++ 64 :: ci) ++ r2 = cw ++ (64 :: (ci ++ r2)) := by simp
                  rw [e9, hlw (64 :: (ci ++ r2)) rfl]
                  simp only [ne_eq, not_true_eq_false, if_false]
                  rw [hli r2 hr2]
                  simp only
                  rw [e4, hf]
                  simp only
                  rw [if_neg (by simp)]

theorem filesReparsed_find (fa fb : List (List Nat × CFileNode)) (h : filesReparsed fa fb)
    (name : List Nat) : (mapFind fa name).isSome = (mapFind fb name).isSome := by
  unfold filesReparsed at h
  induction h with
  | nil => rfl
  | cons hab _ ih =>
    rename_i a b la lb _
    simp only [mapFind, List.find?_cons] at ih ⊢
    rw [hab.1]
    by_cases hk : a.1 = name
    · simp [hk]
    · simp only [hk, decide_False]; exact ih

theorem addReplacement_reparsed (fa fb : List (List Nat × CFileNode)) (name : List Nat)
    (d d2 : CReplace) (h : filesReparsed fa fb) (hd : d.Reparsed d2) :
    filesReparsed (addReplacement fa name d) (addReplacement fb name d2) := by
  have hf := filesReparsed_find fa fb h name
  unfold addReplacement
  cases h1 : mapFind fa name with
  | none =>
    rw [h1] at hf
    cases h2 : mapFind fb name with
    | some _ => rw [h2] at hf; cases hf
    | none =>
      simp only
      exact List.rel_append h (List.Forall₂.cons
        ⟨rfl, rfl, rfl, List.Forall₂.cons hd List.Forall₂.nil⟩ List.Forall₂.nil)
  | some _ =>
    rw [h1] at hf
    cases h2 : mapFind fb name with
    | none => rw [h2] at hf; cases hf
    | some _ =>
      simp only
      unfold filesReparsed at h ⊢
      rw [List.forall₂_map_left_iff, List.forall₂_map_right_iff]
      refine h.imp ?_
      intro a b hab
      rw [hab.1]
      by_cases hk : a.1 = name
      · rw [if_pos hk, if_pos hk]
        exact ⟨rfl, hab.2.1, hab.2.2.1,
          List.rel_append hab.2.2.2 (List.Forall₂.cons hd List.Forall₂.nil)⟩
      · rw [if_neg hk, if_neg hk]
        exact hab

theorem headD_cons_tail (l : List Nat) (c : Nat) (h : l.headD 0 = c) (hc : c ≠ 0) :
    l = c :: l.tail := by
  cases l with
  | nil => simp only [List.headD_nil] at h; omega
  | cons a l => simp only [List.headD_cons] at h; rw [h]; rfl

theorem ParseDispatch_64 (t : CAutoVersion) (X : List Nat) :
    t.ParseDispatch (64 :: X) = t.ParseConstantDef X := by
  simp [CAutoVersion.ParseDispatch]

theorem ParseDispatch_38 (t : CAutoVersion) (X : List Nat) :
    t.ParseDispatch (38 :: X) = t.ParseReplacement .enRoText X := by
  simp [CAutoVersion.ParseDispatch]

theorem ParseDispatch_36 (t : CAutoVersion) (X : List Nat) :
    t.ParseDispatch (36 :: X) = t.ParseReplacement .enRoBinary X := by
  simp [CAutoVersion.ParseDispatch]

theorem ParseDispatch_33 (t : CAutoVersion) (X : List Nat) :
    t.ParseDispatch (33 :: X) = t.ParseMessage X := by
  simp [CAutoVersion.ParseDispatch]

theorem ParseDispatch_37 (t : CAutoVersion) (X : List Nat) :
    t.ParseDispatch (37 :: X) = t.ParseCommand X := by
  simp [CAutoVersion.ParseDispatch]

theorem ParseDispatch_35 (t : CAutoVersion) (X : List Nat) :
    t.ParseDispatch (35 :: X) = .ok (SkipComment X) t := by
  simp [CAutoVersion.ParseDispatch]

theorem ParseDispatch_eol (t : CAutoVersion) (X : List Nat)
    (h : X.headD 0 = 10 ∨ X.headD 0 = 13) : t.ParseDispatch X = .ok X t := by
  unfold CAutoVersion.ParseDispatch
  simp only []
  rw [if_neg (by omega)]

theorem ParseReplacement_sim (s s1 : CAutoVersion) (op : EReplaceOp) (pt r1 : List Nat)
    (h : s.ParseReplacement op pt = .ok r1 s1) (hs : s.Parsed) :
    ∃ name d c1 lit c2, pt = c1 ++ (lit ++ 34 :: (c2 ++ r1)) ∧ 4 ≤ c1.length ∧ d.Fresh ∧
      s1.m_mapFiles = addReplacement s.m_mapFiles name d ∧
      s1.m_nCurrentLine = s.m_nCurrentLine ∧
      d.m_nControlFilePos = s.m_pBuffer.length - (lit ++ 34 :: (c2 ++ r1)).length ∧
      GetLiteralLoop s.m_nCurrentLine (lit ++ 34 :: (c2 ++ r1)) []
        = .ok (d.m_strWhat, 34 :: (c2 ++ r1)) ∧
      ∀ (t : CAutoVersion) (r2 lit2 : List Nat), s.Reparse t → r2.headD 0 = r1.headD 0 →
        (lit2 = lit ∧ d.m_strWhat = d.m_strWith ∨ lit2 = enc d.m_strWith) →
        ∃ t1, t.ParseReplacement op (c1 ++ (lit2 ++ 34 :: (c2 ++ r2))) = .ok r2 t1 ∧
          s1.Reparse t1 := by
  unfold CAutoVersion.ParseReplacement at h
  split at h
  · cases h
  · rename_i name d q hr
    simp only [Res.ok.injEq] at h
    obtain ⟨rfl, rfl⟩ := h
    obtain ⟨c1, lit, c2, hp, hc1, hpos, hloop, hsim⟩ := ReadReplacement_sim _ _ _ _ _ _ hr hs
    refine ⟨name, d, c1, lit, c2, hp, hc1, (ReadReplacement_fresh _ _ _ _ _ _ hr hs).2,
      rfl, rfl, hpos, hloop, ?_⟩
    intro t r2 lit2 hst hr2 hlit
    obtain ⟨d2, hrd, hdd⟩ := hsim t r2 lit2 hst hr2 hlit
    obtain ⟨e1, e2, e3, e4, e5, e6, e7⟩ := hst
    refine ⟨{ t with m_mapFiles := addReplacement t.m_mapFiles name d2 }, ?_, ?_⟩
    · unfold CAutoVersion.ParseReplacement
      rw [hrd]
    · exact ⟨e1, e2, e3, e4, e5, e6, addReplacement_reparsed _ _ _ _ _ e7 hdd⟩

theorem ParseDispatch_sim (s s1 : CAutoVersion) (pw r1 : List Nat)
    (h : s.ParseDispatch pw = .ok r1 s1) (hs : s.Parsed) :
    ∃ c, pw = c ++ r1 ∧ (c = [] → r1.headD 0 ≠ 0) ∧
      ((s1.m_mapFiles = s.m_mapFiles ∧
          ∀ (t : CAutoVersion) (r2 : List Nat), s.Reparse t → Agree r1 r2 →
            (c ++ r2).headD 0 = pw.headD 0 ∧
            ∃ t1, t.ParseDispatch (c ++ r2) = .ok r2 t1 ∧ s1.Reparse t1) ∨
       (∃ name d c1 lit c2, c = c1 ++ (lit ++ 34 :: c2) ∧ 5 ≤ c1.length ∧ d.Fresh ∧
          s1.m_mapFiles = addReplacement s.m_mapFiles name d ∧
          s1.m_nCurrentLine = s.m_nCurrentLine ∧
          d.m_nControlFilePos = s.m_pBuffer.length - (lit ++ 34 :: (c2 ++ r1)).length ∧
          GetLiteralLoop s.m_nCurrentLine (lit ++ 34 :: (c2 ++ r1)) []
            = .ok (d.m_strWhat, 34 :: (c2 ++ r1)) ∧
          ∀ (t : CAutoVersion) (r2 lit2 : List Nat), s.Reparse t → Agree r1 r2 →
            (lit2 = lit ∧ d.m_strWhat = d.m_strWith ∨ lit2 = enc d.m_strWith) →
            (c1 ++ (lit2 ++ 34 :: (c2 ++ r2))).headD 0 = pw.headD 0 ∧
            ∃ t1, t.ParseDispatch (c1 ++ (lit2 ++ 34 :: (c2 ++ r2))) = .ok r2 t1 ∧
              s1.Reparse t1)) := by
  unfold CAutoVersion.ParseDispatch at h
  simp only [] at h
  split at h
  · split at h
    · rename_i _ hch
      have hpw := headD_cons_tail pw 64 hch (by decide)
      obtain ⟨cx, hcx, hfiles, hsim⟩ := ParseConstantDef_sim _ _ _ _ h
      refine ⟨64 :: cx, by rw [List.cons_append, ← hcx]; exact hpw, by simp,
        Or.inl ⟨hfiles, ?_⟩⟩
      intro t r2 hst hr2
      refine ⟨by rw [hch]; rfl, ?_⟩
      obtain ⟨t1, ht1, hrp⟩ := hsim t r2 hst hr2.head
      exact ⟨t1, by rw [List.cons_append, ParseDispatch_64]; exact ht1, hrp⟩
    · split at h
      · rename_i _ _ hch
        have hpw := headD_cons_tail pw 38 hch (by decide)
        obtain ⟨name, d, c1, lit, c2, hp, hc1, hfr, hfiles, hline, hpos, hloop, hsim⟩ :=
          ParseReplacement_sim _ _ _ _ _ h hs
        refine ⟨38 :: (c1 ++ (lit ++ 34 :: c2)), ?_, by simp,
          Or.inr ⟨name, d, 38 :: c1, lit, c2, rfl, by simp only [List.length_cons]; omega, hfr,
            hfiles, hline, hpos, hloop, ?_⟩⟩
        · calc pw = 38 :: pw.tail := hpw
            _ = 38 :: (c1 ++ (lit ++ 34 :: c2)) ++ r1 := by rw [hp]; simp
        · intro t r2 lit2 hst hr2 hlit
          refine ⟨by rw [hch]; rfl, ?_⟩
          obtain ⟨t1, ht1, hrp⟩ := hsim t r2 lit2 hst hr2.head hlit
          exact ⟨t1, by rw [List.cons_append, ParseDispatch_38]; exact ht1, hrp⟩
      · split at h
        · rename_i _ _ _ hch
          have hpw := headD_cons_tail pw 36 hch (by decide)
          obtain ⟨name, d, c1, lit, c2, hp, hc1, hfr, hfiles, hline, hpos, hloop, hsim⟩ :=
            ParseReplacement_sim _ _ _ _ _ h hs
          refine ⟨36 :: (c1 ++ (lit ++ 34 :: c2)), ?_, by simp,
            Or.inr ⟨name, d, 36 :: c1, lit, c2, rfl, by simp only [List.length_cons]; omega, hfr,
              hfiles, hline, hpos, hloop, ?_⟩⟩
          · calc pw = 36 :: pw.tail := hpw
              _ = 36 :: (c1 ++ (lit ++ 34 :: c2)) ++ r1 := by rw [hp]; simp
          · intro t r2 lit2 hst hr2 hlit
            refine ⟨by rw [hch]; rfl, ?_⟩
            obtain ⟨t1, ht1, hrp⟩ := hsim t r2 lit2 hst hr2.head hlit
            exact ⟨t1, by rw [List.cons_append, ParseDispatch_36]; exact ht1, hrp⟩
        · split at h
          · rename_i _ _ _ _ hch
            have hpw := headD_cons_tail pw 33 hch (by decide)
            obtain ⟨cx, hcx, hfiles, hsim⟩ := ParseMessage_sim _ _ _ _ h
            refine ⟨33 :: cx, by rw [List.cons_append, ← hcx]; exact hpw, by simp,
              Or.inl ⟨hfiles, ?_⟩⟩
            intro t r2 hst hr2
            refine ⟨by rw [hch]; rfl, ?_⟩
            obtain ⟨t1, ht1, hrp⟩ := hsim t r2 hst hr2.head
            exact ⟨t1, by rw [List.cons_append, ParseDispatch_33]; exact ht1, hrp⟩
          · split at h
            · rename_i _ _ _ _ _ hch
              have hpw := headD_cons_tail pw 37 hch (by decide)
              obtain ⟨cx, hcx, hfiles, hsim⟩ := ParseCommand_sim _ _ _ _ h
              refine ⟨37 :: cx, by rw [List.cons_append, ← hcx]; exact hpw, by simp,
                Or.inl ⟨hfiles, ?_⟩⟩
              intro t r2 hst hr2
              refine ⟨by rw [hch]; rfl, ?_⟩
              obtain ⟨t1, ht1, hrp⟩ := hsim t r2 hst hr2
              exact ⟨t1, by rw [List.cons_append, ParseDispatch_37]; exact ht1, hrp⟩
            · split at h
              · rename_i _ _ _ _ _ _ hch
                have hpw := headD_cons_tail pw 35 hch (by decide)
                simp only [Res.ok.injEq] at h
                obtain ⟨rfl, rfl⟩ := h
                obtain ⟨cx, hcx, hloc⟩ := SkipComment_local pw.tail
                refine ⟨35 :: cx, by rw [List.cons_append, ← hcx]; exact hpw, by simp,
                  Or.inl ⟨rfl, ?_⟩⟩
                intro t r2 hst hr2
                refine ⟨by rw [hch]; rfl, t, ?_, hst⟩
                rw [List.cons_append, ParseDispatch_35, hloc r2 hr2.head]
              · cases h
  · rename_i hnl
    simp only [Res.ok.injEq] at h
    obtain ⟨rfl, rfl⟩ := h
    refine ⟨[], rfl, fun _ => by omega, Or.inl ⟨rfl, ?_⟩⟩
    intro t r2 hst hr2
    refine ⟨hr2.head, t, ?_, hst⟩
    rw [List.nil_append]
    exact ParseDispatch_eol _ _ (by rw [hr2.head]; omega)

/-- One line of the control file, as a chunk `c` in front of the rest `r`.  A line that
is no directive reads the same in front of any continuation the scanner cannot tell
from `r`; a directive line does so too after its raw `what` literal is replaced by the
encoding of `with`. -/
theorem ParseLine_sim (s s' : CAutoVersion) (p r : List Nat)
    (h : s.ParseLine p = .ok r s') (hs : s.Parsed) :
    ∃ c, p = c ++ r ∧ c ≠ [] ∧
      ((s'.m_mapFiles = s.m_mapFiles ∧
          ∀ (t : CAutoVersion) (r2 : List Nat), s.Reparse t → Agree r r2 →
            ∃ t', t.ParseLine (c ++ r2) = .ok r2 t' ∧ s'.Reparse t') ∨
       (∃ name d c1 lit c2, c = c1 ++ (lit ++ c2) ∧ 5 ≤ c1.length ∧ c2 ≠ [] ∧ d.Fresh ∧
          s'.m_mapFiles = addReplacement s.m_mapFiles name d ∧
          d.m_nControlFilePos = s.m_pBuffer.length - (lit ++ (c2 ++ r)).length ∧
          GetLiteralLoop s.m_nCurrentLine (lit ++ (c2 ++ r)) [] = .ok (d.m_strWhat, c2 ++ r) ∧
          ∀ (t : CAutoVersion) (r2 lit2 : List Nat), s.Reparse t → Agree r r2 →
            (lit2 = lit ∧ d.m_strWhat = d.m_strWith ∨ lit2 = enc d.m_strWith) →
            ∃ t', t.ParseLine (c1 ++ (lit2 ++ (c2 ++ r2))) = .ok r2 t' ∧ s'.Reparse t')) := by
  unfold CAutoVersion.ParseLine at h
  split at h
  · cases h
  · rename_i r1 s1 hd
    split at h
    · cases h
    · rename_i q line' hsk
      simp only [Res.ok.injEq] at h
      obtain ⟨rfl, rfl⟩ := h
      obtain ⟨cw, hcw, _, hlw⟩ := SkipWhiteSpaces_local p
      obtain ⟨cl, hcl, hclne, hll⟩ := SkipLine_local _ _ _ _ _ hsk
      obtain ⟨cd, hcd, hcdne, hcase⟩ := ParseDispatch_sim _ _ _ _ hd hs
      have hne : cw ++ (cd ++ cl) ≠ [] := by
        by_cases h0 : cd = []
        · have := hclne (hcdne h0); simp [this]
        · simp [h0]
      have hp : p = cw ++ (cd ++ cl) ++ q :=
        calc p = cw ++ SkipWhiteSpaces p := hcw
          _ = cw ++ (cd ++ r1) := by rw [← hcd]
          _ = cw ++ (cd ++ cl) ++ q := by rw [hcl]; simp
      rcases hcase with ⟨hfiles, hsim⟩ |
        ⟨name, d, c1, lit, c2, hc, hc1, hfr, hfiles, hline, hpos, hloop, hsim⟩
      · refine ⟨cw ++ (cd ++ cl), hp, hne, Or.inl ⟨hfiles, ?_⟩⟩
        intro t r2 hst hr2
        have hA : Agree r1 (cl ++ r2) := by rw [hcl]; exact hr2.append cl
        obtain ⟨hhead, t1, ht1, hrp⟩ := hsim t (cl ++ r2) hst hA
        refine ⟨{ t1 with m_nCurrentLine := line' }, ?_, ?_⟩
        · unfold CAutoVersion.ParseLine
          rw [show cw ++ (cd ++ cl) ++ r2 = cw ++ (cd ++ (cl ++ r2)) by simp, hlw _ hhead, ht1]
          simp only
          rw [hrp.1, hll r2 hr2.head]
        · obtain ⟨e1, e2, e3, e4, e5, e6, e7⟩ := hrp
          exact ⟨rfl, e2, e3, e4, e5, e6, e7⟩
      · have hr1 : lit ++ 34 :: (c2 ++ r1) = lit ++ ((34 :: (c2 ++ cl)) ++ q) := by
          rw [hcl]; simp
        refine ⟨cw ++ (cd ++ cl), hp, hne, Or.inr ⟨name, d, cw ++ c1, lit, 34 :: (c2 ++ cl),
          by rw [hc]; simp, by simp only [List.length_append]; omega, by simp, hfr, hfiles,
          ?_, ?_, ?_⟩⟩
        · rw [hpos, hr1]
        · have := hloop
          rw [hr1] at this
          rw [this, hcl]; simp
        · intro t r2 lit2 hst hr2 hlit
          have hA : Agree r1 (cl ++ r2) := by rw [hcl]; exact hr2.append cl
          obtain ⟨hhead, t1, ht1, hrp⟩ := hsim t (cl ++ r2) lit2 hst hA hlit
          refine ⟨{ t1 with m_nCurrentLine := line' }, ?_, ?_⟩
          · unfold CAutoVersion.ParseLine
            rw [show cw ++ c1 ++ (lit2 ++ (34 :: (c2 ++ cl) ++ r2))
              = cw ++ (c1 ++ (lit2 ++ 34 :: (c2 ++ (cl ++ r2)))) by simp, hlw _ hhead, ht1]
            simp only
            rw [hrp.1, hll r2 hr2.head]
          · obtain ⟨e1, e2, e3, e4, e5, e6, e7⟩ := hrp
            exact ⟨rfl, e2, e3, e4, e5, e6, e7⟩

theorem Agree_of_chunk (c x y : List Nat) (h : 5 ≤ c.length) : Agree (c ++ x) (c ++ y) := by
  unfold Agree
  rw [List.append_assoc, List.append_assoc, List.take_append_of_le_length h,
    List.take_append_of_le_length h]

theorem enc_noNul (s : List Nat) (h : NoNul s) : NoNul (enc s) := by
  intro c hc
  unfold enc at hc
  obtain ⟨a, ha, hca⟩ := List.mem_flatMap.mp hc
  have ha0 := h a ha
  unfold escapeByte at hca
  split at hca
  · simp only [List.mem_cons, List.mem_singleton, List.not_mem_nil, or_false] at hca
    omega
  · split at hca
    · simp only [List.mem_cons, List.mem_singleton, List.not_mem_nil, or_false] at hca
      omega
    · simp only [List.mem_singleton] at hca
      omega

theorem UpdateControlFile_inv (r : CReplace) (buf buf1 : List Nat) (off off1 : Int)
    (hd : r.m_bDidReplace = true) (hn : NoNul r.m_strWhat)
    (h : r.UpdateControlFile buf off = .ok (buf1, off1)) :
    0 ≤ (r.m_nControlFilePos : Int) + off ∧
    enc r.m_strWhat <+: buf.drop ((r.m_nControlFilePos : Int) + off).toNat ∧
    buf1 = buf.take ((r.m_nControlFilePos : Int) + off).toNat ++ enc r.m_strWith ++
      buf.drop (((r.m_nControlFilePos : Int) + off).toNat + (enc r.m_strWhat).length) ∧
    off1 = off + (((enc r.m_strWith).length : Int) - ((enc r.m_strWhat).length : Int)) := by
  unfold CReplace.UpdateControlFile at h
  simp only [hd, if_true, encodeLiteral_eq] at h
  split at h
  · cases h
  · rename_i hpos
    split at h
    · cases h
    · cases h
    · rename_i hcmp
      split at h
      · simp only [Except.ok.injEq, Prod.mk.injEq] at h
        exact ⟨by omega, (strncmp_noNul _ (enc_noNul _ hn) _).mp hcmp, h.1.symm, h.2.symm⟩
      · cases h

theorem literal_canonical (line : Nat) (lit X what : List Nat) (hw : LitOk what)
    (hloop : GetLiteralLoop line (lit ++ X) [] = .ok (what, X))
    (hpre : enc what <+: lit ++ X) : lit = enc what := by
  obtain ⟨t, ht⟩ := hpre
  rw [← ht, GetLiteralLoop_enc _ _ hw.2.2 [] t (by
    simp only [List.nil_append]; have := hw.2.1; omega)] at hloop
  obtain ⟨c, hc, _, _, hgrow, _⟩ := GetLiteralLoop_local line t.length t _ _ _ (le_refl _) hloop
  have hcn : c = [] := by
    by_contra hne
    have := hgrow hne
    simp only [List.nil_append] at this
    omega
  rw [hcn, List.nil_append] at hc
  rw [hc] at ht
  exact (List.append_cancel_right ht).symm

theorem collect_map_id (name : List Nat) (d : CReplace) :
    ∀ (files : List (List Nat × CFileNode)), name ∉ files.map Prod.fst →
      files.map (fun kv => if kv.1 = name then (kv.1, kv.2.Add d) else kv) = files := by
  intro files h
  conv_rhs => rw [← List.map_id files]
  apply List.map_congr_left
  intro kv hkv
  have : kv.1 ≠ name := fun e => h (e ▸ List.mem_map_of_mem Prod.fst hkv)
  simp [this]

theorem collect_map_add (name : List Nat) (d : CReplace) :
    ∀ (files : List (List Nat × CFileNode)), (files.map Prod.fst).Nodup →
      name ∈ files.map Prod.fst →
      (collectReplacements
        (files.map (fun kv => if kv.1 = name then (kv.1, kv.2.Add d) else kv))).Perm
        (collectReplacements files ++ [d]) := by
  intro files
  induction files with
  | nil => intro _ h; cases h
  | cons kv rest ih =>
    intro hnd hmem
    simp only [List.map_cons, List.nodup_cons] at hnd
    simp only [List.map_cons, collectReplacements, List.flatMap_cons]
    by_cases hk : kv.1 = name
    · rw [if_pos hk]
      have hnot : name ∉ rest.map Prod.fst := hk ▸ hnd.1
      rw [collect_map_id name d rest hnot]
      simp only [CFileNode.Add, List.append_assoc]
      exact List.Perm.append_left _ List.perm_append_comm
    · rw [if_neg hk]
      have hm : name ∈ rest.map Prod.fst := by
        simp only [List.map_cons, List.mem_cons] at hmem
        rcases hmem with e | e
        · exact absurd e.symm hk
        · exact e
      have := ih hnd.2 hm
      simp only [collectReplacements] at this
      rw [List.append_assoc]
      exact List.Perm.append_left _ this

theorem collect_addReplacement (files : List (List Nat × CFileNode)) (name : List Nat)
    (d : CReplace) (hnd : (files.map Prod.fst).Nodup) :
    (collectReplacements (addReplacement files name d)).Perm
      (collectReplacements files ++ [d]) := by
  unfold addReplacement
  cases h : mapFind files name with
  | none =>
    simp only [collectReplacements, List.flatMap_append, List.flatMap_cons, List.flatMap_nil,
      CFileNode.Add, CFileNode.new, List.nil_append, List.append_nil]
    exact List.Perm.refl _
  | some n =>
    simp only
    exact collect_map_add name d files hnd
      (List.mem_map_of_mem Prod.fst (mapFind_mem _ _ _ h))

/-- Parsing to the end, line by line, against the control file as the rewrite leaves it.
`D` lists the directives read from `p` on, in the order read; `q` is `p` with the raw
`what` literal of every directive whose `what` differs from `with` replaced by the
encoding of `with`.  Parsing `q` ends in the related object, and when the splices of
`D` succeed on a buffer ending in `p`, that buffer ends in `q` afterwards. -/
theorem ParseLoop_sim : ∀ (f : Nat) (s s' : CAutoVersion) (pre p : List Nat),
    CAutoVersion.ParseLoop f s p = .ok () s' → s.Parsed → s.m_pBuffer = pre ++ p →
    ∃ (D : List CReplace) (q : List Nat),
      (collectReplacements s'.m_mapFiles).Perm (collectReplacements s.m_mapFiles ++ D) ∧
      D.Pairwise (fun a b => a.m_nControlFilePos < b.m_nControlFilePos) ∧
      (∀ d ∈ D, pre.length ≤ d.m_nControlFilePos ∧ d.Fresh) ∧
      Agree p q ∧
      (∀ (t : CAutoVersion) (f2 : Nat), s.Reparse t → q.length < f2 →
        ∃ t', CAutoVersion.ParseLoop f2 t q = .ok () t' ∧ s'.Reparse t') ∧
      (∀ (P buf : List Nat) (off : Int),
        UpdateControlFileAll (D.map CReplace.applied) (P ++ p)
          ((P.length : Int) - (pre.length : Int)) = .ok (buf, off) → buf = P ++ q) := by
  intro f
  induction f with
  | zero => intro s s' pre p h; simp [CAutoVersion.ParseLoop] at h
  | succ f ih =>
    intro s s' pre p h hs hbuf
    unfold CAutoVersion.ParseLoop at h
    split at h
    · rename_i hp0
      split at h
      · cases h
      · rename_i p1 s1 hline
        obtain ⟨hs1, hsame⟩ := ParseLine_inv _ _ _ _ hline hs
        obtain ⟨c, hc, hcne, hcase⟩ := ParseLine_sim _ _ _ _ hline hs
        have hbuf1 : s1.m_pBuffer = (pre ++ c) ++ p1 := by
          rw [hsame.2.2.2.2, hbuf, hc, List.append_assoc]
        obtain ⟨D1, q1, hperm, hpw, hD, hag, hrun, hupd⟩ :=
          ih s1 s' (pre ++ c) p1 h hs1 hbuf1
        have hoff : ∀ P : List Nat, ((P ++ c).length : Int) - ((pre ++ c).length : Int)
            = (P.length : Int) - (pre.length : Int) := by
          intro P
          simp only [List.length_append]; push_cast; omega
        have hcpos : 0 < c.length := List.length_pos.mpr hcne
        have hD1 : ∀ x ∈ D1, pre.length + c.length ≤ x.m_nControlFilePos ∧ x.Fresh := by
          intro x hx
          have := hD x hx
          exact ⟨by have := this.1; simp only [List.length_append] at this; omega, this.2⟩
        rcases hcase with ⟨hfiles, hsim⟩ |
          ⟨name, d, c1, lit, c2, hcc, hc1, hc2, hfr, hfiles, hpos, hloop, hsim⟩
        · refine ⟨D1, c ++ q1, by rw [← hfiles]; exact hperm, hpw, ?_,
            by rw [hc]; exact hag.append c, ?_, ?_⟩
          · intro x hx
            exact ⟨by have := (hD1 x hx).1; omega, (hD1 x hx).2⟩
          · intro t f2 hst hf2
            cases f2 with
            | zero => omega
            | succ f2 =>
              obtain ⟨t1, ht1, hrp⟩ := hsim t q1 hst hag
              have hlen : q1.length < f2 := by
                simp only [List.length_append] at hf2; omega
              obtain ⟨t', ht', hrp'⟩ := hrun t1 f2 hrp hlen
              refine ⟨t', ?_, hrp'⟩
              unfold CAutoVersion.ParseLoop
              have hh : (c ++ q1).headD 0 ≠ 0 := by
                rw [headD_append_congr c p1 q1 hag.head, ← hc]; exact hp0
              rw [if_pos hh, ht1]
              exact ht'
          · intro P buf off hu
            have := hupd (P ++ c) buf off (by
              rw [List.append_assoc, ← hc, hoff P]; exact hu)
            rw [this, List.append_assoc]
        · have hdpos : d.m_nControlFilePos = pre.length + c1.length := by
            rw [hpos, hbuf, hc, hcc]
            simp only [List.length_append]
            omega
          have hc2l : 0 < c2.length := List.length_pos.mpr hc2
          have hclen : c.length = c1.length + (lit.length + c2.length) := by
            rw [hcc]; simp only [List.length_append]
          have hpe : p = c1 ++ (lit ++ (c2 ++ p1)) := by rw [hc, hcc]; simp
          have hlitc : ∀ lit2, lit2 = (if d.m_strWhat = d.m_strWith then lit
              else enc d.m_strWith) →
              (lit2 = lit ∧ d.m_strWhat = d.m_strWith ∨ lit2 = enc d.m_strWith) := by
            intro lit2 h2
            by_cases hww : d.m_strWhat = d.m_strWith
            · left; exact ⟨by rw [h2, if_pos hww], hww⟩
            · right; rw [h2, if_neg hww]
          refine ⟨d :: D1, c1 ++ ((if d.m_strWhat = d.m_strWith then lit
              else enc d.m_strWith) ++ (c2 ++ q1)), ?_, ?_, ?_, ?_, ?_, ?_⟩
          · rw [hfiles] at hperm
            have h1 := collect_addReplacement s.m_mapFiles name d hs.2.2.2
            have h2 := hperm.trans (List.Perm.append_right D1 h1)
            simpa [List.append_assoc] using h2
          · rw [List.pairwise_cons]
            refine ⟨?_, hpw⟩
            intro d1 hd1
            have := (hD1 d1 hd1).1
            omega
          · intro x hx
            rcases List.mem_cons.mp hx with rfl | hx
            · exact ⟨by omega, hfr⟩
            · exact ⟨by have := (hD1 x hx).1; omega, (hD1 x hx).2⟩
          · rw [hpe]
            exact Agree_of_chunk c1 _ _ hc1
          · intro t f2 hst hf2
            cases f2 with
            | zero => omega
            | succ f2 =>
              obtain ⟨t1, ht1, hrp⟩ := hsim t q1 _ hst hag (hlitc _ rfl)
              have hlen : q1.length < f2 := by
                simp only [List.length_append] at hf2; omega
              obtain ⟨t', ht', hrp'⟩ := hrun t1 f2 hrp hlen
              refine ⟨t', ?_, hrp'⟩
              unfold CAutoVersion.ParseLoop
              have hh : (c1 ++ ((if d.m_strWhat = d.m_strWith then lit
                  else enc d.m_strWith) ++ (c2 ++ q1))).headD 0 ≠ 0 := by
                rw [(Agree_of_chunk c1 (lit ++ (c2 ++ p1)) _ hc1).head, ← hpe]
                exact hp0
              rw [if_pos hh, ht1]
              exact ht'
          · intro P buf off hu
            simp only [List.map_cons, UpdateControlFileAll] at hu
            split at hu
            · cases hu
            · rename_i buf1 off1 hstep
              by_cases hww : d.m_strWhat = d.m_strWith
              · have happ : d.applied = d := by unfold CReplace.applied; rw [if_pos hww]
                rw [happ, UpdateControlFile_skip d _ _ hfr.2.2.2] at hstep
                simp only [Except.ok.injEq, Prod.mk.injEq] at hstep
                obtain ⟨rfl, rfl⟩ := hstep
                have := hupd (P ++ c) buf off (by
                  rw [List.append_assoc, ← hc, hoff P]; exact hu)
                rw [this, if_pos hww, hcc]; simp
              · have hdid : d.applied.m_bDidReplace = true := by
                  unfold CReplace.applied; rw [if_neg hww]
                have hwhat : d.applied.m_strWhat = d.m_strWhat := by
                  unfold CReplace.applied; rw [if_neg hww]
                have hwith : d.applied.m_strWith = d.m_strWith := by
                  unfold CReplace.applied; rw [if_neg hww]
                have hposa : d.applied.m_nControlFilePos = d.m_nControlFilePos := by
                  unfold CReplace.applied; rw [if_neg hww]
                obtain ⟨h0, hpre, hb1, ho1⟩ := UpdateControlFile_inv d.applied _ _ _ _ hdid
                  (by rw [hwhat]; exact hfr.1.noNul) hstep
                rw [hwhat, hposa] at hpre
                rw [hwhat, hwith, hposa] at hb1
                rw [hwhat, hwith] at ho1
                have hi : ((d.m_nControlFilePos : Int) +
                    ((P.length : Int) - (pre.length : Int))).toNat = (P ++ c1).length := by
                  rw [hdpos]; simp only [List.length_append]; push_cast; omega
                rw [hi] at hpre hb1
                have hPp : P ++ p = (P ++ c1) ++ (lit ++ (c2 ++ p1)) := by rw [hpe]; simp
                rw [hPp, List.drop_left] at hpre
                have hlit : lit = enc d.m_strWhat :=
                  literal_canonical _ _ _ _ hfr.1 hloop hpre
                have hPp2 : P ++ p = ((P ++ c1) ++ enc d.m_strWhat) ++ (c2 ++ p1) := by
                  rw [hPp, hlit]; simp
                have hb2 : buf1 = (P ++ c1 ++ enc d.m_strWith ++ c2) ++ p1 := by
                  rw [hb1]
                  have e1 : (P ++ p).take (P ++ c1).length = P ++ c1 := by
                    rw [hPp, List.take_left]
                  have e2 : (P ++ p).drop ((P ++ c1).length + (enc d.m_strWhat).length)
                      = c2 ++ p1 := by
                    rw [hPp2]
                    have : (P ++ c1).length + (enc d.m_strWhat).length
                        = ((P ++ c1) ++ enc d.m_strWhat).length := by
                      simp only [List.length_append]
                    rw [this, List.drop_left]
                  rw [e1, e2]; simp
                have ho2 : off1 = (((P ++ c1 ++ enc d.m_strWith ++ c2).length : Int)
                    - ((pre ++ c).length : Int)) := by
                  rw [ho1, hcc, hlit]
                  simp only [List.length_append]; push_cast; omega
                rw [hb2, ho2] at hu
                have := hupd (P ++ c1 ++ enc d.m_strWith ++ c2) buf off hu
                rw [this, if_neg hww]; simp
    · rename_i hp0
      simp only [Res.ok.injEq, true_and] at h
      subst h
      refine ⟨[], p, by simp, List.Pairwise.nil, fun d hd => absurd hd (List.not_mem_nil d),
        Agree.same p, ?_, ?_⟩
      · intro t f2 hst hf2
        cases f2 with
        | zero => omega
        | succ f2 =>
          refine ⟨t, ?_, hst⟩
          unfold CAutoVersion.ParseLoop
          rw [if_neg hp0]
      · intro P buf off hu
        simp only [List.map_nil, UpdateControlFileAll, Except.ok.injEq, Prod.mk.injEq] at hu
        exact hu.1.symm

/-! ## What a successful run leaves in the file records -/

theorem CheckReplaceAll_ok (f buf : List Nat) :
    ∀ (rs rs' : List CReplace) (m m' : Bool),
      CheckReplaceAll f buf rs m = (rs', m', none) → (∀ r ∈ rs, NoNul r.m_strWhat) →
      rs' = rs.map (fun r : CReplace => if r.m_strWhat = r.m_strWith then r
        else { r with m_bMustReplace := true }) ∧
      (m' = false → m = false ∧ ∀ r ∈ rs, r.m_strWhat = r.m_strWith) := by
  intro rs
  induction rs with
  | nil =>
    intro rs' m m' h _
    simp only [CheckReplaceAll, Prod.mk.injEq, and_true] at h
    exact ⟨h.1.symm, fun hm => ⟨by rw [h.2]; exact hm, fun r hr => absurd hr (List.not_mem_nil r)⟩⟩
  | cons r rs ih =>
    intro rs' m m' h hn
    have hnr := hn r (List.mem_cons_self _ _)
    have hnrs : ∀ x ∈ rs, NoNul x.m_strWhat := fun x hx => hn x (List.mem_cons_of_mem _ hx)
    unfold CheckReplaceAll at h
    rw [CheckReplace_spec r f buf hnr] at h
    by_cases hin : r.m_strWhat <:+: buf
    · rw [if_pos hin] at h
      by_cases hww : r.m_strWhat = r.m_strWith
      · rw [if_pos hww] at h
        simp only [Bool.false_eq_true, if_false] at h
        cases hrec : CheckReplaceAll f buf rs m with
        | mk rs1 rest =>
          obtain ⟨m1, e1⟩ := rest
          rw [hrec] at h
          simp only [Prod.mk.injEq] at h
          obtain ⟨rfl, rfl, rfl⟩ := h
          obtain ⟨h1, h2⟩ := ih _ _ _ hrec hnrs
          refine ⟨by rw [List.map_cons, if_pos hww, h1], ?_⟩
          intro hm
          obtain ⟨h3, h4⟩ := h2 hm
          refine ⟨h3, ?_⟩
          intro x hx
          rcases List.mem_cons.mp hx with rfl | hx
          · exact hww
          · exact h4 x hx
      · rw [if_neg hww] at h
        simp only [if_true] at h
        cases hrec : CheckReplaceAll f buf rs true with
        | mk rs1 rest =>
          obtain ⟨m1, e1⟩ := rest
          rw [hrec] at h
          simp only [Prod.mk.injEq] at h
          obtain ⟨rfl, rfl, rfl⟩ := h
          obtain ⟨h1, h2⟩ := ih _ _ _ hrec hnrs
          refine ⟨by rw [List.map_cons, if_neg hww, h1], ?_⟩
          intro hm
          exact absurd (h2 hm).1 (by simp)
    · rw [if_neg hin] at h
      simp only [Prod.mk.injEq] at h
      exact absurd h.2.2 (by simp)

theorem DoReplaceAll_ok :
    ∀ (rs rs' : List CReplace) (buf newbuf : List Nat),
      DoReplaceAll rs buf = (rs', .ok newbuf) →
      rs' = rs.map (fun r : CReplace => if r.m_bMustReplace = true then { r with m_bDidReplace := true }
        else r) := by
  intro rs
  induction rs with
  | nil =>
    intro rs' buf newbuf h
    simp only [DoReplaceAll, Prod.mk.injEq] at h
    exact h.1.symm
  | cons r rs ih =>
    intro rs' buf newbuf h
    unfold DoReplaceAll at h
    split at h
    · simp only [Prod.mk.injEq] at h
      exact absurd h.2 (by simp)
    · rename_i buf1 r1 k hdo
      cases hrec : DoReplaceAll rs buf1 with
      | mk rs1 res =>
        rw [hrec] at h
        simp only [Prod.mk.injEq] at h
        obtain ⟨rfl, rfl⟩ := h
        have h1 := ih _ _ _ hrec
        rw [List.map_cons, ← h1]
        congr 1
        unfold CReplace.DoReplace at hdo
        by_cases hm : r.m_bMustReplace = true
        · rw [if_pos hm] at hdo
          rw [if_pos hm]
          split at hdo
          · simp only [Except.ok.injEq, Prod.mk.injEq] at hdo
            exact hdo.2.1.symm
          · cases hdo
        · rw [if_neg hm] at hdo
          rw [if_neg hm]
          simp only [Except.ok.injEq, Prod.mk.injEq] at hdo
          exact hdo.2.1.symm

theorem applied_of_steps (r : CReplace) (hm : r.m_bMustReplace = false) :
    (fun x : CReplace => if x.m_bMustReplace = true then { x with m_bDidReplace := true }
        else x)
      ((fun x : CReplace => if x.m_strWhat = x.m_strWith then x
        else { x with m_bMustReplace := true }) r) = r.applied := by
  unfold CReplace.applied
  by_cases hww : r.m_strWhat = r.m_strWith
  · simp only [if_pos hww, hm, Bool.false_eq_true, if_false]
  · simp only [if_neg hww, if_true]

theorem CheckReplacements_ok (n n' : CFileNode) (fs : FS) (path : List Nat) (b : Bool)
    (h : n.CheckReplacements fs path = .ok b n') (hf : n.Fresh) :
    n'.m_listReplacements = n.m_listReplacements.map (fun r : CReplace => if r.m_strWhat = r.m_strWith then r
        else { r with m_bMustReplace := true }) ∧
    n'.m_bMustReplace = b ∧
    (b = false → ∀ r ∈ n.m_listReplacements, r.m_strWhat = r.m_strWith) ∧
    fs (path ++ avbak) = none ∧ (fs path).isSome = true := by
  unfold CFileNode.CheckReplacements at h
  simp only [] at h
  split at h
  · cases h
  · rename_i hbak
    split at h
    · cases h
    · rename_i buf hbuf
      split at h
      · cases h
      · rename_i rs m hall
        simp only [Res.ok.injEq] at h
        obtain ⟨rfl, rfl⟩ := h
        obtain ⟨h1, h2⟩ := CheckReplaceAll_ok _ _ _ _ _ _ hall
          (fun r hr => (hf.2.2 r hr).1.noNul)
        exact ⟨h1, rfl, fun hm => (h2 hm).2, hbak, by rw [hbuf]; rfl⟩

theorem DoReplacments_ok (n n' : CFileNode) (fs fs' : FS) (path : List Nat)
    (h : n.DoReplacments fs path = .ok () (n', fs')) :
    n'.m_listReplacements = (if n.m_bMustReplace = true then
      n.m_listReplacements.map (fun r : CReplace => if r.m_bMustReplace = true then { r with m_bDidReplace := true }
        else r)
      else n.m_listReplacements) ∧
    ∀ q, q ≠ path → q ≠ path ++ avbak → fs' q = fs q := by
  unfold CFileNode.DoReplacments at h
  by_cases hm : n.m_bMustReplace = true
  · rw [if_pos hm] at h
    rw [if_pos hm]
    split at h
    · cases h
    · rename_i buf hbuf
      split at h
      · cases h
      · rename_i rs newbuf hall
        unfold Backup at h
        simp only [hbuf] at h
        simp only [Res.ok.injEq, Prod.mk.injEq, true_and] at h
        obtain ⟨rfl, rfl⟩ := h
        refine ⟨DoReplaceAll_ok _ _ _ _ hall, ?_⟩
        intro q h1 h2
        simp only [FS.write, if_neg h1, if_neg h2]
  · rw [if_neg hm] at h
    rw [if_neg hm]
    simp only [Res.ok.injEq, Prod.mk.injEq, true_and] at h
    obtain ⟨rfl, rfl⟩ := h
    exact ⟨rfl, fun _ _ _ => rfl⟩

theorem CheckAll_ok (base : List Nat) (fs : FS) :
    ∀ (files files' : List (List Nat × CFileNode)) (has has' : Bool),
      CheckAll base fs files has = (files', has', none) → (∀ kv ∈ files, kv.2.Fresh) →
      List.Forall₂ (fun a b : List Nat × CFileNode => b.1 = a.1 ∧
        b.2.m_listReplacements = a.2.m_listReplacements.map (fun r : CReplace => if r.m_strWhat = r.m_strWith then r
        else { r with m_bMustReplace := true }) ∧
        (b.2.m_bMustReplace = false →
          ∀ r ∈ a.2.m_listReplacements, r.m_strWhat = r.m_strWith)) files files' ∧
      (has' = false → has = false ∧
        ∀ kv ∈ files, ∀ r ∈ kv.2.m_listReplacements, r.m_strWhat = r.m_strWith) ∧
      (∀ kv ∈ files, fs (base ++ [92] ++ kv.1 ++ avbak) = none ∧
        (fs (base ++ [92] ++ kv.1)).isSome = true) := by
  intro files
  induction files with
  | nil =>
    intro files' has has' h _
    simp only [CheckAll, Prod.mk.injEq, and_true] at h
    obtain ⟨rfl, rfl⟩ := h
    exact ⟨List.Forall₂.nil, fun hm => ⟨hm, fun kv hkv => absurd hkv (List.not_mem_nil kv)⟩,
      fun kv hkv => absurd hkv (List.not_mem_nil kv)⟩
  | cons kv rest ih =>
    intro files' has has' h hf
    obtain ⟨name, n⟩ := kv
    have hfn := hf (name, n) (List.mem_cons_self _ _)
    have hfr : ∀ kv ∈ rest, kv.2.Fresh := fun x hx => hf x (List.mem_cons_of_mem _ hx)
    unfold CheckAll at h
    split at h
    · simp only [Prod.mk.injEq] at h
      exact absurd h.2.2 (by simp)
    · rename_i b n' hchk
      obtain ⟨c1, c2, c3, c4, c5⟩ := CheckReplacements_ok _ _ _ _ _ hchk hfn
      cases hrec : CheckAll base fs rest (if b = true then true else has) with
      | mk rest1 tl =>
        obtain ⟨has1, e1⟩ := tl
        rw [hrec] at h
        simp only [Prod.mk.injEq] at h
        obtain ⟨rfl, rfl, rfl⟩ := h
        obtain ⟨i1, i2, i3⟩ := ih _ _ _ hrec hfr
        refine ⟨List.Forall₂.cons ⟨rfl, c1, fun hm => c3 (by rw [← c2]; exact hm)⟩ i1, ?_, ?_⟩
        · intro hm
          obtain ⟨j1, j2⟩ := i2 hm
          have hb : b = false := by
            cases b with
            | false => rfl
            | true => simp at j1
          rw [hb] at j1
          simp only [Bool.false_eq_true, if_false] at j1
          refine ⟨j1, ?_⟩
          intro x hx
          rcases List.mem_cons.mp hx with rfl | hx
          · exact c3 hb
          · exact j2 x hx
        · intro x hx
          rcases List.mem_cons.mp hx with rfl | hx
          · exact ⟨by simpa [List.append_assoc] using c4, c5⟩
          · exact i3 x hx

theorem DoAll_ok (base : List Nat) :
    ∀ (files files' : List (List Nat × CFileNode)) (fs fs' : FS),
      DoAll base files fs = (files', fs', none) →
      List.Forall₂ (fun a b : List Nat × CFileNode => b.1 = a.1 ∧
        b.2.m_listReplacements = (if a.2.m_bMustReplace = true then
          a.2.m_listReplacements.map (fun r : CReplace => if r.m_bMustReplace = true then { r with m_bDidReplace := true }
        else r)
          else a.2.m_listReplacements)) files files' ∧
      ∀ q, (∀ kv ∈ files, q ≠ base ++ [92] ++ kv.1 ∧ q ≠ base ++ [92] ++ kv.1 ++ avbak) →
        fs' q = fs q := by
  intro files
  induction files with
  | nil =>
    intro files' fs fs' h
    simp only [DoAll, Prod.mk.injEq, and_true] at h
    obtain ⟨rfl, rfl⟩ := h
    exact ⟨List.Forall₂.nil, fun _ _ => rfl⟩
  | cons kv rest ih =>
    intro files' fs fs' h
    obtain ⟨name, n⟩ := kv
    unfold DoAll at h
    split at h
    · simp only [Prod.mk.injEq] at h
      exact absurd h.2.2 (by simp)
    · rename_i u n' fs1 hdo
      obtain ⟨d1, d2⟩ := DoReplacments_ok _ _ _ _ _ hdo
      cases hrec : DoAll base rest fs1 with
      | mk rest1 tl =>
        obtain ⟨fs2, e1⟩ := tl
        rw [hrec] at h
        simp only [Prod.mk.injEq] at h
        obtain ⟨rfl, rfl, rfl⟩ := h
        obtain ⟨i1, i2⟩ := ih _ _ _ hrec
        refine ⟨List.Forall₂.cons ⟨rfl, d1⟩ i1, ?_⟩
        intro q hq
        rw [i2 q (fun x hx => hq x (List.mem_cons_of_mem _ hx))]
        have := hq (name, n) (List.mem_cons_self _ _)
        exact d2 q this.1 this.2

/-! ## Lists related element by element -/

theorem forall₂_and_left {α β : Type} {R : α → β → Prop} {P : α → Prop} :
    ∀ {l1 : List α} {l2 : List β}, List.Forall₂ R l1 l2 → (∀ a ∈ l1, P a) →
      List.Forall₂ (fun a b => P a ∧ R a b) l1 l2 := by
  intro l1 l2 h
  induction h with
  | nil => intro _; exact List.Forall₂.nil
  | cons hab _ ih =>
    intro hp
    exact List.Forall₂.cons ⟨hp _ (List.mem_cons_self _ _), hab⟩
      (ih (fun a ha => hp a (List.mem_cons_of_mem _ ha)))

theorem forall₂_comp {α β γ : Type} {R : α → β → Prop} {S : β → γ → Prop}
    {T : α → γ → Prop} (h : ∀ a b c, R a b → S b c → T a c) :
    ∀ {l1 : List α} {l2 : List β} {l3 : List γ}, List.Forall₂ R l1 l2 →
      List.Forall₂ S l2 l3 → List.Forall₂ T l1 l3 := by
  intro l1 l2 l3 h1
  induction h1 generalizing l3 with
  | nil => intro h2; cases h2; exact List.Forall₂.nil
  | cons hab _ ih =>
    intro h2
    cases h2 with
    | cons hbc h2 => exact List.Forall₂.cons (h _ _ _ hab hbc) (ih h2)

theorem forall₂_span {α β γ : Type} {R : α → β → Prop} {S : α → γ → Prop}
    {T : β → γ → Prop} (h : ∀ a b c, R a b → S a c → T b c) :
    ∀ {l1 : List α} {l2 : List β} {l3 : List γ}, List.Forall₂ R l1 l2 →
      List.Forall₂ S l1 l3 → List.Forall₂ T l2 l3 := by
  intro l1 l2 l3 h1
  induction h1 generalizing l3 with
  | nil => intro h2; cases h2; exact List.Forall₂.nil
  | cons hab _ ih =>
    intro h2
    cases h2 with
    | cons hac h2 => exact List.Forall₂.cons (h _ _ _ hab hac) (ih h2)

theorem forall₂_mem_left {α β : Type} {R : α → β → Prop} :
    ∀ {l1 : List α} {l2 : List β}, List.Forall₂ R l1 l2 → ∀ a ∈ l1, ∃ b ∈ l2, R a b := by
  intro l1 l2 h
  induction h with
  | nil => intro a ha; exact absurd ha (List.not_mem_nil a)
  | cons hab _ ih =>
    intro a ha
    rcases List.mem_cons.mp ha with rfl | ha
    · exact ⟨_, List.mem_cons_self _ _, hab⟩
    · obtain ⟨b, hb, hr⟩ := ih a ha
      exact ⟨b, List.mem_cons_of_mem _ hb, hr⟩

theorem forall₂_mem_right {α β : Type} {R : α → β → Prop} :
    ∀ {l1 : List α} {l2 : List β}, List.Forall₂ R l1 l2 → ∀ b ∈ l2, ∃ a ∈ l1, R a b := by
  intro l1 l2 h
  induction h with
  | nil => intro b hb; exact absurd hb (List.not_mem_nil b)
  | cons hab _ ih =>
    intro b hb
    rcases List.mem_cons.mp hb with rfl | hb
    · exact ⟨_, List.mem_cons_self _ _, hab⟩
    · obtain ⟨a, ha, hr⟩ := ih b hb
      exact ⟨a, List.mem_cons_of_mem _ ha, hr⟩

/-! ## The target of a record with one directive after the run -/

theorem onePass_contains (what w : List Nat) (hne : what ≠ []) :
    ∀ T : List Nat, what <:+: T → w <:+: onePass what w T := by
  intro T
  induction T with
  | nil =>
    intro h
    exact absurd (List.eq_nil_of_infix_nil h) hne
  | cons c cs ih =>
    intro h
    by_cases hp : what <+: c :: cs
    · obtain ⟨rest, hrest⟩ := hp
      rw [← hrest, onePass_append _ _ _ hne]
      exact (List.prefix_append _ _).isInfix
    · rw [onePass_cons _ _ _ _ hp]
      rcases List.infix_cons_iff.mp h with h1 | h1
      · exact absurd h1 hp
      · exact (ih h1).trans (List.suffix_cons _ _).isInfix

theorem CheckReplacements_found (n n' : CFileNode) (fs : FS) (path : List Nat) (b : Bool)
    (h : n.CheckReplacements fs path = .ok b n') (hf : n.Fresh) :
    ∃ T, fs path = some T ∧ ∀ r ∈ n.m_listReplacements, r.m_strWhat <:+: T := by
  unfold CFileNode.CheckReplacements at h
  simp only [] at h
  split at h
  · cases h
  · split at h
    · cases h
    · rename_i buf hbuf
      split at h
      · cases h
      · rename_i rs m hall
        exact ⟨buf, hbuf, fun r hr =>
          CheckReplaceAll_none _ _ _ _ _ _ hall r hr (hf.2.2 r hr).1.noNul⟩

theorem single_node (n n_c n_d : CFileNode) (fs0 fs fs1 : FS) (path : List Nat) (b : Bool)
    (d : CReplace) (hf : n.Fresh) (hl : n.m_listReplacements = [d])
    (hc : n.CheckReplacements fs0 path = .ok b n_c) (hfs : fs path = fs0 path)
    (hd : n_c.DoReplacments fs path = .ok () (n_d, fs1)) :
    ∃ T, fs1 path = some T ∧ d.m_strWith <:+: T := by
  obtain ⟨T0, hT0, hocc⟩ := CheckReplacements_found _ _ _ _ _ hc hf
  obtain ⟨c1, c2, c3, _, _⟩ := CheckReplacements_ok _ _ _ _ _ hc hf
  have hdf : d.Fresh := hf.2.2 d (by rw [hl]; exact List.mem_singleton_self d)
  have hin : d.m_strWhat <:+: T0 := hocc d (by rw [hl]; exact List.mem_singleton_self d)
  rw [hl, List.map_singleton] at c1
  unfold CFileNode.DoReplacments at hd
  by_cases hm : n_c.m_bMustReplace = true
  · rw [if_pos hm, hfs, hT0] at hd
    simp only [] at hd
    split at hd
    · cases hd
    · rename_i rs newbuf hall
      unfold Backup at hd
      rw [hfs, hT0] at hd
      simp only [Res.ok.injEq, Prod.mk.injEq, true_and] at hd
      obtain ⟨_, rfl⟩ := hd
      refine ⟨newbuf, by simp [FS.write], ?_⟩
      rw [c1] at hall
      unfold DoReplaceAll at hall
      by_cases hww : d.m_strWhat = d.m_strWith
      · rw [if_pos hww, DoReplace_skip d T0 hdf.2.2.1] at hall
        simp only [DoReplaceAll, Prod.mk.injEq, Except.ok.injEq] at hall
        rw [← hall.2, ← hww]
        exact hin
      · rw [if_neg hww, DoReplace_spec { d with m_bMustReplace := true } T0 rfl hdf.1.1
          hdf.1.noNul] at hall
        simp only [DoReplaceAll, Prod.mk.injEq, Except.ok.injEq] at hall
        rw [← hall.2]
        exact onePass_contains _ _ hdf.1.1 T0 hin
  · rw [if_neg hm] at hd
    simp only [Res.ok.injEq, Prod.mk.injEq, true_and] at hd
    obtain ⟨_, rfl⟩ := hd
    refine ⟨T0, by rw [hfs, hT0], ?_⟩
    have hbf : b = false := by
      rw [← c2]
      simpa using hm
    rw [← c3 hbf d (by rw [hl]; exact List.mem_singleton_self d)]
    exact hin

theorem path_inj (base a b : List Nat) (h : base ++ [92] ++ a = base ++ [92] ++ b) : a = b :=
  List.append_cancel_left h

theorem run_content (base : List Nat) (fs0 : FS) :
    ∀ (files files_c files_d : List (List Nat × CFileNode)) (has has1 : Bool) (fs fs_d : FS),
      CheckAll base fs0 files has = (files_c, has1, none) →
      DoAll base files_c fs = (files_d, fs_d, none) →
      (∀ kv ∈ files, kv.2.Fresh) → (files.map Prod.fst).Nodup →
      (∀ kv ∈ files, fs (base ++ [92] ++ kv.1) = fs0 (base ++ [92] ++ kv.1)) →
      ∀ kv ∈ files, ∀ d, kv.2.m_listReplacements = [d] →
        ∃ T, fs_d (base ++ [92] ++ kv.1) = some T ∧ d.m_strWith <:+: T := by
  intro files
  induction files with
  | nil =>
    intro files_c files_d has has1 fs fs_d _ _ _ _ _ kv hkv
    exact absurd hkv (List.not_mem_nil kv)
  | cons kv0 rest ih =>
    intro files_c files_d has has1 fs fs_d hc hd hf hnd hfs kv hkv d hl
    obtain ⟨name, n⟩ := kv0
    have hfn := hf (name, n) (List.mem_cons_self _ _)
    have hfr : ∀ kv ∈ rest, kv.2.Fresh := fun x hx => hf x (List.mem_cons_of_mem _ hx)
    simp only [List.map_cons, List.nodup_cons] at hnd
    unfold CheckAll at hc
    split at hc
    · simp only [Prod.mk.injEq] at hc
      exact absurd hc.2.2 (by simp)
    · rename_i b n_c hchk
      cases hrec : CheckAll base fs0 rest (if b = true then true else has) with
      | mk rest_c tl =>
        obtain ⟨has2, e2⟩ := tl
        rw [hrec] at hc
        simp only [Prod.mk.injEq] at hc
        obtain ⟨rfl, rfl, rfl⟩ := hc
        unfold DoAll at hd
        split at hd
        · simp only [Prod.mk.injEq] at hd
          exact absurd hd.2.2 (by simp)
        · rename_i u n_d fs1 hdo
          cases hrec2 : DoAll base rest_c fs1 with
          | mk rest_d tl2 =>
            obtain ⟨fs2, e3⟩ := tl2
            rw [hrec2] at hd
            simp only [Prod.mk.injEq] at hd
            obtain ⟨rfl, rfl, rfl⟩ := hd
            obtain ⟨_, _, _, hbak0, hsome0⟩ := CheckReplacements_ok _ _ _ _ _ hchk hfn
            obtain ⟨r1, _, r3⟩ := CheckAll_ok _ _ _ _ _ _ hrec hfr
            obtain ⟨_, dframe⟩ := DoReplacments_ok _ _ _ _ _ hdo
            obtain ⟨_, aframe⟩ := DoAll_ok _ _ _ _ _ hrec2
            rcases List.mem_cons.mp hkv with rfl | hkv
            · obtain ⟨T, hT, hin⟩ := single_node n n_c n_d fs0 fs fs1 _ b d hfn hl hchk
                (hfs _ (List.mem_cons_self _ _)) hdo
              refine ⟨T, ?_, hin⟩
              rw [aframe _ ?_]
              · exact hT
              · intro kv2 hkv2
                obtain ⟨ka, hka, hr⟩ := forall₂_mem_right r1 kv2 hkv2
                constructor
                · intro e
                  have hn2 : name = kv2.1 := path_inj _ _ _ e
                  apply hnd.1
                  rw [hn2, hr.1]
                  exact List.mem_map_of_mem Prod.fst hka
                · intro e
                  have := (r3 ka hka).1
                  rw [← hr.1, ← e] at this
                  rw [this] at hsome0
                  cases hsome0
            · apply ih rest_c rest_d _ has2 fs1 fs2 hrec hrec2 hfr hnd.2 ?_ kv hkv d hl
              intro x hx
              rw [dframe _ ?_ ?_]
              · exact hfs x (List.mem_cons_of_mem _ hx)
              · intro e
                have hn2 : x.1 = name := path_inj _ _ _ e
                apply hnd.1
                rw [← hn2]
                exact List.mem_map_of_mem Prod.fst hx
              · intro e
                have := (r3 x hx).2
                rw [e, hbak0] at this
                cases this

theorem check_content (base : List Nat) (fs : FS) :
    ∀ (files files_c : List (List Nat × CFileNode)) (has : Bool),
      CheckAll base fs files has = (files_c, false, none) →
      (∀ kv ∈ files, kv.2.Fresh) →
      ∀ kv ∈ files, ∀ d, kv.2.m_listReplacements = [d] →
        ∃ T, fs (base ++ [92] ++ kv.1) = some T ∧ d.m_strWith <:+: T := by
  intro files
  induction files with
  | nil =>
    intro files_c has _ _ kv hkv
    exact absurd hkv (List.not_mem_nil kv)
  | cons kv0 rest ih =>
    intro files_c has hc hf kv hkv d hl
    obtain ⟨name, n⟩ := kv0
    have hfn := hf (name, n) (List.mem_cons_self _ _)
    have hfr : ∀ kv ∈ rest, kv.2.Fresh := fun x hx => hf x (List.mem_cons_of_mem _ hx)
    obtain ⟨_, h2, _⟩ := CheckAll_ok _ _ _ _ _ _ hc hf
    have heq := (h2 rfl).2
    unfold CheckAll at hc
    split at hc
    · simp only [Prod.mk.injEq] at hc
      exact absurd hc.2.2 (by simp)
    · rename_i b n_c hchk
      cases hrec : CheckAll base fs rest (if b = true then true else has) with
      | mk rest_c tl =>
        obtain ⟨has2, e2⟩ := tl
        rw [hrec] at hc
        simp only [Prod.mk.injEq] at hc
        obtain ⟨rfl, rfl, rfl⟩ := hc
        rcases List.mem_cons.mp hkv with rfl | hkv
        · obtain ⟨T, hT, hocc⟩ := CheckReplacements_found _ _ _ _ _ hchk hfn
          have hd : d ∈ n.m_listReplacements := by
            rw [show n.m_listReplacements = [d] from hl]; exact List.mem_singleton_self d
          refine ⟨T, hT, ?_⟩
          rw [← heq _ (List.mem_cons_self _ _) d hd]
          exact hocc d hd
        · exact ih rest_c _ hrec hfr kv hkv d hl

theorem Reparsed_applied (x y : CReplace) (h : x.Reparsed y) : x.applied.Reparsed y := by
  unfold CReplace.applied
  split
  · exact h
  · exact h

/-- The records of a successful run against the records of a second parse. -/
theorem filesReparsed_applied (fa fd fb : List (List Nat × CFileNode))
    (h1 : List.Forall₂ (fun a b : List Nat × CFileNode => b.1 = a.1 ∧
      b.2.m_listReplacements = a.2.m_listReplacements.map CReplace.applied) fa fd)
    (h2 : filesReparsed fa fb) : filesReparsed fd fb := by
  unfold filesReparsed at h2 ⊢
  refine forall₂_span ?_ h1 h2
  intro a d b had hab
  refine ⟨by rw [hab.1, had.1], hab.2.1, hab.2.2.1, ?_⟩
  rw [had.2, List.forall₂_map_left_iff]
  exact hab.2.2.2.imp (fun x y hxy => Reparsed_applied x y hxy)

theorem collect_applied (fa fd : List (List Nat × CFileNode))
    (h : List.Forall₂ (fun a b : List Nat × CFileNode => b.1 = a.1 ∧
      b.2.m_listReplacements = a.2.m_listReplacements.map CReplace.applied) fa fd) :
    collectReplacements fd = (collectReplacements fa).map CReplace.applied := by
  induction h with
  | nil => rfl
  | cons hab _ ih =>
    simp only [collectReplacements, List.flatMap_cons, List.map_append] at ih ⊢
    rw [hab.2, ih]

theorem applied_pos (r : CReplace) : r.applied.m_nControlFilePos = r.m_nControlFilePos := by
  unfold CReplace.applied
  split <;> rfl

theorem sortReplacements_eq (L D : List CReplace) (hperm : L.Perm D)
    (hD : D.Pairwise (fun a b => a.m_nControlFilePos < b.m_nControlFilePos)) :
    sortReplacements L = D := by
  have hp : (sortReplacements L).Perm D := (List.perm_insertionSort _ _).trans hperm
  haveI : IsTotal CReplace (fun a b => a.m_nControlFilePos ≤ b.m_nControlFilePos) :=
    ⟨fun a b => Nat.le_total _ _⟩
  haveI : IsTrans CReplace (fun a b => a.m_nControlFilePos ≤ b.m_nControlFilePos) :=
    ⟨fun a b c h1 h2 => Nat.le_trans h1 h2⟩
  haveI : IsAntisymm CReplace (fun a b => a.m_nControlFilePos < b.m_nControlFilePos) :=
    ⟨fun a b h1 h2 => absurd h1 (Nat.lt_asymm h2)⟩
  have hsorted : (sortReplacements L).Pairwise
      (fun a b => a.m_nControlFilePos ≤ b.m_nControlFilePos) := List.sorted_insertionSort _ _
  have hndD : (D.map (fun r => r.m_nControlFilePos)).Nodup :=
    List.pairwise_map.mpr (hD.imp (fun h => Nat.ne_of_lt h))
  have hnd : ((sortReplacements L).map (fun r => r.m_nControlFilePos)).Nodup :=
    ((hp.map _).nodup_iff).mpr hndD
  have hne := (List.pairwise_map (f := fun r : CReplace => r.m_nControlFilePos)).mp hnd
  have hstrict : (sortReplacements L).Pairwise
      (fun a b => a.m_nControlFilePos < b.m_nControlFilePos) :=
    (hsorted.and hne).imp (fun h => Nat.lt_of_le_of_ne h.1 h.2)
  exact List.eq_of_perm_of_sorted hp hstrict hD

theorem Reparsed_what_eq : ∀ (la lb : List CReplace), List.Forall₂ CReplace.Reparsed la lb →
    ∀ r ∈ lb, r.m_strWhat = r.m_strWith := by
  intro la lb h
  induction h with
  | nil => intro r hr; exact absurd hr (List.not_mem_nil r)
  | cons hab _ ih =>
    intro r hr
    rcases List.mem_cons.mp hr with rfl | hr
    · rw [hab.2.2.1, hab.2.1]
    · exact ih r hr

theorem filesReparsed_what_eq (fa fb : List (List Nat × CFileNode)) (h : filesReparsed fa fb) :
    ∀ kv ∈ fb, ∀ r ∈ kv.2.m_listReplacements, r.m_strWhat = r.m_strWith := by
  unfold filesReparsed at h
  induction h with
  | nil => intro kv hkv; exact absurd hkv (List.not_mem_nil kv)
  | cons hab _ ih =>
    intro kv hkv
    rcases List.mem_cons.mp hkv with rfl | hkv
    · exact Reparsed_what_eq _ _ hab.2.2.2
    · exact ih kv hkv

theorem filesReparsed_refl (fa : List (List Nat × CFileNode))
    (h : ∀ kv ∈ fa, kv.2.Fresh ∧ ∀ r ∈ kv.2.m_listReplacements, r.m_strWhat = r.m_strWith) :
    filesReparsed fa fa := by
  unfold filesReparsed
  rw [List.forall₂_same]
  intro kv hkv
  obtain ⟨hf, he⟩ := h kv hkv
  refine ⟨rfl, hf.1, hf.2.1, ?_⟩
  rw [List.forall₂_same]
  intro r hr
  exact ⟨rfl, rfl, he r hr, (hf.2.2 r hr).2.2.1, (hf.2.2 r hr).2.2.2⟩

theorem check_files_applied (base : List Nat) (fs : FS)
    (files files_c : List (List Nat × CFileNode)) (has : Bool)
    (hc : CheckAll base fs files has = (files_c, false, none))
    (hf : ∀ kv ∈ files, kv.2.Fresh) :
    (∀ kv ∈ files, ∀ r ∈ kv.2.m_listReplacements, r.m_strWhat = r.m_strWith) ∧
    List.Forall₂ (fun a b : List Nat × CFileNode => b.1 = a.1 ∧
      b.2.m_listReplacements = a.2.m_listReplacements.map CReplace.applied) files files_c := by
  obtain ⟨h1, h2, _⟩ := CheckAll_ok base fs files files_c has false hc hf
  have heq := (h2 rfl).2
  refine ⟨heq, (forall₂_and_left h1 heq).imp ?_⟩
  intro a b hab
  obtain ⟨he, hn, hl, _⟩ := hab
  refine ⟨hn, ?_⟩
  rw [hl]
  apply List.map_congr_left
  intro r hr
  simp only [CReplace.applied, if_pos (he r hr)]

theorem run_files_applied (base : List Nat) (fs0 fs fs_d : FS)
    (files files_c files_d : List (List Nat × CFileNode)) (has has1 : Bool)
    (hc : CheckAll base fs0 files has = (files_c, has1, none))
    (hd : DoAll base files_c fs = (files_d, fs_d, none))
    (hf : ∀ kv ∈ files, kv.2.Fresh) :
    List.Forall₂ (fun a b : List Nat × CFileNode => b.1 = a.1 ∧
      b.2.m_listReplacements = a.2.m_listReplacements.map CReplace.applied) files files_d := by
  obtain ⟨h1, _, _⟩ := CheckAll_ok base fs0 files files_c has has1 hc hf
  obtain ⟨h2, _⟩ := DoAll_ok base files_c files_d fs fs_d hd
  refine forall₂_comp ?_ (forall₂_and_left h1 hf) h2
  intro a b c hab hbc
  obtain ⟨hfr, hn, hl, hall⟩ := hab
  refine ⟨by rw [hbc.1, hn], ?_⟩
  rw [hbc.2]
  by_cases hm : b.2.m_bMustReplace = true
  · rw [if_pos hm, hl, List.map_map]
    apply List.map_congr_left
    intro r hr
    exact applied_of_steps r (hfr.2.2 r hr).2.2.1
  · rw [if_neg hm, hl]
    apply List.map_congr_left
    intro r hr
    have := hall (by simpa using hm) r hr
    simp only [CReplace.applied, if_pos this]

/-- Parsing the rewritten control file: when the first parse of buffer `B` ends in `s`
and the rewrite of `B` with the directives of `s`, flagged as a successful run leaves
them, returns `newbuf`, the parse of `newbuf` from the same start ends in an object
related to `s` by `Reparse`. -/
theorem parse_rewritten (s0 s : CAutoVersion) (B newbuf : List Nat)
    (files_d : List (List Nat × CFileNode)) (hs0 : s0.Parsed) (h0 : s0.m_mapFiles = [])
    (hloop : CAutoVersion.ParseLoop (B.length + 1) { s0 with m_pBuffer := B } B = .ok () s)
    (happ : List.Forall₂ (fun a b : List Nat × CFileNode => b.1 = a.1 ∧
      b.2.m_listReplacements = a.2.m_listReplacements.map CReplace.applied)
      s.m_mapFiles files_d)
    (hrw : rewriteControlBuffer files_d B = .ok newbuf) :
    ∃ t, CAutoVersion.ParseLoop (newbuf.length + 1) { s0 with m_pBuffer := newbuf } newbuf
        = .ok () t ∧ s.Reparse t := by
  have hp0 : ({ s0 with m_pBuffer := B } : CAutoVersion).Parsed := hs0
  obtain ⟨D, q, hperm, hpw, _, _, hrun, hupd⟩ :=
    ParseLoop_sim _ { s0 with m_pBuffer := B } s [] B hloop hp0 rfl
  have hperm2 : (collectReplacements s.m_mapFiles).Perm D := by
    have e : collectReplacements ({ s0 with m_pBuffer := B } : CAutoVersion).m_mapFiles = [] := by
      show collectReplacements s0.m_mapFiles = []
      rw [h0]; rfl
    rw [e, List.nil_append] at hperm
    exact hperm
  have hsort : sortReplacements (collectReplacements files_d) = D.map CReplace.applied := by
    apply sortReplacements_eq
    · rw [collect_applied _ _ happ]
      exact hperm2.map _
    · rw [List.pairwise_map]
      exact hpw.imp (fun h => by rw [applied_pos, applied_pos]; exact h)
  unfold rewriteControlBuffer at hrw
  rw [hsort] at hrw
  split at hrw
  · cases hrw
  · rename_i buf off heq
    simp only [Except.ok.injEq] at hrw
    subst hrw
    have hq := hupd [] buf off (by simpa using heq)
    rw [List.nil_append] at hq
    subst hq
    have hre : ({ s0 with m_pBuffer := B } : CAutoVersion).Reparse
        { s0 with m_pBuffer := buf } := by
      refine ⟨rfl, rfl, rfl, rfl, rfl, rfl, ?_⟩
      show filesReparsed s0.m_mapFiles s0.m_mapFiles
      rw [h0]
      exact List.Forall₂.nil
    exact hrun _ (buf.length + 1) hre (Nat.lt_succ_self _)

theorem applied_with (r : CReplace) : r.applied.m_strWith = r.m_strWith := by
  unfold CReplace.applied
  split <;> rfl

theorem single_applied (fa fd : List (List Nat × CFileNode))
    (h : List.Forall₂ (fun a b : List Nat × CFileNode => b.1 = a.1 ∧
      b.2.m_listReplacements = a.2.m_listReplacements.map CReplace.applied) fa fd)
    (kv : List Nat × CFileNode) (hkv : kv ∈ fd) (d : CReplace)
    (hl : kv.2.m_listReplacements = [d]) :
    ∃ ka ∈ fa, ka.1 = kv.1 ∧ ∃ d0, ka.2.m_listReplacements = [d0] ∧
      d0.m_strWith = d.m_strWith := by
  obtain ⟨ka, hka, hr⟩ := forall₂_mem_right h kv hkv
  refine ⟨ka, hka, hr.1.symm, ?_⟩
  have h2 := hr.2
  rw [hl] at h2
  cases hla : ka.2.m_listReplacements with
  | nil => rw [hla] at h2; cases h2
  | cons d0 tl =>
    rw [hla] at h2
    cases tl with
    | nil =>
      simp only [List.map_cons, List.map_nil, List.cons.injEq, and_true] at h2
      exact ⟨d0, rfl, by rw [h2, applied_with]⟩
    | cons d1 tl => simp at h2

/-- The round trip behind C8: after a successful confirmed `Replace` whose targets are
not the control file, parsing the control file again succeeds and ends in an object with
the same constants and base path whose file records are `filesReparsed` images of the
records the run left; and the target of a record with one directive, when it is not the
backup of the control file either, holds the `with` of that directive. -/
theorem roundtrip_core (ctl : List Nat) (defines : List (List Nat)) (interactive : Bool)
    (fs fs1 : FS) (key : Nat) (s1 : CAutoVersion)
    (hrun : (CAutoVersion.init ctl defines interactive).Replace fs key = .ok () (s1, fs1))
    (hconf : ¬ (interactive = true ∧ key = 110))
    (halias : ∀ kv ∈ s1.m_mapFiles, s1.fname kv.1 ≠ ctl) :
    ∃ s2, (CAutoVersion.init ctl defines interactive).ParseControlFile fs1 = .ok () s2 ∧
      s2.Parsed ∧ s2.m_mapConstantDefs = s1.m_mapConstantDefs ∧
      s2.m_strBasePath = s1.m_strBasePath ∧
      filesReparsed s1.m_mapFiles s2.m_mapFiles ∧
      ∀ kv ∈ s1.m_mapFiles, s1.fname kv.1 ≠ ctl ++ avbak →
        ∀ d, kv.2.m_listReplacements = [d] →
          ∃ T, fs1 (s1.fname kv.1) = some T ∧ d.m_strWith <:+: T := by
  have hi := init_Parsed ctl defines interactive
  unfold CAutoVersion.Replace at hrun
  split at hrun
  · cases hrun
  · rename_i u s hparse
    obtain ⟨hsP, hsI, hsC, _, hsB⟩ := ParseControlFile_inv _ _ _ hparse hi
    have hctl : (CAutoVersion.init ctl defines interactive).m_strControlFile = ctl := rfl
    have hint : (CAutoVersion.init ctl defines interactive).m_bInteractive = interactive := rfl
    rw [hctl] at hsC hsB
    rw [hint] at hsI
    have hfresh : ∀ kv ∈ s.m_mapFiles, kv.2.Fresh := fun kv hkv => (hsP.2.2.1 kv hkv).2
    have hloop : CAutoVersion.ParseLoop (s.m_pBuffer.length + 1)
        { CAutoVersion.init ctl defines interactive with m_pBuffer := s.m_pBuffer }
        s.m_pBuffer = .ok () s := by
      unfold CAutoVersion.ParseControlFile at hparse
      rw [hctl, hsB] at hparse
      exact hparse
    split at hrun
    · cases hrun
    · rename_i files_c has hchk
      simp only [] at hrun
      split at hrun
      · split at hrun
        · cases hrun
        · rename_i files_d fs_d hdo
          unfold CAutoVersion.UpdateControlFile at hrun
          simp only [] at hrun
          split at hrun
          · cases hrun
          · rename_i buf hbuf
            split at hrun
            · cases hrun
            · rename_i newbuf hrw
              split at hrun
              · cases hrun
              · rename_i fs2 hbk
                simp only [Res.ok.injEq, Prod.mk.injEq, true_and] at hrun
                obtain ⟨rfl, rfl⟩ := hrun
                have happ := run_files_applied _ fs fs fs_d _ _ _ _ _ hchk hdo hfresh
                obtain ⟨hc1, _, hc3⟩ := CheckAll_ok _ _ _ _ _ _ hchk hfresh
                obtain ⟨hd1, hd2⟩ := DoAll_ok _ _ _ _ _ hdo
                have hframe : fs_d ctl = fs ctl := by
                  apply hd2
                  intro kv hkv
                  constructor
                  · obtain ⟨kd, hkd, hr⟩ := forall₂_mem_left hd1 kv hkv
                    have := halias kd hkd
                    intro e
                    apply this
                    show s.m_strBasePath ++ [92] ++ kd.1 = ctl
                    rw [hr.1, e]
                  · obtain ⟨ka, hka, hr⟩ := forall₂_mem_right hc1 kv hkv
                    have := (hc3 ka hka).1
                    intro e
                    rw [← hr.1, ← e, hsB] at this
                    cases this
                have hbufB : buf = s.m_pBuffer := by
                  have : fs_d ctl = some buf := by rw [← hsC]; exact hbuf
                  rw [hframe, hsB] at this
                  exact (Option.some.inj this).symm
                subst hbufB
                obtain ⟨t, hloop2, hre⟩ :=
                  parse_rewritten _ s _ newbuf files_d hi rfl hloop happ hrw
                refine ⟨t, ?_, ?_, hre.2.2.2.1, hre.2.1,
                  filesReparsed_applied _ _ _ happ hre.2.2.2.2.2.2, ?_⟩
                · unfold CAutoVersion.ParseControlFile
                  rw [hctl]
                  have : (fs2.write s.m_strControlFile newbuf) ctl = some newbuf := by
                    rw [hsC]; simp [FS.write]
                  rw [this]
                  exact hloop2
                · exact (ParseLoop_inv _ _ _ _ hloop2 hi).1
                · intro kv hkv hbk2 d hl
                  obtain ⟨ka, hka, hname, d0, hl0, hw⟩ := single_applied _ _ happ kv hkv d hl
                  obtain ⟨T, hT, hin⟩ := run_content _ fs _ _ _ _ _ fs fs_d hchk hdo hfresh
                    hsP.2.2.2 (fun _ _ => rfl) ka hka d0 hl0
                  refine ⟨T, ?_, by rw [← hw]; exact hin⟩
                  have hne1 : s.m_strBasePath ++ [92] ++ kv.1 ≠ ctl := halias kv hkv
                  have hne2 : s.m_strBasePath ++ [92] ++ kv.1 ≠ ctl ++ avbak := hbk2
                  show (fs2.write s.m_strControlFile newbuf) (s.m_strBasePath ++ [92] ++ kv.1)
                    = some T
                  unfold Backup at hbk
                  rw [hbuf] at hbk
                  simp only [Except.ok.injEq] at hbk
                  rw [← hbk, hsC]
                  simp only [FS.write, if_neg hne1, if_neg hne2]
                  rw [← hname]
                  exact hT
      · rename_i hcond
        simp only [Res.ok.injEq, Prod.mk.injEq, true_and] at hrun
        obtain ⟨rfl, rfl⟩ := hrun
        have hhas : has = false := by
          cases has with
          | false => rfl
          | true =>
            exfalso
            apply hcond
            exact ⟨rfl, by
              show ¬ (s.m_bInteractive = true ∧ key = 110)
              rw [hsI]; exact hconf⟩
        subst hhas
        obtain ⟨heq, happ⟩ := check_files_applied _ _ _ _ _ hchk hfresh
        refine ⟨s, hparse, hsP, rfl, rfl, filesReparsed_applied _ _ _ happ
          (filesReparsed_refl _ (fun kv hkv => ⟨hfresh kv hkv, heq kv hkv⟩)), ?_⟩
        intro kv hkv _ d hl
        obtain ⟨ka, hka, hname, d0, hl0, hw⟩ := single_applied _ _ happ kv hkv d hl
        obtain ⟨T, hT, hin⟩ := check_content _ _ _ _ _ hchk hfresh ka hka d0 hl0
        refine ⟨T, ?_, by rw [← hw]; exact hin⟩
        show fs (s.m_strBasePath ++ [92] ++ kv.1) = some T
        rw [← hname]
        exact hT

theorem forall₂_singleton_right {α β : Type} {R : α → β → Prop} {la : List α} {r : β}
    (h : List.Forall₂ R la [r]) : ∃ d, la = [d] ∧ R d r := by
  cases la with
  | nil => cases h
  | cons d tl =>
    cases h with
    | cons hd htl =>
      cases htl
      exact ⟨d, rfl, hd⟩

theorem res_ok_of_err_none {σ : Type} (R : Res σ Unit) (h : R.err = none) :
    R = .ok () R.state := by
  cases R with
  | ok a st => rfl
  | throw e st => cases h

/-- C8 (amended). Round trip of a successful confirmed `Replace` none of whose targets
is the control file: parsing the rewritten control file with the same defines succeeds
and gives the same constants, and the same file records directive by directive with the
original `with` as `with` and as `what` and both flags unset (`filesReparsed`).
Verifying a re-parsed directive never finds anything to replace: `CheckReplace` returns
false and leaves the directive unchanged when its text occurs in the buffer, and throws
the not-found error otherwise.  For a file record with a single directive, whose target
is not the backup of the control file either, the text occurs in the updated target, so
verification returns false. -/
theorem C8_round_trip (ctl : List Nat) (defines : List (List Nat)) (interactive : Bool)
    (fs fs1 : FS) (key : Nat) (s1 : CAutoVersion)
    (hrun : (CAutoVersion.init ctl defines interactive).Replace fs key = .ok () (s1, fs1))
    (hconf : ¬ (interactive = true ∧ key = 110))
    (halias : ∀ kv ∈ s1.m_mapFiles, s1.fname kv.1 ≠ ctl) :
    ∃ s2, (CAutoVersion.init ctl defines interactive).ParseControlFile fs1 = .ok () s2 ∧
      s2.m_mapConstantDefs = s1.m_mapConstantDefs ∧
      filesReparsed s1.m_mapFiles s2.m_mapFiles ∧
      (∀ kv ∈ s2.m_mapFiles, ∀ r ∈ kv.2.m_listReplacements,
        r.m_strWhat = r.m_strWith ∧
        ∀ T, r.CheckReplace (s2.fname kv.1) T =
          if r.m_strWhat <:+: T then .ok (false, r)
          else .error (.notFound (s2.fname kv.1) r.m_strWhat)) ∧
      (∀ kv ∈ s2.m_mapFiles, s2.fname kv.1 ≠ ctl ++ avbak →
        ∀ r, kv.2.m_listReplacements = [r] →
          ∃ T, fs1 (s2.fname kv.1) = some T ∧
            r.CheckReplace (s2.fname kv.1) T = .ok (false, r)) := by
  obtain ⟨s2, hparse, hP, hconsts, hbase, hfiles, hcontent⟩ :=
    roundtrip_core ctl defines interactive fs fs1 key s1 hrun hconf halias
  have hwe := filesReparsed_what_eq _ _ hfiles
  have hspec : ∀ kv ∈ s2.m_mapFiles, ∀ r ∈ kv.2.m_listReplacements, ∀ T,
      r.CheckReplace (s2.fname kv.1) T =
        if r.m_strWhat <:+: T then .ok (false, r)
        else .error (.notFound (s2.fname kv.1) r.m_strWhat) := by
    intro kv hkv r hr T
    rw [CheckReplace_spec r _ T ((hP.2.2.1 kv hkv).2.2.2 r hr).1.noNul, if_pos (hwe kv hkv r hr)]
  refine ⟨s2, hparse, hconsts, hfiles, fun kv hkv r hr => ⟨hwe kv hkv r hr, hspec kv hkv r hr⟩,
    ?_⟩
  intro kv hkv hbk r hl
  have hr : r ∈ kv.2.m_listReplacements := by rw [hl]; exact List.mem_singleton_self r
  obtain ⟨ka, hka, hrel⟩ := forall₂_mem_right hfiles kv hkv
  have hname : s1.fname ka.1 = s2.fname kv.1 := by
    unfold CAutoVersion.fname
    rw [hbase, hrel.1]
  have hlist := hrel.2.2.2
  rw [hl] at hlist
  obtain ⟨d, hla, hd⟩ := forall₂_singleton_right hlist
  obtain ⟨T, hT, hin⟩ := hcontent ka hka (by rw [hname]; exact hbk) d hla
  refine ⟨T, by rw [← hname]; exact hT, ?_⟩
  rw [hspec kv hkv r hr T, if_pos (by rw [hd.2.2.1]; exact hin)]

/-- C8 on `ctlRound`: the run succeeds, the control file then reads `&"app.h" "2.0" @V`
and `&"b.txt" "a\"b" @Q`, and C8 applies: the second parse gives the same constants and
directives with `what` equal to `with`. -/
theorem C8_round_trip_witness :
    (((CAutoVersion.init (bytes "ctl") [] false).Replace fsRound 0).err = none ∧
     ((CAutoVersion.init (bytes "ctl") [] false).Replace fsRound 0).state.2 (bytes "ctl")
       = some (bytes
          "@V \"2.0\"\n@Q \"a\\\"b\"\n&\"app.h\" \"2.0\" @V\n&\"b.txt\" \"a\\\"b\" @Q\n")) ∧
    ∃ s2, (CAutoVersion.init (bytes "ctl") [] false).ParseControlFile
        ((CAutoVersion.init (bytes "ctl") [] false).Replace fsRound 0).state.2 = .ok () s2 ∧
      s2.m_mapConstantDefs
        = ((CAutoVersion.init (bytes "ctl") [] false).Replace fsRound 0).state.1.m_mapConstantDefs ∧
      filesReparsed
        ((CAutoVersion.init (bytes "ctl") [] false).Replace fsRound 0).state.1.m_mapFiles
        s2.m_mapFiles ∧
      (∀ kv ∈ s2.m_mapFiles, ∀ r ∈ kv.2.m_listReplacements,
        r.m_strWhat = r.m_strWith ∧
        ∀ T, r.CheckReplace (s2.fname kv.1) T =
          if r.m_strWhat <:+: T then .ok (false, r)
          else .error (.notFound (s2.fname kv.1) r.m_strWhat)) ∧
      (∀ kv ∈ s2.m_mapFiles, s2.fname kv.1 ≠ bytes "ctl" ++ avbak →
        ∀ r, kv.2.m_listReplacements = [r] →
          ∃ T, ((CAutoVersion.init (bytes "ctl") [] false).Replace fsRound 0).state.2
              (s2.fname kv.1) = some T ∧
            r.CheckReplace (s2.fname kv.1) T = .ok (false, r)) :=
  ⟨by decide,
   C8_round_trip (bytes "ctl") [] false fsRound
     ((CAutoVersion.init (bytes "ctl") [] false).Replace fsRound 0).state.2 0
     ((CAutoVersion.init (bytes "ctl") [] false).Replace fsRound 0).state.1
     (res_ok_of_err_none _ (by decide)) (by decide) (by decide)⟩

/-- C8 as stated fails on `ctlInteract`: parse, verification, apply and rewrite succeed
(`f` goes from `ax` to `yy`, the directives become `&"f" "x" @X` and `&"f" "y" @Y`), the
second parse succeeds, and verifying its first directive against the updated `f` throws
the not-found error, because the second directive has replaced the `x` the first one
wrote. -/
theorem C8_counterexample_interacting_directives :
    ((CAutoVersion.init (bytes "ctl") [] false).Replace fsInteract 0).err = none ∧
    ((CAutoVersion.init (bytes "ctl") [] false).Replace fsInteract 0).state.2 (bytes "\\f")
      = some (bytes "yy") ∧
    ((CAutoVersion.init (bytes "ctl") [] false).Replace fsInteract 0).state.2 (bytes "ctl")
      = some (bytes "@X \"x\"\n@Y \"y\"\n&\"f\" \"x\" @X\n&\"f\" \"y\" @Y\n") ∧
    ((CAutoVersion.init (bytes "ctl") [] false).ParseControlFile
      ((CAutoVersion.init (bytes "ctl") [] false).Replace fsInteract 0).state.2).err = none ∧
    ((CAutoVersion.init (bytes "ctl") [] false).ParseControlFile
      ((CAutoVersion.init (bytes "ctl") [] false).Replace fsInteract 0).state.2).state.m_mapFiles
      = [(bytes "f", (CFileNode.new.Add (CReplace.new .enRoText (bytes "x") (bytes "x") 20)).Add
            (CReplace.new .enRoText (bytes "y") (bytes "y") 32))] ∧
    (CReplace.new .enRoText (bytes "x") (bytes "x") 20).CheckReplace (bytes "\\f") (bytes "yy")
      = .error (.notFound (bytes "\\f") (bytes "x")) := by
  decide

/-! ## The line counter only enters error messages -/

theorem GetIdentifierLoop_line (l l2 : Nat) :
    ∀ (p acc : List Nat) (x : List Nat × List Nat), GetIdentifierLoop l p acc = .ok x →
      GetIdentifierLoop l2 p acc = .ok x := by
  intro p
  induction p with
  | nil => intro acc x h; simpa [GetIdentifierLoop] using h
  | cons a p ih =>
    intro acc x h
    rw [GetIdentifierLoop] at h ⊢
    split at h
    · rename_i ha
      rw [if_pos ha]
      split at h
      · cases h
      · rename_i hlen
        rw [if_neg hlen]
        exact ih _ _ h
    · rename_i ha
      rw [if_neg ha]
      exact h

theorem GetIdentifier_line (l l2 : Nat) (p : List Nat) (x : List Nat × List Nat)
    (h : GetIdentifier p l = .ok x) : GetIdentifier p l2 = .ok x := by
  unfold GetIdentifier at h ⊢
  split at h
  · cases h
  · rename_i ident q hloop
    rw [GetIdentifierLoop_line l l2 _ _ _ hloop]
    simp only
    split at h
    · cases h
    · rename_i hne
      rw [if_neg hne]
      exact h

theorem GetLiteralLoop_line (l l2 : Nat) :
    ∀ (n : Nat) (p acc : List Nat) (x : List Nat × List Nat), p.length ≤ n →
      GetLiteralLoop l p acc = .ok x → GetLiteralLoop l2 p acc = .ok x := by
  intro n
  induction n with
  | zero =>
    intro p acc x hn h
    have : p = [] := List.eq_nil_of_length_eq_zero (by omega)
    subst this
    simpa [GetLiteralLoop] using h
  | succ n ih =>
    intro p acc x hn h
    cases p with
    | nil => simpa [GetLiteralLoop] using h
    | cons c p =>
      rw [GetLiteralLoop_cons] at h ⊢
      simp only [List.length_cons] at hn
      split at h
      · rename_i hc
        rw [if_pos hc]
        split at h
        · rename_i hesc
          rw [if_pos hesc]
          split at h
          · cases h
          · rename_i hlen
            rw [if_neg hlen]
            exact ih _ _ _ (by
              have := List.length_tail p
              omega) h
        · rename_i hesc
          rw [if_neg hesc]
          split at h
          · cases h
          · rename_i hlen
            rw [if_neg hlen]
            exact ih _ _ _ (by omega) h
      · rename_i hc
        rw [if_neg hc]
        exact h

theorem GetLiteral_line (n l l2 : Nat) (p : List Nat) (x : List Nat × Nat × List Nat)
    (h : GetLiteral n p l = .ok x) : GetLiteral n p l2 = .ok x := by
  unfold GetLiteral at h ⊢
  split at h
  · cases h
  · rename_i a q hskip
    simp only
    split at h
    · cases h
    · rename_i ha
      rw [if_neg ha]
      simp only [] at h ⊢
      split at h
      · cases h
      · rename_i ident q2 hloop
        rw [GetLiteralLoop_line l l2 _ _ _ _ (le_refl _) hloop]
        simp only
        split at h
        · cases h
        · rename_i hq
          rw [if_neg hq]
          split at h
          · cases h
          · rename_i hne
            rw [if_neg hne]
            exact h

theorem GetLiteralOrSymbol_line (consts : List (List Nat × List Nat)) (n l l2 : Nat)
    (p : List Nat) (x : List Nat × List Nat)
    (h : GetLiteralOrSymbol consts n p l = .ok x) : GetLiteralOrSymbol consts n p l2 = .ok x := by
  unfold GetLiteralOrSymbol at h ⊢
  simp only [] at h ⊢
  split at h
  · rename_i hq
    rw [if_pos hq]
    split at h
    · cases h
    · rename_i lit o q hlit
      rw [GetLiteral_line n l l2 _ _ hlit]
      exact h
  · rename_i hq
    rw [if_neg hq]
    split at h
    · cases h
    · rename_i ident q hid
      rw [GetIdentifier_line l l2 _ _ hid]
      simp only
      split at h
      · cases h
      · exact h

theorem ParseMessageLoop_line (l l2 : Nat) :
    ∀ (p acc : List Nat) (x : List Nat × List Nat), ParseMessageLoop l p acc = .ok x →
      ParseMessageLoop l2 p acc = .ok x := by
  intro p
  induction p with
  | nil => intro acc x h; simpa [ParseMessageLoop] using h
  | cons a p ih =>
    intro acc x h
    rw [ParseMessageLoop] at h ⊢
    split at h
    · rename_i ha
      rw [if_pos ha]
      split at h
      · cases h
      · rename_i hlen
        rw [if_neg hlen]
        exact ih _ _ h
    · rename_i ha
      rw [if_neg ha]
      exact h

theorem SkipLineLoop_line (b : Bool) (l l2 : Nat) :
    ∀ (p : List Nat) (ic : Bool) (r : List Nat), SkipLineLoop b l p ic = .ok r →
      SkipLineLoop b l2 p ic = .ok r := by
  intro p
  induction p with
  | nil => intro ic r h; simpa [SkipLineLoop] using h
  | cons a p ih =>
    intro ic r h
    rw [SkipLineLoop] at h ⊢
    split at h
    · rename_i ha
      rw [if_pos ha]
      simp only [] at h ⊢
      by_cases hstrict : b = true ∧ (if a = 35 then true else ic) = false ∧ a ≠ 32 ∧ a ≠ 9
      · rw [if_pos hstrict] at h
        cases h
      · rw [if_neg hstrict] at h ⊢
        exact ih _ _ h
    · rename_i ha
      rw [if_neg ha]
      exact h

theorem SkipLineEnd_line (q : List Nat) (l l2 : Nat) :
    ∃ d, SkipLineEnd q l = ((SkipLineEnd q l2).1, l + d) ∧ (SkipLineEnd q l2).2 = l2 + d := by
  unfold SkipLineEnd
  by_cases h0 : q.headD 0 ≠ 0
  · exact ⟨1, by simp only [if_pos h0], by simp only [if_pos h0]⟩
  · exact ⟨0, by simp only [if_neg h0, Nat.add_zero], by simp only [if_neg h0, Nat.add_zero]⟩

theorem SkipLine_line (b : Bool) (l l2 : Nat) (p r : List Nat) (l' : Nat)
    (h : SkipLine p b l = .ok (r, l')) :
    ∃ d, l' = l + d ∧ SkipLine p b l2 = .ok (r, l2 + d) := by
  unfold SkipLine at h ⊢
  split at h
  · cases h
  · rename_i q hloop
    rw [SkipLineLoop_line b l l2 _ _ _ hloop]
    obtain ⟨d, h1, h2⟩ := SkipLineEnd_line q l l2
    simp only [Except.ok.injEq] at h ⊢
    rw [h1] at h
    simp only [Prod.mk.injEq] at h
    refine ⟨d, h.2.symm, ?_⟩
    rw [← h.1, ← h2]

/-! ## The recorded offset -/

theorem GetLiteral_parts (n l : Nat) (p v r : List Nat) (off : Nat)
    (h : GetLiteral n p l = .ok (v, off, r)) :
    ∃ q, SkipWhiteSpaces p = 34 :: q ∧ off = n - q.length ∧
      GetLiteralLoop l q [] = .ok (v, 34 :: r) ∧ v ≠ [] := by
  unfold GetLiteral at h
  split at h
  · cases h
  · rename_i a q hskip
    split at h
    · cases h
    · rename_i ha
      have ha' : a = 34 := by simpa using ha
      subst ha'
      simp only [] at h
      split at h
      · cases h
      · rename_i ident q2 hloop
        split at h
        · cases h
        · rename_i hq
          split at h
          · cases h
          · rename_i hne
            simp only [Except.ok.injEq, Prod.mk.injEq] at h
            obtain ⟨rfl, rfl, rfl⟩ := h
            have hq' : q2.headD 0 = 34 := by simpa using hq
            have hq2 : q2 = 34 :: q2.tail := headD_cons_tail q2 34 hq' (by decide)
            refine ⟨q, hskip, rfl, by rw [← hq2]; exact hloop, ?_⟩
            intro e
            exact hne (by rw [e]; rfl)

theorem ReadReplacement_recorded (s : CAutoVersion) (op : EReplaceOp)
    (pre pt r1 name : List Nat) (d : CReplace)
    (h : s.ReadReplacement op pt = .ok (name, d, r1))
    (hbuf : s.m_pBuffer = pre ++ cmdChar op :: pt) : RecordedAt s.m_pBuffer name d := by
  unfold CAutoVersion.ReadReplacement at h
  split at h
  · cases h
  · rename_i file_name o1 p1 hl1
    split at h
    · cases h
    · rename_i what offset p2 hl2
      split at h
      · cases h
      · split at h
        · cases h
        · split at h
          · cases h
          · split at h
            · cases h
            · split at h
              · cases h
              · simp only [Except.ok.injEq, Prod.mk.injEq] at h
                obtain ⟨rfl, rfl, _⟩ := h
                obtain ⟨cf, hcf, _, _⟩ := GetLiteral_local _ _ _ _ _ _ hl1
                obtain ⟨q, hskip, hoff, hloop, hne⟩ := GetLiteral_parts _ _ _ _ _ _ hl2
                obtain ⟨ws, hws, _, _⟩ := SkipWhiteSpaces_local p1
                rw [hskip] at hws
                have hB : s.m_pBuffer = (pre ++ cmdChar op :: (cf ++ ws)) ++ 34 :: q := by
                  rw [hbuf, hcf, hws]; simp
                have hlen : s.m_pBuffer.length
                    = (pre ++ cmdChar op :: (cf ++ ws)).length + (q.length + 1) := by
                  rw [hB]; simp only [List.length_append, List.length_cons]
                have hpos : offset - 1 = (pre ++ cmdChar op :: (cf ++ ws)).length := by
                  rw [hoff, hlen]; omega
                have hdrop : s.m_pBuffer.drop (offset - 1) = 34 :: q := by
                  rw [hpos, hB, List.drop_left]
                refine ⟨?_, ?_, ?_, ?_, ?_⟩
                · show 1 ≤ offset
                  rw [hoff, hlen]; simp only [List.length_append, List.length_cons]; omega
                · show offset ≤ s.m_pBuffer.length
                  rw [hoff]; omega
                · show (s.m_pBuffer.drop (offset - 1)).headD 0 = 34
                  rw [hdrop]; rfl
                · refine ⟨pre, pt, p1, o1, s.m_nCurrentLine, hbuf, hl1, ?_⟩
                  show SkipWhiteSpaces p1 = s.m_pBuffer.drop (offset - 1)
                  rw [hdrop, hskip]
                · intro line
                  refine ⟨p2, ?_⟩
                  show GetLiteral s.m_pBuffer.length (s.m_pBuffer.drop (offset - 1)) line
                    = .ok (what, offset, p2)
                  rw [hdrop, hoff]
                  exact GetLiteral_of_loop _ line _ q p2 what
                    (SkipWhiteSpaces_nonblank 34 q (by omega))
                    (GetLiteralLoop_line _ line _ _ _ _ (le_refl _) hloop) hne

/-- A line either leaves the file records alone or is a directive line: blanks, the
command character, and text that `ReadReplacement` turns into the directive added. -/
theorem ParseLine_files (s s' : CAutoVersion) (p r : List Nat)
    (h : s.ParseLine p = .ok r s') :
    s'.m_mapFiles = s.m_mapFiles ∨
    ∃ op cw pt name d r1, p = cw ++ cmdChar op :: pt ∧
      s.ReadReplacement op pt = .ok (name, d, r1) ∧
      s'.m_mapFiles = addReplacement s.m_mapFiles name d := by
  unfold CAutoVersion.ParseLine at h
  split at h
  · cases h
  · rename_i r1 s1 hd
    split at h
    · cases h
    · rename_i q line' hsk
      simp only [Res.ok.injEq] at h
      obtain ⟨_, rfl⟩ := h
      show s1.m_mapFiles = s.m_mapFiles ∨ _
      obtain ⟨cw, hcw, _, _⟩ := SkipWhiteSpaces_local p
      have hrep : ∀ op, (SkipWhiteSpaces p).headD 0 = cmdChar op →
          s.ParseReplacement op (SkipWhiteSpaces p).tail = .ok r1 s1 →
          ∃ op cw pt name d r1, p = cw ++ cmdChar op :: pt ∧
            s.ReadReplacement op pt = .ok (name, d, r1) ∧
            s1.m_mapFiles = addReplacement s.m_mapFiles name d := by
        intro op hch hp
        unfold CAutoVersion.ParseReplacement at hp
        split at hp
        · cases hp
        · rename_i name d q2 hr
          simp only [Res.ok.injEq] at hp
          obtain ⟨_, rfl⟩ := hp
          refine ⟨op, cw, (SkipWhiteSpaces p).tail, name, d, q2, ?_, hr, rfl⟩
          have := headD_cons_tail _ _ hch (by cases op <;> decide)
          rw [← this]
          exact hcw
      unfold CAutoVersion.ParseDispatch at hd
      simp only [] at hd
      split at hd
      · split at hd
        · exact Or.inl (ParseConstantDef_sim _ _ _ _ hd).choose_spec.2.1
        · split at hd
          · rename_i _ _ hch
            exact Or.inr (hrep .enRoText hch hd)
          · split at hd
            · rename_i _ _ _ hch
              exact Or.inr (hrep .enRoBinary hch hd)
            · split at hd
              · exact Or.inl (ParseMessage_sim _ _ _ _ hd).choose_spec.2.1
              · split at hd
                · exact Or.inl (ParseCommand_sim _ _ _ _ hd).choose_spec.2.1
                · split at hd
                  · simp only [Res.ok.injEq] at hd
                    rw [← hd.2]
                    exact Or.inl rfl
                  · cases hd
      · simp only [Res.ok.injEq] at hd
        rw [← hd.2]
        exact Or.inl rfl

theorem addReplacement_forall (P : List Nat → CReplace → Prop)
    (files : List (List Nat × CFileNode)) (name : List Nat) (d : CReplace)
    (h : ∀ kv ∈ files, ∀ r ∈ kv.2.m_listReplacements, P kv.1 r) (hd : P name d) :
    ∀ kv ∈ addReplacement files name d, ∀ r ∈ kv.2.m_listReplacements, P kv.1 r := by
  unfold addReplacement
  split
  · intro kv hkv r hr
    obtain ⟨kv0, hkv0, rfl⟩ := List.mem_map.mp hkv
    by_cases hk : kv0.1 = name
    · rw [if_pos hk] at hr ⊢
      simp only [CFileNode.Add, List.mem_append, List.mem_singleton] at hr
      rcases hr with hr | rfl
      · exact h kv0 hkv0 r hr
      · show P kv0.1 r
        rw [hk]; exact hd
    · rw [if_neg hk] at hr ⊢
      exact h kv0 hkv0 r hr
  · intro kv hkv r hr
    simp only [List.mem_append, List.mem_singleton] at hkv
    rcases hkv with hkv | rfl
    · exact h kv hkv r hr
    · simp only [CFileNode.Add, CFileNode.new, List.nil_append, List.mem_singleton] at hr
      subst hr
      exact hd

theorem ParseLoop_recorded : ∀ (f : Nat) (s s' : CAutoVersion) (pre p : List Nat),
    CAutoVersion.ParseLoop f s p = .ok () s' → s.Parsed → s.m_pBuffer = pre ++ p →
    (∀ kv ∈ s.m_mapFiles, ∀ r ∈ kv.2.m_listReplacements, RecordedAt s.m_pBuffer kv.1 r) →
    ∀ kv ∈ s'.m_mapFiles, ∀ r ∈ kv.2.m_listReplacements, RecordedAt s.m_pBuffer kv.1 r := by
  intro f
  induction f with
  | zero => intro s s' pre p h; simp [CAutoVersion.ParseLoop] at h
  | succ f ih =>
    intro s s' pre p h hs hbuf hinv
    unfold CAutoVersion.ParseLoop at h
    split at h
    · split at h
      · cases h
      · rename_i p1 s1 hline
        obtain ⟨hs1, hsame⟩ := ParseLine_inv _ _ _ _ hline hs
        obtain ⟨c, hc, _, _⟩ := ParseLine_sim _ _ _ _ hline hs
        have hb1 : s1.m_pBuffer = s.m_pBuffer := hsame.2.2.2.2
        have hinv1 : ∀ kv ∈ s1.m_mapFiles, ∀ r ∈ kv.2.m_listReplacements,
            RecordedAt s1.m_pBuffer kv.1 r := by
          rw [hb1]
          rcases ParseLine_files _ _ _ _ hline with hf | ⟨op, cw, pt, name, d, r1, hp, hr, hf⟩
          · rw [hf]; exact hinv
          · rw [hf]
            apply addReplacement_forall _ _ _ _ hinv
            exact ReadReplacement_recorded s op (pre ++ cw) pt r1 name d hr (by
              rw [hbuf, hp]; simp)
        have := ih s1 s' (pre ++ c) p1 h hs1 (by rw [hb1, hbuf, hc]; simp) hinv1
        rw [hb1] at this
        exact this
    · simp only [Res.ok.injEq, true_and] at h
      subst h
      exact hinv

/-- C11. Recorded offset: after a successful parse of the control file, whose content is
the buffer `B`, every directive of every file record has its offset recorded as the
specification says (`RecordedAt`): the offset, counted from the start of `B`, is the
index of the first content byte of the `what` literal; the byte before it is the double
quote that opens the second literal of a directive line for that file; and `GetLiteral`
started on that quote returns the directive's `what` together with the recorded offset.
Nothing in this depends on the line the directive is on or on how lines end. -/
theorem C11_recorded_offset (ctl : List Nat) (defines : List (List Nat)) (interactive : Bool)
    (fs : FS) (s : CAutoVersion)
    (hparse : (CAutoVersion.init ctl defines interactive).ParseControlFile fs = .ok () s) :
    fs ctl = some s.m_pBuffer ∧
    ∀ kv ∈ s.m_mapFiles, ∀ r ∈ kv.2.m_listReplacements, RecordedAt s.m_pBuffer kv.1 r := by
  have hi := init_Parsed ctl defines interactive
  obtain ⟨_, _, _, _, hsB⟩ := ParseControlFile_inv _ _ _ hparse hi
  have hsB2 : fs ctl = some s.m_pBuffer := hsB
  refine ⟨hsB2, ?_⟩
  unfold CAutoVersion.ParseControlFile at hparse
  have hctl : (CAutoVersion.init ctl defines interactive).m_strControlFile = ctl := rfl
  rw [hctl, hsB2] at hparse
  simp only [] at hparse
  have h := ParseLoop_recorded _
    { CAutoVersion.init ctl defines interactive with m_pBuffer := s.m_pBuffer } s []
    s.m_pBuffer hparse hi rfl (fun kv hkv => absurd hkv (List.not_mem_nil kv))
  exact h

/-- C11 on `ctlOffsets`: the two directives get the offsets 24 and 39, which are the
indices of `1` in `"1.9"` and of `x` in `"x\"y"`, and C11 applies to the parse. -/
theorem C11_recorded_offset_witness :
    (((CAutoVersion.init (bytes "ctl") [] false).ParseControlFile fsOffsets).err = none ∧
     ((CAutoVersion.init (bytes "ctl") [] false).ParseControlFile fsOffsets).state.m_mapFiles
       = [(bytes "a.bin", CFileNode.new.Add
            (CReplace.new .enRoBinary (bytes "1.9") (bytes "2.0") 24)),
          (bytes "b", CFileNode.new.Add
            (CReplace.new .enRoText (bytes "x\"y") (bytes "2.0") 39))] ∧
     ctlOffsets.drop 23 = bytes "\"1.9\" @V\r\n&\"b\" \"x\\\"y\" @V\r\n") ∧
    (fsOffsets (bytes "ctl")
      = some ((CAutoVersion.init (bytes "ctl") [] false).ParseControlFile
          fsOffsets).state.m_pBuffer ∧
     ∀ kv ∈ ((CAutoVersion.init (bytes "ctl") [] false).ParseControlFile
          fsOffsets).state.m_mapFiles,
       ∀ r ∈ kv.2.m_listReplacements,
         RecordedAt ((CAutoVersion.init (bytes "ctl") [] false).ParseControlFile
           fsOffsets).state.m_pBuffer kv.1 r) :=
  ⟨by decide,
   C11_recorded_offset (bytes "ctl") [] false fsOffsets _ (res_ok_of_err_none _ (by decide))⟩

/-! ## Reading names and directive lines -/

theorem GetIdentifierLoop_read (l : Nat) (r : List Nat) (hr : AtIdentEnd r) :
    ∀ (N acc : List Nat), (∀ c ∈ N, c ≠ 0 ∧ c ≠ 32 ∧ c ≠ 9 ∧ c ≠ 10 ∧ c ≠ 13) →
      (acc ++ N).length ≤ 255 → GetIdentifierLoop l (N ++ r) acc = .ok (acc ++ N, r) := by
  intro N
  induction N with
  | nil =>
    intro acc _ _
    rw [List.nil_append, List.append_nil]
    exact GetIdentifierLoop_stop l r acc hr
  | cons c N ih =>
    intro acc hN hlen
    have hc := hN c (List.mem_cons_self _ _)
    rw [List.cons_append, GetIdentifierLoop, if_pos hc, if_neg (by
      simp only [List.length_append, List.length_cons, List.length_nil] at hlen ⊢; omega)]
    rw [ih (acc ++ [c]) (fun x hx => hN x (List.mem_cons_of_mem _ hx)) (by
      simp only [List.length_append, List.length_cons, List.length_nil] at hlen ⊢; omega)]
    simp

theorem GetIdentifier_read (l : Nat) (N r : List Nat) (hN : IsIdent N) (hr : AtIdentEnd r) :
    GetIdentifier (N ++ r) l = .ok (N, r) := by
  obtain ⟨hne, hlen, hc⟩ := hN
  unfold GetIdentifier
  have hskip : SkipWhiteSpaces (N ++ r) = N ++ r := by
    apply SkipWhiteSpaces_stop
    cases N with
    | nil => exact absurd rfl hne
    | cons a N =>
      have := hc a (List.mem_cons_self _ _)
      simp only [List.cons_append, List.headD_cons]
      omega
  rw [hskip, GetIdentifierLoop_read l r hr N [] hc (by simpa using hlen)]
  simp only [List.nil_append]
  rw [if_neg (by
    intro h0
    exact hne (List.eq_nil_of_length_eq_zero h0))]

/-- C12. Binary-length check at parse time.  Let the text after the command character
read as a directive: a literal `name`, a literal `what`, blanks, the @ sign, and a name
`ident` that the table maps to `with_`.  Then `ParseReplacement` accepts the line as a
text directive whatever the lengths are, and as a binary directive it throws the parse
error about the lengths exactly when the length of `what` (the value read, escapes
resolved) differs from the length of `with_`; with equal lengths it adds the binary
directive. -/
theorem C12_binary_length_check (s : CAutoVersion)
    (p p1 p2 p3 r name what with_ ident : List Nat) (o1 off : Nat)
    (h1 : GetLiteral s.m_pBuffer.length p s.m_nCurrentLine = .ok (name, o1, p1))
    (h2 : GetLiteral s.m_pBuffer.length p1 s.m_nCurrentLine = .ok (what, off, p2))
    (h3 : SkipWhiteSpaces p2 = 64 :: p3)
    (h4 : GetIdentifier p3 s.m_nCurrentLine = .ok (ident, r))
    (h5 : mapFind s.m_mapConstantDefs ident = some with_) :
    s.ParseReplacement .enRoText p = .ok r
      { s with
        m_mapFiles :=
          addReplacement s.m_mapFiles name (CReplace.new .enRoText what with_ off) } ∧
    (what.length ≠ with_.length →
      s.ParseReplacement .enRoBinary p = .throw (.parse .binaryLength s.m_nCurrentLine) s) ∧
    (what.length = with_.length →
      s.ParseReplacement .enRoBinary p = .ok r
        { s with
          m_mapFiles :=
            addReplacement s.m_mapFiles name (CReplace.new .enRoBinary what with_ off) }) := by
  refine ⟨?_, ?_, ?_⟩
  · unfold CAutoVersion.ParseReplacement CAutoVersion.ReadReplacement
    rw [h1]; simp only
    rw [h2]; simp only
    rw [h3]; simp only [ne_eq, not_true_eq_false, if_false]
    rw [h4]; simp only
    rw [h5]; simp only
    rw [if_neg (by simp)]
  · intro hne
    unfold CAutoVersion.ParseReplacement CAutoVersion.ReadReplacement
    rw [h1]; simp only
    rw [h2]; simp only
    rw [h3]; simp only [ne_eq, not_true_eq_false, if_false]
    rw [h4]; simp only
    rw [h5]; simp only
    rw [if_pos ⟨trivial, hne⟩]
  · intro heq
    unfold CAutoVersion.ParseReplacement CAutoVersion.ReadReplacement
    rw [h1]; simp only
    rw [h2]; simp only
    rw [h3]; simp only [ne_eq, not_true_eq_false, if_false]
    rw [h4]; simp only
    rw [h5]; simp only
    rw [if_neg (by simp [heq])]

/-- C12 after `@V "1.2.3"`: the binary directive `$"f" "1.2" @V` is rejected on line 2
with the error about the lengths, the same line with `&` is accepted, and the binary
directive `$"f" "1.2.4" @V` is accepted. -/
theorem C12_binary_length_check_witness :
    (((CAutoVersion.init (bytes "ctl") [] false).ParseControlFile
        (fsAfterV (bytes "$\"f\" \"1.2\" @V\n"))).err = some (.parse .binaryLength 2) ∧
     ((CAutoVersion.init (bytes "ctl") [] false).ParseControlFile
        (fsAfterV (bytes "&\"f\" \"1.2\" @V\n"))).err = none ∧
     ((CAutoVersion.init (bytes "ctl") [] false).ParseControlFile
        (fsAfterV (bytes "$\"f\" \"1.2.4\" @V\n"))).err = none) ∧
    (({ CAutoVersion.new with m_mapConstantDefs := [(bytes "V", bytes "1.2.3")] } :
        CAutoVersion).ParseReplacement .enRoText (bytes "\"f\" \"1.2\" @V\n")
      = .ok (bytes "\n")
          { CAutoVersion.new with
            m_mapConstantDefs := [(bytes "V", bytes "1.2.3")],
            m_mapFiles :=
              addReplacement [] (bytes "f")
                (CReplace.new .enRoText (bytes "1.2") (bytes "1.2.3") 0) } ∧
     ((bytes "1.2").length ≠ (bytes "1.2.3").length →
        ({ CAutoVersion.new with m_mapConstantDefs := [(bytes "V", bytes "1.2.3")] } :
          CAutoVersion).ParseReplacement .enRoBinary (bytes "\"f\" \"1.2\" @V\n")
        = .throw (.parse .binaryLength 1)
            { CAutoVersion.new with m_mapConstantDefs := [(bytes "V", bytes "1.2.3")] }) ∧
     ((bytes "1.2").length = (bytes "1.2.3").length →
        ({ CAutoVersion.new with m_mapConstantDefs := [(bytes "V", bytes "1.2.3")] } :
          CAutoVersion).ParseReplacement .enRoBinary (bytes "\"f\" \"1.2\" @V\n")
        = .ok (bytes "\n")
            { CAutoVersion.new with
              m_mapConstantDefs := [(bytes "V", bytes "1.2.3")],
              m_mapFiles :=
                addReplacement [] (bytes "f")
                  (CReplace.new .enRoBinary (bytes "1.2") (bytes "1.2.3") 0) })) :=
  ⟨by decide,
   C12_binary_length_check
     { CAutoVersion.new with m_mapConstantDefs := [(bytes "V", bytes "1.2.3")] }
     (bytes "\"f\" \"1.2\" @V\n") (bytes " \"1.2\" @V\n") (bytes " @V\n") (bytes "V\n")
     (bytes "\n") (bytes "f") (bytes "1.2") (bytes "1.2.3") (bytes "V") 0 0
     (by decide) (by decide) (by decide) (by decide) (by decide)⟩

/-! ## Binary directives keep the length -/

theorem onePass_length_same (what w : List Nat) (hne : what ≠ [])
    (hlen : w.length = what.length) :
    ∀ (n : Nat) (buf : List Nat), buf.length ≤ n → (onePass what w buf).length = buf.length := by
  intro n
  induction n with
  | zero =>
    intro buf hn
    have : buf = [] := List.eq_nil_of_length_eq_zero (by omega)
    subst this
    rw [onePass_nil]
  | succ n ih =>
    intro buf hn
    cases buf with
    | nil => rw [onePass_nil]
    | cons c cs =>
      by_cases hp : what <+: c :: cs
      · obtain ⟨rest, hrest⟩ := hp
        have hwl : 0 < what.length := List.length_pos.mpr hne
        have hl : (c :: cs).length = what.length + rest.length := by
          rw [← hrest, List.length_append]
        rw [← hrest, onePass_append _ _ _ hne, List.length_append, List.length_append,
          ih rest (by omega), hlen]
      · rw [onePass_cons _ _ _ _ hp, List.length_cons, List.length_cons,
          ih cs (by simp only [List.length_cons] at hn; omega)]

theorem ReadReplacement_op (s : CAutoVersion) (op : EReplaceOp) (pt r1 name : List Nat)
    (d : CReplace) (h : s.ReadReplacement op pt = .ok (name, d, r1)) :
    d.m_enReplaceOp = op ∧
    (op = .enRoBinary → d.m_strWhat.length = d.m_strWith.length) := by
  unfold CAutoVersion.ReadReplacement at h
  split at h
  · cases h
  · split at h
    · cases h
    · split at h
      · cases h
      · split at h
        · cases h
        · split at h
          · cases h
          · split at h
            · cases h
            · split at h
              · cases h
              · rename_i hbin
                simp only [Except.ok.injEq, Prod.mk.injEq] at h
                obtain ⟨_, rfl, _⟩ := h
                refine ⟨rfl, ?_⟩
                intro hop
                by_contra hne
                exact hbin ⟨hop, hne⟩

/-- A property that every directive has when `ReadReplacement` builds it holds for
every directive of the parsed program. -/
theorem ParseLoop_forall (P : List Nat → CReplace → Prop)
    (hP : ∀ (s : CAutoVersion) (op : EReplaceOp) (pt name r1 : List Nat) (d : CReplace),
      s.ReadReplacement op pt = .ok (name, d, r1) → P name d) :
    ∀ (f : Nat) (s s' : CAutoVersion) (p : List Nat),
      CAutoVersion.ParseLoop f s p = .ok () s' →
      (∀ kv ∈ s.m_mapFiles, ∀ r ∈ kv.2.m_listReplacements, P kv.1 r) →
      ∀ kv ∈ s'.m_mapFiles, ∀ r ∈ kv.2.m_listReplacements, P kv.1 r := by
  intro f
  induction f with
  | zero => intro s s' p h; simp [CAutoVersion.ParseLoop] at h
  | succ f ih =>
    intro s s' p h hinv
    unfold CAutoVersion.ParseLoop at h
    split at h
    · split at h
      · cases h
      · rename_i p1 s1 hline
        apply ih s1 s' p1 h
        rcases ParseLine_files _ _ _ _ hline with hf | ⟨op, cw, pt, name, d, r1, _, hr, hf⟩
        · rw [hf]; exact hinv
        · rw [hf]
          exact addReplacement_forall _ _ _ _ hinv (hP s op pt name r1 d hr)
    · simp only [Res.ok.injEq, true_and] at h
      subst h
      exact hinv

/-- C13. Binary replacements preserve length: for every binary directive `r0` of a
successfully parsed control file, and every directive `r` with the same `what` and
`with` (whatever its flags are, so also `r0` after verification has set
`mustReplace`), `DoReplace` returns on every buffer, and the buffer it returns has
exactly the size of its input. -/
theorem C13_binary_preserves_length (ctl : List Nat) (defines : List (List Nat))
    (interactive : Bool) (fs : FS) (s : CAutoVersion)
    (hparse : (CAutoVersion.init ctl defines interactive).ParseControlFile fs = .ok () s)
    (kv : List Nat × CFileNode) (hkv : kv ∈ s.m_mapFiles)
    (r0 : CReplace) (hr0 : r0 ∈ kv.2.m_listReplacements)
    (hbin : r0.m_enReplaceOp = .enRoBinary)
    (r : CReplace) (hwhat : r.m_strWhat = r0.m_strWhat) (hwith : r.m_strWith = r0.m_strWith)
    (buf : List Nat) :
    ∃ out r' k, r.DoReplace buf = .ok (out, r', k) ∧ out.length = buf.length := by
  have hi := init_Parsed ctl defines interactive
  obtain ⟨hP, _, _, _, hsB⟩ := ParseControlFile_inv _ _ _ hparse hi
  have hfresh : r0.Fresh := (hP.2.2.1 kv hkv).2.2.2 r0 hr0
  have hlen : r0.m_strWhat.length = r0.m_strWith.length := by
    unfold CAutoVersion.ParseControlFile at hparse
    split at hparse
    · cases hparse
    · have h := ParseLoop_forall
        (fun _ d => d.m_enReplaceOp = .enRoBinary → d.m_strWhat.length = d.m_strWith.length)
        (fun s op pt name r1 d hr hop => by
          obtain ⟨h1, h2⟩ := ReadReplacement_op s op pt r1 name d hr
          exact h2 (by rw [← h1]; exact hop))
        _ _ s _ hparse (fun kv hkv => absurd hkv (List.not_mem_nil kv))
      exact h kv hkv r0 hr0 hbin
  by_cases hm : r.m_bMustReplace = true
  · rw [DoReplace_spec r buf hm (by rw [hwhat]; exact hfresh.1.1)
      (by rw [hwhat]; exact hfresh.1.noNul)]
    refine ⟨_, _, _, rfl, ?_⟩
    exact onePass_length_same _ _ (by rw [hwhat]; exact hfresh.1.1)
      (by rw [hwhat, hwith, hlen]) buf.length buf (le_refl _)
  · rw [DoReplace_skip r buf (by simpa using hm)]
    exact ⟨_, _, _, rfl, rfl⟩

/-- C13 on `ctlOffsets`: its binary directive replaces `1.9` by `2.0`; with
`mustReplace` set, `DoReplace` turns `v1.9 and 1.9` into `v2.0 and 2.0`, twelve bytes
both. -/
theorem C13_binary_preserves_length_witness :
    ({ CReplace.new .enRoBinary (bytes "1.9") (bytes "2.0") 24 with
        m_bMustReplace := true }.DoReplace (bytes "v1.9 and 1.9")
      = .ok (bytes "v2.0 and 2.0",
          { CReplace.new .enRoBinary (bytes "1.9") (bytes "2.0") 24 with
            m_bMustReplace := true, m_bDidReplace := true }, 2)) ∧
    ∃ out r' k, { CReplace.new .enRoBinary (bytes "1.9") (bytes "2.0") 24 with
        m_bMustReplace := true }.DoReplace (bytes "v1.9 and 1.9") = .ok (out, r', k) ∧
      out.length = (bytes "v1.9 and 1.9").length :=
  ⟨by decide,
   C13_binary_preserves_length (bytes "ctl") [] false fsOffsets _
     (res_ok_of_err_none _ (by decide))
     (bytes "a.bin", CFileNode.new.Add (CReplace.new .enRoBinary (bytes "1.9") (bytes "2.0") 24))
     (by decide) (CReplace.new .enRoBinary (bytes "1.9") (bytes "2.0") 24) (by decide) rfl
     { CReplace.new .enRoBinary (bytes "1.9") (bytes "2.0") 24 with m_bMustReplace := true }
     rfl rfl (bytes "v1.9 and 1.9")⟩

/-! ## The guard against backups left over -/

theorem CheckReplaceAll_pass (f buf : List Nat) :
    ∀ (rs : List CReplace) (m : Bool),
      (∀ r ∈ rs, NoNul r.m_strWhat ∧ r.m_strWhat <:+: buf) →
      ∃ rs' m', CheckReplaceAll f buf rs m = (rs', m', none) := by
  intro rs
  induction rs with
  | nil => intro m _; exact ⟨[], m, rfl⟩
  | cons r rs ih =>
    intro m h
    obtain ⟨hn, hin⟩ := h r (List.mem_cons_self _ _)
    unfold CheckReplaceAll
    rw [CheckReplace_spec r f buf hn, if_pos hin]
    by_cases hww : r.m_strWhat = r.m_strWith
    · rw [if_pos hww]
      simp only [Bool.false_eq_true, if_false]
      obtain ⟨rs', m', hrec⟩ := ih m (fun x hx => h x (List.mem_cons_of_mem _ hx))
      rw [hrec]
      exact ⟨_, _, rfl⟩
    · rw [if_neg hww]
      simp only [if_true]
      obtain ⟨rs', m', hrec⟩ := ih true (fun x hx => h x (List.mem_cons_of_mem _ hx))
      rw [hrec]
      exact ⟨_, _, rfl⟩

theorem CheckReplacements_pass (n : CFileNode) (fs : FS) (path T : List Nat)
    (hbak : fs (path ++ avbak) = none) (hT : fs path = some T)
    (h : ∀ r ∈ n.m_listReplacements, NoNul r.m_strWhat ∧ r.m_strWhat <:+: T) :
    ∃ b n', n.CheckReplacements fs path = .ok b n' := by
  unfold CFileNode.CheckReplacements
  simp only []
  rw [hbak, hT]
  simp only
  obtain ⟨rs', m', hrec⟩ := CheckReplaceAll_pass path T n.m_listReplacements n.m_bMustReplace h
  rw [hrec]
  exact ⟨_, _, rfl⟩

theorem CheckReplacements_bak (n : CFileNode) (fs : FS) (path : List Nat)
    (hbak : fs (path ++ avbak) ≠ none) :
    n.CheckReplacements fs path = .throw (.backupExists (path ++ avbak)) n := by
  unfold CFileNode.CheckReplacements
  simp only []
  split
  · rfl
  · rename_i h
    exact absurd h hbak

/-- The verify phase throws when some target has a backup next to it; the error is that
of the first record whose check fails, which is the error about the backup when the
records without a backup pass their own check. -/
theorem CheckAll_guard (base : List Nat) (fs : FS) :
    ∀ (files : List (List Nat × CFileNode)) (has : Bool),
      (∃ kv ∈ files, fs (base ++ [92] ++ kv.1 ++ avbak) ≠ none) →
      ∃ e, (CheckAll base fs files has).2.2 = some e ∧
        ((∀ kv ∈ files, fs (base ++ [92] ++ kv.1 ++ avbak) = none →
            ∃ T, fs (base ++ [92] ++ kv.1) = some T ∧
              ∀ r ∈ kv.2.m_listReplacements, NoNul r.m_strWhat ∧ r.m_strWhat <:+: T) →
          ∃ kv ∈ files, e = .backupExists (base ++ [92] ++ kv.1 ++ avbak) ∧
            fs (base ++ [92] ++ kv.1 ++ avbak) ≠ none) := by
  intro files
  induction files with
  | nil => intro has ⟨kv, hkv, _⟩; cases hkv
  | cons f files ih =>
    intro has ⟨kv, hkv, hbak⟩
    obtain ⟨name0, n0⟩ := f
    by_cases hb0 : fs (base ++ [92] ++ name0 ++ avbak) = none
    · have hrest : ∃ kv ∈ files, fs (base ++ [92] ++ kv.1 ++ avbak) ≠ none := by
        rcases List.mem_cons.mp hkv with rfl | hkv
        · exact absurd hb0 hbak
        · exact ⟨kv, hkv, hbak⟩
      unfold CheckAll
      split
      · rename_i e n' hc
        refine ⟨e, rfl, ?_⟩
        intro hpass
        exfalso
        obtain ⟨T, hT, hall⟩ := hpass (name0, n0) (List.mem_cons_self _ _) hb0
        obtain ⟨b, n2, hok⟩ := CheckReplacements_pass n0 fs _ T hb0 hT hall
        rw [hok] at hc
        cases hc
      · rename_i b n' hc
        obtain ⟨e, he, hkind⟩ := ih (if b = true then true else has) hrest
        cases hrec : CheckAll base fs files (if b = true then true else has) with
        | mk rest1 tl =>
          obtain ⟨has1, e1⟩ := tl
          rw [hrec] at he
          simp only at he ⊢
          refine ⟨e, he, ?_⟩
          intro hpass
          obtain ⟨kv2, hkv2, h2⟩ := hkind (fun x hx => hpass x (List.mem_cons_of_mem _ hx))
          exact ⟨kv2, List.mem_cons_of_mem _ hkv2, h2⟩
    · unfold CheckAll
      rw [CheckReplacements_bak n0 fs _ hb0]
      exact ⟨_, rfl, fun _ => ⟨(name0, n0), List.mem_cons_self _ _, rfl, hb0⟩⟩

/-- A run that fails in the verify phase: `Replace` throws with the files untouched,
and the rescue rollback of `main` touches nothing either. -/
theorem main_check_failure (ctl : List Nat) (defines : List (List Nat)) (interactive : Bool)
    (key : Nat) (fs : FS) (s : CAutoVersion) (e : Err)
    (hparse : (CAutoVersion.init ctl defines interactive).ParseControlFile fs = .ok () s)
    (he : (CheckAll s.m_strBasePath fs s.m_mapFiles false).2.2 = some e) :
    (∃ s', (CAutoVersion.init ctl defines interactive).Replace fs key = .throw e (s', fs)) ∧
    mainReplace ctl defines interactive key fs = (some e, fs) := by
  obtain ⟨hP, _, _, _, _⟩ := ParseControlFile_inv _ _ _ hparse (init_Parsed _ _ _)
  have hrep := Replace_fails_in_check _ s fs key hparse e he
  refine ⟨⟨_, hrep⟩, ?_⟩
  unfold mainReplace
  rw [hrep]
  simp only [CAutoVersion.RescueRollback, hP.1, Bool.false_eq_true, if_false]
  rw [RescueAll_none]
  exact CheckAll_did _ _ _ _ (fun kv hkv => (hP.2.2.1 kv hkv).2.2.1)

theorem Backed.nil (fs : FS) : Backed fs fs [] :=
  ⟨fun p hp => absurd hp (List.not_mem_nil p), fun _ _ _ => rfl⟩

theorem Backed.congr {fs fs' : FS} {P P' : List (List Nat)} (h : Backed fs fs' P)
    (hm : ∀ q, q ∈ P' ↔ q ∈ P) : Backed fs fs' P' :=
  ⟨fun p hp => h.1 p ((hm p).mp hp),
   fun q hq hb => h.2 q (fun hq2 => hq ((hm q).mpr hq2)) (fun p hp => hb p ((hm p).mpr hp))⟩

/-- A file that exists in `fs` and is not backed up is unchanged. -/
theorem Backed.frame {fs fs' : FS} {P : List (List Nat)} (h : Backed fs fs' P)
    (p : List Nat) (hp : p ∉ P) (hsome : (fs p).isSome = true) : fs' p = fs p := by
  apply h.2 p hp
  intro p2 hp2 e
  have := (h.1 p2 hp2).2.1
  rw [← e] at this
  rw [this] at hsome
  cases hsome

/-- No backup where there was none, next to a file that is not backed up. -/
theorem Backed.frame_bak {fs fs' : FS} {P : List (List Nat)} (h : Backed fs fs' P)
    (p : List Nat) (hp : p ∉ P) (hnone : fs (p ++ avbak) = none) :
    fs' (p ++ avbak) = none := by
  rw [h.2 (p ++ avbak) ?_ ?_]
  · exact hnone
  · intro hmem
    have := (h.1 _ hmem).1
    rw [hnone] at this
    cases this
  · intro p2 hp2 e
    exact hp (by rw [List.append_cancel_right e]; exact hp2)

theorem Backed.canRollback {fs fs' : FS} {P : List (List Nat)} (h : Backed fs fs' P)
    (p : List Nat) (hnone : fs (p ++ avbak) = none) :
    CanRollback fs' p = true ↔ p ∈ P := by
  unfold CanRollback
  constructor
  · intro hc
    by_contra hp
    rw [h.frame_bak p hp hnone] at hc
    cases hc
  · intro hp
    rw [(h.1 p hp).2.2.1]
    exact (h.1 p hp).1

theorem Backed.all_eq {fs fs' : FS} {P : List (List Nat)} (h : Backed fs fs' P)
    (hP : ∀ q, q ∉ P) : ∀ q, fs' q = fs q :=
  fun q => h.2 q (hP q) (fun p hp => absurd hp (hP p))

/-- Backing up a file and writing it. -/
theorem Backed.backup {fs fs' : FS} {P : List (List Nat)} (h : Backed fs fs' P)
    (p T new : List Nat) (hp : p ∉ P) (hT : fs p = some T) (hnone : fs (p ++ avbak) = none) :
    Backed fs ((fs'.write (p ++ avbak) T).write p new) (p :: P) := by
  have hne : p ++ avbak ≠ p := append_avbak_ne p
  constructor
  · intro q hq
    rcases List.mem_cons.mp hq with rfl | hq
    · refine ⟨by rw [hT]; rfl, hnone, ?_, ?_⟩
      · simp only [FS.write, if_neg hne, if_true]
        exact hT.symm
      · simp only [FS.write, if_true]
        rfl
    · obtain ⟨h1, h2, h3, h4⟩ := h.1 q hq
      have hqp : q ≠ p := fun e => hp (e ▸ hq)
      have hq1 : q ++ avbak ≠ p := by
        intro e
        rw [e, hT] at h2
        cases h2
      have hq2 : q ++ avbak ≠ p ++ avbak := fun e => hqp (List.append_cancel_right e)
      have hq3 : q ≠ p ++ avbak := by
        intro e
        rw [e, hnone] at h1
        cases h1
      refine ⟨h1, h2, ?_, ?_⟩
      · simp only [FS.write, if_neg hq1, if_neg hq2]
        exact h3
      · simp only [FS.write, if_neg hqp, if_neg hq3]
        exact h4
  · intro q hq hb
    have hqp : q ≠ p := fun e => hq (e ▸ List.mem_cons_self _ _)
    have hq2 : q ≠ p ++ avbak := hb p (List.mem_cons_self _ _)
    simp only [FS.write, if_neg hqp, if_neg hq2]
    exact h.2 q (fun hm => hq (List.mem_cons_of_mem _ hm))
      (fun p2 hp2 => hb p2 (List.mem_cons_of_mem _ hp2))

/-- Rolling back a file that is backed up. -/
theorem Backed.rollback {fs fs' : FS} {P : List (List Nat)} (h : Backed fs fs' P)
    (p : List Nat) (hp : p ∈ P) :
    Backed fs (Rollback fs' p) (P.filter (fun q => decide (q ≠ p))) := by
  obtain ⟨h1, h2, h3, h4⟩ := h.1 p hp
  obtain ⟨T, hT⟩ := Option.isSome_iff_exists.mp h1
  obtain ⟨cur, hcur⟩ := Option.isSome_iff_exists.mp h4
  have hne : p ++ avbak ≠ p := append_avbak_ne p
  have hroll : Rollback fs' p = ((fs'.remove p).write p T).remove (p ++ avbak) := by
    unfold Rollback
    simp only []
    rw [h3, hT]
    simp only
    rw [hcur]
  rw [hroll]
  constructor
  · intro q hq
    obtain ⟨hqP, hqne⟩ := List.mem_filter.mp hq
    have hqp : q ≠ p := by simpa using hqne
    obtain ⟨g1, g2, g3, g4⟩ := h.1 q hqP
    have hq1 : q ++ avbak ≠ p := by
      intro e
      rw [e, hT] at g2
      cases g2
    have hq2 : q ++ avbak ≠ p ++ avbak := fun e => hqp (List.append_cancel_right e)
    have hq3 : q ≠ p ++ avbak := by
      intro e
      rw [e, h2] at g1
      cases g1
    refine ⟨g1, g2, ?_, ?_⟩
    · simp only [FS.remove, FS.write, if_neg hq1, if_neg hq2]
      exact g3
    · simp only [FS.remove, FS.write, if_neg hqp, if_neg hq3]
      exact g4
  · intro q hq hb
    by_cases hqp : q = p
    · subst hqp
      simp only [FS.remove, FS.write, if_neg hne.symm, if_true]
      exact hT.symm
    · by_cases hqb : q = p ++ avbak
      · subst hqb
        simp only [FS.remove, if_true]
        exact h2.symm
      · simp only [FS.remove, FS.write, if_neg hqp, if_neg hqb]
        apply h.2 q
        · intro hm
          exact hq (List.mem_filter.mpr ⟨hm, by simpa using hqp⟩)
        · intro p2 hp2 e
          by_cases hp2p : p2 = p
          · exact hqb (by rw [e, hp2p])
          · exact hb p2 (List.mem_filter.mpr ⟨hp2, by simpa using hp2p⟩) e

/-- The verify phase followed by the apply phase, both without an error: the files the
apply phase left are the original ones with the targets of the records flagged
`m_bDidReplace` backed up, and a record without the flag had nothing to replace. -/
theorem run_backed (base : List Nat) (fs0 : FS) :
    ∀ (files files_c files_d : List (List Nat × CFileNode)) (has has1 : Bool) (fs fs_d : FS)
      (P : List (List Nat)),
      CheckAll base fs0 files has = (files_c, has1, none) →
      DoAll base files_c fs = (files_d, fs_d, none) →
      (∀ kv ∈ files, kv.2.Fresh) → (files.map Prod.fst).Nodup →
      Backed fs0 fs P → (∀ kv ∈ files, base ++ [92] ++ kv.1 ∉ P) →
      ∃ P2, Backed fs0 fs_d P2 ∧
        (∀ q, q ∈ P2 ↔ q ∈ P ∨
          ∃ kd ∈ files_d, kd.2.m_bDidReplace = true ∧ q = base ++ [92] ++ kd.1) ∧
        List.Forall₂ (fun a b : List Nat × CFileNode => b.1 = a.1 ∧
          (b.2.m_bDidReplace = false → ∃ T, fs0 (base ++ [92] ++ a.1) = some T ∧
            ∀ d ∈ b.2.m_listReplacements,
              d.m_strWhat = d.m_strWith ∧ d.m_strWhat <:+: T)) files files_d := by
  intro files
  induction files with
  | nil =>
    intro files_c files_d has has1 fs fs_d P hc hd _ _ hB _
    simp only [CheckAll, Prod.mk.injEq, and_true] at hc
    obtain ⟨rfl, rfl⟩ := hc
    simp only [DoAll, Prod.mk.injEq, and_true] at hd
    obtain ⟨rfl, rfl⟩ := hd
    refine ⟨P, hB, ?_, List.Forall₂.nil⟩
    intro q
    constructor
    · exact fun h => Or.inl h
    · rintro (h | ⟨kd, hkd, _⟩)
      · exact h
      · exact absurd hkd (List.not_mem_nil kd)
  | cons kv0 rest ih =>
    intro files_c files_d has has1 fs fs_d P hc hd hf hnd hB hP
    obtain ⟨name, n⟩ := kv0
    have hfn := hf (name, n) (List.mem_cons_self _ _)
    have hfr : ∀ kv ∈ rest, kv.2.Fresh := fun x hx => hf x (List.mem_cons_of_mem _ hx)
    have hPn := hP (name, n) (List.mem_cons_self _ _)
    simp only [List.map_cons, List.nodup_cons] at hnd
    unfold CheckAll at hc
    split at hc
    · simp only [Prod.mk.injEq] at hc
      exact absurd hc.2.2 (by simp)
    · rename_i b n_c hchk
      cases hrec : CheckAll base fs0 rest (if b = true then true else has) with
      | mk rest_c tl =>
        obtain ⟨has2, e2⟩ := tl
        rw [hrec] at hc
        simp only [Prod.mk.injEq] at hc
        obtain ⟨rfl, rfl, rfl⟩ := hc
        unfold DoAll at hd
        split at hd
        · simp only [Prod.mk.injEq] at hd
          exact absurd hd.2.2 (by simp)
        · rename_i u n_d fs1 hdo
          cases hrec2 : DoAll base rest_c fs1 with
          | mk rest_d tl2 =>
            obtain ⟨fs2, e3⟩ := tl2
            rw [hrec2] at hd
            simp only [Prod.mk.injEq] at hd
            obtain ⟨rfl, rfl, rfl⟩ := hd
            obtain ⟨c1, c2, c3, hbak0, hsome0⟩ := CheckReplacements_ok _ _ _ _ _ hchk hfn
            obtain ⟨T0, hT0, hocc⟩ := CheckReplacements_found _ _ _ _ _ hchk hfn
            have hdid_c : n_c.m_bDidReplace = false := by
              have := CheckReplacements_did n fs0 (base ++ [92] ++ name)
              rw [hchk] at this
              exact this.trans hfn.2.1
            have hcur : fs (base ++ [92] ++ name) = some T0 := by
              rw [hB.frame _ hPn hsome0]; exact hT0
            have hrestP : ∀ kv ∈ rest, base ++ [92] ++ kv.1 ≠ base ++ [92] ++ name := by
              intro x hx e
              have hn2 : x.1 = name := path_inj _ _ _ e
              apply hnd.1
              rw [← hn2]
              exact List.mem_map_of_mem Prod.fst hx
            unfold CFileNode.DoReplacments at hdo
            by_cases hm : n_c.m_bMustReplace = true
            · rw [if_pos hm, hcur] at hdo
              simp only [] at hdo
              split at hdo
              · cases hdo
              · rename_i rs newbuf hall
                unfold Backup at hdo
                rw [hcur] at hdo
                simp only [Res.ok.injEq, Prod.mk.injEq, true_and] at hdo
                obtain ⟨rfl, rfl⟩ := hdo
                have hB1 := hB.backup (base ++ [92] ++ name) T0 newbuf hPn hT0 hbak0
                obtain ⟨P2, hB2, hmem, hrel⟩ := ih rest_c rest_d _ has2 _ fs2
                  ((base ++ [92] ++ name) :: P) hrec hrec2 hfr hnd.2 hB1 (by
                    intro x hx hmemx
                    rcases List.mem_cons.mp hmemx with e | h2
                    · exact hrestP x hx e
                    · exact hP x (List.mem_cons_of_mem _ hx) h2)
                refine ⟨P2, hB2, ?_, List.Forall₂.cons ⟨rfl, fun hfalse => by cases hfalse⟩ hrel⟩
                intro q
                rw [hmem q]
                constructor
                · rintro (h | ⟨kd, hkd, h1, h2⟩)
                  · rcases List.mem_cons.mp h with e | h
                    · exact Or.inr ⟨_, List.mem_cons_self _ _, rfl, e⟩
                    · exact Or.inl h
                  · exact Or.inr ⟨kd, List.mem_cons_of_mem _ hkd, h1, h2⟩
                · rintro (h | ⟨kd, hkd, h1, h2⟩)
                  · exact Or.inl (List.mem_cons_of_mem _ h)
                  · rcases List.mem_cons.mp hkd with rfl | hkd
                    · exact Or.inl (by rw [h2]; exact List.mem_cons_self _ _)
                    · exact Or.inr ⟨kd, hkd, h1, h2⟩
            · rw [if_neg hm] at hdo
              simp only [Res.ok.injEq, Prod.mk.injEq, true_and] at hdo
              obtain ⟨rfl, rfl⟩ := hdo
              have hbf : b = false := by
                rw [← c2]
                simpa using hm
              obtain ⟨P2, hB2, hmem, hrel⟩ := ih rest_c rest_d _ has2 _ fs2 P hrec hrec2 hfr
                hnd.2 hB (fun x hx => hP x (List.mem_cons_of_mem _ hx))
              refine ⟨P2, hB2, ?_, List.Forall₂.cons ⟨rfl, fun _ =>
                ⟨T0, hT0, fun d hd => by
                  rw [c1] at hd
                  obtain ⟨d0, hd0, rfl⟩ := List.mem_map.mp hd
                  rw [if_pos (c3 hbf d0 hd0)]
                  exact ⟨c3 hbf d0 hd0, hocc d0 hd0⟩⟩⟩ hrel⟩
              intro q
              rw [hmem q]
              constructor
              · rintro (h | ⟨kd, hkd, h1, h2⟩)
                · exact Or.inl h
                · exact Or.inr ⟨kd, List.mem_cons_of_mem _ hkd, h1, h2⟩
              · rintro (h | ⟨kd, hkd, h1, h2⟩)
                · exact Or.inl h
                · rcases List.mem_cons.mp hkd with rfl | hkd
                  · rw [hdid_c] at h1
                    cases h1
                  · exact Or.inr ⟨kd, hkd, h1, h2⟩

/-- The loop of `CAutoVersion::Rollback` over records none of whose targets had a
backup next to it originally: what stays backed up afterwards is no target of a
record. -/
theorem RollbackAll_backed (base : List Nat) (fs0 : FS) :
    ∀ (files : List (List Nat × CFileNode)) (fs : FS) (P : List (List Nat)),
      Backed fs0 fs P →
      (∀ kv ∈ files, fs0 (base ++ [92] ++ kv.1 ++ avbak) = none) →
      ∃ P2, Backed fs0 (RollbackAll base files fs) P2 ∧
        ∀ q, q ∈ P2 ↔ q ∈ P ∧ ∀ kv ∈ files, q ≠ base ++ [92] ++ kv.1 := by
  intro files
  induction files with
  | nil =>
    intro fs P hB _
    refine ⟨P, hB, fun q => ⟨fun h => ⟨h, fun kv hkv => absurd hkv (List.not_mem_nil kv)⟩,
      fun h => h.1⟩⟩
  | cons kv0 rest ih =>
    intro fs P hB hbak
    obtain ⟨name, n⟩ := kv0
    have hb0 : fs0 (base ++ [92] ++ name ++ avbak) = none := hbak (name, n) (List.mem_cons_self _ _)
    have hbr : ∀ kv ∈ rest, fs0 (base ++ [92] ++ kv.1 ++ avbak) = none :=
      fun x hx => hbak x (List.mem_cons_of_mem _ hx)
    unfold RollbackAll
    simp only []
    by_cases hc : CanRollback fs (base ++ [92] ++ name) = true
    · rw [if_pos hc]
      have hin := (hB.canRollback _ hb0).mp hc
      obtain ⟨P2, hB2, hmem⟩ := ih _ _ (hB.rollback _ hin) hbr
      refine ⟨P2, hB2, ?_⟩
      intro q
      rw [hmem q, List.mem_filter]
      constructor
      · rintro ⟨⟨h1, h2⟩, h3⟩
        refine ⟨h1, ?_⟩
        intro kv hkv
        rcases List.mem_cons.mp hkv with rfl | hkv
        · simpa using h2
        · exact h3 kv hkv
      · rintro ⟨h1, h2⟩
        exact ⟨⟨h1, by simpa using h2 (name, n) (List.mem_cons_self _ _)⟩,
          fun kv hkv => h2 kv (List.mem_cons_of_mem _ hkv)⟩
    · rw [if_neg hc]
      have hnin : base ++ [92] ++ name ∉ P := fun h => hc ((hB.canRollback _ hb0).mpr h)
      obtain ⟨P2, hB2, hmem⟩ := ih _ _ hB hbr
      refine ⟨P2, hB2, ?_⟩
      intro q
      rw [hmem q]
      constructor
      · rintro ⟨h1, h3⟩
        refine ⟨h1, ?_⟩
        intro kv hkv
        rcases List.mem_cons.mp hkv with rfl | hkv
        · exact fun e => hnin (e ▸ h1)
        · exact h3 kv hkv
      · rintro ⟨h1, h2⟩
        exact ⟨h1, fun kv hkv => h2 kv (List.mem_cons_of_mem _ hkv)⟩

/-! ## Failure of the control-file update, rollback, and the second run -/

theorem forall₂_names {R : List Nat × CFileNode → List Nat × CFileNode → Prop}
    (hR : ∀ a b, R a b → b.1 = a.1) :
    ∀ {fa fb : List (List Nat × CFileNode)}, List.Forall₂ R fa fb →
      fb.map Prod.fst = fa.map Prod.fst := by
  intro fa fb h
  induction h with
  | nil => rfl
  | cons hab _ ih => simp only [List.map_cons, ih, hR _ _ hab]

theorem nodup_fst_eq {β : Type} : ∀ (l : List (List Nat × β)), (l.map Prod.fst).Nodup →
    ∀ a ∈ l, ∀ b ∈ l, a.1 = b.1 → a = b := by
  intro l
  induction l with
  | nil => intro _ a ha; cases ha
  | cons x l ih =>
    intro hnd a ha b hb e
    simp only [List.map_cons, List.nodup_cons] at hnd
    rcases List.mem_cons.mp ha with ha1 | ha2
    · rcases List.mem_cons.mp hb with hb1 | hb2
      · rw [ha1, hb1]
      · exfalso
        apply hnd.1
        rw [← ha1, e]
        exact List.mem_map_of_mem Prod.fst hb2
    · rcases List.mem_cons.mp hb with hb1 | hb2
      · exfalso
        apply hnd.1
        rw [← hb1, ← e]
        exact List.mem_map_of_mem Prod.fst ha2
      · exact ih hnd.2 a ha2 b hb2 e

/-- The two ways `Replace` returns normally: after the verify phase alone, with no file
written, or after the apply phase and the update of the control file. -/
theorem Replace_ok_cases (ctl : List Nat) (defines : List (List Nat)) (interactive : Bool)
    (fs fs1 : FS) (key : Nat) (s1 : CAutoVersion)
    (hrun : (CAutoVersion.init ctl defines interactive).Replace fs key = .ok () (s1, fs1)) :
    ∃ s files_c has,
      (CAutoVersion.init ctl defines interactive).ParseControlFile fs = .ok () s ∧
      CheckAll s.m_strBasePath fs s.m_mapFiles false = (files_c, has, none) ∧
      ((s1 = { s with m_mapFiles := files_c } ∧ fs1 = fs) ∨
       (¬ (interactive = true ∧ key = 110) ∧ ∃ files_d fs_d B newbuf,
          DoAll s.m_strBasePath files_c fs = (files_d, fs_d, none) ∧
          fs_d ctl = some B ∧ rewriteControlBuffer files_d B = .ok newbuf ∧
          s1 = { s with m_mapFiles := files_d, m_bControlFileSaved := true } ∧
          fs1 = (fs_d.write (ctl ++ avbak) B).write ctl newbuf)) := by
  unfold CAutoVersion.Replace at hrun
  split at hrun
  · cases hrun
  · rename_i u s hparse
    obtain ⟨_, hsI, hsC, _, _⟩ := ParseControlFile_inv _ _ _ hparse (init_Parsed _ _ _)
    have hctl : (CAutoVersion.init ctl defines interactive).m_strControlFile = ctl := rfl
    have hint : (CAutoVersion.init ctl defines interactive).m_bInteractive = interactive := rfl
    rw [hctl] at hsC
    rw [hint] at hsI
    split at hrun
    · cases hrun
    · rename_i files_c has hchk
      refine ⟨s, files_c, has, hparse, hchk, ?_⟩
      simp only [] at hrun
      split at hrun
      · rename_i hcond
        right
        refine ⟨by rw [← hsI]; exact hcond.2, ?_⟩
        split at hrun
        · cases hrun
        · rename_i files_d fs_d hdo
          unfold CAutoVersion.UpdateControlFile at hrun
          simp only [] at hrun
          split at hrun
          · cases hrun
          · rename_i buf hbuf
            split at hrun
            · cases hrun
            · rename_i newbuf hrw
              unfold Backup at hrun
              simp only [hbuf] at hrun
              simp only [Res.ok.injEq, Prod.mk.injEq, true_and] at hrun
              obtain ⟨rfl, rfl⟩ := hrun
              refine ⟨files_d, fs_d, buf, newbuf, hdo, by rw [← hsC]; exact hbuf, hrw, rfl, ?_⟩
              rw [hsC]
      · left
        simp only [Res.ok.injEq, Prod.mk.injEq, true_and] at hrun
        obtain ⟨rfl, rfl⟩ := hrun
        exact ⟨rfl, rfl⟩

/-- A confirmed `CAutoVersion::Rollback` on files that are the original ones with some
targets and possibly the control file backed up restores every path, provided no backup
of a target or of the control file existed originally. -/
theorem rollback_restores (ctl : List Nat) (defines : List (List Nat)) (interactive : Bool)
    (fs fs1 : FS) (key2 : Nat) (s2 : CAutoVersion) (P : List (List Nat))
    (hB : Backed fs fs1 P)
    (hparse2 : (CAutoVersion.init ctl defines interactive).ParseControlFile fs1 = .ok () s2)
    (hbak : ∀ kv ∈ s2.m_mapFiles, fs (s2.m_strBasePath ++ [92] ++ kv.1 ++ avbak) = none)
    (hclean : fs (ctl ++ avbak) = none)
    (hP : ∀ q ∈ P, q = ctl ∨ ∃ kv ∈ s2.m_mapFiles, q = s2.m_strBasePath ++ [92] ++ kv.1)
    (hconf2 : ¬ (interactive = true ∧ key2 = 110)) :
    ∃ s3 fs3, (CAutoVersion.init ctl defines interactive).Rollback fs1 key2 = .ok () (s3, fs3) ∧
      ∀ q, fs3 q = fs q := by
  obtain ⟨_, _, hsC, _, _⟩ := ParseControlFile_inv _ _ _ hparse2 (init_Parsed _ _ _)
  have hctl : (CAutoVersion.init ctl defines interactive).m_strControlFile = ctl := rfl
  have hint : (CAutoVersion.init ctl defines interactive).m_bInteractive = interactive := rfl
  rw [hctl] at hsC
  obtain ⟨P2, hB2, hmem⟩ := RollbackAll_backed s2.m_strBasePath fs s2.m_mapFiles fs1 P hB hbak
  have hP2 : ∀ q ∈ P2, q = ctl := by
    intro q hq
    obtain ⟨h1, h2⟩ := (hmem q).mp hq
    rcases hP q h1 with h | ⟨kv, hkv, e⟩
    · exact h
    · exact absurd e (h2 kv hkv)
  unfold CAutoVersion.Rollback
  rw [hint, if_neg hconf2, hparse2]
  simp only [hsC]
  by_cases hc : CanRollback (RollbackAll s2.m_strBasePath s2.m_mapFiles fs1) ctl = true
  · rw [if_pos hc]
    refine ⟨_, _, rfl, ?_⟩
    have hin := (hB2.canRollback ctl hclean).mp hc
    apply (hB2.rollback ctl hin).all_eq
    intro q hq
    obtain ⟨h1, h2⟩ := List.mem_filter.mp hq
    exact absurd (hP2 q h1) (by simpa using h2)
  · rw [if_neg hc]
    refine ⟨_, _, rfl, ?_⟩
    apply hB2.all_eq
    intro q hq
    have := hP2 q hq
    subst this
    exact hc ((hB2.canRollback _ hclean).mpr hq)

theorem mem_of_names_eq {fa fb : List (List Nat × CFileNode)}
    (h : fb.map Prod.fst = fa.map Prod.fst) (kv : List Nat × CFileNode) (hkv : kv ∈ fb) :
    ∃ ka ∈ fa, ka.1 = kv.1 := by
  have : kv.1 ∈ fa.map Prod.fst := by rw [← h]; exact List.mem_map_of_mem Prod.fst hkv
  obtain ⟨ka, hka, e⟩ := List.mem_map.mp this
  exact ⟨ka, hka, e⟩

/-- C16 (amended). Replace then rollback is the identity: when `Replace` returns
normally on a file system that holds no backup of the control file, and no target is the
control file itself, a subsequent confirmed `Rollback` with the same defines returns
normally and leaves every path with what it held before the replace run; in particular
every target and the control file are byte-identical to their contents before the run,
and no backup of a target or of the control file remains. -/
theorem C16_replace_then_rollback (ctl : List Nat) (defines : List (List Nat))
    (interactive : Bool) (fs fs1 : FS) (key key2 : Nat) (s1 : CAutoVersion)
    (hrun : (CAutoVersion.init ctl defines interactive).Replace fs key = .ok () (s1, fs1))
    (hclean : fs (ctl ++ avbak) = none)
    (halias : ∀ kv ∈ s1.m_mapFiles, s1.fname kv.1 ≠ ctl)
    (hconf2 : ¬ (interactive = true ∧ key2 = 110)) :
    ∃ s3 fs3, (CAutoVersion.init ctl defines interactive).Rollback fs1 key2 = .ok () (s3, fs3) ∧
      (∀ q, fs3 q = fs q) ∧ fs3 (ctl ++ avbak) = none ∧
      ∀ kv ∈ s1.m_mapFiles, (fs3 (s1.fname kv.1)).isSome = true ∧
        fs3 (s1.fname kv.1 ++ avbak) = none := by
  obtain ⟨s, files_c, has, hparse, hchk, hcases⟩ :=
    Replace_ok_cases ctl defines interactive fs fs1 key s1 hrun
  obtain ⟨hsP, _, _, _, hsB⟩ := ParseControlFile_inv _ _ _ hparse (init_Parsed _ _ _)
  have hctl : (CAutoVersion.init ctl defines interactive).m_strControlFile = ctl := rfl
  rw [hctl] at hsB
  have hfresh : ∀ kv ∈ s.m_mapFiles, kv.2.Fresh := fun kv hkv => (hsP.2.2.1 kv hkv).2
  obtain ⟨hc1, _, hc3⟩ := CheckAll_ok _ _ _ _ _ _ hchk hfresh
  have hnc : files_c.map Prod.fst = s.m_mapFiles.map Prod.fst :=
    forall₂_names (fun _ _ h => h.1) hc1
  -- the names of the final records are those of the parse, and so is the base path
  have key1 : s1.m_strBasePath = s.m_strBasePath ∧
      s1.m_mapFiles.map Prod.fst = s.m_mapFiles.map Prod.fst ∧
      ∃ s3 fs3, (CAutoVersion.init ctl defines interactive).Rollback fs1 key2
        = .ok () (s3, fs3) ∧ ∀ q, fs3 q = fs q := by
    rcases hcases with ⟨rfl, rfl⟩ | ⟨hconf, files_d, fs_d, B, newbuf, hdo, hB, hrw, rfl, rfl⟩
    · refine ⟨rfl, hnc, ?_⟩
      apply rollback_restores ctl defines interactive fs1 fs1 key2 s [] (Backed.nil fs1) hparse
        ?_ hclean (fun q hq => absurd hq (List.not_mem_nil q)) hconf2
      intro kv hkv
      exact (hc3 kv hkv).1
    · obtain ⟨P2, hB2, hmem, hrel⟩ := run_backed s.m_strBasePath fs s.m_mapFiles files_c
        files_d false has fs fs_d [] hchk hdo hfresh hsP.2.2.2 (Backed.nil fs)
        (fun _ _ h => absurd h (List.not_mem_nil _))
      have hnd : files_d.map Prod.fst = s.m_mapFiles.map Prod.fst :=
        forall₂_names (fun _ _ h => h.1) hrel
      refine ⟨rfl, hnd, ?_⟩
      have hctlP : ctl ∉ P2 := by
        intro hin
        rcases (hmem ctl).mp hin with h | ⟨kd, hkd, _, e⟩
        · exact absurd h (List.not_mem_nil _)
        · exact halias kd hkd e.symm
      have hBT : B = s.m_pBuffer := by
        have := hB2.frame ctl hctlP (by rw [hsB]; rfl)
        rw [hB, hsB] at this
        exact Option.some.inj this
      subst hBT
      have hB3 := hB2.backup ctl s.m_pBuffer newbuf hctlP hsB hclean
      obtain ⟨s2, hparse2, _, _, hbase2, hre, _⟩ :=
        roundtrip_core ctl defines interactive fs _ key _ hrun hconf halias
      have hn2 : s2.m_mapFiles.map Prod.fst = s.m_mapFiles.map Prod.fst := by
        rw [← hnd]
        exact forall₂_names (fun _ _ h => h.1) hre
      have hb2 : s2.m_strBasePath = s.m_strBasePath := hbase2
      apply rollback_restores ctl defines interactive fs _ key2 s2 (ctl :: P2) hB3 hparse2 ?_
        hclean ?_ hconf2
      · intro kv hkv
        obtain ⟨ka, hka, e⟩ := mem_of_names_eq hn2 kv hkv
        rw [hb2, ← e]
        exact (hc3 ka hka).1
      · intro q hq
        rcases List.mem_cons.mp hq with h | h
        · exact Or.inl h
        · right
          rcases (hmem q).mp h with h0 | ⟨kd, hkd, _, e⟩
          · exact absurd h0 (List.not_mem_nil _)
          · have hn3 : (s.m_mapFiles.map Prod.fst) = s2.m_mapFiles.map Prod.fst := hn2.symm
            have hd3 : files_d.map Prod.fst = s2.m_mapFiles.map Prod.fst := by rw [hnd, hn3]
            obtain ⟨k2, hk2, e2⟩ := mem_of_names_eq hd3 kd hkd
            exact ⟨k2, hk2, by rw [hb2, e2]; exact e⟩
  obtain ⟨hbase, hnames, s3, fs3, hroll, hall⟩ := key1
  refine ⟨s3, fs3, hroll, hall, by rw [hall]; exact hclean, ?_⟩
  intro kv hkv
  obtain ⟨ka, hka, e⟩ := mem_of_names_eq hnames kv hkv
  have hpath : s1.fname kv.1 = s.m_strBasePath ++ [92] ++ ka.1 := by
    unfold CAutoVersion.fname
    rw [hbase, e]
  rw [hall, hall, hpath]
  exact ⟨(hc3 ka hka).2, (hc3 ka hka).1⟩

/-- A run that finds nothing to replace returns normally with the files untouched. -/
theorem Replace_idle (ctl : List Nat) (defines : List (List Nat)) (interactive : Bool)
    (fs : FS) (key : Nat) (s : CAutoVersion)
    (hparse : (CAutoVersion.init ctl defines interactive).ParseControlFile fs = .ok () s)
    (hcheck : (CheckAll s.m_strBasePath fs s.m_mapFiles false).2 = (false, none)) :
    ∃ s1, (CAutoVersion.init ctl defines interactive).Replace fs key = .ok () (s1, fs) := by
  cases hc : CheckAll s.m_strBasePath fs s.m_mapFiles false with
  | mk files_c tl =>
    obtain ⟨has, ec⟩ := tl
    rw [hc] at hcheck
    simp only [Prod.mk.injEq] at hcheck
    obtain ⟨rfl, rfl⟩ := hcheck
    refine ⟨{ s with m_mapFiles := files_c }, ?_⟩
    unfold CAutoVersion.Replace
    rw [hparse]
    simp only [hc]
    rw [if_neg (fun h => by cases h.1)]

/-- A confirmed `CAutoVersion::Rollback` whose parse of the control file fails throws
that error and touches no file. -/
theorem Rollback_parse_error (s : CAutoVersion) (fs : FS) (key : Nat) (e : Err)
    (hconf : ¬ (s.m_bInteractive = true ∧ key = 110))
    (h : (s.ParseControlFile fs).err = some e) :
    ∃ s3, s.Rollback fs key = .throw e (s3, fs) := by
  unfold CAutoVersion.Rollback
  rw [if_neg hconf]
  cases hp : s.ParseControlFile fs with
  | ok u t => rw [hp] at h; cases h
  | throw e2 t =>
    rw [hp] at h
    simp only [Res.err, Option.some.injEq] at h
    subst h
    exact ⟨t, rfl⟩

/-- C16 on the scenario: the run rewrites `app.h` to hold `"2.0"` and backs it up, and
the rollback leaves every path as it was before the run, where `app.h` holds `"1.9"`
and `app.h.avbak` does not exist. -/
theorem C16_replace_then_rollback_witness :
    (((CAutoVersion.init (bytes "ctl") [] false).Replace fsScenario 0).state.2
        (bytes "\\app.h") = some (bytes "#define VER \"2.0\"") ∧
     ((CAutoVersion.init (bytes "ctl") [] false).Replace fsScenario 0).state.2
        (bytes "\\app.h.avbak") = some (bytes "#define VER \"1.9\"") ∧
     fsScenario (bytes "\\app.h") = some (bytes "#define VER \"1.9\"") ∧
     fsScenario (bytes "\\app.h.avbak") = none) ∧
    ∃ s3 fs3, (CAutoVersion.init (bytes "ctl") [] false).Rollback
        ((CAutoVersion.init (bytes "ctl") [] false).Replace fsScenario 0).state.2 0
          = .ok () (s3, fs3) ∧
      (∀ q, fs3 q = fsScenario q) ∧ fs3 (bytes "ctl" ++ avbak) = none ∧
      ∀ kv ∈ ((CAutoVersion.init (bytes "ctl") [] false).Replace fsScenario 0).state.1.m_mapFiles,
        (fs3 (((CAutoVersion.init (bytes "ctl") [] false).Replace fsScenario
          0).state.1.fname kv.1)).isSome = true ∧
        fs3 (((CAutoVersion.init (bytes "ctl") [] false).Replace fsScenario
          0).state.1.fname kv.1 ++ avbak) = none :=
  ⟨by decide,
   C16_replace_then_rollback (bytes "ctl") [] false fsScenario
     ((CAutoVersion.init (bytes "ctl") [] false).Replace fsScenario 0).state.2 0 0
     ((CAutoVersion.init (bytes "ctl") [] false).Replace fsScenario 0).state.1
     (res_ok_of_err_none _ (by decide)) (by decide) (by decide) (by decide)⟩

/-- C16 as stated fails in two ways.  With a backup of the control file left over and
nothing to replace (`fsStaleIdle`), `Replace` returns normally without writing a file,
and the confirmed `Rollback` then puts the old backup in place of the control file.
With the control file as its own target (`fsAlias`), `Replace` returns normally and
`Rollback` throws a parse error on the rewritten control file, which stays as the run
left it. -/
theorem C16_counterexample_stale_backup_or_alias :
    ((∃ s1, (CAutoVersion.init (bytes "ctl") [] false).Replace fsStaleIdle 0
        = .ok () (s1, fsStaleIdle)) ∧
     fsStaleIdle (bytes "ctl") = some ctlIdle ∧
     ((CAutoVersion.init (bytes "ctl") [] false).Rollback fsStaleIdle 0).err = none ∧
     ((CAutoVersion.init (bytes "ctl") [] false).Rollback fsStaleIdle 0).state.2 (bytes "ctl")
        = some (bytes "@V \"1.9\"\n")) ∧
    (((CAutoVersion.init (bytes "\\c") [] false).Replace fsAlias 0).err = none ∧
     fsAlias (bytes "\\c") = some ctlAlias ∧
     ((CAutoVersion.init (bytes "\\c") [] false).Replace fsAlias 0).state.2 (bytes "\\c")
        = some (bytes "@abbbb \"b\"\n&\"c\" \"b\" @bbbb\n") ∧
     ∃ s3, (CAutoVersion.init (bytes "\\c") [] false).Rollback
        ((CAutoVersion.init (bytes "\\c") [] false).Replace fsAlias 0).state.2 0
        = .throw (.parse (.constantNotFound [98, 98, 98, 98]) 2)
            (s3, ((CAutoVersion.init (bytes "\\c") [] false).Replace fsAlias 0).state.2)) :=
  ⟨⟨Replace_idle (bytes "ctl") [] false fsStaleIdle 0 _ (res_ok_of_err_none _ (by decide))
      (by decide), by decide, by decide, by decide⟩,
   by decide, by decide, by decide,
   Rollback_parse_error _ _ 0 _ (by decide) (by decide)⟩

/-! ## The second run after a run that replaced something -/

/-- C15 (amended). A second run after a run that replaced something: when `Replace`
returns normally with at least one file record flagged `m_bDidReplace`, and no target is
the control file or the backup of the control file, a second `Replace` on the files the
first run left throws in the verify phase the error that the backup of a target
rewritten by the first run already exists, with the file system unchanged; after the
rescue rollback of `main` the file system is still the one the first run left, so no
target, no backup and not the control file is modified. -/
theorem C15_second_run_fails (ctl : List Nat) (defines : List (List Nat))
    (interactive : Bool) (fs fs1 : FS) (key key2 : Nat) (s1 : CAutoVersion)
    (hrun : (CAutoVersion.init ctl defines interactive).Replace fs key = .ok () (s1, fs1))
    (hdid : ∃ kv ∈ s1.m_mapFiles, kv.2.m_bDidReplace = true)
    (halias : ∀ kv ∈ s1.m_mapFiles, s1.fname kv.1 ≠ ctl ∧ s1.fname kv.1 ≠ ctl ++ avbak) :
    ∃ kv ∈ s1.m_mapFiles, kv.2.m_bDidReplace = true ∧
      fs1 (s1.fname kv.1 ++ avbak) ≠ none ∧
      (∃ s2, (CAutoVersion.init ctl defines interactive).Replace fs1 key2
        = .throw (.backupExists (s1.fname kv.1 ++ avbak)) (s2, fs1)) ∧
      mainReplace ctl defines interactive key2 fs1
        = (some (.backupExists (s1.fname kv.1 ++ avbak)), fs1) := by
  obtain ⟨s, files_c, has, hparse, hchk, hcases⟩ :=
    Replace_ok_cases ctl defines interactive fs fs1 key s1 hrun
  obtain ⟨hsP, _, _, _, hsB⟩ := ParseControlFile_inv _ _ _ hparse (init_Parsed _ _ _)
  have hctl : (CAutoVersion.init ctl defines interactive).m_strControlFile = ctl := rfl
  rw [hctl] at hsB
  have hfresh : ∀ kv ∈ s.m_mapFiles, kv.2.Fresh := fun kv hkv => (hsP.2.2.1 kv hkv).2
  obtain ⟨hc1, _, hc3⟩ := CheckAll_ok _ _ _ _ _ _ hchk hfresh
  rcases hcases with ⟨rfl, rfl⟩ | ⟨hconf, files_d, fs_d, B, newbuf, hdo, hB, hrw, rfl, rfl⟩
  · exfalso
    obtain ⟨kv, hkv, hd⟩ := hdid
    have := CheckAll_did s.m_strBasePath fs1 s.m_mapFiles false
      (fun kv hkv => (hfresh kv hkv).2.1) kv (by rw [hchk]; exact hkv)
    rw [this] at hd
    cases hd
  · obtain ⟨P2, hB2, hmem, hrel⟩ := run_backed s.m_strBasePath fs s.m_mapFiles files_c
      files_d false has fs fs_d [] hchk hdo hfresh hsP.2.2.2 (Backed.nil fs)
      (fun _ _ h => absurd h (List.not_mem_nil _))
    obtain ⟨s2, hparse2, hP2, _, hbase2, hre, _⟩ :=
      roundtrip_core ctl defines interactive fs _ key _ hrun hconf (fun kv hkv => (halias kv hkv).1)
    have hb2 : s2.m_strBasePath = s.m_strBasePath := hbase2
    have hre2 : filesReparsed files_d s2.m_mapFiles := hre
    -- the update of the control file leaves the targets and their backups alone
    have htarget : ∀ kd ∈ files_d,
        (fs (s.m_strBasePath ++ [92] ++ kd.1)).isSome = true ∧
        fs (s.m_strBasePath ++ [92] ++ kd.1 ++ avbak) = none ∧
        ((fs_d.write (ctl ++ avbak) B).write ctl newbuf) (s.m_strBasePath ++ [92] ++ kd.1)
          = fs_d (s.m_strBasePath ++ [92] ++ kd.1) ∧
        ((fs_d.write (ctl ++ avbak) B).write ctl newbuf)
            (s.m_strBasePath ++ [92] ++ kd.1 ++ avbak)
          = fs_d (s.m_strBasePath ++ [92] ++ kd.1 ++ avbak) := by
      intro kd hkd
      obtain ⟨ka, hka, hr⟩ := forall₂_mem_right hrel kd hkd
      have h3 := hc3 ka hka
      rw [← hr.1] at h3
      have ha := halias kd hkd
      have hn1 : s.m_strBasePath ++ [92] ++ kd.1 ≠ ctl := ha.1
      have hn2 : s.m_strBasePath ++ [92] ++ kd.1 ≠ ctl ++ avbak := ha.2
      have hn3 : s.m_strBasePath ++ [92] ++ kd.1 ++ avbak ≠ ctl := by
        intro e
        rw [e, hsB] at h3
        cases h3.1
      have hn4 : s.m_strBasePath ++ [92] ++ kd.1 ++ avbak ≠ ctl ++ avbak :=
        fun e => hn1 (List.append_cancel_right e)
      refine ⟨h3.2, h3.1, ?_, ?_⟩
      · simp only [FS.write, if_neg hn1, if_neg hn2]
      · simp only [FS.write, if_neg hn3, if_neg hn4]
    -- a record of the second parse whose target has a backup
    have hsome : ∃ kv ∈ s2.m_mapFiles,
        ((fs_d.write (ctl ++ avbak) B).write ctl newbuf)
          (s2.m_strBasePath ++ [92] ++ kv.1 ++ avbak) ≠ none := by
      obtain ⟨kd, hkd, hd⟩ := hdid
      obtain ⟨kv2, hkv2, hr2⟩ := forall₂_mem_left hre2 kd hkd
      refine ⟨kv2, hkv2, ?_⟩
      rw [hb2, hr2.1, (htarget kd hkd).2.2.2]
      have hin : s.m_strBasePath ++ [92] ++ kd.1 ∈ P2 := (hmem _).mpr (Or.inr ⟨kd, hkd, hd, rfl⟩)
      obtain ⟨g1, _, g3, _⟩ := hB2.1 _ hin
      rw [g3]
      intro e
      rw [e] at g1
      cases g1
    obtain ⟨e, he, hkind⟩ := CheckAll_guard s2.m_strBasePath _ s2.m_mapFiles false hsome
    obtain ⟨kv2, hkv2, hek, hbk⟩ := hkind (by
      intro kv2 hkv2 hnone
      obtain ⟨kd, hkd, hr2⟩ := forall₂_mem_right hre2 kv2 hkv2
      obtain ⟨t1, t2, t3, t4⟩ := htarget kd hkd
      rw [hb2, hr2.1] at hnone ⊢
      rw [t4] at hnone
      rw [t3]
      have hnin : s.m_strBasePath ++ [92] ++ kd.1 ∉ P2 := by
        intro hin
        obtain ⟨g1, _, g3, _⟩ := hB2.1 _ hin
        rw [g3] at hnone
        rw [hnone] at g1
        cases g1
      have hdf : kd.2.m_bDidReplace = false := by
        cases hd : kd.2.m_bDidReplace with
        | false => rfl
        | true => exact absurd ((hmem _).mpr (Or.inr ⟨kd, hkd, hd, rfl⟩)) hnin
      obtain ⟨ka, hka, hr⟩ := forall₂_mem_right hrel kd hkd
      obtain ⟨T, hT, hall⟩ := hr.2 hdf
      rw [← hr.1] at hT
      refine ⟨T, by rw [hB2.frame _ hnin t1]; exact hT, ?_⟩
      intro r hr3
      obtain ⟨d, hd, hdr⟩ := forall₂_mem_right hr2.2.2.2 r hr3
      have hw : r.m_strWhat = d.m_strWhat := by rw [hdr.2.2.1, (hall d hd).1]
      refine ⟨((hP2.2.2.1 kv2 hkv2).2.2.2 r hr3).1.noNul, ?_⟩
      rw [hw]
      exact (hall d hd).2)
    obtain ⟨kd, hkd, hr2⟩ := forall₂_mem_right hre2 kv2 hkv2
    obtain ⟨t1, t2, t3, t4⟩ := htarget kd hkd
    rw [hb2, hr2.1] at hek hbk
    have hin : s.m_strBasePath ++ [92] ++ kd.1 ∈ P2 := by
      by_contra hnin
      rw [t4, hB2.frame_bak _ hnin t2] at hbk
      exact hbk rfl
    rcases (hmem _).mp hin with h0 | ⟨kd2, hkd2, hd2, e2⟩
    · exact absurd h0 (List.not_mem_nil _)
    · obtain ⟨m1, m2⟩ := main_check_failure ctl defines interactive key2 _ s2 e hparse2 he
      have hname : s.m_strBasePath ++ [92] ++ kd2.1 = s.m_strBasePath ++ [92] ++ kd.1 := e2.symm
      refine ⟨kd2, hkd2, hd2, ?_, ?_, ?_⟩
      · show (FS.write (FS.write fs_d (ctl ++ avbak) B) ctl newbuf)
          (s.m_strBasePath ++ [92] ++ kd2.1 ++ avbak) ≠ none
        rw [hname]; exact hbk
      · show ∃ s2, (CAutoVersion.init ctl defines interactive).Replace _ key2
          = .throw (.backupExists (s.m_strBasePath ++ [92] ++ kd2.1 ++ avbak)) (s2, _)
        rw [hname, ← hek]; exact m1
      · show mainReplace ctl defines interactive key2 _
          = (some (.backupExists (s.m_strBasePath ++ [92] ++ kd2.1 ++ avbak)), _)
        rw [hname, ← hek]; exact m2

/-- C15 on the scenario: the first run succeeds and rewrites `app.h`; the second run
fails with the error that `\app.h.avbak` already exists and changes nothing. -/
theorem C15_second_run_fails_witness :
    (((CAutoVersion.init (bytes "ctl") [] false).Replace fsScenario 0).err = none ∧
     (mainReplace (bytes "ctl") [] false 0
        ((CAutoVersion.init (bytes "ctl") [] false).Replace fsScenario 0).state.2).1
        = some (.backupExists (bytes "\\app.h.avbak"))) ∧
    ∃ kv ∈ ((CAutoVersion.init (bytes "ctl") [] false).Replace fsScenario 0).state.1.m_mapFiles,
      kv.2.m_bDidReplace = true ∧
      ((CAutoVersion.init (bytes "ctl") [] false).Replace fsScenario 0).state.2
        (((CAutoVersion.init (bytes "ctl") [] false).Replace fsScenario 0).state.1.fname kv.1
          ++ avbak) ≠ none ∧
      (∃ s2, (CAutoVersion.init (bytes "ctl") [] false).Replace
          ((CAutoVersion.init (bytes "ctl") [] false).Replace fsScenario 0).state.2 0
        = .throw (.backupExists
            (((CAutoVersion.init (bytes "ctl") [] false).Replace fsScenario 0).state.1.fname kv.1
              ++ avbak))
          (s2, ((CAutoVersion.init (bytes "ctl") [] false).Replace fsScenario 0).state.2)) ∧
      mainReplace (bytes "ctl") [] false 0
          ((CAutoVersion.init (bytes "ctl") [] false).Replace fsScenario 0).state.2
        = (some (.backupExists
            (((CAutoVersion.init (bytes "ctl") [] false).Replace fsScenario 0).state.1.fname kv.1
              ++ avbak)),
           ((CAutoVersion.init (bytes "ctl") [] false).Replace fsScenario 0).state.2) :=
  ⟨by decide,
   C15_second_run_fails (bytes "ctl") [] false fsScenario
     ((CAutoVersion.init (bytes "ctl") [] false).Replace fsScenario 0).state.2 0 0
     ((CAutoVersion.init (bytes "ctl") [] false).Replace fsScenario 0).state.1
     (res_ok_of_err_none _ (by decide)) (by decide) (by decide)⟩

/-! ## The order of the walk over the file records -/

theorem perm_pair {α : Type} (a b : α) (l : List α) (h : l.Perm [a, b]) :
    l = [a, b] ∨ l = [b, a] := by
  have hl := h.length_eq
  match l, h, hl with
  | [x, y], h, _ =>
    have hx : x ∈ [a, b] := h.subset (List.mem_cons_self _ _)
    simp only [List.mem_cons, List.mem_singleton, List.not_mem_nil, or_false] at hx
    rcases hx with rfl | rfl
    · left
      have h1 := (List.perm_cons x).mp h
      rw [List.perm_singleton.mp h1]
    · right
      have h2 : [x, y].Perm [x, a] := h.trans (List.Perm.swap _ _ _)
      have h1 := (List.perm_cons x).mp h2
      rw [List.perm_singleton.mp h1]

theorem perm_single {α : Type} (a : α) (l : List α) (h : l.Perm [a]) : l = [a] :=
  List.perm_singleton.mp h

theorem mapFind_of_mem {β : Type} (m : List (List Nat × β)) (hnd : (m.map Prod.fst).Nodup)
    (kv : List Nat × β) (hkv : kv ∈ m) : mapFind m kv.1 = some kv.2 := by
  cases hf : mapFind m kv.1 with
  | none => exact absurd (List.mem_map_of_mem Prod.fst hkv) (mapFind_none m kv.1 hf)
  | some v =>
    have hm := mapFind_mem m kv.1 v hf
    have := nodup_fst_eq m hnd (kv.1, v) hm kv hkv rfl
    rw [← this]

/-- With the keys left in insertion order, `arrange` gives the records back as the
parser stored them. -/
theorem arrange_insertion (files : List (List Nat × CFileNode))
    (hnd : (files.map Prod.fst).Nodup) : arrange (fun ks => ks) files = files := by
  unfold arrange
  have key : ∀ l : List (List Nat × CFileNode), (∀ kv ∈ l, kv ∈ files) →
      (l.map Prod.fst).filterMap (fun k => (mapFind files k).map (fun n => (k, n))) = l := by
    intro l
    induction l with
    | nil => intro _; rfl
    | cons x l ih =>
      intro h
      rw [List.map_cons, List.filterMap_cons,
        mapFind_of_mem files hnd x (h x (List.mem_cons_self _ _))]
      simp only [Option.map_some']
      rw [ih (fun kv hkv => h kv (List.mem_cons_of_mem _ hkv))]
  exact key files (fun _ h => h)

/-- The run that walks the records in insertion order is `CAutoVersion.Replace`. -/
theorem ReplaceBy_insertion (ctl : List Nat) (defines : List (List Nat)) (interactive : Bool)
    (fs : FS) (key : Nat) :
    (CAutoVersion.init ctl defines interactive).ReplaceBy (fun ks => ks) fs key
      = (CAutoVersion.init ctl defines interactive).Replace fs key := by
  unfold CAutoVersion.ReplaceBy CAutoVersion.Replace
  cases hp : (CAutoVersion.init ctl defines interactive).ParseControlFile fs with
  | throw e s => rfl
  | ok u s =>
    obtain ⟨hsP, _⟩ := ParseControlFile_inv _ _ _ hp (init_Parsed _ _ _)
    simp only [arrange_insertion s.m_mapFiles hsP.2.2.2]

/-- The run depends on the order only through what it makes of the keys the parser
inserted. -/
theorem ReplaceBy_const (ord : List (List Nat) → List (List Nat)) (L K : List (List Nat))
    (s : CAutoVersion) (fs : FS) (key : Nat)
    (hk : (s.ParseControlFile fs).err = none →
      (s.ParseControlFile fs).state.m_mapFiles.map Prod.fst = L)
    (h1 : ord L = K) : s.ReplaceBy ord fs key = s.ReplaceBy (fun _ => K) fs key := by
  unfold CAutoVersion.ReplaceBy
  cases hp : s.ParseControlFile fs with
  | throw e t => rfl
  | ok u t =>
    rw [hp] at hk
    have hkeys := hk rfl
    simp only [Res.state] at hkeys
    simp only [arrange, hkeys, h1]

/-- C15 as stated fails in two ways, whatever the order in which the container hands
out the file records.  With the control file as its own target (`fsAlias`), the first
run succeeds and replaces, and the second run fails with a parse error on the rewritten
control file, not with the error about an existing backup.  With a target that is the
backup of the control file, the record of that target carrying no change and being
visited before the record that changes: the first run succeeds and replaces in the other
target, its backup of the control file overwrites the target named like that backup, and
the second run fails with the error that the `what` of that record is not found.  The
control files `ctlBakTarget` (stored as `\k`) and `ctlBakTargetB` (stored as `\g`) insert
the same keys `k.avbak`, `g.avbak` in the same order and differ in which of the two is
the backup of the control file, so for every order `ord` of iteration one of them is
such an input. -/
theorem C15_counterexample_alias_or_backup_target :
    (((CAutoVersion.init (bytes "\\c") [] false).Replace fsAlias 0).err = none ∧
     ((CAutoVersion.init (bytes "\\c") [] false).Replace fsAlias 0).state.1.m_mapFiles.map
        (fun kv => (kv.1, kv.2.m_bDidReplace)) = [(bytes "c", true)] ∧
     ((CAutoVersion.init (bytes "\\c") [] false).Replace
        ((CAutoVersion.init (bytes "\\c") [] false).Replace fsAlias 0).state.2 0).err
        = some (.parse (.constantNotFound [98, 98, 98, 98]) 2)) ∧
    (∀ ord : List (List Nat) → List (List Nat), (∀ ks, (ord ks).Perm ks) →
      (((CAutoVersion.init (bytes "\\c") [] false).ReplaceBy ord fsAlias 0).err = none ∧
       ((CAutoVersion.init (bytes "\\c") [] false).ReplaceBy ord fsAlias 0).state.1.m_mapFiles.map
          (fun kv => (kv.1, kv.2.m_bDidReplace)) = [(bytes "c", true)] ∧
       ((CAutoVersion.init (bytes "\\c") [] false).ReplaceBy ord
          ((CAutoVersion.init (bytes "\\c") [] false).ReplaceBy ord fsAlias 0).state.2 0).err
          = some (.parse (.constantNotFound [98, 98, 98, 98]) 2)) ∧
      ((((CAutoVersion.init (bytes "\\k") [] false).ReplaceBy ord fsBakTarget 0).err = none ∧
        (bytes "g.avbak", true) ∈
          ((CAutoVersion.init (bytes "\\k") [] false).ReplaceBy ord fsBakTarget
            0).state.1.m_mapFiles.map (fun kv => (kv.1, kv.2.m_bDidReplace)) ∧
        ((CAutoVersion.init (bytes "\\k") [] false).ReplaceBy ord fsBakTarget 0).state.2
          (bytes "\\k.avbak") = some ctlBakTarget ∧
        ((CAutoVersion.init (bytes "\\k") [] false).ReplaceBy ord
          ((CAutoVersion.init (bytes "\\k") [] false).ReplaceBy ord fsBakTarget 0).state.2 0).err
          = some (.notFound (bytes "\\k.avbak") (bytes "a\"b"))) ∨
       (((CAutoVersion.init (bytes "\\g") [] false).ReplaceBy ord fsBakTargetB 0).err = none ∧
        (bytes "k.avbak", true) ∈
          ((CAutoVersion.init (bytes "\\g") [] false).ReplaceBy ord fsBakTargetB
            0).state.1.m_mapFiles.map (fun kv => (kv.1, kv.2.m_bDidReplace)) ∧
        ((CAutoVersion.init (bytes "\\g") [] false).ReplaceBy ord fsBakTargetB 0).state.2
          (bytes "\\g.avbak") = some ctlBakTargetB ∧
        ((CAutoVersion.init (bytes "\\g") [] false).ReplaceBy ord
          ((CAutoVersion.init (bytes "\\g") [] false).ReplaceBy ord fsBakTargetB 0).state.2 0).err
          = some (.notFound (bytes "\\g.avbak") (bytes "a\"b"))))) := by
  refine ⟨by decide, ?_⟩
  intro ord hperm
  refine ⟨?_, ?_⟩
  · have h1 : ord [bytes "c"] = [bytes "c"] := perm_single _ _ (hperm _)
    rw [ReplaceBy_const ord [bytes "c"] [bytes "c"] _ fsAlias 0 (by decide) h1]
    rw [ReplaceBy_const ord [bytes "c"] [bytes "c"] _ _ 0 (by decide) h1]
    decide
  · rcases perm_pair _ _ _ (hperm [bytes "k.avbak", bytes "g.avbak"]) with h1 | h1
    · left
      rw [ReplaceBy_const ord [bytes "k.avbak", bytes "g.avbak"]
        [bytes "k.avbak", bytes "g.avbak"] _ fsBakTarget 0 (by decide) h1]
      rw [ReplaceBy_const ord [bytes "k.avbak", bytes "g.avbak"]
        [bytes "k.avbak", bytes "g.avbak"] _ _ 0 (by decide) h1]
      decide
    · right
      rw [ReplaceBy_const ord [bytes "k.avbak", bytes "g.avbak"]
        [bytes "g.avbak", bytes "k.avbak"] _ fsBakTargetB 0 (by decide) h1]
      rw [ReplaceBy_const ord [bytes "k.avbak", bytes "g.avbak"]
        [bytes "g.avbak", bytes "k.avbak"] _ _ 0 (by decide) h1]
      decide

/-! ## The constant table -/

theorem mapFind_append_some {β : Type} (t e : List (List Nat × β)) (k : List Nat) (v : β)
    (h : mapFind t k = some v) : mapFind (t ++ e) k = some v := by
  unfold mapFind at h ⊢
  rw [List.find?_append]
  cases hf : t.find? (fun kv => decide (kv.1 = k)) with
  | none => rw [hf] at h; cases h
  | some kv => rw [hf] at h; simpa using h

theorem mapFind_append_new {β : Type} (t : List (List Nat × β)) (k : List Nat) (v : β)
    (h : mapFind t k = none) : mapFind (t ++ [(k, v)]) k = some v := by
  unfold mapFind at h ⊢
  rw [List.find?_append]
  simp only [Option.map_eq_none'] at h
  rw [h]
  simp

theorem mapFind_append_other {β : Type} (t : List (List Nat × β)) (k n : List Nat) (v : β)
    (h : k ≠ n) : mapFind (t ++ [(n, v)]) k = mapFind t k := by
  unfold mapFind
  rw [List.find?_append]
  cases hf : t.find? (fun kv => decide (kv.1 = k)) with
  | none => simp [List.find?, Ne.symm h]
  | some kv => simp

theorem GetLiteral_blank (n l : Nat) (p : List Nat) :
    GetLiteral n (32 :: p) l = GetLiteral n p l := by
  unfold GetLiteral
  rw [show SkipWhiteSpaces (32 :: p) = SkipWhiteSpaces p by
    rw [SkipWhiteSpaces, if_pos (Or.inl rfl)]]

/-- `ParseConstantDef` on the text of a well-formed definition, after the @ sign. -/
theorem ParseConstantDef_text (s : CAutoVersion) (n : List Nat) (rhs : ConstRhs)
    (rest : List Nat) (hl : ConstLineOk (n, rhs)) :
    s.ParseConstantDef (n ++ 32 :: rhs.text ++ 10 :: rest) =
      match rhs.resolve s.m_mapConstantDefs with
      | none => .throw (.parse (.symbolUndefined rhs.text) s.m_nCurrentLine) s
      | some v =>
        if (mapFind s.m_mapConstantDefs n).isSome then
          .throw (.parse (.duplicateSymbol n) s.m_nCurrentLine) s
        else .ok (10 :: rest) { s with m_mapConstantDefs := s.m_mapConstantDefs ++ [(n, v)] } := by
  obtain ⟨hn, hr⟩ := hl
  have hid : GetIdentifier (n ++ 32 :: rhs.text ++ 10 :: rest) s.m_nCurrentLine
      = .ok (n, 32 :: rhs.text ++ 10 :: rest) := by
    have := GetIdentifier_read s.m_nCurrentLine n (32 :: rhs.text ++ 10 :: rest) hn
      (Or.inr (Or.inl rfl))
    simpa [List.append_assoc] using this
  unfold CAutoVersion.ParseConstantDef
  rw [hid]
  simp only
  cases rhs with
  | lit v =>
    have hv : LitOk v := hr
    have hlit : GetLiteralOrSymbol s.m_mapConstantDefs s.m_pBuffer.length
        (32 :: (ConstRhs.lit v).text ++ 10 :: rest) s.m_nCurrentLine = .ok (v, 10 :: rest) := by
      unfold GetLiteralOrSymbol
      have hsk : SkipWhiteSpaces (32 :: (ConstRhs.lit v).text ++ 10 :: rest)
          = 34 :: enc v ++ 34 :: 10 :: rest := by
        simp [ConstRhs.text, SkipWhiteSpaces]
      simp only [hsk, List.headD_cons, if_true]
      rw [GetLiteral_enc _ _ v (10 :: rest) hv]
      simp
    rw [hlit]
    simp only [ConstRhs.resolve]
    cases hf : mapFind s.m_mapConstantDefs n with
    | none => simp
    | some w => simp
  | sym m =>
    obtain ⟨hm, hq⟩ : IsIdent m ∧ m.headD 0 ≠ 34 := hr
    have hsk : SkipWhiteSpaces (32 :: (ConstRhs.sym m).text ++ 10 :: rest) = m ++ 10 :: rest := by
      have h1 : SkipWhiteSpaces (32 :: (ConstRhs.sym m).text ++ 10 :: rest)
          = SkipWhiteSpaces (m ++ 10 :: rest) := by
        simp [ConstRhs.text, SkipWhiteSpaces]
      rw [h1]
      apply SkipWhiteSpaces_stop
      obtain ⟨hne, _, hc⟩ := hm
      cases m with
      | nil => exact absurd rfl hne
      | cons a m =>
        have := hc a (List.mem_cons_self _ _)
        simp only [List.cons_append, List.headD_cons]
        omega
    have hhd : (m ++ 10 :: rest).headD 0 = m.headD 0 := by
      cases m with
      | nil => exact absurd rfl hm.1
      | cons a m => rfl
    have hsym : GetLiteralOrSymbol s.m_mapConstantDefs s.m_pBuffer.length
        (32 :: (ConstRhs.sym m).text ++ 10 :: rest) s.m_nCurrentLine =
        match mapFind s.m_mapConstantDefs m with
        | none => .error (.parse (.symbolUndefined m) s.m_nCurrentLine)
        | some v => .ok (v, 10 :: rest) := by
      unfold GetLiteralOrSymbol
      simp only [hsk, hhd, if_neg hq]
      rw [GetIdentifier_read s.m_nCurrentLine m (10 :: rest) hm (by
        unfold AtIdentEnd; simp)]
      all_goals (simp only; cases mapFind s.m_mapConstantDefs m <;> rfl)
    rw [hsym]
    simp only [ConstRhs.resolve, ConstRhs.text]
    cases hf : mapFind s.m_mapConstantDefs m with
    | none => simp
    | some v =>
      simp only
      cases hf2 : mapFind s.m_mapConstantDefs n with
      | none => simp
      | some w => simp

/-- `SkipLine` on the line feed that ends a line. -/
theorem SkipLine_lf (rest : List Nat) (b : Bool) (line : Nat) :
    SkipLine (10 :: rest) b line = .ok (rest, line + 1) := by
  simp [SkipLine, SkipLineLoop, SkipLineEnd]

/-- One loop iteration on a well-formed constant definition line. -/
theorem ParseLine_const (s : CAutoVersion) (l : List Nat × ConstRhs) (rest : List Nat)
    (hl : ConstLineOk l) :
    s.ParseLine (constLineText l ++ rest) =
      match l.2.resolve s.m_mapConstantDefs with
      | none => .throw (.parse (.symbolUndefined l.2.text) s.m_nCurrentLine) s
      | some v =>
        if (mapFind s.m_mapConstantDefs l.1).isSome then
          .throw (.parse (.duplicateSymbol l.1) s.m_nCurrentLine) s
        else .ok rest { s with
          m_mapConstantDefs := s.m_mapConstantDefs ++ [(l.1, v)],
          m_nCurrentLine := s.m_nCurrentLine + 1 } := by
  obtain ⟨n, rhs⟩ := l
  have htext : constLineText (n, rhs) ++ rest = 64 :: (n ++ 32 :: rhs.text ++ 10 :: rest) := by
    simp [constLineText, List.append_assoc]
  unfold CAutoVersion.ParseLine
  rw [htext, SkipWhiteSpaces_nonblank 64 _ (by omega), ParseDispatch_64,
    ParseConstantDef_text s n rhs rest hl]
  simp only
  cases hr : rhs.resolve s.m_mapConstantDefs with
  | none => rfl
  | some v =>
    simp only
    by_cases hd : (mapFind s.m_mapConstantDefs n).isSome = true
    · rw [if_pos hd, if_pos hd]
    · rw [if_neg hd, if_neg hd]
      simp only [SkipLine_lf]

theorem constLines_length (ls : List (List Nat × ConstRhs)) :
    ls.length ≤ (ls.flatMap constLineText).length := by
  induction ls with
  | nil => simp
  | cons l ls ih =>
    simp only [List.flatMap_cons, List.length_cons, List.length_append]
    have : 1 ≤ (constLineText l).length := by simp [constLineText]
    omega

theorem ParseLoop_succ (f : Nat) (s : CAutoVersion) (p : List Nat) :
    CAutoVersion.ParseLoop (f + 1) s p =
      if p.headD 0 ≠ 0 then
        match s.ParseLine p with
        | .throw e s => .throw e s
        | .ok p s => CAutoVersion.ParseLoop f s p
      else .ok () s := rfl

theorem ParseLoop_nil (f : Nat) (s : CAutoVersion) (hf : 0 < f) :
    CAutoVersion.ParseLoop f s [] = .ok () s := by
  cases f with
  | zero => cases hf
  | succ k => rw [ParseLoop_succ, if_neg (by simp)]

/-- The loop of `ParseControlFile` on well-formed constant definition lines followed by
`tail`: it throws the error of the table of the specification, or goes on with `tail`,
the table of the specification and the line counter advanced by the number of lines. -/
theorem ParseLoop_consts : ∀ (ls : List (List Nat × ConstRhs)) (s : CAutoVersion)
    (fuel : Nat) (tail : List Nat), (∀ l ∈ ls, ConstLineOk l) →
    ∃ s2, s2.m_mapConstantDefs = (constTable s.m_mapConstantDefs s.m_nCurrentLine ls).2 ∧
      CAutoVersion.ParseLoop (fuel + ls.length) s (ls.flatMap constLineText ++ tail) =
        match (constTable s.m_mapConstantDefs s.m_nCurrentLine ls).1 with
        | none => CAutoVersion.ParseLoop fuel
            { s with
              m_mapConstantDefs := (constTable s.m_mapConstantDefs s.m_nCurrentLine ls).2,
              m_nCurrentLine := s.m_nCurrentLine + ls.length } tail
        | some e => .throw e s2 := by
  intro ls
  induction ls with
  | nil =>
    intro s fuel tail _
    exact ⟨s, rfl, rfl⟩
  | cons l ls ih =>
    intro s fuel tail hls
    have hl := hls l (List.mem_cons_self _ _)
    have hrest : ∀ x ∈ ls, ConstLineOk x := fun x hx => hls x (List.mem_cons_of_mem _ hx)
    have hhead : ((l :: ls).flatMap constLineText ++ tail).headD 0 ≠ 0 := by
      simp [constLineText]
    have htext : (l :: ls).flatMap constLineText ++ tail
        = constLineText l ++ (ls.flatMap constLineText ++ tail) := by
      simp [List.append_assoc]
    have hfuel : fuel + (l :: ls).length = (fuel + ls.length) + 1 := by
      simp only [List.length_cons]; omega
    rw [hfuel, ParseLoop_succ, if_pos hhead, htext, ParseLine_const s l _ hl]
    obtain ⟨n, rhs⟩ := l
    unfold constTable
    simp only
    cases hr : rhs.resolve s.m_mapConstantDefs with
    | none => exact ⟨s, rfl, rfl⟩
    | some v =>
      simp only
      by_cases hd : (mapFind s.m_mapConstantDefs n).isSome = true
      · rw [if_pos hd, if_pos hd]
        exact ⟨s, rfl, rfl⟩
      · rw [if_neg hd, if_neg hd]
        simp only
        obtain ⟨s2, h1, h2⟩ := ih
          { s with
            m_mapConstantDefs := s.m_mapConstantDefs ++ [(n, v)],
            m_nCurrentLine := s.m_nCurrentLine + 1 } fuel tail hrest
        refine ⟨s2, h1, ?_⟩
        rw [h2]
        simp only [List.length_cons]
        have hline : s.m_nCurrentLine + 1 + ls.length = s.m_nCurrentLine + (ls.length + 1) := by
          omega
        rw [hline]

/-- The table of the specification keeps what it holds and, when no line is in error,
maps the name of every line to the value of its right-hand side. -/
theorem constTable_maps : ∀ (ls : List (List Nat × ConstRhs)) (t : List (List Nat × List Nat))
    (line : Nat), (constTable t line ls).1 = none →
    (∀ k v, mapFind t k = some v → mapFind (constTable t line ls).2 k = some v) ∧
    ∀ l ∈ ls, ∃ v, l.2.resolve (constTable t line ls).2 = some v ∧
      mapFind (constTable t line ls).2 l.1 = some v := by
  intro ls
  induction ls with
  | nil =>
    intro t line _
    exact ⟨fun _ _ h => h, fun l hl => absurd hl (List.not_mem_nil l)⟩
  | cons l ls ih =>
    intro t line hok
    obtain ⟨n, rhs⟩ := l
    unfold constTable at hok ⊢
    cases hr : rhs.resolve t with
    | none => simp only [hr] at hok; cases hok
    | some v =>
      simp only [hr] at hok ⊢
      by_cases hd : (mapFind t n).isSome = true
      · rw [if_pos hd] at hok; cases hok
      · rw [if_neg hd] at hok ⊢
        have hnone : mapFind t n = none := by
          cases hf : mapFind t n with
          | none => rfl
          | some w => rw [hf] at hd; exact absurd rfl hd
        obtain ⟨i1, i2⟩ := ih (t ++ [(n, v)]) (line + 1) hok
        refine ⟨fun k w hk => i1 k w (mapFind_append_some t _ k w hk), ?_⟩
        intro l hl
        rcases List.mem_cons.mp hl with rfl | hl
        · refine ⟨v, ?_, i1 n v (mapFind_append_new t n v hnone)⟩
          cases rhs with
          | lit v0 =>
            simp only [ConstRhs.resolve, Option.some.injEq] at hr ⊢
            exact hr
          | sym m =>
            simp only [ConstRhs.resolve] at hr ⊢
            exact i1 m v (mapFind_append_some t _ m v hr)
        · exact i2 l hl

/-- One loop iteration on a directive line whose constant is not in the table. -/
theorem ParseLine_directive_unknown (s : CAutoVersion) (op : EReplaceOp)
    (f w c rest : List Nat) (hf : LitOk f) (hw : LitOk w) (hc : IsIdent c)
    (hnone : mapFind s.m_mapConstantDefs c = none) :
    s.ParseLine (directiveText op f w c ++ rest) =
      .throw (.parse (.constantNotFound c) s.m_nCurrentLine) s := by
  have hread : ∀ o, s.ReadReplacement o
      (34 :: enc f ++ 34 :: 32 :: 34 :: enc w ++ 34 :: 32 :: 64 :: c ++ 10 :: rest) =
      .error (.parse (.constantNotFound c) s.m_nCurrentLine) := by
    intro o
    unfold CAutoVersion.ReadReplacement
    have h1 := GetLiteral_enc s.m_pBuffer.length s.m_nCurrentLine f
      (32 :: 34 :: enc w ++ 34 :: 32 :: 64 :: c ++ 10 :: rest) hf
    have e1 : 34 :: enc f ++ 34 :: 32 :: 34 :: enc w ++ 34 :: 32 :: 64 :: c ++ 10 :: rest
        = 34 :: enc f ++ 34 :: (32 :: 34 :: enc w ++ 34 :: 32 :: 64 :: c ++ 10 :: rest) := by
      simp [List.append_assoc]
    rw [e1, h1]
    simp only
    have h2 := GetLiteral_enc s.m_pBuffer.length s.m_nCurrentLine w
      (32 :: 64 :: c ++ 10 :: rest) hw
    have e2 : 32 :: 34 :: enc w ++ 34 :: 32 :: 64 :: c ++ 10 :: rest
        = 32 :: (34 :: enc w ++ 34 :: (32 :: 64 :: c ++ 10 :: rest)) := by
      simp [List.append_assoc]
    rw [e2, GetLiteral_blank, h2]
    simp only
    have h3 : SkipWhiteSpaces (32 :: 64 :: c ++ 10 :: rest) = 64 :: (c ++ 10 :: rest) := by
      simp [SkipWhiteSpaces]
    rw [h3]
    simp only [ne_eq, not_true_eq_false, if_false]
    rw [GetIdentifier_read s.m_nCurrentLine c (10 :: rest) hc (by unfold AtIdentEnd; simp)]
    simp only
    rw [hnone]
  have htext : directiveText op f w c ++ rest = cmdChar op ::
      (34 :: enc f ++ 34 :: 32 :: 34 :: enc w ++ 34 :: 32 :: 64 :: c ++ 10 :: rest) := by
    simp [directiveText, List.append_assoc]
  unfold CAutoVersion.ParseLine
  rw [htext]
  cases op with
  | enRoText =>
    rw [show cmdChar .enRoText = 38 from rfl, SkipWhiteSpaces_nonblank 38 _ (by omega),
      ParseDispatch_38]
    unfold CAutoVersion.ParseReplacement
    rw [hread]
  | enRoBinary =>
    rw [show cmdChar .enRoBinary = 36 from rfl, SkipWhiteSpaces_nonblank 36 _ (by omega),
      ParseDispatch_36]
    unfold CAutoVersion.ParseReplacement
    rw [hread]

/-- C20. Constant table semantics.  For a control file made of well-formed constant
definition lines (the @ sign and a name, a space, and a quoted literal or a name, then a
line feed), `ParseControlFile` computes the table of the specification `constTable`:
it succeeds with that table, or it throws the parse error of the first line in error
(right-hand side names a constant not defined on an earlier line: symbol undefined;
otherwise name already in the table: duplicate symbol) with the table as the lines before
it left it.  When no line is in error the table maps the name of every line to the value
of its right-hand side: the literal, or the value the table holds for the name it refers
to.  A text or binary directive line after such lines whose constant is not in the table
is the parse error constant not found. -/
theorem C20_constant_table (ctl : List Nat) (defines : List (List Nat)) (interactive : Bool)
    (ls : List (List Nat × ConstRhs)) (hls : ∀ l ∈ ls, ConstLineOk l) :
    (∀ fs : FS, fs ctl = some (ls.flatMap constLineText) →
      ∃ s2, s2.m_mapConstantDefs = (constTable [] 1 ls).2 ∧
        (CAutoVersion.init ctl defines interactive).ParseControlFile fs =
          match (constTable [] 1 ls).1 with
          | none => .ok () s2
          | some e => .throw e s2) ∧
    ((constTable [] 1 ls).1 = none →
      ∀ l ∈ ls, ∃ v, l.2.resolve (constTable [] 1 ls).2 = some v ∧
        mapFind (constTable [] 1 ls).2 l.1 = some v) ∧
    (∀ (fs : FS) (op : EReplaceOp) (f w c : List Nat), LitOk f → LitOk w → IsIdent c →
      (constTable [] 1 ls).1 = none → mapFind (constTable [] 1 ls).2 c = none →
      fs ctl = some (ls.flatMap constLineText ++ directiveText op f w c) →
      ∃ s2, (CAutoVersion.init ctl defines interactive).ParseControlFile fs =
        .throw (.parse (.constantNotFound c) (ls.length + 1)) s2) := by
  refine ⟨?_, fun h => (constTable_maps ls [] 1 h).2, ?_⟩
  · intro fs hfs
    have hfs2 : fs (CAutoVersion.init ctl defines interactive).m_strControlFile
        = some (ls.flatMap constLineText) := hfs
    unfold CAutoVersion.ParseControlFile
    rw [hfs2]
    simp only
    have hlen := constLines_length ls
    obtain ⟨s2, h1, h2⟩ := ParseLoop_consts ls
      { CAutoVersion.init ctl defines interactive with m_pBuffer := ls.flatMap constLineText }
      ((ls.flatMap constLineText).length + 1 - ls.length) [] hls
    have hfuel : (ls.flatMap constLineText).length + 1 - ls.length + ls.length
        = (ls.flatMap constLineText).length + 1 := by omega
    rw [hfuel, List.append_nil] at h2
    have hc : ({ CAutoVersion.init ctl defines interactive with
        m_pBuffer := ls.flatMap constLineText } : CAutoVersion).m_mapConstantDefs = [] := rfl
    have hline : ({ CAutoVersion.init ctl defines interactive with
        m_pBuffer := ls.flatMap constLineText } : CAutoVersion).m_nCurrentLine = 1 := rfl
    rw [hc, hline] at h1 h2
    cases he : (constTable [] 1 ls).1 with
    | none =>
      rw [he] at h2
      simp only at h2 ⊢
      rw [ParseLoop_nil ((ls.flatMap constLineText).length + 1 - ls.length) _ (by omega)] at h2
      refine ⟨_, ?_, h2⟩
      rfl
    | some e =>
      rw [he] at h2
      exact ⟨s2, h1, h2⟩
  · intro fs op f w c hf hw hc hok hnone hfs
    have hfs2 : fs (CAutoVersion.init ctl defines interactive).m_strControlFile
        = some (ls.flatMap constLineText ++ directiveText op f w c) := hfs
    unfold CAutoVersion.ParseControlFile
    rw [hfs2]
    simp only
    have hlen := constLines_length ls
    obtain ⟨s2, h1, h2⟩ := ParseLoop_consts ls
      { CAutoVersion.init ctl defines interactive with
        m_pBuffer := ls.flatMap constLineText ++ directiveText op f w c }
      ((ls.flatMap constLineText ++ directiveText op f w c).length + 1 - ls.length)
      (directiveText op f w c) hls
    have hfuel : (ls.flatMap constLineText ++ directiveText op f w c).length + 1 - ls.length
        + ls.length = (ls.flatMap constLineText ++ directiveText op f w c).length + 1 := by
      simp only [List.length_append]; omega
    rw [hfuel] at h2
    have hc0 : ({ CAutoVersion.init ctl defines interactive with
        m_pBuffer := ls.flatMap constLineText ++ directiveText op f w c } :
          CAutoVersion).m_mapConstantDefs = [] := rfl
    have hline : ({ CAutoVersion.init ctl defines interactive with
        m_pBuffer := ls.flatMap constLineText ++ directiveText op f w c } :
          CAutoVersion).m_nCurrentLine = 1 := rfl
    rw [hc0, hline] at h2
    rw [hok] at h2
    simp only at h2
    rw [h2]
    obtain ⟨k, hk⟩ : ∃ k, (ls.flatMap constLineText ++ directiveText op f w c).length + 1
        - ls.length = k + 1 :=
      ⟨(ls.flatMap constLineText ++ directiveText op f w c).length - ls.length, by
        simp only [List.length_append]; omega⟩
    have hhead : (directiveText op f w c).headD 0 ≠ 0 := by
      cases op <;> simp [directiveText, cmdChar]
    rw [hk, ParseLoop_succ, if_pos hhead]
    have := ParseLine_directive_unknown
      { CAutoVersion.init ctl defines interactive with
        m_pBuffer := ls.flatMap constLineText ++ directiveText op f w c,
        m_mapConstantDefs := (constTable [] 1 ls).2,
        m_nCurrentLine := 1 + ls.length } op f w c [] hf hw hc hnone
    rw [List.append_nil] at this
    rw [this]
    simp only
    rw [Nat.add_comm 1 ls.length]
    exact ⟨_, rfl⟩

/-- C20 on the lines `@V "1.9"` and `@W V`: the table maps `V` and `W` to `1.9`; with
`@W V` alone the parse fails on line 1 with symbol undefined; a second definition of `V`
fails on line 2 with duplicate symbol and the table still holds the first value; a text
or binary directive line that names the unknown constant `U` fails with constant not
found. -/
theorem C20_constant_table_witness :
    (exConstLines.flatMap constLineText = bytes "@V \"1.9\"\n@W V\n" ∧
     constTable [] 1 exConstLines
       = (none, [(bytes "V", bytes "1.9"), (bytes "W", bytes "1.9")]) ∧
     ((CAutoVersion.init (bytes "ctl") [] false).ParseControlFile
        (fsOf [(bytes "ctl", bytes "@V \"1.9\"\n@W V\n")])).state.m_mapConstantDefs
       = [(bytes "V", bytes "1.9"), (bytes "W", bytes "1.9")] ∧
     ((CAutoVersion.init (bytes "ctl") [] false).ParseControlFile
        (fsOf [(bytes "ctl", bytes "@W V\n")])).err
       = some (.parse (.symbolUndefined (bytes "V")) 1) ∧
     ((CAutoVersion.init (bytes "ctl") [] false).ParseControlFile
        (fsOf [(bytes "ctl", bytes "@V \"1\"\n@V \"2\"\n")])).err
       = some (.parse (.duplicateSymbol (bytes "V")) 2) ∧
     ((CAutoVersion.init (bytes "ctl") [] false).ParseControlFile
        (fsOf [(bytes "ctl", bytes "@V \"1\"\n@V \"2\"\n")])).state.m_mapConstantDefs
       = [(bytes "V", bytes "1")] ∧
     ((CAutoVersion.init (bytes "ctl") [] false).ParseControlFile
        (fsOf [(bytes "ctl", bytes "@V \"1\"\n&\"f\" \"x\" @U\n")])).err
       = some (.parse (.constantNotFound (bytes "U")) 2) ∧
     ((CAutoVersion.init (bytes "ctl") [] false).ParseControlFile
        (fsOf [(bytes "ctl", bytes "@V \"1\"\n$\"f\" \"x\" @U\n")])).err
       = some (.parse (.constantNotFound (bytes "U")) 2)) ∧
    ((∀ fs : FS, fs (bytes "ctl") = some (exConstLines.flatMap constLineText) →
      ∃ s2, s2.m_mapConstantDefs = (constTable [] 1 exConstLines).2 ∧
        (CAutoVersion.init (bytes "ctl") [] false).ParseControlFile fs =
          match (constTable [] 1 exConstLines).1 with
          | none => .ok () s2
          | some e => .throw e s2) ∧
    ((constTable [] 1 exConstLines).1 = none →
      ∀ l ∈ exConstLines, ∃ v, l.2.resolve (constTable [] 1 exConstLines).2 = some v ∧
        mapFind (constTable [] 1 exConstLines).2 l.1 = some v) ∧
    (∀ (fs : FS) (op : EReplaceOp) (f w c : List Nat), LitOk f → LitOk w → IsIdent c →
      (constTable [] 1 exConstLines).1 = none →
      mapFind (constTable [] 1 exConstLines).2 c = none →
      fs (bytes "ctl") = some (exConstLines.flatMap constLineText ++ directiveText op f w c) →
      ∃ s2, (CAutoVersion.init (bytes "ctl") [] false).ParseControlFile fs =
        .throw (.parse (.constantNotFound c) (exConstLines.length + 1)) s2)) :=
  ⟨by decide,
   C20_constant_table (bytes "ctl") [] false exConstLines (by
     intro l hl
     simp only [exConstLines, List.mem_cons, List.mem_singleton, List.not_mem_nil,
       or_false] at hl
     rcases hl with rfl | rfl
     · exact ⟨by unfold IsIdent; decide, by unfold ConstRhs.Ok LitOk; decide⟩
     · exact ⟨by unfold IsIdent; decide, by unfold ConstRhs.Ok IsIdent; decide⟩)⟩

/-! ## Lines -/

theorem IsEol.first {e : List Nat} (h : IsEol e) : e.headD 0 = 10 ∨ e.headD 0 = 13 := by
  rcases h with rfl | rfl
  · exact Or.inl rfl
  · exact Or.inr rfl

theorem IsEol.cons {e : List Nat} (h : IsEol e) :
    ∃ x t, e = x :: t ∧ (x = 10 ∨ x = 13) := by
  rcases h with rfl | rfl
  · exact ⟨10, [], rfl, Or.inl rfl⟩
  · exact ⟨13, [10], rfl, Or.inr rfl⟩

theorem IsBody.of_nil : IsBody [] := fun c hc => absurd hc (List.not_mem_nil c)

theorem IsBody.suffix {b c : List Nat} (hb : IsBody b) (h : c <:+ b) : IsBody c :=
  fun x hx => hb x (h.subset hx)

theorem IsBody.tail {a : Nat} {b : List Nat} (hb : IsBody (a :: b)) : IsBody b :=
  fun x hx => hb x (List.mem_cons_of_mem _ hx)

theorem IsBody.drop {b : List Nat} (hb : IsBody b) (k : Nat) : IsBody (b.drop k) :=
  hb.suffix (List.drop_suffix k b)

theorem SkipWhiteSpaces_suffix (b : List Nat) : SkipWhiteSpaces b <:+ b := by
  induction b with
  | nil => exact List.suffix_refl _
  | cons a b ih =>
    rw [SkipWhiteSpaces]
    split
    · exact ih.trans (List.suffix_cons a b)
    · exact List.suffix_refl _

theorem SkipWhiteSpaces_body (b e Z : List Nat) (he : IsEol e) :
    SkipWhiteSpaces (b ++ e ++ Z) = SkipWhiteSpaces b ++ e ++ Z := by
  induction b with
  | nil =>
    obtain ⟨x, t, rfl, hx⟩ := he.cons
    simp only [List.nil_append, SkipWhiteSpaces, List.cons_append]
    rw [if_neg (by omega)]
    rfl
  | cons a b ih =>
    simp only [List.cons_append, SkipWhiteSpaces]
    split
    · simpa [List.append_assoc] using ih
    · rfl

theorem headD_body (b e Z : List Nat) (he : IsEol e) (x : Nat) (hx : x ≠ 10 ∧ x ≠ 13 ∧ x ≠ 0) :
    (b ++ e ++ Z).headD 0 = x ↔ b.headD 0 = x := by
  cases b with
  | nil =>
    obtain ⟨y, t, rfl, hy⟩ := he.cons
    simp only [List.nil_append, List.cons_append, List.headD_cons, List.headD_nil]
    omega
  | cons a b => simp

theorem headD_line_ne_zero (b e Z : List Nat) (hb : IsBody b) (he : IsEol e) :
    (b ++ e ++ Z).headD 0 ≠ 0 := by
  cases b with
  | nil =>
    obtain ⟨y, t, rfl, hy⟩ := he.cons
    simp only [List.nil_append, List.cons_append, List.headD_cons]
    omega
  | cons a b =>
    simp only [List.cons_append, List.headD_cons]
    exact (hb a (List.mem_cons_self _ _)).1

theorem SkipLineLoop_body (line : Nat) (b e Z : List Nat) (hb : IsBody b) (he : IsEol e) :
    ∀ ic, SkipLineLoop false line (b ++ e ++ Z) ic = .ok (e ++ Z) := by
  induction b with
  | nil =>
    intro ic
    obtain ⟨y, t, rfl, hy⟩ := he.cons
    simp only [List.nil_append, List.cons_append]
    rw [SkipLineLoop, if_neg (by omega)]
  | cons a b ih =>
    intro ic
    have ha := hb a (List.mem_cons_self _ _)
    simp only [List.cons_append]
    rw [SkipLineLoop, if_pos ha]
    simp only [Bool.false_eq_true, false_and, if_false]
    have := ih hb.tail (if a = 35 then true else ic)
    simpa [List.append_assoc] using this

theorem SkipLineEnd_eol (e Z : List Nat) (line : Nat) (he : IsEol e) :
    SkipLineEnd (e ++ Z) line = (Z, line + 1) := by
  rcases he with rfl | rfl
  · simp [SkipLineEnd]
  · simp [SkipLineEnd]

theorem SkipLine_body (line : Nat) (b e Z : List Nat) (hb : IsBody b) (he : IsEol e) :
    SkipLine (b ++ e ++ Z) false line = .ok (Z, line + 1) := by
  unfold SkipLine
  rw [SkipLineLoop_body line b e Z hb he false]
  simp only
  rw [SkipLineEnd_eol e Z line he]

theorem linesText_cons (l : List Nat × List Nat) (R : List (List Nat × List Nat)) :
    linesText (l :: R) = l.1 ++ l.2 ++ linesText R := by
  simp [linesText, lineText]

theorem linesText_append (R1 R2 : List (List Nat × List Nat)) :
    linesText (R1 ++ R2) = linesText R1 ++ linesText R2 := by
  simp [linesText]

theorem linesText_length (R : List (List Nat × List Nat)) (h : ∀ l ∈ R, IsLine l) :
    R.length ≤ (linesText R).length := by
  induction R with
  | nil => simp
  | cons l R ih =>
    rw [linesText_cons]
    have h1 : 1 ≤ l.2.length := by
      rcases (h l (List.mem_cons_self _ _)).2 with e | e <;> rw [e] <;> simp
    have h2 := ih (fun x hx => h x (List.mem_cons_of_mem _ hx))
    simp only [List.length_cons, List.length_append]
    omega

/-! ## Scan -/

theorem strncmp_pct (p : List Nat) :
    strncmp (p ++ [0]) [37] 1 = some true ↔ p.headD 0 = 37 := by
  cases p with
  | nil => simp [strncmp]
  | cons x p =>
    simp only [List.cons_append, strncmp, List.headD_cons, ne_eq, List.tail_cons]
    by_cases hx : x = 37
    · subst hx; simp
    · simp [hx]

theorem prefix_append_stop : ∀ (tok b : List Nat) (x : Nat) (Y : List Nat), x ∉ tok →
    (tok <+: b ++ x :: Y ↔ tok <+: b) := by
  intro tok
  induction tok with
  | nil => intro b x Y _; simp
  | cons a tok ih =>
    intro b x Y hx
    have hax : a ≠ x := fun e => hx (e ▸ List.mem_cons_self _ _)
    have hx2 : x ∉ tok := fun h => hx (List.mem_cons_of_mem _ h)
    cases b with
    | nil =>
      simp only [List.nil_append, List.cons_prefix_cons]
      constructor
      · rintro ⟨h, _⟩; exact absurd h hax
      · intro h; simp at h
    | cons c b =>
      simp only [List.cons_append, List.cons_prefix_cons]
      rw [ih b x Y hx2]

theorem strncmp_body (tok b e Z : List Nat) (hnul : NoNul tok) (h10 : 10 ∉ tok)
    (h13 : 13 ∉ tok) (he : IsEol e) :
    strncmp ((b ++ e ++ Z) ++ [0]) tok tok.length = some true ↔ tok <+: b := by
  rw [strncmp_noNul tok hnul]
  obtain ⟨x, t, rfl, hx⟩ := he.cons
  have e1 : b ++ x :: t ++ Z ++ [0] = b ++ x :: (t ++ Z ++ [0]) := by simp
  rw [e1]
  apply prefix_append_stop
  rcases hx with rfl | rfl
  · exact h10
  · exact h13

theorem ScanLoop_enough (tok : List Nat) :
    ∀ (f f2 : Nat) (p : List Nat) (line : Nat), p.length < f → p.length < f2 →
      ScanLoop tok f p line = ScanLoop tok f2 p line := by
  intro f
  induction f with
  | zero => intro f2 p line h; omega
  | succ f ih =>
    intro f2 p line h1 h2
    cases f2 with
    | zero => omega
    | succ f2 =>
      unfold ScanLoop
      by_cases hp : p.headD 0 ≠ 0
      · rw [if_pos hp, if_pos hp]
        cases hs : SkipLine p false line with
        | error e => rfl
        | ok x =>
          obtain ⟨q, line2⟩ := x
          simp only
          obtain ⟨c, hc, hne, _⟩ := SkipLine_local _ _ _ _ _ hs
          obtain ⟨cw, hcw, _, _⟩ := SkipWhiteSpaces_local q
          have hlen : (SkipWhiteSpaces q).length < p.length := by
            have h3 : c ≠ [] := hne hp
            have h4 : 0 < c.length := List.length_pos.mpr h3
            have h5 : p.length = c.length + q.length := by rw [hc]; simp
            have h6 : q.length = cw.length + (SkipWhiteSpaces q).length := by
              conv_lhs => rw [hcw]
              simp
            omega
          split
          · rfl
          · exact ih f2 _ _ (by omega) (by omega)
      · rw [if_neg hp, if_neg hp]

/-- `Scan` from inside a line whose next line is plain goes on from that line. -/
theorem Scan_plain (cur e : List Nat) (l : List Nat × List Nat) (Z : List Nat) (line : Nat)
    (hcur : IsBody cur) (he : IsEol e) (hl : IsLine l) (hp : IsPlain l) :
    Scan (cur ++ e ++ (l.1 ++ l.2 ++ Z)) [37] line =
      Scan (SkipWhiteSpaces l.1 ++ l.2 ++ Z) [37] (line + 1) := by
  unfold Scan
  rw [ScanLoop, if_pos (headD_line_ne_zero cur e _ hcur he),
    SkipLine_body line cur e _ hcur he]
  simp only
  rw [SkipWhiteSpaces_body l.1 l.2 Z hl.2]
  have hno : ¬ strncmp (SkipWhiteSpaces l.1 ++ l.2 ++ Z ++ [0]) [37] [37].length = some true := by
    rw [show [37].length = 1 from rfl, strncmp_pct, headD_body _ _ _ hl.2 37 (by omega)]
    exact hp
  rw [if_neg hno]
  apply ScanLoop_enough
  · have := (SkipWhiteSpaces_suffix l.1).length_le
    have h1 : 1 ≤ e.length := by rcases he with e1 | e1 <;> rw [e1] <;> simp
    simp only [List.length_append] at this ⊢
    omega
  · omega

/-- `Scan` from inside a line whose next line begins with the percent sign stops
there. -/
theorem Scan_pct (cur e : List Nat) (l : List Nat × List Nat) (Z : List Nat) (line : Nat)
    (hcur : IsBody cur) (he : IsEol e) (hl : IsLine l) (hp : ¬ IsPlain l) :
    Scan (cur ++ e ++ (l.1 ++ l.2 ++ Z)) [37] line =
      .ok (SkipWhiteSpaces l.1 ++ l.2 ++ Z, line + 1) := by
  unfold Scan
  rw [ScanLoop, if_pos (headD_line_ne_zero cur e _ hcur he),
    SkipLine_body line cur e _ hcur he]
  simp only
  rw [SkipWhiteSpaces_body l.1 l.2 Z hl.2]
  have hyes : strncmp (SkipWhiteSpaces l.1 ++ l.2 ++ Z ++ [0]) [37] [37].length = some true := by
    rw [show [37].length = 1 from rfl, strncmp_pct, headD_body _ _ _ hl.2 37 (by omega)]
    unfold IsPlain at hp
    exact not_not.mp hp
  rw [if_pos hyes]

/-! ## The skipping loop, line by line -/

theorem open_not_plain {l : List Nat × List Nat} (h : IsOpen l) : ¬ IsPlain l := by
  obtain ⟨t, ht⟩ := h
  unfold IsPlain
  rw [← ht]
  simp

theorem else_not_plain {l : List Nat × List Nat} (h : IsElse l) : ¬ IsPlain l := by
  obtain ⟨t, ht⟩ := h
  unfold IsPlain
  rw [← ht]
  simp

theorem close_not_plain {l : List Nat × List Nat} (h : IsClose l) : ¬ IsPlain l := by
  obtain ⟨t, ht⟩ := h
  unfold IsPlain
  rw [← ht]
  simp

theorem else_not_open {l : List Nat × List Nat} (h : IsElse l) : ¬ IsOpen l := by
  obtain ⟨t, ht⟩ := h
  unfold IsOpen
  rw [← ht]
  simp [List.cons_prefix_cons]

theorem else_not_close {l : List Nat × List Nat} (h : IsElse l) : ¬ IsClose l := by
  obtain ⟨t, ht⟩ := h
  unfold IsClose
  rw [← ht]
  simp [List.cons_prefix_cons]

theorem close_not_open {l : List Nat × List Nat} (h : IsClose l) : ¬ IsOpen l := by
  obtain ⟨t, ht⟩ := h
  unfold IsOpen
  rw [← ht]
  simp [List.cons_prefix_cons]

theorem close_not_else {l : List Nat × List Nat} (h : IsClose l) : ¬ IsElse l :=
  fun h2 => else_not_close h2 h

theorem drop_token (tok b e Z : List Nat) (h : tok <+: b) :
    (b ++ e ++ Z).drop tok.length = b.drop tok.length ++ e ++ Z := by
  obtain ⟨t, rfl⟩ := h
  simp [List.append_assoc]

theorem test_open (l : List Nat × List Nat) (Z : List Nat) (hl : IsLine l) :
    strncmp (SkipWhiteSpaces l.1 ++ l.2 ++ Z ++ [0]) [37, 105, 102] 3 = some true ↔ IsOpen l :=
  strncmp_body [37, 105, 102] _ _ _ (by unfold NoNul; decide) (by decide) (by decide) hl.2

theorem test_else (l : List Nat × List Nat) (Z : List Nat) (hl : IsLine l) :
    strncmp (SkipWhiteSpaces l.1 ++ l.2 ++ Z ++ [0]) [37, 101, 108, 115, 101] 5 = some true
      ↔ IsElse l :=
  strncmp_body [37, 101, 108, 115, 101] _ _ _ (by unfold NoNul; decide) (by decide)
    (by decide) hl.2

theorem test_close (l : List Nat × List Nat) (Z : List Nat) (hl : IsLine l) :
    strncmp (SkipWhiteSpaces l.1 ++ l.2 ++ Z ++ [0]) [37, 101, 110, 100] 4 = some true
      ↔ IsClose l :=
  strncmp_body [37, 101, 110, 100] _ _ _ (by unfold NoNul; decide) (by decide) (by decide) hl.2

/-- A plain line is passed without a turn of the loop. -/
theorem SkipBlock_plain (w : Bool) (f : Nat) (cur e : List Nat) (l : List Nat × List Nat)
    (Z : List Nat) (line n : Nat) (hn : 0 < n) (hcur : IsBody cur) (he : IsEol e)
    (hl : IsLine l) (hp : IsPlain l) :
    SkipBlockLoop w f (cur ++ e ++ (l.1 ++ l.2 ++ Z)) line n =
      SkipBlockLoop w f (SkipWhiteSpaces l.1 ++ l.2 ++ Z) (line + 1) n := by
  cases f with
  | zero => rfl
  | succ f =>
    rw [SkipBlockLoop, if_pos hn, Scan_plain cur e l Z line hcur he hl hp]
    conv_rhs => rw [SkipBlockLoop, if_pos hn]

/-- A turn of the loop at a `%if` line. -/
theorem SkipBlock_open (w : Bool) (f : Nat) (cur e : List Nat) (l : List Nat × List Nat)
    (Z : List Nat) (line n : Nat) (hn : 0 < n) (hcur : IsBody cur) (he : IsEol e)
    (hl : IsLine l) (ho : IsOpen l) :
    SkipBlockLoop w (f + 1) (cur ++ e ++ (l.1 ++ l.2 ++ Z)) line n =
      SkipBlockLoop w f ((SkipWhiteSpaces l.1).drop 3 ++ l.2 ++ Z) (line + 1) (n + 1) := by
  rw [SkipBlockLoop, if_pos hn, Scan_pct cur e l Z line hcur he hl (open_not_plain ho)]
  simp only
  rw [if_pos ((test_open l Z hl).mpr ho)]
  have := drop_token [37, 105, 102] _ l.2 Z ho
  simp only [List.length_cons, List.length_nil] at this
  rw [this]

/-- A turn of the loop of the `if` branch at a `%else` line. -/
theorem SkipBlock_else_true (f : Nat) (cur e : List Nat) (l : List Nat × List Nat)
    (Z : List Nat) (line n : Nat) (hn : 0 < n) (hcur : IsBody cur) (he : IsEol e)
    (hl : IsLine l) (hm : IsElse l) :
    SkipBlockLoop true (f + 1) (cur ++ e ++ (l.1 ++ l.2 ++ Z)) line n =
      SkipBlockLoop true f ((SkipWhiteSpaces l.1).drop 5 ++ l.2 ++ Z) (line + 1)
        (if n = 1 then 0 else n) := by
  rw [SkipBlockLoop, if_pos hn, Scan_pct cur e l Z line hcur he hl (else_not_plain hm)]
  simp only
  rw [if_neg (fun h => (else_not_open hm) ((test_open l Z hl).mp h)),
    if_pos ⟨trivial, (test_else l Z hl).mpr hm⟩]
  have := drop_token [37, 101, 108, 115, 101] _ l.2 Z hm
  simp only [List.length_cons, List.length_nil] at this
  rw [this]

/-- A turn of the loop at a `%end` line. -/
theorem SkipBlock_close (w : Bool) (f : Nat) (cur e : List Nat) (l : List Nat × List Nat)
    (Z : List Nat) (line n : Nat) (hn : 0 < n) (hcur : IsBody cur) (he : IsEol e)
    (hl : IsLine l) (hc : IsClose l) :
    SkipBlockLoop w (f + 1) (cur ++ e ++ (l.1 ++ l.2 ++ Z)) line n =
      SkipBlockLoop w f ((SkipWhiteSpaces l.1).drop 4 ++ l.2 ++ Z) (line + 1) (n - 1) := by
  rw [SkipBlockLoop, if_pos hn, Scan_pct cur e l Z line hcur he hl (close_not_plain hc)]
  simp only
  rw [if_neg (fun h => (close_not_open hc) ((test_open l Z hl).mp h)),
    if_neg (fun h => (close_not_else hc) ((test_else l Z hl).mp h.2)),
    if_pos ((test_close l Z hl).mpr hc)]
  have := drop_token [37, 101, 110, 100] _ l.2 Z hc
  simp only [List.length_cons, List.length_nil] at this
  rw [this]

/-- A turn of the loop at a line with the percent sign that none of the tests of the
loop accepts. -/
theorem SkipBlock_pass (w : Bool) (f : Nat) (cur e : List Nat) (l : List Nat × List Nat)
    (Z : List Nat) (line n : Nat) (hn : 0 < n) (hcur : IsBody cur) (he : IsEol e)
    (hl : IsLine l) (hp : ¬ IsPlain l) (ho : ¬ IsOpen l) (hm : ¬ (w = true ∧ IsElse l))
    (hc : ¬ IsClose l) :
    SkipBlockLoop w (f + 1) (cur ++ e ++ (l.1 ++ l.2 ++ Z)) line n =
      SkipBlockLoop w f ((SkipWhiteSpaces l.1).drop 1 ++ l.2 ++ Z) (line + 1) n := by
  rw [SkipBlockLoop, if_pos hn, Scan_pct cur e l Z line hcur he hl hp]
  simp only
  rw [if_neg (fun h => ho ((test_open l Z hl).mp h)),
    if_neg (fun h => hm ⟨h.1, (test_else l Z hl).mp h.2⟩),
    if_neg (fun h => hc ((test_close l Z hl).mp h))]
  have hh : (SkipWhiteSpaces l.1).headD 0 = 37 := by
    unfold IsPlain at hp
    exact not_not.mp hp
  cases hb : SkipWhiteSpaces l.1 with
  | nil => exact absurd hh (by rw [hb]; decide)
  | cons a b => rfl

theorem SkipBlockLoop_mono (w : Bool) :
    ∀ (f f2 : Nat) (p : List Nat) (line n : Nat) (x : List Nat × Nat),
      SkipBlockLoop w f p line n = .ok x → f ≤ f2 → SkipBlockLoop w f2 p line n = .ok x := by
  intro f
  induction f with
  | zero => intro f2 p line n x h; simp [SkipBlockLoop] at h
  | succ f ih =>
    intro f2 p line n x h hle
    cases f2 with
    | zero => omega
    | succ f2 =>
      have hle2 : f ≤ f2 := by omega
      rw [SkipBlockLoop] at h ⊢
      split at h
      · rename_i hn
        rw [if_pos hn]
        split at h
        · cases h
        · rename_i q line2 hs
          split at h
          · rename_i h1
            rw [if_pos h1]
            exact ih _ _ _ _ _ h hle2
          · rename_i h1
            rw [if_neg h1]
            split at h
            · rename_i h2
              rw [if_pos h2]
              exact ih _ _ _ _ _ h hle2
            · rename_i h2
              rw [if_neg h2]
              split at h
              · rename_i h3
                rw [if_pos h3]
                exact ih _ _ _ _ _ h hle2
              · rename_i h3
                rw [if_neg h3]
                split at h
                · cases h
                · exact ih _ _ _ _ _ h hle2
      · rename_i hn
        rw [if_neg hn]
        exact h

/-- Skipping a well-nested sequence of lines at depth `n`: the loop arrives inside the
last line of the sequence at the same depth, after at most one turn per line. -/
theorem skip_nested {R : List (List Nat × List Nat)} (hR : Nested R) :
    (∀ l ∈ R, IsLine l) → ∀ (w : Bool) (n : Nat) (cur e Z : List Nat) (line : Nat),
      0 < n → IsBody cur → IsEol e →
      ∃ cur2 e2 F0, IsBody cur2 ∧ IsEol e2 ∧ F0 ≤ R.length ∧
        ∀ F, SkipBlockLoop w (F + F0) (cur ++ e ++ (linesText R ++ Z)) line n =
          SkipBlockLoop w F (cur2 ++ e2 ++ Z) (line + R.length) n := by
  induction hR with
  | nil =>
    intro _ w n cur e Z line _ hcur he
    exact ⟨cur, e, 0, hcur, he, Nat.le_refl _, fun F => by simp [linesText]⟩
  | line l R hk _ ih =>
    intro hall w n cur e Z line hn hcur he
    have hl : IsLine l := hall l (List.mem_cons_self _ _)
    have hrest : ∀ x ∈ R, IsLine x := fun x hx => hall x (List.mem_cons_of_mem _ hx)
    have htext : linesText (l :: R) ++ Z = l.1 ++ l.2 ++ (linesText R ++ Z) := by
      rw [linesText_cons]; simp [List.append_assoc]
    have hb : IsBody (SkipWhiteSpaces l.1) := hl.1.suffix (SkipWhiteSpaces_suffix _)
    rcases hk with hp | ho
    · obtain ⟨cur2, e2, F0, h1, h2, h3, h4⟩ :=
        ih hrest w n (SkipWhiteSpaces l.1) l.2 Z (line + 1) hn hb hl.2
      refine ⟨cur2, e2, F0, h1, h2, by simp only [List.length_cons]; omega, ?_⟩
      intro F
      rw [htext, SkipBlock_plain w _ cur e l _ line n hn hcur he hl hp, h4 F]
      simp only [List.length_cons]
      rw [show line + 1 + R.length = line + (R.length + 1) by omega]
    · obtain ⟨cur2, e2, F0, h1, h2, h3, h4⟩ :=
        ih hrest w n ((SkipWhiteSpaces l.1).drop 1) l.2 Z (line + 1) hn (hb.drop 1) hl.2
      refine ⟨cur2, e2, F0 + 1, h1, h2, by simp only [List.length_cons]; omega, ?_⟩
      intro F
      have hp : ¬ IsPlain l := fun h => h ho.1
      rw [htext, show F + (F0 + 1) = (F + F0) + 1 by omega,
        SkipBlock_pass w _ cur e l _ line n hn hcur he hl hp ho.2.1 (fun h => ho.2.2.1 h.2)
          ho.2.2.2, h4 F]
      simp only [List.length_cons]
      rw [show line + 1 + R.length = line + (R.length + 1) by omega]
  | block o c R1 R ho _ hc _ ih1 ih =>
    intro hall w n cur e Z line hn hcur he
    have hlo : IsLine o := hall o (List.mem_cons_self _ _)
    have hlc : IsLine c := hall c (by simp)
    have hr1 : ∀ x ∈ R1, IsLine x := fun x hx => hall x (by simp [hx])
    have hr : ∀ x ∈ R, IsLine x := fun x hx => hall x (by simp [hx])
    have htext : linesText (o :: (R1 ++ c :: R)) ++ Z
        = o.1 ++ o.2 ++ (linesText R1 ++ (c.1 ++ c.2 ++ (linesText R ++ Z))) := by
      rw [linesText_cons, linesText_append, linesText_cons]; simp [List.append_assoc]
    have hbo : IsBody ((SkipWhiteSpaces o.1).drop 3) :=
      (hlo.1.suffix (SkipWhiteSpaces_suffix _)).drop 3
    have hbc : IsBody ((SkipWhiteSpaces c.1).drop 4) :=
      (hlc.1.suffix (SkipWhiteSpaces_suffix _)).drop 4
    obtain ⟨cur1, e1, F1, a1, a2, a3, a4⟩ :=
      ih1 hr1 w (n + 1) ((SkipWhiteSpaces o.1).drop 3) o.2
        (c.1 ++ c.2 ++ (linesText R ++ Z)) (line + 1) (by omega) hbo hlo.2
    obtain ⟨cur2, e2, F2, b1, b2, b3, b4⟩ :=
      ih hr w n ((SkipWhiteSpaces c.1).drop 4) c.2 Z (line + 1 + R1.length + 1) hn hbc hlc.2
    refine ⟨cur2, e2, F2 + 1 + F1 + 1, b1, b2, by
      simp only [List.length_cons, List.length_append]; omega, ?_⟩
    intro F
    rw [htext, show F + (F2 + 1 + F1 + 1) = (F + F2 + 1 + F1) + 1 by omega,
      SkipBlock_open w _ cur e o _ line n hn hcur he hlo ho, a4 (F + F2 + 1),
      SkipBlock_close w _ cur1 e1 c _ _ (n + 1) (by omega) a1 a2 hlc hc,
      show n + 1 - 1 = n by omega, b4 F]
    simp only [List.length_cons, List.length_append]
    rw [show line + 1 + R1.length + 1 + R.length = line + (R1.length + (R.length + 1) + 1) by
      omega]
  | blockElse o m c R1 R2 R ho _ hm _ hc _ ih1 ih2 ih =>
    intro hall w n cur e Z line hn hcur he
    have hlo : IsLine o := hall o (List.mem_cons_self _ _)
    have hlm : IsLine m := hall m (by simp)
    have hlc : IsLine c := hall c (by simp)
    have hr1 : ∀ x ∈ R1, IsLine x := fun x hx => hall x (by simp [hx])
    have hr2 : ∀ x ∈ R2, IsLine x := fun x hx => hall x (by simp [hx])
    have hr : ∀ x ∈ R, IsLine x := fun x hx => hall x (by simp [hx])
    have htext : linesText (o :: (R1 ++ m :: (R2 ++ c :: R))) ++ Z
        = o.1 ++ o.2 ++ (linesText R1 ++ (m.1 ++ m.2 ++
            (linesText R2 ++ (c.1 ++ c.2 ++ (linesText R ++ Z))))) := by
      rw [linesText_cons, linesText_append, linesText_cons, linesText_append, linesText_cons]
      simp [List.append_assoc]
    have hbo : IsBody ((SkipWhiteSpaces o.1).drop 3) :=
      (hlo.1.suffix (SkipWhiteSpaces_suffix _)).drop 3
    have hbc : IsBody ((SkipWhiteSpaces c.1).drop 4) :=
      (hlc.1.suffix (SkipWhiteSpaces_suffix _)).drop 4
    obtain ⟨cur1, e1, F1, a1, a2, a3, a4⟩ :=
      ih1 hr1 w (n + 1) ((SkipWhiteSpaces o.1).drop 3) o.2
        (m.1 ++ m.2 ++ (linesText R2 ++ (c.1 ++ c.2 ++ (linesText R ++ Z)))) (line + 1)
        (by omega) hbo hlo.2
    -- the `%else` line of the inner block leaves the depth as it is
    have hmid : ∃ curm, IsBody curm ∧ ∀ F Y,
        SkipBlockLoop w (F + 1) (cur1 ++ e1 ++ (m.1 ++ m.2 ++ Y)) (line + 1 + R1.length) (n + 1)
          = SkipBlockLoop w F (curm ++ m.2 ++ Y) (line + 1 + R1.length + 1) (n + 1) := by
      cases w with
      | true =>
        refine ⟨(SkipWhiteSpaces m.1).drop 5,
          (hlm.1.suffix (SkipWhiteSpaces_suffix _)).drop 5, ?_⟩
        intro F Y
        rw [SkipBlock_else_true F cur1 e1 m Y _ (n + 1) (by omega) a1 a2 hlm hm,
          if_neg (by omega)]
      | false =>
        refine ⟨(SkipWhiteSpaces m.1).drop 1,
          (hlm.1.suffix (SkipWhiteSpaces_suffix _)).drop 1, ?_⟩
        intro F Y
        rw [SkipBlock_pass false F cur1 e1 m Y _ (n + 1) (by omega) a1 a2 hlm (else_not_plain hm)
          (else_not_open hm) (fun h => by cases h.1) (else_not_close hm)]
    obtain ⟨curm, m1, m2⟩ := hmid
    obtain ⟨cur3, e3, F3, c1, c2, c3, c4⟩ :=
      ih2 hr2 w (n + 1) curm m.2 (c.1 ++ c.2 ++ (linesText R ++ Z))
        (line + 1 + R1.length + 1) (by omega) m1 hlm.2
    obtain ⟨cur2, e2, F2, b1, b2, b3, b4⟩ :=
      ih hr w n ((SkipWhiteSpaces c.1).drop 4) c.2 Z
        (line + 1 + R1.length + 1 + R2.length + 1) hn hbc hlc.2
    refine ⟨cur2, e2, F2 + 1 + F3 + 1 + F1 + 1, b1, b2, by
      simp only [List.length_cons, List.length_append]; omega, ?_⟩
    intro F
    rw [htext, show F + (F2 + 1 + F3 + 1 + F1 + 1) = (F + F2 + 1 + F3 + 1 + F1) + 1 by omega,
      SkipBlock_open w _ cur e o _ line n hn hcur he hlo ho, a4 (F + F2 + 1 + F3 + 1),
      m2 (F + F2 + 1 + F3), c4 (F + F2 + 1),
      SkipBlock_close w _ cur3 e3 c _ _ (n + 1) (by omega) c1 c2 hlc hc,
      show n + 1 - 1 = n by omega, b4 F]
    simp only [List.length_cons, List.length_append]
    rw [show line + 1 + R1.length + 1 + R2.length + 1 + R.length
      = line + (R1.length + (R2.length + (R.length + 1) + 1) + 1) by omega]

/-- Skipping a well-nested sequence of lines and the line that ends the skip: a `%end`
line, or in the `if` branch a `%else` line.  The loop returns the cursor just after that
token, with the fuel `ParseCommand` gives it. -/
theorem skip_region (w : Bool) (R : List (List Nat × List Nat)) (C : List Nat × List Nat)
    (cur e rest : List Nat) (line k : Nat) (hR : Nested R) (hRl : ∀ l ∈ R, IsLine l)
    (hC : IsLine C) (hcur : IsBody cur) (he : IsEol e)
    (hend : (IsClose C ∧ k = 4) ∨ (w = true ∧ IsElse C ∧ k = 5)) :
    SkipBlockLoop w ((cur ++ e ++ (linesText R ++ (C.1 ++ C.2 ++ rest))).length + 2)
        (cur ++ e ++ (linesText R ++ (C.1 ++ C.2 ++ rest))) line 1 =
      .ok ((SkipWhiteSpaces C.1).drop k ++ C.2 ++ rest, line + R.length + 1) := by
  obtain ⟨cur2, e2, F0, h1, h2, h3, h4⟩ :=
    skip_nested hR hRl w 1 cur e (C.1 ++ C.2 ++ rest) line (by omega) hcur he
  have hlen := linesText_length R hRl
  apply SkipBlockLoop_mono w (0 + 1 + 1 + F0)
  · rw [h4 (0 + 1 + 1)]
    rcases hend with ⟨hc, rfl⟩ | ⟨rfl, hm, rfl⟩
    · rw [SkipBlock_close w _ cur2 e2 C rest _ 1 (by omega) h1 h2 hC hc]
      rw [SkipBlockLoop, if_neg (by omega)]
    · rw [SkipBlock_else_true _ cur2 e2 C rest _ 1 (by omega) h1 h2 hC hm]
      rw [SkipBlockLoop, if_neg (by simp)]
  · simp only [List.length_append]
    omega

theorem GetIdentifier_blank (p : List Nat) (l : Nat) :
    GetIdentifier (32 :: p) l = GetIdentifier p l := by
  unfold GetIdentifier
  rw [show SkipWhiteSpaces (32 :: p) = SkipWhiteSpaces p by
    rw [SkipWhiteSpaces, if_pos (Or.inl rfl)]]

theorem AtIdentEnd.extend {a : List Nat} (h : AtIdentEnd a) (ha : a ≠ []) (b : List Nat) :
    AtIdentEnd (a ++ b) := by
  cases a with
  | nil => exact absurd rfl ha
  | cons x a => exact h

/-- C19. Nesting of conditionals while skipping.  Let the lines after the current one be
a well-nested sequence `R` (lines that are no `%if`, `%else` or `%end` line, and complete
inner blocks) followed by a line `C` and any further text.  On `%if X` with `X` not among
the defines, `ParseCommand` returns with the cursor just after the `%else` of `C` when
`C` is a `%else` line, and just after its `%end` when `C` is a `%end` line; on `%else`
it returns with the cursor just after the `%end` of the `%end` line `C`.  In each case
the object is unchanged except for the line counter, which has advanced by the lines
skipped: no inner `%else` or `%end` ends the skip, and nothing of the skipped region
enters the parsed program. -/
theorem C19_nested_skip (s : CAutoVersion) (X cur e rest : List Nat)
    (R : List (List Nat × List Nat)) (C : List Nat × List Nat)
    (hX : IsIdent X) (hcur : IsBody cur) (he : IsEol e) (hce : AtIdentEnd (cur ++ e))
    (hR : Nested R) (hRl : ∀ l ∈ R, IsLine l) (hC : IsLine C) :
    (X ∉ s.m_setDefines → IsElse C →
      s.ParseCommand (105 :: 102 :: 32 :: X ++ (cur ++ e ++
          (linesText R ++ (C.1 ++ C.2 ++ rest)))) =
        .ok ((SkipWhiteSpaces C.1).drop 5 ++ C.2 ++ rest)
          { s with m_nCurrentLine := s.m_nCurrentLine + R.length + 1 }) ∧
    (X ∉ s.m_setDefines → IsClose C →
      s.ParseCommand (105 :: 102 :: 32 :: X ++ (cur ++ e ++
          (linesText R ++ (C.1 ++ C.2 ++ rest)))) =
        .ok ((SkipWhiteSpaces C.1).drop 4 ++ C.2 ++ rest)
          { s with m_nCurrentLine := s.m_nCurrentLine + R.length + 1 }) ∧
    (IsClose C →
      s.ParseCommand (101 :: 108 :: 115 :: 101 :: (cur ++ e ++
          (linesText R ++ (C.1 ++ C.2 ++ rest)))) =
        .ok ((SkipWhiteSpaces C.1).drop 4 ++ C.2 ++ rest)
          { s with m_nCurrentLine := s.m_nCurrentLine + R.length + 1 }) := by
  have hne : cur ++ e ≠ [] := by
    obtain ⟨x, t, rfl, _⟩ := he.cons
    simp
  have hend : AtIdentEnd (cur ++ e ++ (linesText R ++ (C.1 ++ C.2 ++ rest))) :=
    hce.extend hne _
  have hif : GetIdentifier (105 :: 102 :: 32 :: X ++ (cur ++ e ++
      (linesText R ++ (C.1 ++ C.2 ++ rest)))) s.m_nCurrentLine
      = .ok ([105, 102], 32 :: X ++ (cur ++ e ++ (linesText R ++ (C.1 ++ C.2 ++ rest)))) :=
    GetIdentifier_read s.m_nCurrentLine [105, 102] _ (by unfold IsIdent; decide)
      (Or.inr (Or.inl rfl))
  have hx : GetIdentifier (32 :: X ++ (cur ++ e ++ (linesText R ++ (C.1 ++ C.2 ++ rest))))
      s.m_nCurrentLine = .ok (X, cur ++ e ++ (linesText R ++ (C.1 ++ C.2 ++ rest))) := by
    rw [List.cons_append, GetIdentifier_blank]
    exact GetIdentifier_read s.m_nCurrentLine X _ hX hend
  have helse : GetIdentifier (101 :: 108 :: 115 :: 101 :: (cur ++ e ++
      (linesText R ++ (C.1 ++ C.2 ++ rest)))) s.m_nCurrentLine
      = .ok ([101, 108, 115, 101], cur ++ e ++ (linesText R ++ (C.1 ++ C.2 ++ rest))) :=
    GetIdentifier_read s.m_nCurrentLine [101, 108, 115, 101] _ (by unfold IsIdent; decide) hend
  have hifcase : ∀ k, (IsClose C ∧ k = 4) ∨ (true = true ∧ IsElse C ∧ k = 5) →
      X ∉ s.m_setDefines →
      s.ParseCommand (105 :: 102 :: 32 :: X ++ (cur ++ e ++
          (linesText R ++ (C.1 ++ C.2 ++ rest)))) =
        .ok ((SkipWhiteSpaces C.1).drop k ++ C.2 ++ rest)
          { s with m_nCurrentLine := s.m_nCurrentLine + R.length + 1 } := by
    intro k hk hnd
    unfold CAutoVersion.ParseCommand
    rw [hif]
    simp only
    rw [if_neg (by decide), if_pos trivial, hx]
    simp only
    rw [if_neg hnd, skip_region true R C cur e rest s.m_nCurrentLine k hR hRl hC hcur he hk]
  refine ⟨fun hnd hm => hifcase 5 (Or.inr ⟨rfl, hm, rfl⟩) hnd,
    fun hnd hc => hifcase 4 (Or.inl ⟨hc, rfl⟩) hnd, ?_⟩
  intro hc
  unfold CAutoVersion.ParseCommand
  rw [helse]
  simp only
  rw [if_neg (by decide), if_neg (by decide), if_pos trivial,
    skip_region false R C cur e rest s.m_nCurrentLine 4 hR hRl hC hcur he (Or.inl ⟨hc, rfl⟩)]

theorem exRegion_nested : Nested exRegion :=
  Nested.line (bytes "&\"f\" \"1\" @V", [10]) _ (Or.inl (by unfold IsPlain; decide))
    (Nested.blockElse (bytes "  %if B", [13, 10]) (bytes "%else", [10]) (bytes "%end", [10])
      [(bytes "@Q \"x\"", [10])] [(bytes "%shell \"run\"", [10])] [(bytes "!note", [10])]
      (by unfold IsOpen; decide)
      (Nested.line _ _ (Or.inl (by unfold IsPlain; decide)) Nested.nil)
      (by unfold IsElse; decide)
      (Nested.line _ _ (Or.inr (by unfold IsOther IsOpen IsElse IsClose; decide)) Nested.nil)
      (by unfold IsClose; decide)
      (Nested.line _ _ (Or.inl (by unfold IsPlain; decide)) Nested.nil))

/-- C19 on the region `exRegion`, which holds a directive, an inner block with `%else`
and a `%shell` line, and a message.  With `A` undefined the parse of `%if A`, the
region, `%else`, `@Z "1"`, `%end` gives the constant `Z` alone and no file record,
message or command; with `A` defined the parse of `%if A`, `@Z "1"`, `%else`, the
region, `%end` gives the same.  The three statements of C19 hold for the `%end` line
after the region. -/
theorem C19_nested_skip_witness :
    (((CAutoVersion.init (bytes "ctl") [] false).ParseControlFile
        (fsOf [(bytes "ctl", bytes "%if A\n" ++ linesText exRegion
          ++ bytes "%else\n@Z \"1\"\n%end\n")])).err = none ∧
     ((CAutoVersion.init (bytes "ctl") [] false).ParseControlFile
        (fsOf [(bytes "ctl", bytes "%if A\n" ++ linesText exRegion
          ++ bytes "%else\n@Z \"1\"\n%end\n")])).state
       = { CAutoVersion.init (bytes "ctl") [] false with
           m_pBuffer := bytes "%if A\n" ++ linesText exRegion
             ++ bytes "%else\n@Z \"1\"\n%end\n",
           m_nCurrentLine := 12,
           m_mapConstantDefs := [(bytes "Z", bytes "1")] } ∧
     ((CAutoVersion.init (bytes "ctl") [bytes "A"] false).ParseControlFile
        (fsOf [(bytes "ctl", bytes "%if A\n@Z \"1\"\n%else\n" ++ linesText exRegion
          ++ bytes "%end\n")])).err = none ∧
     ((CAutoVersion.init (bytes "ctl") [bytes "A"] false).ParseControlFile
        (fsOf [(bytes "ctl", bytes "%if A\n@Z \"1\"\n%else\n" ++ linesText exRegion
          ++ bytes "%end\n")])).state
       = { CAutoVersion.init (bytes "ctl") [bytes "A"] false with
           m_pBuffer := bytes "%if A\n@Z \"1\"\n%else\n" ++ linesText exRegion
             ++ bytes "%end\n",
           m_nCurrentLine := 12,
           m_mapConstantDefs := [(bytes "Z", bytes "1")] }) ∧
    ((bytes "A" ∉ CAutoVersion.new.m_setDefines → IsElse (bytes "%end", [10]) →
      CAutoVersion.new.ParseCommand (105 :: 102 :: 32 :: bytes "A" ++ ([] ++ [10] ++
          (linesText exRegion ++ ((bytes "%end", [10]).1 ++ (bytes "%end", [10]).2
            ++ bytes "@Z \"1\"\n")))) =
        .ok ((SkipWhiteSpaces (bytes "%end", [10]).1).drop 5 ++ (bytes "%end", [10]).2
            ++ bytes "@Z \"1\"\n")
          { CAutoVersion.new with
            m_nCurrentLine := CAutoVersion.new.m_nCurrentLine + exRegion.length + 1 }) ∧
    (bytes "A" ∉ CAutoVersion.new.m_setDefines → IsClose (bytes "%end", [10]) →
      CAutoVersion.new.ParseCommand (105 :: 102 :: 32 :: bytes "A" ++ ([] ++ [10] ++
          (linesText exRegion ++ ((bytes "%end", [10]).1 ++ (bytes "%end", [10]).2
            ++ bytes "@Z \"1\"\n")))) =
        .ok ((SkipWhiteSpaces (bytes "%end", [10]).1).drop 4 ++ (bytes "%end", [10]).2
            ++ bytes "@Z \"1\"\n")
          { CAutoVersion.new with
            m_nCurrentLine := CAutoVersion.new.m_nCurrentLine + exRegion.length + 1 }) ∧
    (IsClose (bytes "%end", [10]) →
      CAutoVersion.new.ParseCommand (101 :: 108 :: 115 :: 101 :: ([] ++ [10] ++
          (linesText exRegion ++ ((bytes "%end", [10]).1 ++ (bytes "%end", [10]).2
            ++ bytes "@Z \"1\"\n")))) =
        .ok ((SkipWhiteSpaces (bytes "%end", [10]).1).drop 4 ++ (bytes "%end", [10]).2
            ++ bytes "@Z \"1\"\n")
          { CAutoVersion.new with
            m_nCurrentLine := CAutoVersion.new.m_nCurrentLine + exRegion.length + 1 })) :=
  ⟨by decide,
   C19_nested_skip CAutoVersion.new (bytes "A") [] [10] (bytes "@Z \"1\"\n") exRegion
     (bytes "%end", [10]) (by unfold IsIdent; decide) IsBody.of_nil (Or.inl rfl)
     (by unfold AtIdentEnd; decide) exRegion_nested (by unfold IsLine IsBody IsEol; decide)
     (by unfold IsLine IsBody IsEol; decide)⟩

/-! ## Scanners do not leave the line

The text is `b ++ x :: Y` with `x` a line feed or a carriage return.  A scanner that
succeeds returns a cursor `c ++ x :: Y` with `c` a suffix of `b`, and it does the same,
with the same value, for every other continuation `Y2` and line counter. -/

theorem SkipWhiteSpaces_stopchar (b : List Nat) (x : Nat) (Y : List Nat)
    (hx : x = 10 ∨ x = 13) :
    SkipWhiteSpaces (b ++ x :: Y) = SkipWhiteSpaces b ++ x :: Y := by
  induction b with
  | nil =>
    simp only [List.nil_append, SkipWhiteSpaces]
    rw [if_neg (by omega)]
  | cons a b ih =>
    simp only [List.cons_append, SkipWhiteSpaces]
    split
    · exact ih
    · rfl

theorem GetIdentifierLoop_frame (l : Nat) (x : Nat) (hx : x = 10 ∨ x = 13) :
    ∀ (b acc v q Y : List Nat), GetIdentifierLoop l (b ++ x :: Y) acc = .ok (v, q) →
      ∃ c, c <:+ b ∧ q = c ++ x :: Y ∧
        ∀ (l2 : Nat) (Y2 : List Nat),
          GetIdentifierLoop l2 (b ++ x :: Y2) acc = .ok (v, c ++ x :: Y2) := by
  intro b
  induction b with
  | nil =>
    intro acc v q Y h
    rw [List.nil_append, GetIdentifierLoop_stop l (x :: Y) acc (by
      simp only [List.headD_cons]; omega)] at h
    simp only [Except.ok.injEq, Prod.mk.injEq] at h
    obtain ⟨rfl, rfl⟩ := h
    refine ⟨[], List.suffix_refl _, rfl, ?_⟩
    intro l2 Y2
    rw [List.nil_append, GetIdentifierLoop_stop l2 (x :: Y2) acc (by
      simp only [List.headD_cons]; omega)]
  | cons a b ih =>
    intro acc v q Y h
    rw [List.cons_append, GetIdentifierLoop] at h
    split at h
    · rename_i ha
      split at h
      · cases h
      · rename_i hlen
        obtain ⟨c, hc, hq, ht⟩ := ih _ _ _ _ h
        refine ⟨c, hc.trans (List.suffix_cons a b), hq, ?_⟩
        intro l2 Y2
        rw [List.cons_append, GetIdentifierLoop, if_pos ha, if_neg hlen]
        exact ht l2 Y2
    · rename_i ha
      simp only [Except.ok.injEq, Prod.mk.injEq] at h
      obtain ⟨rfl, rfl⟩ := h
      refine ⟨a :: b, List.suffix_refl _, rfl, ?_⟩
      intro l2 Y2
      rw [List.cons_append, GetIdentifierLoop, if_neg ha]

theorem GetIdentifier_frame (l : Nat) (x : Nat) (hx : x = 10 ∨ x = 13)
    (b v q Y : List Nat) (h : GetIdentifier (b ++ x :: Y) l = .ok (v, q)) :
    ∃ c, c <:+ b ∧ q = c ++ x :: Y ∧
      ∀ (l2 : Nat) (Y2 : List Nat), GetIdentifier (b ++ x :: Y2) l2 = .ok (v, c ++ x :: Y2) := by
  unfold GetIdentifier at h
  rw [SkipWhiteSpaces_stopchar b x Y hx] at h
  split at h
  · cases h
  · rename_i ident p hloop
    split at h
    · cases h
    · rename_i hne
      simp only [Except.ok.injEq, Prod.mk.injEq] at h
      obtain ⟨rfl, rfl⟩ := h
      obtain ⟨c, hc, hq, ht⟩ := GetIdentifierLoop_frame l x hx _ _ _ _ _ hloop
      refine ⟨c, hc.trans (SkipWhiteSpaces_suffix b), hq, ?_⟩
      intro l2 Y2
      unfold GetIdentifier
      rw [SkipWhiteSpaces_stopchar b x Y2 hx, ht l2 Y2]
      simp only
      rw [if_neg hne]

theorem GetLiteralLoop_frame (l : Nat) (x : Nat) (hx : x = 10 ∨ x = 13) :
    ∀ (n : Nat) (b acc v q Y : List Nat), b.length ≤ n →
      GetLiteralLoop l (b ++ x :: Y) acc = .ok (v, q) →
      ∃ c, c <:+ b ∧ q = c ++ x :: Y ∧
        ∀ (l2 : Nat) (Y2 : List Nat),
          GetLiteralLoop l2 (b ++ x :: Y2) acc = .ok (v, c ++ x :: Y2) := by
  intro n
  induction n with
  | zero =>
    intro b acc v q Y hn h
    have : b = [] := List.eq_nil_of_length_eq_zero (by omega)
    subst this
    rw [List.nil_append, GetLiteralLoop_stop2 l (x :: Y) acc (by
      simp only [List.headD_cons]; omega)] at h
    simp only [Except.ok.injEq, Prod.mk.injEq] at h
    obtain ⟨rfl, rfl⟩ := h
    refine ⟨[], List.suffix_refl _, rfl, ?_⟩
    intro l2 Y2
    rw [List.nil_append, GetLiteralLoop_stop2 l2 (x :: Y2) acc (by
      simp only [List.headD_cons]; omega)]
  | succ n ih =>
    intro b acc v q Y hn h
    cases b with
    | nil =>
      rw [List.nil_append, GetLiteralLoop_stop2 l (x :: Y) acc (by
        simp only [List.headD_cons]; omega)] at h
      simp only [Except.ok.injEq, Prod.mk.injEq] at h
      obtain ⟨rfl, rfl⟩ := h
      refine ⟨[], List.suffix_refl _, rfl, ?_⟩
      intro l2 Y2
      rw [List.nil_append, GetLiteralLoop_stop2 l2 (x :: Y2) acc (by
        simp only [List.headD_cons]; omega)]
    | cons a b =>
      simp only [List.length_cons] at hn
      rw [List.cons_append, GetLiteralLoop_cons] at h
      split at h
      · rename_i ha
        split at h
        · rename_i hesc
          -- an escape: the byte after the backslash is in the body
          cases b with
          | nil =>
            exfalso
            simp only [List.nil_append, List.headD_cons] at hesc
            omega
          | cons d b =>
            simp only [List.cons_append, List.headD_cons, List.tail_cons] at hesc h
            split at h
            · cases h
            · rename_i hlen
              obtain ⟨c, hc, hq, ht⟩ := ih b _ _ _ _ (by
                simp only [List.length_cons] at hn; omega) h
              refine ⟨c, hc.trans ((List.suffix_cons d b).trans (List.suffix_cons a _)), hq, ?_⟩
              intro l2 Y2
              rw [List.cons_append, GetLiteralLoop_cons, if_pos ha]
              simp only [List.cons_append, List.headD_cons, List.tail_cons]
              rw [if_pos hesc, if_neg hlen]
              exact ht l2 Y2
        · rename_i hesc
          split at h
          · cases h
          · rename_i hlen
            obtain ⟨c, hc, hq, ht⟩ := ih b _ _ _ _ (by omega) h
            refine ⟨c, hc.trans (List.suffix_cons a b), hq, ?_⟩
            intro l2 Y2
            have hesc2 : ¬ (a = 92 ∧ ((b ++ x :: Y2).headD 0 = 34 ∨ (b ++ x :: Y2).headD 0 = 92)) := by
              intro h2
              apply hesc
              refine ⟨h2.1, ?_⟩
              cases b with
              | nil =>
                simp only [List.nil_append, List.headD_cons] at h2
                omega
              | cons d b => exact h2.2
            rw [List.cons_append, GetLiteralLoop_cons, if_pos ha, if_neg hesc2, if_neg hlen]
            exact ht l2 Y2
      · rename_i ha
        simp only [Except.ok.injEq, Prod.mk.injEq] at h
        obtain ⟨rfl, rfl⟩ := h
        refine ⟨a :: b, List.suffix_refl _, rfl, ?_⟩
        intro l2 Y2
        rw [List.cons_append, GetLiteralLoop_cons, if_neg ha]

theorem GetLiteral_frame (n l : Nat) (x : Nat) (hx : x = 10 ∨ x = 13)
    (b v q Y : List Nat) (off : Nat)
    (h : GetLiteral n (b ++ x :: Y) l = .ok (v, off, q)) :
    ∃ c, c <:+ b ∧ q = c ++ x :: Y ∧
      ∀ (n2 l2 : Nat) (Y2 : List Nat),
        ∃ off2, GetLiteral n2 (b ++ x :: Y2) l2 = .ok (v, off2, c ++ x :: Y2) := by
  unfold GetLiteral at h
  rw [SkipWhiteSpaces_stopchar b x Y hx] at h
  cases hb : SkipWhiteSpaces b with
  | nil =>
    rw [hb] at h
    simp only [List.nil_append] at h
    rw [if_pos (by omega)] at h
    cases h
  | cons a b1 =>
    rw [hb] at h
    simp only [List.cons_append] at h
    split at h
    · cases h
    · rename_i ha
      split at h
      · cases h
      · rename_i ident p hloop
        split at h
        · cases h
        · rename_i hq34
          split at h
          · cases h
          · rename_i hne
            simp only [Except.ok.injEq, Prod.mk.injEq] at h
            obtain ⟨rfl, _, rfl⟩ := h
            obtain ⟨c, hc, hq, ht⟩ :=
              GetLiteralLoop_frame l x hx b1.length b1 _ _ _ _ (Nat.le_refl _) hloop
            subst hq
            cases c with
            | nil =>
              exfalso
              simp only [List.nil_append, List.headD_cons] at hq34
              omega
            | cons c0 c =>
              have hsuf : c <:+ b :=
                ((List.suffix_cons c0 c).trans hc).trans
                  ((List.suffix_cons a b1).trans (hb ▸ SkipWhiteSpaces_suffix b))
              refine ⟨c, hsuf, rfl, ?_⟩
              intro n2 l2 Y2
              refine ⟨n2 - (b1 ++ x :: Y2).length, ?_⟩
              unfold GetLiteral
              rw [SkipWhiteSpaces_stopchar b x Y2 hx, hb]
              simp only [List.cons_append]
              rw [if_neg ha]
              try simp only
              rw [ht l2 Y2]
              try simp only
              rw [if_neg (by simpa using hq34), if_neg hne]
              all_goals rfl

theorem GetLiteralOrSymbol_frame (consts : List (List Nat × List Nat)) (n l : Nat) (x : Nat)
    (hx : x = 10 ∨ x = 13) (b v q Y : List Nat)
    (h : GetLiteralOrSymbol consts n (b ++ x :: Y) l = .ok (v, q)) :
    ∃ c, c <:+ b ∧ q = c ++ x :: Y ∧
      ∀ (n2 l2 : Nat) (Y2 : List Nat),
        GetLiteralOrSymbol consts n2 (b ++ x :: Y2) l2 = .ok (v, c ++ x :: Y2) := by
  unfold GetLiteralOrSymbol at h
  simp only at h
  rw [SkipWhiteSpaces_stopchar b x Y hx] at h
  have hhead : ∀ Y2, (SkipWhiteSpaces b ++ x :: Y2).headD 0 = 34
      ↔ (SkipWhiteSpaces b ++ x :: Y).headD 0 = 34 := by
    intro Y2
    cases SkipWhiteSpaces b with
    | nil => simp
    | cons a t => simp
  split at h
  · rename_i h34
    split at h
    · cases h
    · rename_i lit off p hlit
      simp only [Except.ok.injEq, Prod.mk.injEq] at h
      obtain ⟨rfl, rfl⟩ := h
      obtain ⟨c, hc, hq, ht⟩ := GetLiteral_frame n l x hx _ _ _ _ _ hlit
      refine ⟨c, hc.trans (SkipWhiteSpaces_suffix b), hq, ?_⟩
      intro n2 l2 Y2
      obtain ⟨off2, ho⟩ := ht n2 l2 Y2
      unfold GetLiteralOrSymbol
      simp only
      rw [SkipWhiteSpaces_stopchar b x Y2 hx, if_pos ((hhead Y2).mpr h34), ho]
  · rename_i h34
    split at h
    · cases h
    · rename_i ident p hid
      split at h
      · cases h
      · rename_i val hfind
        simp only [Except.ok.injEq, Prod.mk.injEq] at h
        obtain ⟨rfl, rfl⟩ := h
        obtain ⟨c, hc, hq, ht⟩ := GetIdentifier_frame l x hx _ _ _ _ hid
        refine ⟨c, hc.trans (SkipWhiteSpaces_suffix b), hq, ?_⟩
        intro n2 l2 Y2
        unfold GetLiteralOrSymbol
        simp only
        rw [SkipWhiteSpaces_stopchar b x Y2 hx, if_neg (fun h2 => h34 ((hhead Y2).mp h2)),
          ht l2 Y2]
        simp only
        rw [hfind]

theorem ParseMessageLoop_frame (l : Nat) (x : Nat) (hx : x = 10 ∨ x = 13) :
    ∀ (b acc v q Y : List Nat), ParseMessageLoop l (b ++ x :: Y) acc = .ok (v, q) →
      ∃ c, c <:+ b ∧ q = c ++ x :: Y ∧
        ∀ (l2 : Nat) (Y2 : List Nat),
          ParseMessageLoop l2 (b ++ x :: Y2) acc = .ok (v, c ++ x :: Y2) := by
  intro b
  induction b with
  | nil =>
    intro acc v q Y h
    rw [List.nil_append, ParseMessageLoop, if_neg (by omega)] at h
    simp only [Except.ok.injEq, Prod.mk.injEq] at h
    obtain ⟨rfl, rfl⟩ := h
    refine ⟨[], List.suffix_refl _, rfl, ?_⟩
    intro l2 Y2
    rw [List.nil_append, ParseMessageLoop, if_neg (by omega)]
  | cons a b ih =>
    intro acc v q Y h
    rw [List.cons_append, ParseMessageLoop] at h
    split at h
    · rename_i ha
      split at h
      · cases h
      · rename_i hlen
        obtain ⟨c, hc, hq, ht⟩ := ih _ _ _ _ h
        refine ⟨c, hc.trans (List.suffix_cons a b), hq, ?_⟩
        intro l2 Y2
        rw [List.cons_append, ParseMessageLoop, if_pos ha, if_neg hlen]
        exact ht l2 Y2
    · rename_i ha
      simp only [Except.ok.injEq, Prod.mk.injEq] at h
      obtain ⟨rfl, rfl⟩ := h
      refine ⟨a :: b, List.suffix_refl _, rfl, ?_⟩
      intro l2 Y2
      rw [List.cons_append, ParseMessageLoop, if_neg ha]

theorem SkipComment_body (b : List Nat) (x : Nat) (Y : List Nat) (hb : IsBody b)
    (hx : x = 10 ∨ x = 13) : SkipComment (b ++ x :: Y) = x :: Y := by
  induction b with
  | nil =>
    rw [List.nil_append, SkipComment, if_neg (by omega)]
  | cons a b ih =>
    rw [List.cons_append, SkipComment, if_pos (hb a (List.mem_cons_self _ _))]
    exact ih hb.tail

theorem SkipLineLoop_frame (l : Nat) (x : Nat) (hx : x = 10 ∨ x = 13) :
    ∀ (b : List Nat) (ic : Bool) (q Y : List Nat), IsBody b →
      SkipLineLoop true l (b ++ x :: Y) ic = .ok q →
      q = x :: Y ∧ ∀ (l2 : Nat) (Y2 : List Nat),
        SkipLineLoop true l2 (b ++ x :: Y2) ic = .ok (x :: Y2) := by
  intro b
  induction b with
  | nil =>
    intro ic q Y _ h
    rw [List.nil_append, SkipLineLoop, if_neg (by omega)] at h
    simp only [Except.ok.injEq] at h
    refine ⟨h.symm, ?_⟩
    intro l2 Y2
    rw [List.nil_append, SkipLineLoop, if_neg (by omega)]
  | cons a b ih =>
    intro ic q Y hb h
    have ha := hb a (List.mem_cons_self _ _)
    rw [List.cons_append, SkipLineLoop, if_pos ha] at h
    simp only [] at h
    by_cases hstrict : True ∧ (if a = 35 then true else ic) = false ∧ a ≠ 32 ∧ a ≠ 9
    · rw [if_pos hstrict] at h
      cases h
    · rw [if_neg hstrict] at h
      obtain ⟨hq, ht⟩ := ih _ _ _ hb.tail h
      refine ⟨hq, ?_⟩
      intro l2 Y2
      rw [List.cons_append, SkipLineLoop, if_pos ha]
      simp only []
      rw [if_neg hstrict]
      exact ht l2 Y2

/-- `SkipLine` at the end of a command: when it succeeds in front of one continuation,
it succeeds in front of every other one, and it returns the continuation. -/
theorem SkipLine_frame (l : Nat) (b e Z q : List Nat) (l1 : Nat) (hb : IsBody b)
    (he : IsEol e) (h : SkipLine (b ++ e ++ Z) true l = .ok (q, l1)) :
    q = Z ∧ ∀ (l2 : Nat) (Z2 : List Nat), SkipLine (b ++ e ++ Z2) true l2 = .ok (Z2, l2 + 1) := by
  obtain ⟨x, t, rfl, hx⟩ := he.cons
  unfold SkipLine at h
  have e1 : ∀ W : List Nat, b ++ x :: t ++ W = b ++ x :: (t ++ W) := fun W => by simp
  rw [e1] at h
  split at h
  · cases h
  · rename_i p hloop
    obtain ⟨hp, ht⟩ := SkipLineLoop_frame l x hx b false _ _ hb hloop
    subst hp
    simp only [Except.ok.injEq] at h
    have hend := SkipLineEnd_eol (x :: t) Z l he
    rw [List.cons_append] at hend
    rw [hend] at h
    simp only [Prod.mk.injEq] at h
    refine ⟨h.1.symm, ?_⟩
    intro l2 Z2
    unfold SkipLine
    rw [e1, ht l2 (t ++ Z2)]
    simp only
    have hend2 := SkipLineEnd_eol (x :: t) Z2 l2 he
    rw [List.cons_append] at hend2
    rw [hend2]

/-! ## The same program in front of another continuation -/

theorem SameProgram.rfl_same (s : CAutoVersion) : SameProgram s s := ⟨rfl, rfl, rfl, rfl, rfl⟩

theorem mapFind_eraseOffsets (files : List (List Nat × CFileNode)) (name : List Nat) :
    (mapFind (eraseOffsets files) name).isSome = (mapFind files name).isSome := by
  unfold mapFind eraseOffsets
  induction files with
  | nil => rfl
  | cons kv files ih =>
    simp only [List.map_cons, List.find?_cons]
    by_cases hk : kv.1 = name
    · simp [hk]
    · simp only [hk, decide_False]
      exact ih

theorem eraseOffsets_add (files : List (List Nat × CFileNode)) (name : List Nat)
    (d : CReplace) :
    eraseOffsets (addReplacement files name d)
      = addReplacement (eraseOffsets files) name d.noPos := by
  have hsome := mapFind_eraseOffsets files name
  unfold addReplacement
  cases hf : mapFind files name with
  | none =>
    rw [hf] at hsome
    cases hf2 : mapFind (eraseOffsets files) name with
    | none =>
      simp only
      simp [eraseOffsets, CFileNode.Add, CFileNode.new]
    | some w => rw [hf2] at hsome; cases hsome
  | some v =>
    rw [hf] at hsome
    cases hf2 : mapFind (eraseOffsets files) name with
    | none => rw [hf2] at hsome; cases hsome
    | some w =>
      simp only
      unfold eraseOffsets
      rw [List.map_map, List.map_map]
      apply List.map_congr_left
      intro kv _
      simp only [Function.comp]
      by_cases hk : kv.1 = name
      · simp [hk, CFileNode.Add]
      · simp [hk]

theorem eraseOffsets_add_congr (fs ft : List (List Nat × CFileNode)) (name : List Nat)
    (d d2 : CReplace) (hf : eraseOffsets ft = eraseOffsets fs) (hd : d2.noPos = d.noPos) :
    eraseOffsets (addReplacement ft name d2) = eraseOffsets (addReplacement fs name d) := by
  rw [eraseOffsets_add, eraseOffsets_add, hf, hd]

theorem ParseConstantDef_frame (s s2 : CAutoVersion) (x : Nat) (hx : x = 10 ∨ x = 13)
    (b q Y : List Nat) (h : s.ParseConstantDef (b ++ x :: Y) = .ok q s2) :
    ∃ c, c <:+ b ∧ q = c ++ x :: Y ∧
      ∀ (t : CAutoVersion) (Y2 : List Nat), SameProgram s t →
        ∃ t2, t.ParseConstantDef (b ++ x :: Y2) = .ok (c ++ x :: Y2) t2 ∧ SameProgram s2 t2 := by
  unfold CAutoVersion.ParseConstantDef at h
  split at h
  · cases h
  · rename_i ident p hid
    obtain ⟨c1, hc1, rfl, ht1⟩ := GetIdentifier_frame _ x hx _ _ _ _ hid
    split at h
    · cases h
    · rename_i what p2 hlit
      obtain ⟨c2, hc2, rfl, ht2⟩ := GetLiteralOrSymbol_frame _ _ _ x hx _ _ _ _ hlit
      split at h
      · cases h
      · rename_i hnone
        simp only [Res.ok.injEq] at h
        obtain ⟨rfl, rfl⟩ := h
        refine ⟨c2, hc2.trans hc1, rfl, ?_⟩
        intro t Y2 hst
        refine ⟨{ t with m_mapConstantDefs := t.m_mapConstantDefs ++ [(ident, what)] }, ?_, ?_⟩
        · unfold CAutoVersion.ParseConstantDef
          rw [ht1 t.m_nCurrentLine Y2]
          simp only
          rw [hst.1, ht2 t.m_pBuffer.length t.m_nCurrentLine Y2]
          simp only
          rw [hnone]
        · exact ⟨by show t.m_mapConstantDefs ++ _ = s.m_mapConstantDefs ++ _; rw [hst.1],
            hst.2.1, hst.2.2.1, hst.2.2.2.1, hst.2.2.2.2⟩

theorem ReadReplacement_frame (s : CAutoVersion) (op : EReplaceOp) (x : Nat)
    (hx : x = 10 ∨ x = 13) (b q Y name : List Nat) (d : CReplace)
    (h : s.ReadReplacement op (b ++ x :: Y) = .ok (name, d, q)) :
    ∃ c, c <:+ b ∧ q = c ++ x :: Y ∧
      ∀ (t : CAutoVersion) (Y2 : List Nat), t.m_mapConstantDefs = s.m_mapConstantDefs →
        ∃ d2, t.ReadReplacement op (b ++ x :: Y2) = .ok (name, d2, c ++ x :: Y2) ∧
          d2.noPos = d.noPos := by
  unfold CAutoVersion.ReadReplacement at h
  split at h
  · cases h
  · rename_i file_name o1 p1 h1
    obtain ⟨c1, hc1, rfl, ht1⟩ := GetLiteral_frame _ _ x hx _ _ _ _ _ h1
    split at h
    · cases h
    · rename_i what off p2 h2
      obtain ⟨c2, hc2, rfl, ht2⟩ := GetLiteral_frame _ _ x hx _ _ _ _ _ h2
      rw [SkipWhiteSpaces_stopchar c2 x Y hx] at h
      cases hw : SkipWhiteSpaces c2 with
      | nil =>
        rw [hw] at h
        simp only [List.nil_append] at h
        rw [if_pos (by omega)] at h
        cases h
      | cons a c3 =>
        rw [hw] at h
        simp only [List.cons_append] at h
        split at h
        · cases h
        · rename_i ha
          split at h
          · cases h
          · rename_i ident p4 hid
            obtain ⟨c4, hc4, rfl, ht4⟩ := GetIdentifier_frame _ x hx _ _ _ _ hid
            split at h
            · cases h
            · rename_i with_ hfind
              split at h
              · cases h
              · rename_i hbin
                simp only [Except.ok.injEq, Prod.mk.injEq] at h
                obtain ⟨rfl, rfl, rfl⟩ := h
                have hsuf : c4 <:+ b :=
                  hc4.trans ((List.suffix_cons a c3).trans
                    ((hw ▸ SkipWhiteSpaces_suffix c2).trans (hc2.trans hc1)))
                refine ⟨c4, hsuf, rfl, ?_⟩
                intro t Y2 hst
                obtain ⟨o1b, g1⟩ := ht1 t.m_pBuffer.length t.m_nCurrentLine Y2
                obtain ⟨off2, g2⟩ := ht2 t.m_pBuffer.length t.m_nCurrentLine Y2
                refine ⟨CReplace.new op what with_ off2, ?_, rfl⟩
                unfold CAutoVersion.ReadReplacement
                rw [g1]
                simp only
                rw [g2]
                simp only
                rw [SkipWhiteSpaces_stopchar c2 x Y2 hx, hw]
                simp only [List.cons_append]
                rw [if_neg ha, ht4 t.m_nCurrentLine Y2]
                simp only
                rw [hst, hfind]
                simp only
                rw [if_neg hbin]

theorem ParseReplacement_frame (s s2 : CAutoVersion) (op : EReplaceOp) (x : Nat)
    (hx : x = 10 ∨ x = 13) (b q Y : List Nat)
    (h : s.ParseReplacement op (b ++ x :: Y) = .ok q s2) :
    ∃ c, c <:+ b ∧ q = c ++ x :: Y ∧
      ∀ (t : CAutoVersion) (Y2 : List Nat), SameProgram s t →
        ∃ t2, t.ParseReplacement op (b ++ x :: Y2) = .ok (c ++ x :: Y2) t2 ∧
          SameProgram s2 t2 := by
  unfold CAutoVersion.ParseReplacement at h
  split at h
  · cases h
  · rename_i name d p hread
    simp only [Res.ok.injEq] at h
    obtain ⟨rfl, rfl⟩ := h
    obtain ⟨c, hc, rfl, ht⟩ := ReadReplacement_frame s op x hx _ _ _ _ _ hread
    refine ⟨c, hc, rfl, ?_⟩
    intro t Y2 hst
    obtain ⟨d2, g, hd⟩ := ht t Y2 hst.1
    refine ⟨{ t with m_mapFiles := addReplacement t.m_mapFiles name d2 }, ?_, ?_⟩
    · unfold CAutoVersion.ParseReplacement
      rw [g]
    · exact ⟨hst.1, eraseOffsets_add_congr _ _ _ _ _ hst.2.1 hd, hst.2.2.1, hst.2.2.2.1,
        hst.2.2.2.2⟩

theorem ParseMessage_frame (s s2 : CAutoVersion) (x : Nat) (hx : x = 10 ∨ x = 13)
    (b q Y : List Nat) (h : s.ParseMessage (b ++ x :: Y) = .ok q s2) :
    ∃ c, c <:+ b ∧ q = c ++ x :: Y ∧
      ∀ (t : CAutoVersion) (Y2 : List Nat), SameProgram s t →
        ∃ t2, t.ParseMessage (b ++ x :: Y2) = .ok (c ++ x :: Y2) t2 ∧ SameProgram s2 t2 := by
  unfold CAutoVersion.ParseMessage at h
  split at h
  · cases h
  · rename_i ident p hloop
    simp only [Res.ok.injEq] at h
    obtain ⟨rfl, rfl⟩ := h
    obtain ⟨c, hc, rfl, ht⟩ := ParseMessageLoop_frame _ x hx _ _ _ _ _ hloop
    refine ⟨c, hc, rfl, ?_⟩
    intro t Y2 hst
    refine ⟨{ t with m_listMessages := t.m_listMessages ++ [ident] }, ?_, ?_⟩
    · unfold CAutoVersion.ParseMessage
      rw [ht t.m_nCurrentLine Y2]
    · exact ⟨hst.1, hst.2.1,
        by show t.m_listMessages ++ _ = s.m_listMessages ++ _; rw [hst.2.2.1],
        hst.2.2.2.1, hst.2.2.2.2⟩

/-- The command dispatch on a line that does not begin with the percent sign. -/
theorem ParseDispatch_frame (s s2 : CAutoVersion) (x : Nat) (hx : x = 10 ∨ x = 13)
    (b q Y : List Nat) (hb : IsBody b) (hp : b.headD 0 ≠ 37)
    (h : s.ParseDispatch (b ++ x :: Y) = .ok q s2) :
    ∃ c, c <:+ b ∧ q = c ++ x :: Y ∧
      ∀ (t : CAutoVersion) (Y2 : List Nat), SameProgram s t →
        ∃ t2, t.ParseDispatch (b ++ x :: Y2) = .ok (c ++ x :: Y2) t2 ∧ SameProgram s2 t2 := by
  cases b with
  | nil =>
    rw [List.nil_append, ParseDispatch_eol s (x :: Y) (by
      simp only [List.headD_cons]; omega)] at h
    simp only [Res.ok.injEq] at h
    obtain ⟨rfl, rfl⟩ := h
    refine ⟨[], List.suffix_refl _, rfl, ?_⟩
    intro t Y2 hst
    exact ⟨t, by
      rw [List.nil_append, ParseDispatch_eol t (x :: Y2) (by
        simp only [List.headD_cons]; omega)]
      all_goals rfl, hst⟩
  | cons a b =>
    have ha := hb a (List.mem_cons_self _ _)
    simp only [List.headD_cons] at hp
    have lift : ∀ {c : List Nat}, c <:+ b → c <:+ a :: b :=
      fun hc => hc.trans (List.suffix_cons a b)
    by_cases h64 : a = 64
    · subst h64
      rw [List.cons_append, ParseDispatch_64] at h
      obtain ⟨c, hc, hq, ht⟩ := ParseConstantDef_frame s s2 x hx b q Y h
      refine ⟨c, lift hc, hq, ?_⟩
      intro t Y2 hst
      rw [List.cons_append, ParseDispatch_64]
      exact ht t Y2 hst
    by_cases h38 : a = 38
    · subst h38
      rw [List.cons_append, ParseDispatch_38] at h
      obtain ⟨c, hc, hq, ht⟩ := ParseReplacement_frame s s2 _ x hx b q Y h
      refine ⟨c, lift hc, hq, ?_⟩
      intro t Y2 hst
      rw [List.cons_append, ParseDispatch_38]
      exact ht t Y2 hst
    by_cases h36 : a = 36
    · subst h36
      rw [List.cons_append, ParseDispatch_36] at h
      obtain ⟨c, hc, hq, ht⟩ := ParseReplacement_frame s s2 _ x hx b q Y h
      refine ⟨c, lift hc, hq, ?_⟩
      intro t Y2 hst
      rw [List.cons_append, ParseDispatch_36]
      exact ht t Y2 hst
    by_cases h33 : a = 33
    · subst h33
      rw [List.cons_append, ParseDispatch_33] at h
      obtain ⟨c, hc, hq, ht⟩ := ParseMessage_frame s s2 x hx b q Y h
      refine ⟨c, lift hc, hq, ?_⟩
      intro t Y2 hst
      rw [List.cons_append, ParseDispatch_33]
      exact ht t Y2 hst
    by_cases h35 : a = 35
    · subst h35
      rw [List.cons_append, ParseDispatch_35, SkipComment_body b x Y hb.tail hx] at h
      simp only [Res.ok.injEq] at h
      obtain ⟨rfl, rfl⟩ := h
      refine ⟨[], List.nil_suffix, rfl, ?_⟩
      intro t Y2 hst
      exact ⟨t, by
        rw [List.cons_append, ParseDispatch_35, SkipComment_body b x Y2 hb.tail hx]
        all_goals rfl, hst⟩
    · exfalso
      unfold CAutoVersion.ParseDispatch at h
      simp only [List.cons_append, List.headD_cons, List.tail_cons] at h
      rw [if_pos ⟨ha.2.1, ha.2.2⟩, if_neg h64, if_neg h38, if_neg h36, if_neg h33, if_neg hp,
        if_neg h35] at h
      cases h

/-- One loop iteration on a plain line: when it succeeds in front of one continuation,
it consumes exactly the line, and in front of any other continuation and on any object
with the same program it succeeds too and gives the same program. -/
theorem ParseLine_frame (s s2 : CAutoVersion) (l : List Nat × List Nat) (q Z : List Nat)
    (hl : IsLine l) (hp : IsPlain l) (h : s.ParseLine (l.1 ++ l.2 ++ Z) = .ok q s2) :
    q = Z ∧ ∀ (t : CAutoVersion) (Z2 : List Nat), SameProgram s t →
      ∃ t2, t.ParseLine (l.1 ++ l.2 ++ Z2) = .ok Z2 t2 ∧ SameProgram s2 t2 := by
  obtain ⟨x, tl, hxe, hx⟩ := hl.2.cons
  have hblank : ∀ W : List Nat, SkipWhiteSpaces (l.1 ++ l.2 ++ W)
      = SkipWhiteSpaces l.1 ++ x :: (tl ++ W) := by
    intro W
    rw [SkipWhiteSpaces_body l.1 l.2 W hl.2, hxe]
    simp
  have hb : IsBody (SkipWhiteSpaces l.1) := hl.1.suffix (SkipWhiteSpaces_suffix _)
  unfold CAutoVersion.ParseLine at h
  rw [hblank] at h
  split at h
  · cases h
  · rename_i p s1 hd
    obtain ⟨c, hc, rfl, ht⟩ := ParseDispatch_frame s s1 x hx _ _ _ hb hp hd
    have hcb : IsBody c := hb.suffix hc
    have hform : ∀ W : List Nat, c ++ x :: (tl ++ W) = c ++ l.2 ++ W := by
      intro W; rw [hxe]; simp
    rw [hform] at h
    split at h
    · cases h
    · rename_i p2 line2 hsk
      simp only [Res.ok.injEq] at h
      obtain ⟨rfl, rfl⟩ := h
      obtain ⟨hq, hsk2⟩ := SkipLine_frame _ c l.2 Z _ _ hcb hl.2 hsk
      refine ⟨hq, ?_⟩
      intro t Z2 hst
      obtain ⟨t1, g1, hst1⟩ := ht t (tl ++ Z2) hst
      refine ⟨{ t1 with m_nCurrentLine := t1.m_nCurrentLine + 1 }, ?_, hst1⟩
      unfold CAutoVersion.ParseLine
      rw [hblank, g1]
      simp only
      rw [hform, hsk2 t1.m_nCurrentLine Z2]

/-- The loop of `ParseControlFile` on plain lines: when the lines parse on their own,
they parse in front of any continuation on any object with the same program, the loop
goes on with the continuation, and the programs are the same. -/
theorem ParseLoop_lines : ∀ (A : List (List Nat × List Nat)),
    (∀ l ∈ A, IsLine l ∧ IsPlain l) → ∀ (s sA : CAutoVersion) (f : Nat),
      CAutoVersion.ParseLoop f s (linesText A) = .ok () sA →
      ∀ (t : CAutoVersion) (Z2 : List Nat), SameProgram s t →
        ∃ t2, SameProgram sA t2 ∧ ∀ f2,
          CAutoVersion.ParseLoop (f2 + A.length) t (linesText A ++ Z2)
            = CAutoVersion.ParseLoop f2 t2 Z2 := by
  intro A
  induction A with
  | nil =>
    intro _ s sA f h t Z2 hst
    cases f with
    | zero => simp [CAutoVersion.ParseLoop] at h
    | succ k =>
      rw [show linesText [] = [] from rfl, ParseLoop_succ, if_neg (by simp)] at h
      simp only [Res.ok.injEq, true_and] at h
      subst h
      exact ⟨t, hst, fun f2 => by simp [linesText]⟩
  | cons l A ih =>
    intro hA s sA f h t Z2 hst
    have hl := hA l (List.mem_cons_self _ _)
    have hrest : ∀ x ∈ A, IsLine x ∧ IsPlain x := fun x hx => hA x (List.mem_cons_of_mem _ hx)
    cases f with
    | zero => simp [CAutoVersion.ParseLoop] at h
    | succ k =>
      rw [linesText_cons, ParseLoop_succ,
        if_pos (headD_line_ne_zero l.1 l.2 _ hl.1.1 hl.1.2)] at h
      cases hline : s.ParseLine (l.1 ++ l.2 ++ linesText A) with
      | throw e s1 => rw [hline] at h; cases h
      | ok q s1 =>
        rw [hline] at h
        simp only at h
        obtain ⟨hq, ht⟩ := ParseLine_frame s s1 l q _ hl.1 hl.2 hline
        subst hq
        obtain ⟨t1, g1, hst1⟩ := ht t (linesText A ++ Z2) hst
        obtain ⟨t2, hst2, g2⟩ := ih hrest s1 sA k h t1 Z2 hst1
        refine ⟨t2, hst2, ?_⟩
        intro f2
        have htext : linesText (l :: A) ++ Z2 = l.1 ++ l.2 ++ (linesText A ++ Z2) := by
          rw [linesText_cons]; simp [List.append_assoc]
        rw [htext, show f2 + (l :: A).length = (f2 + A.length) + 1 from rfl, ParseLoop_succ,
          if_pos (headD_line_ne_zero l.1 l.2 _ hl.1.1 hl.1.2), g1]
        exact g2 f2

/-- The converse for the loop on plain lines: when the lines parse in front of a
continuation, they parse on their own, on any object with the same program and with any
fuel above the number of lines. -/
theorem ParseLoop_lines_back : ∀ (A : List (List Nat × List Nat)),
    (∀ l ∈ A, IsLine l ∧ IsPlain l) → ∀ (s sW : CAutoVersion) (f : Nat) (Z : List Nat),
      CAutoVersion.ParseLoop f s (linesText A ++ Z) = .ok () sW →
      ∀ (t : CAutoVersion) (f2 : Nat), SameProgram s t → A.length < f2 →
        ∃ tA, CAutoVersion.ParseLoop f2 t (linesText A) = .ok () tA := by
  intro A
  induction A with
  | nil =>
    intro _ s sW f Z _ t f2 _ hf2
    exact ⟨t, ParseLoop_nil f2 t (by omega)⟩
  | cons l A ih =>
    intro hA s sW f Z h t f2 hst hf2
    have hl := hA l (List.mem_cons_self _ _)
    have hrest : ∀ x ∈ A, IsLine x ∧ IsPlain x := fun x hx => hA x (List.mem_cons_of_mem _ hx)
    have htext : linesText (l :: A) ++ Z = l.1 ++ l.2 ++ (linesText A ++ Z) := by
      rw [linesText_cons]; simp [List.append_assoc]
    cases f with
    | zero => simp [CAutoVersion.ParseLoop] at h
    | succ k =>
      rw [htext, ParseLoop_succ, if_pos (headD_line_ne_zero l.1 l.2 _ hl.1.1 hl.1.2)] at h
      cases hline : s.ParseLine (l.1 ++ l.2 ++ (linesText A ++ Z)) with
      | throw e s1 => rw [hline] at h; cases h
      | ok q s1 =>
        rw [hline] at h
        simp only at h
        obtain ⟨hq, ht⟩ := ParseLine_frame s s1 l q _ hl.1 hl.2 hline
        subst hq
        obtain ⟨t1, g1, hst1⟩ := ht t (linesText A) hst
        obtain ⟨k2, rfl⟩ : ∃ k2, f2 = k2 + 1 := ⟨f2 - 1, by omega⟩
        obtain ⟨tA, g2⟩ := ih hrest s1 sW k Z h t1 k2 hst1
          (by simp only [List.length_cons] at hf2; omega)
        refine ⟨tA, ?_⟩
        rw [linesText_cons, ParseLoop_succ,
          if_pos (headD_line_ne_zero l.1 l.2 _ hl.1.1 hl.1.2), g1]
        exact g2

theorem nested_of_plain : ∀ (A : List (List Nat × List Nat)), (∀ l ∈ A, IsPlain l) → Nested A := by
  intro A
  induction A with
  | nil => intro _; exact Nested.nil
  | cons l A ih =>
    intro h
    exact Nested.line l A (Or.inl (h l (List.mem_cons_self _ _)))
      (ih (fun x hx => h x (List.mem_cons_of_mem _ hx)))

theorem SkipLine_eol (e Z : List Nat) (line : Nat) (he : IsEol e) :
    SkipLine (e ++ Z) true line = .ok (Z, line + 1) := by
  unfold SkipLine
  have : SkipLineLoop true line (e ++ Z) false = .ok (e ++ Z) := by
    apply SkipLineLoop_stop
    obtain ⟨x, t, rfl, hx⟩ := he.cons
    simp only [List.cons_append, List.headD_cons]
    omega
  rw [this]
  simp only
  rw [SkipLineEnd_eol e Z line he]

theorem AtIdentEnd_eol (e Z : List Nat) (he : IsEol e) : AtIdentEnd (e ++ Z) := by
  obtain ⟨x, t, rfl, hx⟩ := he.cons
  unfold AtIdentEnd
  simp only [List.cons_append, List.headD_cons]
  omega

/-- The line `%if X` with `X` among the defines. -/
theorem ParseLine_if_defined (t : CAutoVersion) (X e Z : List Nat) (hX : IsIdent X)
    (he : IsEol e) (hdef : X ∈ t.m_setDefines) :
    t.ParseLine (ifLine X e ++ Z) =
      .ok Z { t with m_nCurrentLine := t.m_nCurrentLine + 1 } := by
  have htext : ifLine X e ++ Z = 37 :: (105 :: 102 :: 32 :: X ++ (e ++ Z)) := by
    simp [ifLine, List.append_assoc]
  have hif : GetIdentifier (105 :: 102 :: 32 :: X ++ (e ++ Z)) t.m_nCurrentLine
      = .ok ([105, 102], 32 :: X ++ (e ++ Z)) :=
    GetIdentifier_read t.m_nCurrentLine [105, 102] _ (by unfold IsIdent; decide)
      (Or.inr (Or.inl rfl))
  have hx : GetIdentifier (32 :: X ++ (e ++ Z)) t.m_nCurrentLine = .ok (X, e ++ Z) := by
    rw [List.cons_append, GetIdentifier_blank]
    exact GetIdentifier_read t.m_nCurrentLine X _ hX (AtIdentEnd_eol e Z he)
  unfold CAutoVersion.ParseLine
  rw [htext, SkipWhiteSpaces_nonblank 37 _ (by omega), ParseDispatch_37]
  unfold CAutoVersion.ParseCommand
  rw [hif]
  simp only
  rw [if_neg (by decide), if_pos trivial, hx]
  simp only
  rw [if_pos hdef]
  simp only
  rw [SkipLine_eol e Z _ he]

/-- The line `%if X` with `X` not among the defines, plain lines, and the line `%else`
or `%end`: one loop iteration passes them all. -/
theorem ParseLine_if_skip (t : CAutoVersion) (X e e2 Z tok : List Nat)
    (A : List (List Nat × List Nat)) (hX : IsIdent X) (he : IsEol e) (he2 : IsEol e2)
    (hA : ∀ l ∈ A, IsLine l ∧ IsPlain l) (hnd : X ∉ t.m_setDefines)
    (htok : tok = [37, 101, 108, 115, 101] ∨ tok = [37, 101, 110, 100]) :
    t.ParseLine (ifLine X e ++ (linesText A ++ (tok ++ e2 ++ Z))) =
      .ok Z { t with m_nCurrentLine := t.m_nCurrentLine + A.length + 1 + 1 } := by
  have htext : ifLine X e ++ (linesText A ++ (tok ++ e2 ++ Z))
      = 37 :: (105 :: 102 :: 32 :: X ++ ([] ++ e ++ (linesText A ++
          ((tok, e2).1 ++ (tok, e2).2 ++ Z)))) := by
    simp [ifLine, List.append_assoc]
  have hend : AtIdentEnd ([] ++ e ++ (linesText A ++ ((tok, e2).1 ++ (tok, e2).2 ++ Z))) := by
    rw [List.nil_append]
    exact AtIdentEnd_eol e _ he
  have hif : GetIdentifier (105 :: 102 :: 32 :: X ++ ([] ++ e ++ (linesText A ++
      ((tok, e2).1 ++ (tok, e2).2 ++ Z)))) t.m_nCurrentLine
      = .ok ([105, 102], 32 :: X ++ ([] ++ e ++ (linesText A ++
          ((tok, e2).1 ++ (tok, e2).2 ++ Z)))) :=
    GetIdentifier_read t.m_nCurrentLine [105, 102] _ (by unfold IsIdent; decide)
      (Or.inr (Or.inl rfl))
  have hx : GetIdentifier (32 :: X ++ ([] ++ e ++ (linesText A ++
      ((tok, e2).1 ++ (tok, e2).2 ++ Z)))) t.m_nCurrentLine
      = .ok (X, [] ++ e ++ (linesText A ++ ((tok, e2).1 ++ (tok, e2).2 ++ Z))) := by
    rw [List.cons_append, GetIdentifier_blank]
    exact GetIdentifier_read t.m_nCurrentLine X _ hX hend
  have hC : IsLine (tok, e2) := by
    refine ⟨?_, he2⟩
    rcases htok with rfl | rfl
    · show IsBody [37, 101, 108, 115, 101]
      unfold IsBody; decide
    · show IsBody [37, 101, 110, 100]
      unfold IsBody; decide
  have hskip : SkipBlockLoop true
      (([] ++ e ++ (linesText A ++ ((tok, e2).1 ++ (tok, e2).2 ++ Z))).length + 2)
      ([] ++ e ++ (linesText A ++ ((tok, e2).1 ++ (tok, e2).2 ++ Z))) t.m_nCurrentLine 1
      = .ok (e2 ++ Z, t.m_nCurrentLine + A.length + 1) := by
    rcases htok with rfl | rfl
    · have := skip_region true A ([37, 101, 108, 115, 101], e2) [] e Z t.m_nCurrentLine 5
        (nested_of_plain A (fun l hl => (hA l hl).2)) (fun l hl => (hA l hl).1) hC
        IsBody.of_nil he (Or.inr ⟨rfl, by
          show [37, 101, 108, 115, 101] <+: SkipWhiteSpaces [37, 101, 108, 115, 101]
          decide, rfl⟩)
      rw [this]
      rfl
    · have := skip_region true A ([37, 101, 110, 100], e2) [] e Z t.m_nCurrentLine 4
        (nested_of_plain A (fun l hl => (hA l hl).2)) (fun l hl => (hA l hl).1) hC
        IsBody.of_nil he (Or.inl ⟨by
          show [37, 101, 110, 100] <+: SkipWhiteSpaces [37, 101, 110, 100]
          decide, rfl⟩)
      rw [this]
      rfl
  unfold CAutoVersion.ParseLine
  rw [htext, SkipWhiteSpaces_nonblank 37 _ (by omega), ParseDispatch_37]
  unfold CAutoVersion.ParseCommand
  rw [hif]
  simp only
  rw [if_neg (by decide), if_pos trivial, hx]
  simp only
  rw [if_neg hnd, hskip]
  simp only
  rw [SkipLine_eol e2 Z _ he2]

/-- The line `%else`, plain lines, and the line `%end`: one loop iteration passes them
all. -/
theorem ParseLine_else_skip (t : CAutoVersion) (e e3 Z : List Nat)
    (B : List (List Nat × List Nat)) (he : IsEol e) (he3 : IsEol e3)
    (hB : ∀ l ∈ B, IsLine l ∧ IsPlain l) :
    t.ParseLine (elseLine e ++ (linesText B ++ (endLine e3 ++ Z))) =
      .ok Z { t with m_nCurrentLine := t.m_nCurrentLine + B.length + 1 + 1 } := by
  have htext : elseLine e ++ (linesText B ++ (endLine e3 ++ Z))
      = 37 :: (101 :: 108 :: 115 :: 101 :: ([] ++ e ++ (linesText B ++
          (([37, 101, 110, 100], e3).1 ++ ([37, 101, 110, 100], e3).2 ++ Z)))) := by
    simp [elseLine, endLine, List.append_assoc]
  have hend : AtIdentEnd ([] ++ e ++ (linesText B ++
      (([37, 101, 110, 100], e3).1 ++ ([37, 101, 110, 100], e3).2 ++ Z))) := by
    rw [List.nil_append]
    exact AtIdentEnd_eol e _ he
  have helse : GetIdentifier (101 :: 108 :: 115 :: 101 :: ([] ++ e ++ (linesText B ++
      (([37, 101, 110, 100], e3).1 ++ ([37, 101, 110, 100], e3).2 ++ Z)))) t.m_nCurrentLine
      = .ok ([101, 108, 115, 101], [] ++ e ++ (linesText B ++
          (([37, 101, 110, 100], e3).1 ++ ([37, 101, 110, 100], e3).2 ++ Z))) :=
    GetIdentifier_read t.m_nCurrentLine [101, 108, 115, 101] _ (by unfold IsIdent; decide) hend
  have hC : IsLine ([37, 101, 110, 100], e3) := ⟨by
    show IsBody [37, 101, 110, 100]
    unfold IsBody; decide, he3⟩
  have hskip := skip_region false B ([37, 101, 110, 100], e3) [] e Z t.m_nCurrentLine 4
    (nested_of_plain B (fun l hl => (hB l hl).2)) (fun l hl => (hB l hl).1) hC
    IsBody.of_nil he (Or.inl ⟨by
          show [37, 101, 110, 100] <+: SkipWhiteSpaces [37, 101, 110, 100]
          decide, rfl⟩)
  unfold CAutoVersion.ParseLine
  rw [htext, SkipWhiteSpaces_nonblank 37 _ (by omega), ParseDispatch_37]
  unfold CAutoVersion.ParseCommand
  rw [helse]
  simp only
  rw [if_neg (by decide), if_neg (by decide), if_pos trivial, hskip]
  simp only
  have hcur : List.drop 4 (SkipWhiteSpaces [37, 101, 110, 100]) ++ e3 ++ Z = e3 ++ Z := by
    simp [SkipWhiteSpaces]
  rw [hcur, SkipLine_eol e3 Z _ he3]

/-- The line `%end`. -/
theorem ParseLine_end (t : CAutoVersion) (e Z : List Nat) (he : IsEol e) :
    t.ParseLine (endLine e ++ Z) = .ok Z { t with m_nCurrentLine := t.m_nCurrentLine + 1 } := by
  have htext : endLine e ++ Z = 37 :: (101 :: 110 :: 100 :: (e ++ Z)) := by
    simp [endLine]
  have hid : GetIdentifier (101 :: 110 :: 100 :: (e ++ Z)) t.m_nCurrentLine
      = .ok ([101, 110, 100], e ++ Z) :=
    GetIdentifier_read t.m_nCurrentLine [101, 110, 100] _ (by unfold IsIdent; decide)
      (AtIdentEnd_eol e Z he)
  unfold CAutoVersion.ParseLine
  rw [htext, SkipWhiteSpaces_nonblank 37 _ (by omega), ParseDispatch_37]
  unfold CAutoVersion.ParseCommand
  rw [hid]
  simp only
  rw [if_neg (by decide), if_neg (by decide), if_neg (by decide), if_pos trivial]
  simp only
  rw [SkipLine_eol e Z _ he]

/-- The loop on `%if X`, `A`, `%else`, `B`, `%end` with `X` among the defines. -/
theorem loop_defined (s0 sA0 sA : CAutoVersion) (X e1 e2 e3 : List Nat)
    (A B : List (List Nat × List Nat)) (f fA : Nat) (hX : IsIdent X)
    (h1 : IsEol e1) (h2 : IsEol e2) (h3 : IsEol e3)
    (hA : ∀ l ∈ A, IsLine l ∧ IsPlain l) (hB : ∀ l ∈ B, IsLine l ∧ IsPlain l)
    (hdef : X ∈ s0.m_setDefines) (hs : SameProgram sA0 s0)
    (hpa : CAutoVersion.ParseLoop fA sA0 (linesText A) = .ok () sA)
    (hf : A.length + 3 ≤ f) :
    ∃ s, CAutoVersion.ParseLoop f s0
        (ifLine X e1 ++ (linesText A ++ (elseLine e2 ++ (linesText B ++ endLine e3))))
      = .ok () s ∧ SameProgram sA s := by
  obtain ⟨k, rfl⟩ : ∃ k, f = (k + 1 + 1 + A.length) + 1 := ⟨f - A.length - 3, by omega⟩
  obtain ⟨t2, hst2, g2⟩ := ParseLoop_lines A hA sA0 sA fA hpa
    { s0 with m_nCurrentLine := s0.m_nCurrentLine + 1 }
    (elseLine e2 ++ (linesText B ++ endLine e3)) hs
  have hrest : elseLine e2 ++ (linesText B ++ endLine e3)
      = elseLine e2 ++ (linesText B ++ (endLine e3 ++ [])) := by simp
  refine ⟨{ t2 with m_nCurrentLine := t2.m_nCurrentLine + B.length + 1 + 1 }, ?_, hst2⟩
  rw [ParseLoop_succ, if_pos (by simp [ifLine]), ParseLine_if_defined s0 X e1 _ hX h1 hdef]
  simp only
  rw [g2 (k + 1 + 1), ParseLoop_succ, if_pos (by simp [elseLine]), hrest,
    ParseLine_else_skip t2 e2 e3 [] B h2 h3 hB]
  simp only
  rw [ParseLoop_nil _ _ (by omega)]

/-- The loop on `%if X`, `A`, `%else`, `B`, `%end` with `X` not among the defines. -/
theorem loop_undefined (s0 sB0 sB : CAutoVersion) (X e1 e2 e3 : List Nat)
    (A B : List (List Nat × List Nat)) (f fB : Nat) (hX : IsIdent X)
    (h1 : IsEol e1) (h2 : IsEol e2) (h3 : IsEol e3)
    (hA : ∀ l ∈ A, IsLine l ∧ IsPlain l) (hB : ∀ l ∈ B, IsLine l ∧ IsPlain l)
    (hnd : X ∉ s0.m_setDefines) (hs : SameProgram sB0 s0)
    (hpb : CAutoVersion.ParseLoop fB sB0 (linesText B) = .ok () sB)
    (hf : B.length + 3 ≤ f) :
    ∃ s, CAutoVersion.ParseLoop f s0
        (ifLine X e1 ++ (linesText A ++ (elseLine e2 ++ (linesText B ++ endLine e3))))
      = .ok () s ∧ SameProgram sB s := by
  obtain ⟨k, rfl⟩ : ∃ k, f = (k + 1 + 1 + B.length) + 1 := ⟨f - B.length - 3, by omega⟩
  obtain ⟨t2, hst2, g2⟩ := ParseLoop_lines B hB sB0 sB fB hpb
    { s0 with m_nCurrentLine := s0.m_nCurrentLine + A.length + 1 + 1 } (endLine e3) hs
  have htext : ifLine X e1 ++ (linesText A ++ (elseLine e2 ++ (linesText B ++ endLine e3)))
      = ifLine X e1 ++ (linesText A ++ ([37, 101, 108, 115, 101] ++ e2
          ++ (linesText B ++ endLine e3))) := by
    simp [elseLine]
  have hend : endLine e3 = endLine e3 ++ [] := by simp
  refine ⟨{ t2 with m_nCurrentLine := t2.m_nCurrentLine + 1 }, ?_, hst2⟩
  rw [ParseLoop_succ, if_pos (by simp [ifLine]), htext,
    ParseLine_if_skip s0 X e1 e2 _ _ A hX h1 h2 hA hnd (Or.inl rfl)]
  simp only
  rw [g2 (k + 1 + 1), ParseLoop_succ, if_pos (by simp [endLine]), hend,
    ParseLine_end t2 e3 [] h3]
  simp only
  rw [ParseLoop_nil _ _ (by omega)]

/-- The loop on `%if X`, `A`, `%end` with `X` not among the defines. -/
theorem loop_skipped (s0 : CAutoVersion) (X e1 e3 : List Nat)
    (A : List (List Nat × List Nat)) (f : Nat) (hX : IsIdent X)
    (h1 : IsEol e1) (h3 : IsEol e3) (hA : ∀ l ∈ A, IsLine l ∧ IsPlain l)
    (hnd : X ∉ s0.m_setDefines) (hf : 2 ≤ f) :
    ∃ s, CAutoVersion.ParseLoop f s0 (ifLine X e1 ++ (linesText A ++ endLine e3))
      = .ok () s ∧ SameProgram s0 s := by
  obtain ⟨k, rfl⟩ : ∃ k, f = (k + 1) + 1 := ⟨f - 2, by omega⟩
  have htext : ifLine X e1 ++ (linesText A ++ endLine e3)
      = ifLine X e1 ++ (linesText A ++ ([37, 101, 110, 100] ++ e3 ++ [])) := by
    simp [endLine]
  refine ⟨{ s0 with m_nCurrentLine := s0.m_nCurrentLine + A.length + 1 + 1 }, ?_,
    SameProgram.rfl_same s0⟩
  rw [ParseLoop_succ, if_pos (by simp [ifLine]), htext,
    ParseLine_if_skip s0 X e1 e3 _ _ A hX h1 h3 hA hnd (Or.inr rfl)]
  simp only
  rw [ParseLoop_nil _ _ (by omega)]

/-- The converse of `loop_defined`: when the whole text parses, `A` parses on its own. -/
theorem loop_defined_back (s0 sA0 s : CAutoVersion) (X e1 : List Nat) (rest : List Nat)
    (A : List (List Nat × List Nat)) (f fA : Nat) (hX : IsIdent X) (h1 : IsEol e1)
    (hA : ∀ l ∈ A, IsLine l ∧ IsPlain l)
    (hdef : X ∈ s0.m_setDefines) (hs : SameProgram s0 sA0)
    (h : CAutoVersion.ParseLoop f s0 (ifLine X e1 ++ (linesText A ++ rest)) = .ok () s)
    (hfA : A.length < fA) :
    ∃ sA, CAutoVersion.ParseLoop fA sA0 (linesText A) = .ok () sA := by
  cases f with
  | zero => simp [CAutoVersion.ParseLoop] at h
  | succ k =>
    rw [ParseLoop_succ, if_pos (by simp [ifLine]), ParseLine_if_defined s0 X e1 _ hX h1 hdef]
      at h
    simp only at h
    exact ParseLoop_lines_back A hA _ s k rest h sA0 fA hs hfA

/-- The converse of `loop_undefined`: when the whole text parses, `B` parses on its
own. -/
theorem loop_undefined_back (s0 sB0 s : CAutoVersion) (X e1 e2 e3 : List Nat)
    (A B : List (List Nat × List Nat)) (f fB : Nat) (hX : IsIdent X)
    (h1 : IsEol e1) (h2 : IsEol e2)
    (hA : ∀ l ∈ A, IsLine l ∧ IsPlain l) (hB : ∀ l ∈ B, IsLine l ∧ IsPlain l)
    (hnd : X ∉ s0.m_setDefines) (hs : SameProgram s0 sB0)
    (h : CAutoVersion.ParseLoop f s0
        (ifLine X e1 ++ (linesText A ++ (elseLine e2 ++ (linesText B ++ endLine e3))))
      = .ok () s)
    (hfB : B.length < fB) :
    ∃ sB, CAutoVersion.ParseLoop fB sB0 (linesText B) = .ok () sB := by
  have htext : ifLine X e1 ++ (linesText A ++ (elseLine e2 ++ (linesText B ++ endLine e3)))
      = ifLine X e1 ++ (linesText A ++ ([37, 101, 108, 115, 101] ++ e2
          ++ (linesText B ++ endLine e3))) := by
    simp [elseLine]
  cases f with
  | zero => simp [CAutoVersion.ParseLoop] at h
  | succ k =>
    rw [ParseLoop_succ, if_pos (by simp [ifLine]), htext,
      ParseLine_if_skip s0 X e1 e2 _ _ A hX h1 h2 hA hnd (Or.inl rfl)] at h
    simp only at h
    exact ParseLoop_lines_back B hB _ s k (endLine e3) h sB0 fB hs hfB

/-- C18. Conditional blocks select one branch.  The control file is `%if X`, the lines
`A`, `%else`, the lines `B`, `%end`, each line ended by a line feed or by carriage return
and line feed, where no line of `A` or `B` begins, after leading blanks, with the percent
sign.  When `X` is among the defines, the control file parses exactly when `A` parses on
its own, and it then gives the same program as `A`: the same constants, file records up
to recorded offsets, messages, deferred commands and base path.  When `X` is not among
the defines, the control file parses exactly when `B` parses on its own, and it then
gives the same program as `B`.  Without the `%else` part and with `X` not among the
defines, the control file parses and gives the same program as the empty file. -/
theorem C18_conditional_selects_branch (ctl : List Nat) (defines : List (List Nat))
    (interactive : Bool) (X e1 e2 e3 : List Nat) (A B : List (List Nat × List Nat))
    (hX : IsIdent X) (h1 : IsEol e1) (h2 : IsEol e2) (h3 : IsEol e3)
    (hA : ∀ l ∈ A, IsLine l ∧ IsPlain l) (hB : ∀ l ∈ B, IsLine l ∧ IsPlain l) :
    (X ∈ defines → ∀ (fs fsA : FS),
      fs ctl = some (ifLine X e1 ++ (linesText A ++ (elseLine e2 ++
        (linesText B ++ endLine e3)))) →
      fsA ctl = some (linesText A) →
      (∀ sA, (CAutoVersion.init ctl defines interactive).ParseControlFile fsA = .ok () sA →
        ∃ s, (CAutoVersion.init ctl defines interactive).ParseControlFile fs = .ok () s ∧
          SameProgram sA s) ∧
      (∀ s, (CAutoVersion.init ctl defines interactive).ParseControlFile fs = .ok () s →
        ∃ sA, (CAutoVersion.init ctl defines interactive).ParseControlFile fsA = .ok () sA ∧
          SameProgram sA s)) ∧
    (X ∉ defines → ∀ (fs fsB : FS),
      fs ctl = some (ifLine X e1 ++ (linesText A ++ (elseLine e2 ++
        (linesText B ++ endLine e3)))) →
      fsB ctl = some (linesText B) →
      (∀ sB, (CAutoVersion.init ctl defines interactive).ParseControlFile fsB = .ok () sB →
        ∃ s, (CAutoVersion.init ctl defines interactive).ParseControlFile fs = .ok () s ∧
          SameProgram sB s) ∧
      (∀ s, (CAutoVersion.init ctl defines interactive).ParseControlFile fs = .ok () s →
        ∃ sB, (CAutoVersion.init ctl defines interactive).ParseControlFile fsB = .ok () sB ∧
          SameProgram sB s)) ∧
    (X ∉ defines → ∀ (fs fsE : FS),
      fs ctl = some (ifLine X e1 ++ (linesText A ++ endLine e3)) →
      fsE ctl = some [] →
      ∃ s sE, (CAutoVersion.init ctl defines interactive).ParseControlFile fs = .ok () s ∧
        (CAutoVersion.init ctl defines interactive).ParseControlFile fsE = .ok () sE ∧
        SameProgram sE s) := by
  have hlenA := linesText_length A (fun l hl => (hA l hl).1)
  have hlenB := linesText_length B (fun l hl => (hB l hl).1)
  refine ⟨?_, ?_, ?_⟩
  · intro hdef fs fsA hfs hfsA
    have hfs2 : fs (CAutoVersion.init ctl defines interactive).m_strControlFile = some _ := hfs
    have hfsA2 : fsA (CAutoVersion.init ctl defines interactive).m_strControlFile = some _ :=
      hfsA
    have hs : SameProgram
        { CAutoVersion.init ctl defines interactive with m_pBuffer := linesText A }
        { CAutoVersion.init ctl defines interactive with
          m_pBuffer := ifLine X e1 ++ (linesText A ++ (elseLine e2 ++
            (linesText B ++ endLine e3))) } := ⟨rfl, rfl, rfl, rfl, rfl⟩
    have hs2 : SameProgram
        { CAutoVersion.init ctl defines interactive with
          m_pBuffer := ifLine X e1 ++ (linesText A ++ (elseLine e2 ++
            (linesText B ++ endLine e3))) }
        { CAutoVersion.init ctl defines interactive with m_pBuffer := linesText A } :=
      ⟨rfl, rfl, rfl, rfl, rfl⟩
    have fwd : ∀ sA,
        (CAutoVersion.init ctl defines interactive).ParseControlFile fsA = .ok () sA →
        ∃ s, (CAutoVersion.init ctl defines interactive).ParseControlFile fs = .ok () s ∧
          SameProgram sA s := by
      intro sA hpa
      unfold CAutoVersion.ParseControlFile at hpa ⊢
      rw [hfsA2] at hpa
      rw [hfs2]
      simp only at hpa ⊢
      exact loop_defined _ _ sA X e1 e2 e3 A B _ _ hX h1 h2 h3 hA hB hdef hs hpa (by
        simp only [List.length_append, ifLine, List.length_cons]; omega)
    refine ⟨fwd, ?_⟩
    intro s hp
    have hex : ∃ sA,
        (CAutoVersion.init ctl defines interactive).ParseControlFile fsA = .ok () sA := by
      unfold CAutoVersion.ParseControlFile at hp ⊢
      rw [hfs2] at hp
      rw [hfsA2]
      simp only at hp ⊢
      exact loop_defined_back _ _ s X e1 _ A _ _ hX h1 hA hdef hs2 hp (by omega)
    obtain ⟨sA, hpa⟩ := hex
    obtain ⟨s2, hp2, hsp⟩ := fwd sA hpa
    rw [hp] at hp2
    simp only [Res.ok.injEq, true_and] at hp2
    subst hp2
    exact ⟨sA, hpa, hsp⟩
  · intro hnd fs fsB hfs hfsB
    have hfs2 : fs (CAutoVersion.init ctl defines interactive).m_strControlFile = some _ := hfs
    have hfsB2 : fsB (CAutoVersion.init ctl defines interactive).m_strControlFile = some _ :=
      hfsB
    have hs : SameProgram
        { CAutoVersion.init ctl defines interactive with m_pBuffer := linesText B }
        { CAutoVersion.init ctl defines interactive with
          m_pBuffer := ifLine X e1 ++ (linesText A ++ (elseLine e2 ++
            (linesText B ++ endLine e3))) } := ⟨rfl, rfl, rfl, rfl, rfl⟩
    have hs2 : SameProgram
        { CAutoVersion.init ctl defines interactive with
          m_pBuffer := ifLine X e1 ++ (linesText A ++ (elseLine e2 ++
            (linesText B ++ endLine e3))) }
        { CAutoVersion.init ctl defines interactive with m_pBuffer := linesText B } :=
      ⟨rfl, rfl, rfl, rfl, rfl⟩
    have fwd : ∀ sB,
        (CAutoVersion.init ctl defines interactive).ParseControlFile fsB = .ok () sB →
        ∃ s, (CAutoVersion.init ctl defines interactive).ParseControlFile fs = .ok () s ∧
          SameProgram sB s := by
      intro sB hpb
      unfold CAutoVersion.ParseControlFile at hpb ⊢
      rw [hfsB2] at hpb
      rw [hfs2]
      simp only at hpb ⊢
      exact loop_undefined _ _ sB X e1 e2 e3 A B _ _ hX h1 h2 h3 hA hB hnd hs hpb (by
        simp only [List.length_append, ifLine, List.length_cons]; omega)
    refine ⟨fwd, ?_⟩
    intro s hp
    have hex : ∃ sB,
        (CAutoVersion.init ctl defines interactive).ParseControlFile fsB = .ok () sB := by
      unfold CAutoVersion.ParseControlFile at hp ⊢
      rw [hfs2] at hp
      rw [hfsB2]
      simp only at hp ⊢
      exact loop_undefined_back _ _ s X e1 e2 e3 A B _ _ hX h1 h2 hA hB hnd hs2 hp
        (by omega)
    obtain ⟨sB, hpb⟩ := hex
    obtain ⟨s2, hp2, hsp⟩ := fwd sB hpb
    rw [hp] at hp2
    simp only [Res.ok.injEq, true_and] at hp2
    subst hp2
    exact ⟨sB, hpb, hsp⟩
  · intro hnd fs fsE hfs hfsE
    have hfs2 : fs (CAutoVersion.init ctl defines interactive).m_strControlFile = some _ := hfs
    have hfsE2 : fsE (CAutoVersion.init ctl defines interactive).m_strControlFile = some _ :=
      hfsE
    obtain ⟨s, hp, hsp⟩ := loop_skipped
      { CAutoVersion.init ctl defines interactive with
        m_pBuffer := ifLine X e1 ++ (linesText A ++ endLine e3) }
      X e1 e3 A ((ifLine X e1 ++ (linesText A ++ endLine e3)).length + 1) hX h1 h3 hA hnd
      (by simp only [List.length_append, ifLine, List.length_cons]; omega)
    refine ⟨s, { CAutoVersion.init ctl defines interactive with m_pBuffer := [] }, ?_, ?_, ?_⟩
    · unfold CAutoVersion.ParseControlFile
      rw [hfs2]
      exact hp
    · unfold CAutoVersion.ParseControlFile
      rw [hfsE2]
      rfl
    · exact ⟨hsp.1, hsp.2.1, hsp.2.2.1, hsp.2.2.2.1, hsp.2.2.2.2⟩

/-- C18 on the control file `%if REL`, `@V "2.0"`, `&"app.h" "1.9" @V` (ended by carriage
return and line feed), `%else` (the same line end), `!hello`, `@W "3"`, `%end`.  With
`REL` defined the parse gives the constant `V` and no message, the same program as the
first two lines alone; with no define it gives the constant `W` and the message `hello`,
the same program as the last two lines alone; without the `%else` part and with no
define it gives the program of the empty file. -/
theorem C18_conditional_selects_branch_witness :
    (IsIdent (bytes "REL") ∧ IsEol [10] ∧ IsEol [13, 10] ∧
      (∀ l ∈ exLinesA, IsLine l ∧ IsPlain l) ∧ (∀ l ∈ exLinesB, IsLine l ∧ IsPlain l)) ∧
    (((CAutoVersion.init (bytes "ctl") [bytes "REL"] false).ParseControlFile
        (fsOf [(bytes "ctl", ifLine (bytes "REL") [10] ++ (linesText exLinesA ++
          (elseLine [13, 10] ++ (linesText exLinesB ++ endLine [10]))))])
        ).state.m_mapConstantDefs = [(bytes "V", bytes "2.0")] ∧
      ((CAutoVersion.init (bytes "ctl") [bytes "REL"] false).ParseControlFile
        (fsOf [(bytes "ctl", ifLine (bytes "REL") [10] ++ (linesText exLinesA ++
          (elseLine [13, 10] ++ (linesText exLinesB ++ endLine [10]))))])
        ).state.m_listMessages = [] ∧
      ((CAutoVersion.init (bytes "ctl") [] false).ParseControlFile
        (fsOf [(bytes "ctl", ifLine (bytes "REL") [10] ++ (linesText exLinesA ++
          (elseLine [13, 10] ++ (linesText exLinesB ++ endLine [10]))))])
        ).state.m_mapConstantDefs = [(bytes "W", bytes "3")] ∧
      ((CAutoVersion.init (bytes "ctl") [] false).ParseControlFile
        (fsOf [(bytes "ctl", ifLine (bytes "REL") [10] ++ (linesText exLinesA ++
          (elseLine [13, 10] ++ (linesText exLinesB ++ endLine [10]))))])
        ).state.m_listMessages = [bytes "hello"]) ∧
    (∃ s, (CAutoVersion.init (bytes "ctl") [bytes "REL"] false).ParseControlFile
        (fsOf [(bytes "ctl", ifLine (bytes "REL") [10] ++ (linesText exLinesA ++
          (elseLine [13, 10] ++ (linesText exLinesB ++ endLine [10]))))]) = .ok () s ∧
      SameProgram ((CAutoVersion.init (bytes "ctl") [bytes "REL"] false).ParseControlFile
        (fsOf [(bytes "ctl", linesText exLinesA)])).state s) ∧
    (∃ s, (CAutoVersion.init (bytes "ctl") [] false).ParseControlFile
        (fsOf [(bytes "ctl", ifLine (bytes "REL") [10] ++ (linesText exLinesA ++
          (elseLine [13, 10] ++ (linesText exLinesB ++ endLine [10]))))]) = .ok () s ∧
      SameProgram ((CAutoVersion.init (bytes "ctl") [] false).ParseControlFile
        (fsOf [(bytes "ctl", linesText exLinesB)])).state s) ∧
    (∃ s sE, (CAutoVersion.init (bytes "ctl") [] false).ParseControlFile
        (fsOf [(bytes "ctl", ifLine (bytes "REL") [10] ++ (linesText exLinesA ++
          endLine [10]))]) = .ok () s ∧
      (CAutoVersion.init (bytes "ctl") [] false).ParseControlFile
        (fsOf [(bytes "ctl", [])]) = .ok () sE ∧ SameProgram sE s) :=
  ⟨⟨by unfold IsIdent; decide, by unfold IsEol; decide, by unfold IsEol; decide,
      by unfold IsLine IsPlain IsBody IsEol; decide,
      by unfold IsLine IsPlain IsBody IsEol; decide⟩,
    ⟨by decide, by decide, by decide, by decide⟩,
    ((C18_conditional_selects_branch (bytes "ctl") [bytes "REL"] false (bytes "REL")
      [10] [13, 10] [10] exLinesA exLinesB (by unfold IsIdent; decide)
      (by unfold IsEol; decide) (by unfold IsEol; decide) (by unfold IsEol; decide)
      (by unfold IsLine IsPlain IsBody IsEol; decide)
      (by unfold IsLine IsPlain IsBody IsEol; decide)).1 (by decide) _
      (fsOf [(bytes "ctl", linesText exLinesA)]) (by decide) (by decide)).1 _
      (res_ok_of_err_none _ (by decide)),
    ((C18_conditional_selects_branch (bytes "ctl") [] false (bytes "REL")
      [10] [13, 10] [10] exLinesA exLinesB (by unfold IsIdent; decide)
      (by unfold IsEol; decide) (by unfold IsEol; decide) (by unfold IsEol; decide)
      (by unfold IsLine IsPlain IsBody IsEol; decide)
      (by unfold IsLine IsPlain IsBody IsEol; decide)).2.1 (by decide) _
      (fsOf [(bytes "ctl", linesText exLinesB)]) (by decide) (by decide)).1 _
      (res_ok_of_err_none _ (by decide)),
    (C18_conditional_selects_branch (bytes "ctl") [] false (bytes "REL")
      [10] [13, 10] [10] exLinesA exLinesB (by unfold IsIdent; decide)
      (by unfold IsEol; decide) (by unfold IsEol; decide) (by unfold IsEol; decide)
      (by unfold IsLine IsPlain IsBody IsEol; decide)
      (by unfold IsLine IsPlain IsBody IsEol; decide)).2.2 (by decide) _
      (fsOf [(bytes "ctl", [])]) (by decide) (by decide)⟩

/-! ## Length limits of the scanner -/

theorem SkipWhiteSpaces_blanks : ∀ (ws q : List Nat), IsBlanks ws →
    q.headD 0 ≠ 32 ∧ q.headD 0 ≠ 9 → SkipWhiteSpaces (ws ++ q) = q := by
  intro ws
  induction ws with
  | nil => intro q _ hq; exact SkipWhiteSpaces_stop q hq
  | cons a ws ih =>
    intro q hws hq
    have ha := hws a (List.mem_cons_self _ _)
    rw [List.cons_append, SkipWhiteSpaces, if_pos ha]
    exact ih q (fun c hc => hws c (List.mem_cons_of_mem _ hc)) hq

theorem GetIdentifierLoop_long (l : Nat) (r : List Nat) :
    ∀ (N acc : List Nat), IsRun N → 256 ≤ (acc ++ N).length → acc.length ≤ 255 →
      GetIdentifierLoop l (N ++ r) acc = .error (.parse .nameTooLong l) := by
  intro N
  induction N with
  | nil =>
    intro acc _ h1 h2
    simp only [List.append_nil] at h1
    omega
  | cons c N ih =>
    intro acc hN h1 h2
    have hc := hN c (List.mem_cons_self _ _)
    rw [List.cons_append, GetIdentifierLoop, if_pos hc]
    by_cases hlen : (acc ++ [c]).length ≥ 256
    · rw [if_pos hlen]
    · rw [if_neg hlen]
      exact ih (acc ++ [c]) (fun x hx => hN x (List.mem_cons_of_mem _ hx))
        (by simp only [List.length_append, List.length_cons, List.length_nil] at h1 ⊢; omega)
        (by simp only [List.length_append, List.length_cons, List.length_nil] at hlen ⊢; omega)

theorem IsRun.head_not_blank {run : List Nat} (h : IsRun run) (hne : run ≠ []) (rest : List Nat) :
    (run ++ rest).headD 0 ≠ 32 ∧ (run ++ rest).headD 0 ≠ 9 := by
  cases run with
  | nil => exact absurd rfl hne
  | cons a run =>
    have := h a (List.mem_cons_self _ _)
    simp only [List.cons_append, List.headD_cons]
    omega

/-- The three outcomes of `GetIdentifier` on blanks, a run and a rest. -/
theorem GetIdentifier_cases (ws run rest : List Nat) (line : Nat)
    (hws : IsBlanks ws) (hrun : IsRun run) (hrest : AtIdentEnd rest)
    (hmax : run = [] → rest.headD 0 ≠ 32 ∧ rest.headD 0 ≠ 9) :
    (1 ≤ run.length → run.length ≤ 255 →
      GetIdentifier (ws ++ run ++ rest) line = .ok (run, rest)) ∧
    (256 ≤ run.length →
      GetIdentifier (ws ++ run ++ rest) line = .error (.parse .nameTooLong line)) ∧
    (run = [] →
      GetIdentifier (ws ++ run ++ rest) line = .error (.parse .expectedIdentifier line)) := by
  refine ⟨?_, ?_, ?_⟩
  · intro h1 h2
    have hne : run ≠ [] := by
      intro h; rw [h] at h1; simp at h1
    unfold GetIdentifier
    rw [List.append_assoc, SkipWhiteSpaces_blanks ws _ hws (hrun.head_not_blank hne rest),
      GetIdentifierLoop_read line rest hrest run [] hrun (by simpa using h2)]
    simp only [List.nil_append]
    rw [if_neg (by omega)]
  · intro h1
    have hne : run ≠ [] := by
      intro h; rw [h] at h1; simp at h1
    unfold GetIdentifier
    rw [List.append_assoc, SkipWhiteSpaces_blanks ws _ hws (hrun.head_not_blank hne rest),
      GetIdentifierLoop_long line rest run [] hrun (by simpa using h1) (by simp)]
  · intro h0
    subst h0
    unfold GetIdentifier
    rw [List.append_nil, SkipWhiteSpaces_blanks ws _ hws (hmax rfl),
      GetIdentifierLoop_stop line rest [] hrest]
    simp

/-- C23. Identifier extraction and its limit, as the code has it.  The text is blanks, a
run of bytes none of which is a NUL, a space, a tab, a line feed or a carriage return, and
a rest that starts with one of those (or is the end of the buffer).  `GetIdentifier`
returns the run, with the cursor on the rest, when the run has between 1 and 255 bytes.
It fails with the length-exceeded error when the run has 256 bytes or more: the test
`i >= MaxIdentLen` fires as soon as the 256th byte is copied, so a run of exactly 256
bytes is rejected as well.  It fails with the expected-identifier error when the run is
empty. -/
theorem C23_identifier_limit (ws run rest : List Nat) (line : Nat)
    (hws : IsBlanks ws) (hrun : IsRun run) (hrest : AtIdentEnd rest)
    (hmax : run = [] → rest.headD 0 ≠ 32 ∧ rest.headD 0 ≠ 9) :
    (1 ≤ run.length → run.length ≤ 255 →
      GetIdentifier (ws ++ run ++ rest) line = .ok (run, rest)) ∧
    (256 ≤ run.length →
      GetIdentifier (ws ++ run ++ rest) line = .error (.parse .nameTooLong line)) ∧
    (run = [] →
      GetIdentifier (ws ++ run ++ rest) line = .error (.parse .expectedIdentifier line)) :=
  GetIdentifier_cases ws run rest line hws hrun hrest hmax

theorem isRun_replicate (n : Nat) : IsRun (List.replicate n 97) := by
  intro c hc
  rw [List.eq_of_mem_replicate hc]
  decide

/-- C23 at a run of 256 letters `a` after one space and before a line feed: the
length-exceeded error; at 255 letters the run is returned; at a line feed alone the
expected-identifier error. -/
theorem C23_identifier_limit_witness :
    (IsBlanks [32] ∧ IsRun (List.replicate 256 97) ∧ IsRun (List.replicate 255 97) ∧
      AtIdentEnd [10]) ∧
    GetIdentifier ([32] ++ List.replicate 256 97 ++ [10]) 7 = .error (.parse .nameTooLong 7) ∧
    GetIdentifier ([32] ++ List.replicate 255 97 ++ [10]) 7
      = .ok (List.replicate 255 97, [10]) ∧
    GetIdentifier ([32] ++ [] ++ [10]) 7 = .error (.parse .expectedIdentifier 7) :=
  ⟨⟨by unfold IsBlanks; decide, isRun_replicate 256, isRun_replicate 255,
      by unfold AtIdentEnd; decide⟩,
    (C23_identifier_limit [32] (List.replicate 256 97) [10] 7 (by unfold IsBlanks; decide)
      (isRun_replicate 256) (by unfold AtIdentEnd; decide)
      (fun h => absurd (congrArg List.length h) (by rw [List.length_replicate]; decide))).2.1
      (List.length_replicate 256 97).ge,
    (C23_identifier_limit [32] (List.replicate 255 97) [10] 7 (by unfold IsBlanks; decide)
      (isRun_replicate 255) (by unfold AtIdentEnd; decide)
      (fun h => absurd (congrArg List.length h) (by rw [List.length_replicate]; decide))).1
      (by rw [List.length_replicate]; decide) (List.length_replicate 255 97).le,
    (C23_identifier_limit [32] [] [10] 7 (by unfold IsBlanks; decide)
      (by unfold IsRun; decide) (by unfold AtIdentEnd; decide)
      (fun _ => by decide)).2.2 rfl⟩

/-! ## Messages -/

theorem ParseMessageLoop_stop (l : Nat) (r acc : List Nat)
    (h : r.headD 0 = 0 ∨ r.headD 0 = 10 ∨ r.headD 0 = 13) :
    ParseMessageLoop l r acc = .ok (acc, r) := by
  cases r with
  | nil => rfl
  | cons a r =>
    simp only [List.headD_cons] at h
    rw [ParseMessageLoop, if_neg (by omega)]

theorem ParseMessageLoop_read (l : Nat) (r : List Nat)
    (hr : r.headD 0 = 0 ∨ r.headD 0 = 10 ∨ r.headD 0 = 13) :
    ∀ (t acc : List Nat), IsBody t → (acc ++ t).length ≤ 2047 →
      ParseMessageLoop l (t ++ r) acc = .ok (acc ++ t, r) := by
  intro t
  induction t with
  | nil =>
    intro acc _ _
    rw [List.nil_append, List.append_nil]
    exact ParseMessageLoop_stop l r acc hr
  | cons c t ih =>
    intro acc ht hlen
    have hc := ht c (List.mem_cons_self _ _)
    rw [List.cons_append, ParseMessageLoop, if_pos hc, if_neg (by
      simp only [List.length_append, List.length_cons, List.length_nil] at hlen ⊢; omega)]
    rw [ih (acc ++ [c]) (fun x hx => ht x (List.mem_cons_of_mem _ hx)) (by
      simp only [List.length_append, List.length_cons, List.length_nil] at hlen ⊢; omega)]
    simp

theorem ParseMessageLoop_long (l : Nat) (r : List Nat) :
    ∀ (t acc : List Nat), IsBody t → 2048 ≤ (acc ++ t).length → acc.length ≤ 2047 →
      ParseMessageLoop l (t ++ r) acc = .error (.parse .messageTooLong l) := by
  intro t
  induction t with
  | nil =>
    intro acc _ h1 h2
    simp only [List.append_nil] at h1
    omega
  | cons c t ih =>
    intro acc ht h1 h2
    have hc := ht c (List.mem_cons_self _ _)
    rw [List.cons_append, ParseMessageLoop, if_pos hc]
    by_cases hlen : (acc ++ [c]).length ≥ 2048
    · rw [if_pos hlen]
    · rw [if_neg hlen]
      exact ih (acc ++ [c]) (fun x hx => ht x (List.mem_cons_of_mem _ hx))
        (by simp only [List.length_append, List.length_cons, List.length_nil] at h1 ⊢; omega)
        (by simp only [List.length_append, List.length_cons, List.length_nil] at hlen ⊢; omega)

/-- C24. Messages are stored verbatim, up to the limit the code has.  The line is `!`
followed by the text `t`, which holds no NUL, line feed or carriage return, and `rest`
starts with one of those (or is the end of the buffer).  The dispatch on `!` calls
`ParseMessage` on `t`.  When `t` has at most 2047 bytes, `ParseMessage` appends exactly
`t` as the last message, leaves the earlier messages and everything else unchanged, and
leaves the cursor on `rest`.  When `t` has 2048 bytes or more it throws the
message-too-long parse error: the test `i >= MaxIdentLen` fires as soon as the 2048th
byte is copied, so a text of exactly 2048 bytes is rejected as well. -/
theorem C24_message_verbatim (s : CAutoVersion) (t rest : List Nat)
    (ht : IsBody t) (hrest : rest.headD 0 = 0 ∨ rest.headD 0 = 10 ∨ rest.headD 0 = 13) :
    s.ParseDispatch (33 :: (t ++ rest)) = s.ParseMessage (t ++ rest) ∧
    (t.length ≤ 2047 →
      s.ParseMessage (t ++ rest)
        = .ok rest { s with m_listMessages := s.m_listMessages ++ [t] }) ∧
    (2048 ≤ t.length →
      s.ParseMessage (t ++ rest) = .throw (.parse .messageTooLong s.m_nCurrentLine) s) := by
  refine ⟨ParseDispatch_33 s _, ?_, ?_⟩
  · intro h
    unfold CAutoVersion.ParseMessage
    rw [ParseMessageLoop_read _ rest hrest t [] ht (by simpa using h)]
    simp
  · intro h
    unfold CAutoVersion.ParseMessage
    rw [ParseMessageLoop_long _ rest t [] ht (by simpa using h) (by simp)]

theorem isBody_replicate (n : Nat) : IsBody (List.replicate n 97) := by
  intro c hc
  rw [List.eq_of_mem_replicate hc]
  decide

/-- C24 at a text of 2048 letters `a` before a line feed: the message-too-long error at
the current line, and nothing is stored; at 2047 letters the text is appended after the
earlier message `hi`; the text ` # x` is stored with its blank and its `#`. -/
theorem C24_message_verbatim_witness :
    (IsBody (List.replicate 2048 97) ∧ IsBody (List.replicate 2047 97) ∧
      IsBody (bytes " # x")) ∧
    { CAutoVersion.new with m_listMessages := [bytes "hi"] }.ParseMessage
        (List.replicate 2048 97 ++ [10])
      = .throw (.parse .messageTooLong 1)
          { CAutoVersion.new with m_listMessages := [bytes "hi"] } ∧
    { CAutoVersion.new with m_listMessages := [bytes "hi"] }.ParseMessage
        (List.replicate 2047 97 ++ [10])
      = .ok [10] { CAutoVersion.new with
          m_listMessages := [bytes "hi"] ++ [List.replicate 2047 97] } ∧
    CAutoVersion.new.ParseMessage (bytes " # x" ++ [13, 10])
      = .ok [13, 10] { CAutoVersion.new with m_listMessages := [] ++ [bytes " # x"] } :=
  ⟨⟨isBody_replicate 2048, isBody_replicate 2047, by unfold IsBody; decide⟩,
    (C24_message_verbatim { CAutoVersion.new with m_listMessages := [bytes "hi"] }
      (List.replicate 2048 97) [10] (isBody_replicate 2048) (by decide)).2.2
      (List.length_replicate 2048 97).ge,
    (C24_message_verbatim { CAutoVersion.new with m_listMessages := [bytes "hi"] }
      (List.replicate 2047 97) [10] (isBody_replicate 2047) (by decide)).2.1
      (List.length_replicate 2047 97).le,
    (C24_message_verbatim CAutoVersion.new (bytes " # x") [13, 10]
      (by unfold IsBody; decide) (by decide)).2.1 (by decide)⟩

/-! ## Sizes of the parsed strings -/

/-- C28. Parser invariant on string sizes.  After `ParseControlFile` has accepted a
control file, every constant value, every target file name, and the `what` and the
`with` of every directive is a literal value (`LitOk`): not empty, at most 255 bytes
long, and without NUL, line feed or carriage return. -/
theorem C28_parser_string_sizes (ctl : List Nat) (defines : List (List Nat))
    (interactive : Bool) (fs : FS) (s : CAutoVersion)
    (h : (CAutoVersion.init ctl defines interactive).ParseControlFile fs = .ok () s) :
    (∀ kv ∈ s.m_mapConstantDefs, LitOk kv.2) ∧
    (∀ kv ∈ s.m_mapFiles, LitOk kv.1 ∧
      ∀ r ∈ kv.2.m_listReplacements, LitOk r.m_strWhat ∧ LitOk r.m_strWith) := by
  obtain ⟨hp, _⟩ := ParseControlFile_inv _ _ _ h (init_Parsed ctl defines interactive)
  refine ⟨hp.2.1, ?_⟩
  intro kv hkv
  obtain ⟨h1, h2⟩ := hp.2.2.1 kv hkv
  exact ⟨h1, fun r hr => ⟨(h2.2.2 r hr).1, (h2.2.2 r hr).2.1⟩⟩

/-- C28 on the control file `ctlRound` (two constants, one of them with an escaped double
quote, and two directives): the parse succeeds and the sizes are as stated; the value
read for `Q` is the three bytes `a"b`. -/
theorem C28_parser_string_sizes_witness :
    ((CAutoVersion.init (bytes "ctl") [] false).ParseControlFile fsRound).err = none ∧
    ((CAutoVersion.init (bytes "ctl") [] false).ParseControlFile fsRound
      ).state.m_mapConstantDefs = [(bytes "V", bytes "2.0"), (bytes "Q", bytes "a\"b")] ∧
    ((∀ kv ∈ ((CAutoVersion.init (bytes "ctl") [] false).ParseControlFile fsRound
        ).state.m_mapConstantDefs, LitOk kv.2) ∧
     (∀ kv ∈ ((CAutoVersion.init (bytes "ctl") [] false).ParseControlFile fsRound
        ).state.m_mapFiles, LitOk kv.1 ∧
        ∀ r ∈ kv.2.m_listReplacements, LitOk r.m_strWhat ∧ LitOk r.m_strWith)) :=
  ⟨by decide, by decide,
    C28_parser_string_sizes (bytes "ctl") [] false fsRound _
      (res_ok_of_err_none _ (by decide))⟩

/-! ## The substitution loops end -/

theorem DoReplaceStep_decreases (what w : List Nat) (hne : what ≠ []) (c : ReplaceCursor)
    (h : c.pos + what.length ≤ c.buf.length) :
    (DoReplaceStep what w c).buf.length - (DoReplaceStep what w c).pos
      < c.buf.length - c.pos := by
  have hwl : 0 < what.length := List.length_pos.mpr hne
  unfold DoReplaceStep
  split
  · simp only [List.length_append, List.length_take, List.length_drop]
    omega
  · simp only
    omega

theorem DoReplaceLoop_terminates (what w : List Nat) (hne : what ≠ []) :
    ∀ (fuel : Nat) (c : ReplaceCursor), c.buf.length - c.pos < fuel →
      (DoReplaceLoop what w fuel c).isSome = true := by
  intro fuel
  induction fuel with
  | zero => intro c h; omega
  | succ fuel ih =>
    intro c h
    unfold DoReplaceLoop
    by_cases hc : c.pos + what.length ≤ c.buf.length
    · rw [if_pos hc]
      have := DoReplaceStep_decreases what w hne c hc
      exact ih _ (by omega)
    · rw [if_neg hc]
      rfl

theorem FindReplaceLoop_succ (source pattern replace : List Nat) (fuel j : Nat)
    (newstr : List Nat) :
    FindReplaceLoop source pattern replace (fuel + 1) j newstr =
      if j + pattern.length ≤ source.length then
        if (source.drop j).take pattern.length = pattern then
          FindReplaceLoop source pattern replace fuel (j + pattern.length) (newstr ++ replace)
        else
          FindReplaceLoop source pattern replace fuel (j + 1) (newstr ++ [source.getD j 0])
      else some newstr := rfl

theorem FindReplaceLoop_terminates (source pattern replace : List Nat) (hne : pattern ≠ []) :
    ∀ (fuel j : Nat) (newstr : List Nat), source.length - j < fuel →
      (FindReplaceLoop source pattern replace fuel j newstr).isSome = true := by
  have hpl : 0 < pattern.length := List.length_pos.mpr hne
  intro fuel
  induction fuel with
  | zero => intro j ns h; omega
  | succ fuel ih =>
    intro j ns h
    rw [FindReplaceLoop_succ]
    by_cases hc : j + pattern.length ≤ source.length
    · rw [if_pos hc]
      split
      · exact ih _ _ (by omega)
      · exact ih _ _ (by omega)
    · rw [if_neg hc]
      rfl

/-- C29. Termination of the substitution loops, for a non-empty `what` (pattern) and any
`with` (replacement), the empty one and one that contains `what` included.  In
`CReplace::DoReplace` every iteration of the loop, that is every step taken while
`pos + what_len <= size` holds, makes `size - pos` strictly smaller; so the loop ends
within `size - pos + 1` tests of its condition, and `DoReplace` returns.  In `FindReplace`
an iteration taken while `j + pattern.length() <= source.length()` holds goes on with a
larger `j`, so `source.length() - j` gets strictly smaller; the loop ends and
`FindReplace` returns. -/
theorem C29_substitution_loops_terminate (what with_ : List Nat) (hne : what ≠ []) :
    (∀ c : ReplaceCursor, c.pos + what.length ≤ c.buf.length →
      (DoReplaceStep what with_ c).buf.length - (DoReplaceStep what with_ c).pos
        < c.buf.length - c.pos) ∧
    (∀ (c : ReplaceCursor) (fuel : Nat), c.buf.length - c.pos < fuel →
      ∃ c2, DoReplaceLoop what with_ fuel c = some c2) ∧
    (∀ (r : CReplace) (buf : List Nat), r.m_strWhat = what → r.m_strWith = with_ →
      ∃ out r2 k, r.DoReplace buf = .ok (out, r2, k)) ∧
    (∀ (source : List Nat) (fuel j : Nat) (newstr : List Nat),
      j + what.length ≤ source.length →
      FindReplaceLoop source what with_ (fuel + 1) j newstr =
        FindReplaceLoop source what with_ fuel
          (if (source.drop j).take what.length = what then j + what.length else j + 1)
          (if (source.drop j).take what.length = what then newstr ++ with_
            else newstr ++ [source.getD j 0]) ∧
      source.length -
          (if (source.drop j).take what.length = what then j + what.length else j + 1)
        < source.length - j) ∧
    (∀ source : List Nat, ∃ out, FindReplace source what with_ = some out) := by
  have hwl : 0 < what.length := List.length_pos.mpr hne
  refine ⟨DoReplaceStep_decreases what with_ hne, ?_, ?_, ?_, ?_⟩
  · intro c fuel h
    exact Option.isSome_iff_exists.mp (DoReplaceLoop_terminates what with_ hne fuel c h)
  · intro r buf h1 h2
    unfold CReplace.DoReplace
    by_cases hm : r.m_bMustReplace = true
    · rw [if_pos hm, h1, h2]
      obtain ⟨c2, hc2⟩ := Option.isSome_iff_exists.mp
        (DoReplaceLoop_terminates what with_ hne (buf.length + 1) ⟨buf, 0, 0⟩
          (by show buf.length - 0 < buf.length + 1; omega))
      rw [hc2]
      exact ⟨_, _, _, rfl⟩
    · rw [if_neg hm]
      exact ⟨_, _, _, rfl⟩
  · intro source fuel j newstr hj
    refine ⟨?_, ?_⟩
    · rw [FindReplaceLoop_succ, if_pos hj]
      split <;> rfl
    · split <;> omega
  · intro source
    exact Option.isSome_iff_exists.mp
      (FindReplaceLoop_terminates source what with_ hne (source.length + 1) 0 [] (by omega))

/-- C29 at `what = "a"`: with the empty `with` each step on the buffer `aab` shortens the
distance, with `with = "aa"` the loop on `aaa` ends with `aaaaaa`, and `FindReplace` of
`a` by `aa` in `aaa` returns. -/
theorem C29_substitution_loops_terminate_witness :
    ([97] : List Nat) ≠ [] ∧
    (DoReplaceStep [97] [] ⟨[97, 97, 98], 0, 0⟩).buf.length
        - (DoReplaceStep [97] [] ⟨[97, 97, 98], 0, 0⟩).pos < 3 - 0 ∧
    (∃ out r2 k, dirA.DoReplace [97, 97, 97] = .ok (out, r2, k)) ∧
    dirA.DoReplace [97, 97, 97]
      = .ok ([97, 97, 97, 97, 97, 97], { dirA with m_bDidReplace := true }, 3) ∧
    (∃ out, FindReplace [97, 97, 97] [97] [97, 97] = some out) ∧
    FindReplace [97, 97, 97] [97] [97, 97] = some [97, 97, 97, 97, 97, 97] :=
  ⟨by decide,
    (C29_substitution_loops_terminate [97] [] (by decide)).1 ⟨[97, 97, 98], 0, 0⟩ (by decide),
    (C29_substitution_loops_terminate [97] [97, 97] (by decide)).2.2.1 dirA [97, 97, 97]
      rfl rfl,
    by decide,
    (C29_substitution_loops_terminate [97] [97, 97] (by decide)).2.2.2.2 [97, 97, 97],
    by decide⟩

/-! ## FindReplace against the apply-phase substitution -/

theorem applyInOrder_cons (r : CReplace) (rs : List CReplace) (buf : List Nat) :
    applyInOrder (r :: rs) buf =
      applyInOrder rs
        (if r.m_bMustReplace = true then onePass r.m_strWhat r.m_strWith buf else buf) := rfl

theorem DoReplaceAll_fold : ∀ (rs : List CReplace) (buf : List Nat),
    (∀ r ∈ rs, r.m_bMustReplace = true → r.m_strWhat ≠ [] ∧ NoNul r.m_strWhat) →
    ∃ rs2, DoReplaceAll rs buf = (rs2, .ok (applyInOrder rs buf)) := by
  intro rs
  induction rs with
  | nil => intro buf _; exact ⟨[], rfl⟩
  | cons r rs ih =>
    intro buf h
    have hrs : ∀ x ∈ rs, x.m_bMustReplace = true → x.m_strWhat ≠ [] ∧ NoNul x.m_strWhat :=
      fun x hx => h x (List.mem_cons_of_mem _ hx)
    by_cases hm : r.m_bMustReplace = true
    · obtain ⟨h1, h2⟩ := h r (List.mem_cons_self _ _) hm
      obtain ⟨rs2, hrs2⟩ := ih (onePass r.m_strWhat r.m_strWith buf) hrs
      refine ⟨{ r with m_bDidReplace := true } :: rs2, ?_⟩
      rw [DoReplaceAll, DoReplace_spec r buf hm h1 h2]
      simp only
      rw [hrs2, applyInOrder_cons, if_pos hm]
    · have hm2 : r.m_bMustReplace = false := by
        cases hb : r.m_bMustReplace with
        | true => exact absurd hb hm
        | false => rfl
      obtain ⟨rs2, hrs2⟩ := ih buf hrs
      refine ⟨r :: rs2, ?_⟩
      rw [DoReplaceAll, DoReplace_skip r buf hm2]
      simp only
      rw [hrs2, applyInOrder_cons, if_neg hm]

theorem DoReplacments_fold (n : CFileNode) (fs : FS) (path buf : List Nat)
    (hm : n.m_bMustReplace = true) (hfs : fs path = some buf)
    (h : ∀ r ∈ n.m_listReplacements,
      r.m_bMustReplace = true → r.m_strWhat ≠ [] ∧ NoNul r.m_strWhat) :
    ∃ n2, n.DoReplacments fs path =
      .ok () (n2, (fs.write (path ++ avbak) buf).write path
        (applyInOrder n.m_listReplacements buf)) := by
  obtain ⟨rs2, hrs2⟩ := DoReplaceAll_fold n.m_listReplacements buf h
  refine ⟨{ n with m_listReplacements := rs2, m_bDidReplace := true }, ?_⟩
  unfold CFileNode.DoReplacments
  rw [if_pos hm, hfs]
  simp only
  rw [hrs2]
  simp only [Backup, hfs]

/-! ## Directives that are apart commute -/

theorem CReplace.Apart.symm {a b : CReplace} (h : a.Apart b) : b.Apart a := ⟨h.2, h.1⟩

theorem mapFind_cons {β : Type} (a : List Nat) (v : β) (m : List (List Nat × β))
    (k : List Nat) : mapFind ((a, v) :: m) k = if a = k then some v else mapFind m k := by
  unfold mapFind
  by_cases h : a = k
  · simp [List.find?_cons, h]
  · simp [List.find?_cons, h]

theorem mapFind_addTo (name : List Nat) (d : CReplace) :
    ∀ (files : List (List Nat × CFileNode)) (k : List Nat),
      mapFind (files.map (fun kv => if kv.1 = name then (kv.1, kv.2.Add d) else kv)) k
        = (mapFind files k).map (fun v => if k = name then v.Add d else v) := by
  intro files
  induction files with
  | nil => intro k; rfl
  | cons kv files ih =>
    intro k
    obtain ⟨a, v⟩ := kv
    rw [List.map_cons, mapFind_cons a v files k]
    by_cases hn : a = name
    · rw [if_pos hn, mapFind_cons]
      by_cases hk : a = k
      · rw [if_pos hk, if_pos hk, Option.map_some', if_pos (hk ▸ hn)]
      · rw [if_neg hk, if_neg hk]
        exact ih k
    · rw [if_neg hn, mapFind_cons]
      by_cases hk : a = k
      · rw [if_pos hk, if_pos hk, Option.map_some', if_neg (hk ▸ hn)]
      · rw [if_neg hk, if_neg hk]
        exact ih k

theorem addReplacement_find (files : List (List Nat × CFileNode)) (name : List Nat)
    (d : CReplace) :
    (mapFind (addReplacement files name d) name).map (fun v => v.m_listReplacements)
      = some (((mapFind files name).map (fun v => v.m_listReplacements)).getD [] ++ [d]) ∧
    ∀ k, k ≠ name → mapFind (addReplacement files name d) k = mapFind files k := by
  unfold addReplacement
  cases hf : mapFind files name with
  | none =>
    simp only
    refine ⟨?_, ?_⟩
    · rw [mapFind_append_new files name _ hf]
      rfl
    · intro k hk
      exact mapFind_append_other files k name _ hk
  | some v =>
    simp only
    refine ⟨?_, ?_⟩
    · rw [mapFind_addTo, hf]
      simp [CFileNode.Add]
    · intro k hk
      rw [mapFind_addTo]
      cases mapFind files k with
      | none => rfl
      | some w => simp [hk]

theorem ParseReplacement_appends (t t2 : CAutoVersion) (op : EReplaceOp) (p q : List Nat)
    (h : t.ParseReplacement op p = .ok q t2) :
    ∃ name d, t.ReadReplacement op p = .ok (name, d, q) ∧
      t2.m_mapFiles = addReplacement t.m_mapFiles name d := by
  unfold CAutoVersion.ParseReplacement at h
  split at h
  · cases h
  · rename_i name d q2 hr
    simp only [Res.ok.injEq] at h
    obtain ⟨rfl, rfl⟩ := h
    exact ⟨name, d, hr, rfl⟩

theorem addReplacement_ascend (files : List (List Nat × CFileNode)) (name : List Nat)
    (d : CReplace) (bound : Nat)
    (h : ∀ kv ∈ files,
      (kv.2.m_listReplacements.map (fun r => r.m_nControlFilePos)).Pairwise (· < ·) ∧
      ∀ r ∈ kv.2.m_listReplacements, r.m_nControlFilePos ≤ bound)
    (hd : bound < d.m_nControlFilePos) :
    ∀ kv ∈ addReplacement files name d,
      (kv.2.m_listReplacements.map (fun r => r.m_nControlFilePos)).Pairwise (· < ·) ∧
      ∀ r ∈ kv.2.m_listReplacements, r.m_nControlFilePos ≤ d.m_nControlFilePos := by
  have hnew : ∀ n : CFileNode,
      ((n.m_listReplacements.map (fun r => r.m_nControlFilePos)).Pairwise (· < ·) ∧
        ∀ r ∈ n.m_listReplacements, r.m_nControlFilePos ≤ bound) →
      (((n.Add d).m_listReplacements.map (fun r => r.m_nControlFilePos)).Pairwise (· < ·) ∧
        ∀ r ∈ (n.Add d).m_listReplacements, r.m_nControlFilePos ≤ d.m_nControlFilePos) := by
    intro n hn
    simp only [CFileNode.Add, List.map_append, List.map_cons, List.map_nil,
      List.pairwise_append, List.mem_append, List.mem_singleton, List.mem_map]
    refine ⟨⟨hn.1, List.pairwise_singleton _ _, ?_⟩, ?_⟩
    · rintro a ⟨r, hr, rfl⟩ b rfl
      have := hn.2 r hr
      omega
    · rintro r (hr | rfl)
      · have := hn.2 r hr
        omega
      · exact Nat.le_refl _
  have hold : ∀ kv ∈ files,
      (kv.2.m_listReplacements.map (fun r => r.m_nControlFilePos)).Pairwise (· < ·) ∧
      ∀ r ∈ kv.2.m_listReplacements, r.m_nControlFilePos ≤ d.m_nControlFilePos := by
    intro kv hkv
    refine ⟨(h kv hkv).1, fun r hr => ?_⟩
    have := (h kv hkv).2 r hr
    omega
  intro kv hkv
  unfold addReplacement at hkv
  split at hkv
  · rw [List.mem_map] at hkv
    obtain ⟨kv0, hk0, rfl⟩ := hkv
    by_cases hn : kv0.1 = name
    · rw [if_pos hn]
      exact hnew kv0.2 (h kv0 hk0)
    · rw [if_neg hn]
      exact hold kv0 hk0
  · rw [List.mem_append, List.mem_singleton] at hkv
    rcases hkv with hk | rfl
    · exact hold kv hk
    · exact hnew CFileNode.new ⟨List.Pairwise.nil, fun r hr => absurd hr (List.not_mem_nil r)⟩

theorem ParseLoop_ascend : ∀ (f : Nat) (s s2 : CAutoVersion) (pre p : List Nat),
    CAutoVersion.ParseLoop f s p = .ok () s2 → s.Parsed → s.m_pBuffer = pre ++ p →
    (∀ kv ∈ s.m_mapFiles,
      (kv.2.m_listReplacements.map (fun r => r.m_nControlFilePos)).Pairwise (· < ·) ∧
      ∀ r ∈ kv.2.m_listReplacements, r.m_nControlFilePos ≤ pre.length) →
    ∀ kv ∈ s2.m_mapFiles,
      (kv.2.m_listReplacements.map (fun r => r.m_nControlFilePos)).Pairwise (· < ·) := by
  intro f
  induction f with
  | zero => intro s s2 pre p h; simp [CAutoVersion.ParseLoop] at h
  | succ f ih =>
    intro s s2 pre p h hs hbuf hinv
    rw [ParseLoop_succ] at h
    split at h
    · split at h
      · cases h
      · rename_i p1 s1 hline
        obtain ⟨hs1, hsame⟩ := ParseLine_inv _ _ _ _ hline hs
        have hb1 : s1.m_pBuffer = s.m_pBuffer := hsame.2.2.2.2
        obtain ⟨c, hc, _, hcase⟩ := ParseLine_sim _ _ _ _ hline hs
        have hinv1 : ∀ kv ∈ s1.m_mapFiles,
            (kv.2.m_listReplacements.map (fun r => r.m_nControlFilePos)).Pairwise (· < ·) ∧
            ∀ r ∈ kv.2.m_listReplacements, r.m_nControlFilePos ≤ (pre ++ c).length := by
          rcases hcase with ⟨hf, _⟩ | ⟨name, d, c1, lit, c2, hcc, hc1, _, _, hf, hpos, _⟩
          · rw [hf]
            intro kv hkv
            refine ⟨(hinv kv hkv).1, fun r hr => ?_⟩
            have := (hinv kv hkv).2 r hr
            simp only [List.length_append]
            omega
          · rw [hf]
            have hdpos : d.m_nControlFilePos = pre.length + c1.length := by
              rw [hpos, hbuf, hc, hcc]
              simp only [List.length_append]
              omega
            intro kv hkv
            obtain ⟨h1, h2⟩ := addReplacement_ascend s.m_mapFiles name d pre.length hinv
              (by omega) kv hkv
            refine ⟨h1, fun r hr => ?_⟩
            have := h2 r hr
            rw [hcc]
            simp only [List.length_append]
            omega
        exact ih s1 s2 (pre ++ c) p1 h hs1 (by rw [hb1, hbuf, hc]; simp) hinv1
    · simp only [Res.ok.injEq, true_and] at h
      subst h
      exact fun kv hkv => (hinv kv hkv).1

/-- C26.  Directives of one file are applied in declaration order.  After a successful
parse of the control file, whose content is the buffer `B`: there is one record per
file name; in every record the directives stand in the order of their recorded offsets,
strictly ascending, and each of them is recorded at the place of `B` where the `what`
literal of a directive line for that file name stands (`RecordedAt`), so the order in
the record is the order of the lines.  This comes from `ParseReplacement`, which appends
the directive it reads at the end of the record of its file name, a new record when
there is none, and leaves the other records as they are.  For a record flagged
`mustReplace` on an existing file with bytes `buf`, `CFileNode::DoReplacments` succeeds
and writes `applyInOrder` of the directives in the order of the record: starting from
`buf`, each directive flagged `mustReplace` runs its pass on the output of the ones
before it, and a directive not flagged leaves the bytes as they are; the backup holds
`buf`. -/
theorem C26_declaration_order (ctl : List Nat) (defines : List (List Nat))
    (interactive : Bool) (fs : FS) (s : CAutoVersion)
    (hparse : (CAutoVersion.init ctl defines interactive).ParseControlFile fs = .ok () s) :
    ((s.m_mapFiles.map Prod.fst).Nodup ∧
      ∀ kv ∈ s.m_mapFiles,
        (kv.2.m_listReplacements.map (fun r => r.m_nControlFilePos)).Pairwise (· < ·) ∧
        ∀ r ∈ kv.2.m_listReplacements, RecordedAt s.m_pBuffer kv.1 r) ∧
    (∀ (t t2 : CAutoVersion) (op : EReplaceOp) (p q : List Nat),
      t.ParseReplacement op p = .ok q t2 →
      ∃ name d, t.ReadReplacement op p = .ok (name, d, q) ∧
        (mapFind t2.m_mapFiles name).map (fun v => v.m_listReplacements)
          = some (((mapFind t.m_mapFiles name).map (fun v => v.m_listReplacements)).getD []
              ++ [d]) ∧
        ∀ k, k ≠ name → mapFind t2.m_mapFiles k = mapFind t.m_mapFiles k) ∧
    (∀ (n : CFileNode) (fs2 : FS) (path buf : List Nat),
      n.m_bMustReplace = true → fs2 path = some buf →
      (∀ r ∈ n.m_listReplacements,
        r.m_bMustReplace = true → r.m_strWhat ≠ [] ∧ NoNul r.m_strWhat) →
      ∃ n2 fs3, n.DoReplacments fs2 path = .ok () (n2, fs3) ∧
        fs3 path = some (applyInOrder n.m_listReplacements buf) ∧
        fs3 (path ++ avbak) = some buf) := by
  have hi := init_Parsed ctl defines interactive
  obtain ⟨hp, _, _, _, hsB⟩ := ParseControlFile_inv _ _ _ hparse hi
  have hsB2 : fs ctl = some s.m_pBuffer := hsB
  refine ⟨⟨hp.2.2.2, ?_⟩, ?_, ?_⟩
  · unfold CAutoVersion.ParseControlFile at hparse
    have hctl : (CAutoVersion.init ctl defines interactive).m_strControlFile = ctl := rfl
    rw [hctl, hsB2] at hparse
    simp only [] at hparse
    have h1 := ParseLoop_recorded _
      { CAutoVersion.init ctl defines interactive with m_pBuffer := s.m_pBuffer } s []
      s.m_pBuffer hparse hi rfl (fun kv hkv => absurd hkv (List.not_mem_nil kv))
    have h2 := ParseLoop_ascend _
      { CAutoVersion.init ctl defines interactive with m_pBuffer := s.m_pBuffer } s []
      s.m_pBuffer hparse hi rfl (fun kv hkv => absurd hkv (List.not_mem_nil kv))
    exact fun kv hkv => ⟨h2 kv hkv, h1 kv hkv⟩
  · intro t t2 op p q h
    obtain ⟨name, d, hr, hf⟩ := ParseReplacement_appends t t2 op p q h
    refine ⟨name, d, hr, ?_⟩
    rw [hf]
    exact addReplacement_find t.m_mapFiles name d
  · intro n fs2 path buf hm hfs hdir
    obtain ⟨n2, h⟩ := DoReplacments_fold n fs2 path buf hm hfs hdir
    refine ⟨n2, _, h, ?_, ?_⟩
    · simp [FS.write]
    · show (if path ++ avbak = path then _ else
        (if path ++ avbak = path ++ avbak then some buf else fs2 (path ++ avbak))) = some buf
      rw [if_neg (append_avbak_ne path), if_pos rfl]

/-- C26 on the control file `ctlInteract`, whose two directives name the same file `f`:
`&"f" "a" @X` on line 3 and `&"f" "x" @Y` on line 4.  The parse gives one record, with
the directive of line 3 (offset 20) before the one of line 4 (offset 32); the run on `f`
holding `ax` writes `yy`, which is `a` to `x` first and `x` to `y` on its output. -/
theorem C26_declaration_order_witness :
    (((CAutoVersion.init (bytes "ctl") [] false).ParseControlFile fsInteract).err = none ∧
      ((CAutoVersion.init (bytes "ctl") [] false).ParseControlFile fsInteract
        ).state.m_mapFiles
        = [(bytes "f", (CFileNode.new.Add
              (CReplace.new .enRoText (bytes "a") (bytes "x") 20)).Add
              (CReplace.new .enRoText (bytes "x") (bytes "y") 32))] ∧
      ((CAutoVersion.init (bytes "ctl") [] false).Replace fsInteract 0).state.2 (bytes "\\f")
        = some (bytes "yy")) ∧
    ((((CAutoVersion.init (bytes "ctl") [] false).ParseControlFile fsInteract
        ).state.m_mapFiles.map Prod.fst).Nodup ∧
      ∀ kv ∈ ((CAutoVersion.init (bytes "ctl") [] false).ParseControlFile fsInteract
          ).state.m_mapFiles,
        (kv.2.m_listReplacements.map (fun r => r.m_nControlFilePos)).Pairwise (· < ·) ∧
        ∀ r ∈ kv.2.m_listReplacements,
          RecordedAt ((CAutoVersion.init (bytes "ctl") [] false).ParseControlFile
            fsInteract).state.m_pBuffer kv.1 r) ∧
    (∃ n2 fs3, (exRecord [exDirAXm, exDirBY]).DoReplacments fsAbba (bytes "f")
        = .ok () (n2, fs3) ∧
      fs3 (bytes "f")
        = some (applyInOrder (exRecord [exDirAXm, exDirBY]).m_listReplacements
            (bytes "abba")) ∧
      fs3 (bytes "f" ++ avbak) = some (bytes "abba")) :=
  ⟨by decide,
    (C26_declaration_order (bytes "ctl") [] false fsInteract _
      (res_ok_of_err_none _ (by decide))).1,
    (C26_declaration_order (bytes "ctl") [] false fsInteract _
      (res_ok_of_err_none _ (by decide))).2.2 (exRecord [exDirAXm, exDirBY]) fsAbba
      (bytes "f") (bytes "abba") rfl (by decide) (by decide)⟩

/-! ## Strict end of line -/

theorem blanks_split : ∀ b : List Nat, ∃ ws, IsBlanks ws ∧ b = ws ++ SkipWhiteSpaces b := by
  intro b
  induction b with
  | nil => exact ⟨[], fun c hc => absurd hc (List.not_mem_nil c), rfl⟩
  | cons a b ih =>
    by_cases ha : a = 32 ∨ a = 9
    · obtain ⟨ws, hws, hb⟩ := ih
      refine ⟨a :: ws, ?_, ?_⟩
      · intro c hc
        rcases List.mem_cons.mp hc with rfl | hc
        · exact ha
        · exact hws c hc
      · rw [SkipWhiteSpaces, if_pos ha, List.cons_append, ← hb]
    · refine ⟨[], fun c hc => absurd hc (List.not_mem_nil c), ?_⟩
      rw [SkipWhiteSpaces, if_neg ha]
      rfl

theorem SkipLineLoop_comment (line : Nat) (rest : List Nat)
    (hrest : rest.headD 0 = 0 ∨ rest.headD 0 = 10 ∨ rest.headD 0 = 13) :
    ∀ b : List Nat, IsBody b → SkipLineLoop true line (b ++ rest) true = .ok rest := by
  intro b
  induction b with
  | nil => intro _; exact SkipLineLoop_stop true line rest true hrest
  | cons a b ih =>
    intro hb
    have ha := hb a (List.mem_cons_self _ _)
    rw [List.cons_append, SkipLineLoop, if_pos ha]
    simp only []
    have hic : (if a = 35 then true else true) = true := by split <;> rfl
    rw [hic, if_neg (by simp)]
    exact ih hb.tail

theorem SkipLineLoop_blanks (line : Nat) (q : List Nat) :
    ∀ ws : List Nat, IsBlanks ws →
      SkipLineLoop true line (ws ++ q) false = SkipLineLoop true line q false := by
  intro ws
  induction ws with
  | nil => intro _; rfl
  | cons a ws ih =>
    intro hws
    have ha := hws a (List.mem_cons_self _ _)
    have ha0 : a ≠ 0 ∧ a ≠ 10 ∧ a ≠ 13 := by omega
    have ha35 : a ≠ 35 := by omega
    rw [List.cons_append, SkipLineLoop, if_pos ha0]
    simp only []
    rw [if_neg ha35, if_neg (by omega)]
    exact ih (fun c hc => hws c (List.mem_cons_of_mem _ hc))

theorem not_offends_blanks : ∀ ws : List Nat, IsBlanks ws → ¬ Offends ws := by
  intro ws hws ⟨pre, c, post, h, h1, h2, _, _⟩
  have := hws c (by rw [h]; simp)
  omega

theorem not_offends_comment (post : List Nat) :
    ∀ ws : List Nat, IsBlanks ws → ¬ Offends (ws ++ 35 :: post) := by
  intro ws
  induction ws with
  | nil =>
    intro _ ⟨pre, c, post2, h, _, _, h3, h4⟩
    cases pre with
    | nil =>
      simp only [List.nil_append, List.cons.injEq] at h
      exact h3 h.1.symm
    | cons p0 pre =>
      simp only [List.nil_append, List.cons_append, List.cons.injEq] at h
      exact h4 (by rw [← h.1]; exact List.mem_cons_self _ _)
  | cons w ws ih =>
    intro hws ⟨pre, c, post2, h, h1, h2, h3, h4⟩
    have hw := hws w (List.mem_cons_self _ _)
    cases pre with
    | nil =>
      simp only [List.nil_append, List.cons_append, List.cons.injEq] at h
      rw [← h.1] at h1 h2
      omega
    | cons p0 pre =>
      simp only [List.cons_append, List.cons.injEq] at h
      exact ih (fun c hc => hws c (List.mem_cons_of_mem _ hc))
        ⟨pre, c, post2, h.2, h1, h2, h3, fun hm => h4 (List.mem_cons_of_mem _ hm)⟩

theorem offends_first (ws post : List Nat) (c : Nat) (hws : IsBlanks ws)
    (hc : c ≠ 32 ∧ c ≠ 9 ∧ c ≠ 35) : Offends (ws ++ c :: post) :=
  ⟨ws, c, post, rfl, hc.1, hc.2.1, hc.2.2, fun hm => by
    have := hws 35 hm
    omega⟩

/-- How `SkipLine` in strict mode treats the bytes `b` of a line, none of them NUL, line
feed or carriage return, in front of `rest`, which starts with one of those or is the
end of the buffer: either `b` is blanks followed by a byte that is no blank and no `#`,
and the call throws for this byte, or `b` does not offend and the call returns what
the statements after the loop make of `rest`. -/
theorem SkipLine_strict (b rest : List Nat) (line : Nat) (hb : IsBody b)
    (hrest : rest.headD 0 = 0 ∨ rest.headD 0 = 10 ∨ rest.headD 0 = 13) :
    (∃ ws c post, b = ws ++ c :: post ∧ IsBlanks ws ∧ c ≠ 32 ∧ c ≠ 9 ∧ c ≠ 35 ∧ Offends b ∧
      SkipLine (b ++ rest) true line = .error (.parse (.unexpectedChar c) line)) ∨
    (¬ Offends b ∧ SkipLine (b ++ rest) true line = .ok (SkipLineEnd rest line)) := by
  obtain ⟨ws, hws, hsplit⟩ := blanks_split b
  cases hq : SkipWhiteSpaces b with
  | nil =>
    right
    rw [hq, List.append_nil] at hsplit
    subst hsplit
    refine ⟨not_offends_blanks b hws, ?_⟩
    unfold SkipLine
    rw [SkipLineLoop_blanks line rest b hws, SkipLineLoop_stop true line rest false hrest]
  | cons c post =>
    rw [hq] at hsplit
    have hcb : c ≠ 0 ∧ c ≠ 10 ∧ c ≠ 13 := hb c (by rw [hsplit]; simp)
    have hpost : IsBody post := fun x hx => hb x (by rw [hsplit]; simp [hx])
    have hnb : c ≠ 32 ∧ c ≠ 9 := by
      have := (SkipWhiteSpaces_local b).choose_spec.2.1
      rw [hq] at this
      simpa using this
    by_cases h35 : c = 35
    · right
      refine ⟨by rw [hsplit, h35]; exact not_offends_comment post ws hws, ?_⟩
      unfold SkipLine
      rw [hsplit, List.append_assoc, SkipLineLoop_blanks line _ ws hws, List.cons_append,
        SkipLineLoop, if_pos hcb]
      simp only []
      rw [if_pos h35, if_neg (by simp), SkipLineLoop_comment line rest hrest post hpost]
    · left
      refine ⟨ws, c, post, hsplit, hws, hnb.1, hnb.2, h35, ?_, ?_⟩
      · rw [hsplit]
        exact offends_first ws post c hws ⟨hnb.1, hnb.2, h35⟩
      · unfold SkipLine
        rw [hsplit, List.append_assoc, SkipLineLoop_blanks line _ ws hws, List.cons_append,
          SkipLineLoop, if_pos hcb]
        simp only []
        rw [if_neg h35, if_pos ⟨trivial, rfl, hnb.1, hnb.2⟩]

/-- C22.  Strict end of line, as the code has it.  The bytes from the cursor on are `b`,
none of them NUL, line feed or carriage return, followed by `rest`, which starts with one
of those or is the end of the buffer.  `SkipLine` with `only_white_spaces = true` throws
exactly when `b` offends, that is, when some byte of `b` other than space and tab is not
a `#` and has no `#` before it; the error carries the first such byte and the current
line.  Otherwise the call returns what the three statements after the loop make of
`rest`: a line feed, or a carriage return and a line feed, is consumed and the line
counter goes up by one; at the end of the buffer nothing is consumed and nothing is
counted.  A carriage return that is not followed by a line feed is counted as a line
break too, and the byte after it is consumed with it, whatever it is: the test
`if (*p == '\015') p++;` is followed by `if (*p) p++;` without a look at the byte. -/
theorem C22_strict_end_of_line (b rest : List Nat) (line : Nat) (hb : IsBody b)
    (hrest : rest.headD 0 = 0 ∨ rest.headD 0 = 10 ∨ rest.headD 0 = 13) :
    ((∃ e, SkipLine (b ++ rest) true line = .error e) ↔ Offends b) ∧
    (∀ e, SkipLine (b ++ rest) true line = .error e →
      ∃ ws c post, b = ws ++ c :: post ∧ IsBlanks ws ∧ c ≠ 32 ∧ c ≠ 9 ∧ c ≠ 35 ∧
        e = .parse (.unexpectedChar c) line) ∧
    (¬ Offends b →
      SkipLine (b ++ rest) true line = .ok (SkipLineEnd rest line) ∧
      (∀ Z, rest = 10 :: Z → SkipLine (b ++ rest) true line = .ok (Z, line + 1)) ∧
      (∀ Z, rest = 13 :: 10 :: Z → SkipLine (b ++ rest) true line = .ok (Z, line + 1)) ∧
      (rest.headD 0 = 0 → SkipLine (b ++ rest) true line = .ok (rest, line)) ∧
      (∀ x Z, rest = 13 :: x :: Z → x ≠ 0 →
        SkipLine (b ++ rest) true line = .ok (Z, line + 1))) := by
  rcases SkipLine_strict b rest line hb hrest with
    ⟨ws, c, post, h1, h2, h3, h4, h5, h6, h7⟩ | ⟨h1, h2⟩
  · refine ⟨⟨fun _ => h6, fun _ => ⟨_, h7⟩⟩, ?_, fun hn => absurd h6 hn⟩
    intro e he
    rw [h7] at he
    simp only [Except.error.injEq] at he
    exact ⟨ws, c, post, h1, h2, h3, h4, h5, he.symm⟩
  · refine ⟨⟨?_, fun ho => absurd ho h1⟩, ?_, ?_⟩
    · rintro ⟨e, he⟩
      rw [h2] at he
      cases he
    · intro e he
      rw [h2] at he
      cases he
    · intro _
      rw [h2]
      refine ⟨rfl, ?_, ?_, ?_, ?_⟩
      · intro Z hZ
        rw [hZ]
        rfl
      · intro Z hZ
        rw [hZ]
        rfl
      · intro h0
        cases rest with
        | nil => rfl
        | cons a r =>
          simp only [List.headD_cons] at h0
          subst h0
          rfl
      · intro x Z hZ hx
        rw [hZ]
        unfold SkipLineEnd
        simp [hx]

/-- C22 at line 4.  On `  x` before a line feed the call throws for `x`; on ` # x` and on
blanks it consumes the line feed or the carriage return and line feed and counts one
line; at the end of the buffer it counts nothing.  On blanks, a carriage return and the
line `@V "1"` it returns with the cursor on `V "1"`: the `@` that starts the next line
is consumed with the carriage return. -/
theorem C22_strict_end_of_line_witness :
    (IsBody (bytes "  ") ∧ ¬ Offends (bytes "  ") ∧
      (bytes "\r@V \"1\"\n").headD 0 = 13) ∧
    SkipLine (bytes "  " ++ bytes "\r@V \"1\"\n") true 4 = .ok (bytes "V \"1\"\n", 5) ∧
    SkipLine (bytes "  x" ++ bytes "\n") true 4 = .error (.parse (.unexpectedChar 120) 4) ∧
    SkipLine (bytes " # x" ++ bytes "\r\nz") true 4 = .ok (bytes "z", 5) ∧
    SkipLine (bytes "  " ++ bytes "\nz") true 4 = .ok (bytes "z", 5) ∧
    SkipLine (bytes "  " ++ []) true 4 = .ok ([], 4) :=
  ⟨⟨by unfold IsBody; decide, not_offends_blanks _ (by unfold IsBlanks; decide), by decide⟩,
    ((C22_strict_end_of_line (bytes "  ") (bytes "\r@V \"1\"\n") 4
      (by unfold IsBody; decide) (by decide)).2.2
      (not_offends_blanks _ (by unfold IsBlanks; decide))).2.2.2.2 64 (bytes "V \"1\"\n")
      (by decide) (by decide),
    by decide, by decide, by decide, by decide⟩

/-! ## Unknown commands and the line counter -/

theorem ParseLine_skipped (t : CAutoVersion) (l : List Nat × List Nat) (Z : List Nat)
    (hl : IsLine l) (hs : IsSkipped l) :
    t.ParseLine (l.1 ++ l.2 ++ Z) =
      .ok Z { t with m_nCurrentLine := t.m_nCurrentLine + 1 } := by
  obtain ⟨x, tl, hxe, hx⟩ := hl.2.cons
  have hb : IsBody (SkipWhiteSpaces l.1) := hl.1.suffix (SkipWhiteSpaces_suffix _)
  unfold CAutoVersion.ParseLine
  rw [SkipWhiteSpaces_body l.1 l.2 Z hl.2]
  rcases hs with h | h
  · rw [h, List.nil_append, ParseDispatch_eol t (l.2 ++ Z) (by
      rw [hxe]; simp only [List.cons_append, List.headD_cons]; exact hx)]
    simp only
    rw [SkipLine_eol l.2 Z _ hl.2]
  · cases hq : SkipWhiteSpaces l.1 with
    | nil => rw [hq] at h; simp at h
    | cons a cm =>
      rw [hq] at h hb
      simp only [List.headD_cons] at h
      subst h
      have htext : 35 :: cm ++ l.2 ++ Z = 35 :: (cm ++ x :: (tl ++ Z)) := by
        rw [hxe]; simp
      rw [htext, ParseDispatch_35, SkipComment_body cm x (tl ++ Z) hb.tail hx]
      simp only
      have hback : x :: (tl ++ Z) = l.2 ++ Z := by rw [hxe]; simp
      rw [hback, SkipLine_eol l.2 Z _ hl.2]

theorem ParseLoop_skipped : ∀ (L : List (List Nat × List Nat)),
    (∀ l ∈ L, IsLine l ∧ IsSkipped l) → ∀ (t : CAutoVersion) (f : Nat) (Z : List Nat),
      CAutoVersion.ParseLoop (f + L.length) t (linesText L ++ Z) =
        CAutoVersion.ParseLoop f { t with m_nCurrentLine := t.m_nCurrentLine + L.length } Z := by
  intro L
  induction L with
  | nil => intro _ t f Z; rfl
  | cons l L ih =>
    intro hL t f Z
    have hl := hL l (List.mem_cons_self _ _)
    have htext : linesText (l :: L) ++ Z = l.1 ++ l.2 ++ (linesText L ++ Z) := by
      rw [linesText_cons]; simp [List.append_assoc]
    rw [htext, show f + (l :: L).length = (f + L.length) + 1 from rfl, ParseLoop_succ,
      if_pos (headD_line_ne_zero l.1 l.2 _ hl.1.1 hl.1.2),
      ParseLine_skipped t l _ hl.1 hl.2]
    simp only
    rw [ih (fun x hx => hL x (List.mem_cons_of_mem _ hx))]
    have : t.m_nCurrentLine + 1 + L.length = t.m_nCurrentLine + (l :: L).length := by
      simp only [List.length_cons]; omega
    simp only [this]

theorem headD_blanks_ne_zero (ws : List Nat) (c : Nat) (tail : List Nat) (hws : IsBlanks ws)
    (hc : c ≠ 0) : (ws ++ c :: tail).headD 0 ≠ 0 := by
  cases ws with
  | nil => exact hc
  | cons a ws =>
    have := hws a (List.mem_cons_self _ _)
    simp only [List.cons_append, List.headD_cons]
    omega

theorem ParseLine_unknown (t : CAutoVersion) (ws tail : List Nat) (c : Nat)
    (hws : IsBlanks ws)
    (hc : c ≠ 0 ∧ c ≠ 10 ∧ c ≠ 13 ∧ c ≠ 32 ∧ c ≠ 9 ∧ c ≠ 64 ∧ c ≠ 38 ∧ c ≠ 36 ∧ c ≠ 33 ∧
      c ≠ 37 ∧ c ≠ 35) :
    t.ParseLine (ws ++ c :: tail) = .throw (.parse .unknownCommand t.m_nCurrentLine) t := by
  unfold CAutoVersion.ParseLine
  rw [SkipWhiteSpaces_blanks ws (c :: tail) hws (by simp only [List.headD_cons]; omega)]
  unfold CAutoVersion.ParseDispatch
  simp only [List.headD_cons, List.tail_cons]
  rw [if_pos (by omega), if_neg (by omega), if_neg (by omega), if_neg (by omega),
    if_neg (by omega), if_neg (by omega), if_neg (by omega)]

theorem ParseLine_unknown_keyword (t : CAutoVersion) (ws ws2 kw rest : List Nat)
    (hws : IsBlanks ws) (hws2 : IsBlanks ws2) (hkw : IsRun kw) (hne : kw ≠ [])
    (hrest : AtIdentEnd rest) (hk : kw ∉ keywords) :
    (kw.length ≤ 255 → t.ParseLine (ws ++ 37 :: (ws2 ++ kw ++ rest))
      = .throw (.parse .unknownPercentCommand t.m_nCurrentLine) t) ∧
    (256 ≤ kw.length → t.ParseLine (ws ++ 37 :: (ws2 ++ kw ++ rest))
      = .throw (.parse .nameTooLong t.m_nCurrentLine) t) := by
  obtain ⟨h1, h2, _⟩ := GetIdentifier_cases ws2 kw rest t.m_nCurrentLine hws2 hkw hrest
    (fun h => absurd h hne)
  have hlen : 1 ≤ kw.length := List.length_pos.mpr hne
  have hk2 : kw ≠ [66, 97, 115, 101, 112, 97, 116, 104] ∧ kw ≠ [105, 102] ∧
      kw ≠ [101, 108, 115, 101] ∧ kw ≠ [101, 110, 100] ∧ kw ≠ [115, 104, 101, 108, 108] := by
    refine ⟨?_, ?_, ?_, ?_, ?_⟩ <;>
      (intro h; apply hk; rw [h]; unfold keywords; decide)
  refine ⟨?_, ?_⟩
  · intro hshort
    unfold CAutoVersion.ParseLine
    rw [SkipWhiteSpaces_blanks ws _ hws (by simp), ParseDispatch_37]
    unfold CAutoVersion.ParseCommand
    rw [h1 hlen hshort]
    simp only
    rw [if_neg hk2.1, if_neg hk2.2.1, if_neg hk2.2.2.1, if_neg hk2.2.2.2.1,
      if_neg hk2.2.2.2.2]
  · intro hlong
    unfold CAutoVersion.ParseLine
    rw [SkipWhiteSpaces_blanks ws _ hws (by simp), ParseDispatch_37]
    unfold CAutoVersion.ParseCommand
    rw [h2 hlong]

/-- The loop of `ParseControlFile` on lines to skip followed by a line on which
`ParseLine` throws: the loop throws the same, with the line counter advanced by the
lines skipped. -/
theorem ParseLoop_throw_after (L : List (List Nat × List Nat))
    (hL : ∀ l ∈ L, IsLine l ∧ IsSkipped l) (t : CAutoVersion) (q : List Nat) (m : ParseMsg)
    (hq : q.headD 0 ≠ 0) (f : Nat) (hf : L.length + 1 ≤ f) (k : Nat)
    (hk : t.m_nCurrentLine + L.length = k)
    (hthrow : ∀ u : CAutoVersion, u.ParseLine q = .throw (.parse m u.m_nCurrentLine) u) :
    CAutoVersion.ParseLoop f t (linesText L ++ q) =
      .throw (.parse m k) { t with m_nCurrentLine := k } := by
  obtain ⟨j, rfl⟩ : ∃ j, f = (j + 1) + L.length := ⟨f - L.length - 1, by omega⟩
  subst hk
  rw [ParseLoop_skipped L hL, ParseLoop_succ, if_pos hq, hthrow]

/-- C21.  Unknown commands are parse errors naming the right line.  The control file
starts with the lines `L`, each a blank line or a comment line ended by a line feed or by
carriage return and line feed; then come blanks `ws`, a byte `c` and any text.  When `c`
is none of @ & $ ! % # (and is a byte of the line: no NUL, line break or blank),
`ParseControlFile` throws the parse error unknown command with the line number
`L.length + 1`.  When `c` is `%` and, after blanks, a keyword follows that is none of
`Basepath`, `if`, `else`, `end`, `shell`, it throws a parse error with the line number
`L.length + 1`: unknown %-command, or name too long for a keyword of 256 bytes or more.
In each case the object is left with the line counter at `L.length + 1`. -/
theorem C21_unknown_command_line (ctl : List Nat) (defines : List (List Nat))
    (interactive : Bool) (fs : FS) (L : List (List Nat × List Nat)) (ws tail : List Nat)
    (c : Nat) (hL : ∀ l ∈ L, IsLine l ∧ IsSkipped l) (hws : IsBlanks ws)
    (hfs : fs ctl = some (linesText L ++ (ws ++ c :: tail))) :
    (c ≠ 0 ∧ c ≠ 10 ∧ c ≠ 13 ∧ c ≠ 32 ∧ c ≠ 9 ∧ c ≠ 64 ∧ c ≠ 38 ∧ c ≠ 36 ∧ c ≠ 33 ∧
        c ≠ 37 ∧ c ≠ 35 →
      (CAutoVersion.init ctl defines interactive).ParseControlFile fs =
        .throw (.parse .unknownCommand (L.length + 1))
          { CAutoVersion.init ctl defines interactive with
            m_pBuffer := linesText L ++ (ws ++ c :: tail),
            m_nCurrentLine := L.length + 1 }) ∧
    (c = 37 → ∀ ws2 kw rest : List Nat, tail = ws2 ++ kw ++ rest → IsBlanks ws2 →
      IsRun kw → kw ≠ [] → AtIdentEnd rest → kw ∉ keywords →
      (kw.length ≤ 255 →
        (CAutoVersion.init ctl defines interactive).ParseControlFile fs =
          .throw (.parse .unknownPercentCommand (L.length + 1))
            { CAutoVersion.init ctl defines interactive with
              m_pBuffer := linesText L ++ (ws ++ c :: tail),
              m_nCurrentLine := L.length + 1 }) ∧
      (256 ≤ kw.length →
        (CAutoVersion.init ctl defines interactive).ParseControlFile fs =
          .throw (.parse .nameTooLong (L.length + 1))
            { CAutoVersion.init ctl defines interactive with
              m_pBuffer := linesText L ++ (ws ++ c :: tail),
              m_nCurrentLine := L.length + 1 })) := by
  have hfs2 : fs (CAutoVersion.init ctl defines interactive).m_strControlFile = some _ := hfs
  have hlenL := linesText_length L (fun l hl => (hL l hl).1)
  have hfuel : L.length + 1 ≤ (linesText L ++ (ws ++ c :: tail)).length + 1 := by
    simp only [List.length_append, List.length_cons]; omega
  have hline : (1 : Nat) + L.length = L.length + 1 := Nat.add_comm _ _
  refine ⟨?_, ?_⟩
  · intro hc
    unfold CAutoVersion.ParseControlFile
    rw [hfs2]
    simp only
    rw [ParseLoop_throw_after L hL _ (ws ++ c :: tail) .unknownCommand
      (headD_blanks_ne_zero ws c tail hws hc.1) _ hfuel (L.length + 1) hline
      (fun u => ParseLine_unknown u ws tail c hws hc)]
  · intro hc ws2 kw rest htail hws2 hkw hne hrest hk
    subst hc
    subst htail
    refine ⟨?_, ?_⟩
    · intro hshort
      unfold CAutoVersion.ParseControlFile
      rw [hfs2]
      simp only
      rw [ParseLoop_throw_after L hL _ (ws ++ 37 :: (ws2 ++ kw ++ rest)) .unknownPercentCommand
        (headD_blanks_ne_zero ws 37 _ hws (by omega)) _ hfuel (L.length + 1) hline
        (fun u => (ParseLine_unknown_keyword u ws ws2 kw rest hws hws2 hkw hne hrest hk).1
          hshort)]
    · intro hlong
      unfold CAutoVersion.ParseControlFile
      rw [hfs2]
      simp only
      rw [ParseLoop_throw_after L hL _ (ws ++ 37 :: (ws2 ++ kw ++ rest)) .nameTooLong
        (headD_blanks_ne_zero ws 37 _ hws (by omega)) _ hfuel (L.length + 1) hline
        (fun u => (ParseLine_unknown_keyword u ws ws2 kw rest hws hws2 hkw hne hrest hk).2
          hlong)]

/-- C21 after the two lines of `exSkipped` (an empty line and a comment line ended by
carriage return and line feed): the third line ` ?x` gives unknown command at line 3,
and the third line ` % include x` gives unknown %-command at line 3. -/
theorem C21_unknown_command_line_witness :
    ((∀ l ∈ exSkipped, IsLine l ∧ IsSkipped l) ∧ IsBlanks [32]) ∧
    (CAutoVersion.init (bytes "ctl") [] false).ParseControlFile
        (fsOf [(bytes "ctl", linesText exSkipped ++ ([32] ++ 63 :: bytes "x\n"))]) =
      .throw (.parse .unknownCommand (exSkipped.length + 1))
        { CAutoVersion.init (bytes "ctl") [] false with
          m_pBuffer := linesText exSkipped ++ ([32] ++ 63 :: bytes "x\n"),
          m_nCurrentLine := exSkipped.length + 1 } ∧
    (CAutoVersion.init (bytes "ctl") [] false).ParseControlFile
        (fsOf [(bytes "ctl", linesText exSkipped ++
          ([32] ++ 37 :: ([32] ++ bytes "include" ++ bytes " x\n")))]) =
      .throw (.parse .unknownPercentCommand (exSkipped.length + 1))
        { CAutoVersion.init (bytes "ctl") [] false with
          m_pBuffer := linesText exSkipped ++
            ([32] ++ 37 :: ([32] ++ bytes "include" ++ bytes " x\n")),
          m_nCurrentLine := exSkipped.length + 1 } ∧
    ((CAutoVersion.init (bytes "ctl") [] false).ParseControlFile
        (fsOf [(bytes "ctl", bytes "\n  # note\r\n ?x\n")])).err
      = some (.parse .unknownCommand 3) :=
  ⟨⟨by unfold IsLine IsSkipped IsBody IsEol; decide, by unfold IsBlanks; decide⟩,
    (C21_unknown_command_line (bytes "ctl") [] false _ exSkipped [32] (bytes "x\n") 63
      (by unfold IsLine IsSkipped IsBody IsEol; decide) (by unfold IsBlanks; decide)
      (by decide)).1 (by decide),
    ((C21_unknown_command_line (bytes "ctl") [] false _ exSkipped [32]
      ([32] ++ bytes "include" ++ bytes " x\n") 37
      (by unfold IsLine IsSkipped IsBody IsEol; decide) (by unfold IsBlanks; decide)
      (by decide)).2 rfl [32] (bytes "include") (bytes " x\n") rfl
      (by unfold IsBlanks; decide) (by unfold IsRun; decide) (by decide)
      (by unfold AtIdentEnd; decide) (by unfold keywords; decide)).1 (by decide),
    by decide⟩

/-! ## A conditional block that is not closed -/

theorem SkipBlockLoop_lastline (w : Bool) (f : Nat) (cur e : List Nat) (line n : Nat)
    (hn : 0 < n) (hcur : IsBody cur) (he : IsEol e) :
    SkipBlockLoop w (f + 1) (cur ++ e) line n = .error .outOfBounds := by
  have hscan : Scan (cur ++ e) [37] line = .ok ([], line + 1) := by
    obtain ⟨x, tl, hxe, hx⟩ := he.cons
    have hlen : (cur ++ e).length + 1 = (cur.length + tl.length) + 1 + 1 := by
      rw [hxe]; simp only [List.length_append, List.length_cons]; omega
    have hsk := SkipLine_body line cur e [] hcur he
    rw [List.append_nil] at hsk
    unfold Scan
    rw [hlen]
    unfold ScanLoop
    rw [if_pos (by
      have := headD_line_ne_zero cur e [] hcur he
      rwa [List.append_nil] at this), hsk]
    simp only
    rw [if_neg (by decide)]
    unfold ScanLoop
    rfl
  unfold SkipBlockLoop
  rw [if_pos hn, hscan]
  simp only
  rw [if_neg (by decide), if_neg (by simp [strncmp]), if_neg (by decide)]

theorem skip_unterminated (w : Bool) (R : List (List Nat × List Nat)) (cur e : List Nat)
    (line : Nat) (hR : Nested R) (hRl : ∀ l ∈ R, IsLine l) (hcur : IsBody cur)
    (he : IsEol e) :
    SkipBlockLoop w ((cur ++ e ++ linesText R).length + 2) (cur ++ e ++ linesText R) line 1
      = .error .outOfBounds := by
  obtain ⟨cur2, e2, F0, hc2, he2, hF0, hskip⟩ :=
    skip_nested hR hRl w 1 cur e [] line (by omega) hcur he
  have hlen := linesText_length R hRl
  obtain ⟨F, hF⟩ : ∃ F, (cur ++ e ++ linesText R).length + 2 = (F + 1) + F0 :=
    ⟨(cur ++ e ++ linesText R).length + 1 - F0, by
      simp only [List.length_append]; omega⟩
  have h := hskip (F + 1)
  rw [List.append_nil, List.append_nil] at h
  rw [hF, h]
  exact SkipBlockLoop_lastline w F cur2 e2 _ 1 (by omega) hc2 he2

theorem ParseLine_if_unterminated (t : CAutoVersion) (X e : List Nat)
    (R : List (List Nat × List Nat)) (hX : IsIdent X) (he : IsEol e) (hR : Nested R)
    (hRl : ∀ l ∈ R, IsLine l) (hnd : X ∉ t.m_setDefines) :
    t.ParseLine (ifLine X e ++ linesText R) = .throw .outOfBounds t := by
  have htext : ifLine X e ++ linesText R
      = 37 :: (105 :: 102 :: 32 :: X ++ ([] ++ e ++ linesText R)) := by
    simp [ifLine, List.append_assoc]
  have hend : AtIdentEnd ([] ++ e ++ linesText R) := by
    rw [List.nil_append]
    exact AtIdentEnd_eol e _ he
  have hif : GetIdentifier (105 :: 102 :: 32 :: X ++ ([] ++ e ++ linesText R))
      t.m_nCurrentLine = .ok ([105, 102], 32 :: X ++ ([] ++ e ++ linesText R)) :=
    GetIdentifier_read t.m_nCurrentLine [105, 102] _ (by unfold IsIdent; decide)
      (Or.inr (Or.inl rfl))
  have hx : GetIdentifier (32 :: X ++ ([] ++ e ++ linesText R)) t.m_nCurrentLine
      = .ok (X, [] ++ e ++ linesText R) := by
    rw [List.cons_append, GetIdentifier_blank]
    exact GetIdentifier_read t.m_nCurrentLine X _ hX hend
  unfold CAutoVersion.ParseLine
  rw [htext, SkipWhiteSpaces_nonblank 37 _ (by omega), ParseDispatch_37]
  unfold CAutoVersion.ParseCommand
  rw [hif]
  simp only
  rw [if_neg (by decide), if_pos trivial, hx]
  simp only
  rw [if_neg hnd, skip_unterminated true R [] e _ hR hRl IsBody.of_nil he]

theorem ParseLine_else_unterminated (t : CAutoVersion) (e : List Nat)
    (R : List (List Nat × List Nat)) (he : IsEol e) (hR : Nested R)
    (hRl : ∀ l ∈ R, IsLine l) :
    t.ParseLine (elseLine e ++ linesText R) = .throw .outOfBounds t := by
  have htext : elseLine e ++ linesText R
      = 37 :: (101 :: 108 :: 115 :: 101 :: ([] ++ e ++ linesText R)) := by
    simp [elseLine, List.append_assoc]
  have hend : AtIdentEnd ([] ++ e ++ linesText R) := by
    rw [List.nil_append]
    exact AtIdentEnd_eol e _ he
  have helse : GetIdentifier (101 :: 108 :: 115 :: 101 :: ([] ++ e ++ linesText R))
      t.m_nCurrentLine = .ok ([101, 108, 115, 101], [] ++ e ++ linesText R) :=
    GetIdentifier_read t.m_nCurrentLine [101, 108, 115, 101] _ (by unfold IsIdent; decide)
      hend
  unfold CAutoVersion.ParseLine
  rw [htext, SkipWhiteSpaces_nonblank 37 _ (by omega), ParseDispatch_37]
  unfold CAutoVersion.ParseCommand
  rw [helse]
  simp only
  rw [if_neg (by decide), if_neg (by decide), if_pos trivial,
    skip_unterminated false R [] e _ hR hRl IsBody.of_nil he]

/-! ## The error about the missing `%end` is never thrown -/

theorem SkipLineLoop_nm (b : Bool) (line : Nat) :
    ∀ (p : List Nat) (ic : Bool) (e : Err), SkipLineLoop b line p ic = .error e →
      e.NotMissingEnd := by
  intro p
  induction p with
  | nil => intro ic e h; cases h
  | cons a p ih =>
    intro ic e h
    rw [SkipLineLoop] at h
    split at h
    · simp only [] at h
      by_cases hs : b = true ∧ (if a = 35 then true else ic) = false ∧ a ≠ 32 ∧ a ≠ 9
      · rw [if_pos hs] at h
        cases h
        intro l hl
        cases hl
      · rw [if_neg hs] at h
        exact ih _ _ h
    · cases h

theorem SkipLine_nm (p : List Nat) (b : Bool) (line : Nat) (e : Err)
    (h : SkipLine p b line = .error e) : e.NotMissingEnd := by
  unfold SkipLine at h
  split at h
  · rename_i e1 heq
    cases h
    exact SkipLineLoop_nm b line p false _ heq
  · cases h

theorem ScanLoop_nm (tok : List Nat) :
    ∀ (f : Nat) (p : List Nat) (line : Nat) (e : Err), ScanLoop tok f p line = .error e →
      e.NotMissingEnd := by
  intro f
  induction f with
  | zero =>
    intro p line e h
    cases h
    intro l hl
    cases hl
  | succ f ih =>
    intro p line e h
    unfold ScanLoop at h
    split at h
    · split at h
      · rename_i e1 heq
        cases h
        exact SkipLine_nm _ _ _ _ heq
      · simp only [] at h
        split at h
        · cases h
        · exact ih _ _ _ h
    · cases h

theorem GetIdentifierLoop_nm (line : Nat) :
    ∀ (p acc : List Nat) (e : Err), GetIdentifierLoop line p acc = .error e →
      e.NotMissingEnd := by
  intro p
  induction p with
  | nil => intro acc e h; cases h
  | cons c p ih =>
    intro acc e h
    rw [GetIdentifierLoop] at h
    split at h
    · split at h
      · cases h
        intro l hl
        cases hl
      · exact ih _ _ h
    · cases h

theorem GetIdentifier_nm (p : List Nat) (line : Nat) (e : Err)
    (h : GetIdentifier p line = .error e) : e.NotMissingEnd := by
  unfold GetIdentifier at h
  split at h
  · rename_i e1 heq
    cases h
    exact GetIdentifierLoop_nm line _ _ _ heq
  · split at h
    · cases h
      intro l hl
      cases hl
    · cases h

theorem GetLiteralLoop_nm (line : Nat) :
    ∀ (n : Nat) (p acc : List Nat) (e : Err), p.length ≤ n →
      GetLiteralLoop line p acc = .error e → e.NotMissingEnd := by
  intro n
  induction n with
  | zero =>
    intro p acc e hn h
    have : p = [] := List.eq_nil_of_length_eq_zero (by omega)
    subst this
    cases h
  | succ n ih =>
    intro p acc e hn h
    cases p with
    | nil => cases h
    | cons c p =>
      rw [GetLiteralLoop_cons] at h
      simp only [List.length_cons] at hn
      split at h
      · split at h
        · split at h
          · cases h
            intro l hl
            cases hl
          · exact ih p.tail _ _ (by
              have := List.length_tail p
              omega) h
        · split at h
          · cases h
            intro l hl
            cases hl
          · exact ih p _ _ (by omega) h
      · cases h

theorem GetLiteral_nm (n : Nat) (p : List Nat) (line : Nat) (e : Err)
    (h : GetLiteral n p line = .error e) : e.NotMissingEnd := by
  unfold GetLiteral at h
  split at h
  · cases h
    intro l hl
    cases hl
  · split at h
    · cases h
      intro l hl
      cases hl
    · simp only [] at h
      split at h
      · rename_i e1 heq
        cases h
        exact GetLiteralLoop_nm line _ _ _ _ (Nat.le_refl _) heq
      · split at h
        · cases h
          intro l hl
          cases hl
        · split at h
          · cases h
            intro l hl
            cases hl
          · cases h

theorem GetLiteralOrSymbol_nm (consts : List (List Nat × List Nat)) (n : Nat) (p : List Nat)
    (line : Nat) (e : Err) (h : GetLiteralOrSymbol consts n p line = .error e) :
    e.NotMissingEnd := by
  unfold GetLiteralOrSymbol at h
  simp only [] at h
  split at h
  · split at h
    · rename_i e1 heq
      cases h
      exact GetLiteral_nm _ _ _ _ heq
    · cases h
  · split at h
    · rename_i e1 heq
      cases h
      exact GetIdentifier_nm _ _ _ heq
    · split at h
      · cases h
        intro l hl
        cases hl
      · cases h

theorem ParseMessageLoop_nm (line : Nat) :
    ∀ (p acc : List Nat) (e : Err), ParseMessageLoop line p acc = .error e →
      e.NotMissingEnd := by
  intro p
  induction p with
  | nil => intro acc e h; cases h
  | cons c p ih =>
    intro acc e h
    rw [ParseMessageLoop] at h
    split at h
    · split at h
      · cases h
        intro l hl
        cases hl
      · exact ih _ _ h
    · cases h

theorem SkipBlockLoop_nm (w : Bool) :
    ∀ (f : Nat) (p : List Nat) (line n : Nat) (e : Err),
      SkipBlockLoop w f p line n = .error e → e.NotMissingEnd := by
  intro f
  induction f with
  | zero =>
    intro p line n e h
    cases h
    intro l hl
    cases hl
  | succ f ih =>
    intro p line n e h
    unfold SkipBlockLoop at h
    split at h
    · split at h
      · rename_i e1 heq
        cases h
        exact ScanLoop_nm _ _ _ _ _ heq
      · split at h
        · exact ih _ _ _ _ h
        · split at h
          · exact ih _ _ _ _ h
          · split at h
            · exact ih _ _ _ _ h
            · split at h
              · cases h
                intro l hl
                cases hl
              · exact ih _ _ _ _ h
    · cases h

theorem ParseConstantDef_nm (s s2 : CAutoVersion) (p : List Nat) (e : Err)
    (h : s.ParseConstantDef p = .throw e s2) : e.NotMissingEnd := by
  unfold CAutoVersion.ParseConstantDef at h
  split at h
  · rename_i e1 heq
    cases h
    exact GetIdentifier_nm _ _ _ heq
  · split at h
    · rename_i e1 heq
      cases h
      exact GetLiteralOrSymbol_nm _ _ _ _ _ heq
    · split at h
      · cases h
        intro l hl
        cases hl
      · cases h

theorem ReadReplacement_nm (s : CAutoVersion) (op : EReplaceOp) (p : List Nat) (e : Err)
    (h : s.ReadReplacement op p = .error e) : e.NotMissingEnd := by
  unfold CAutoVersion.ReadReplacement at h
  split at h
  · rename_i e1 heq
    cases h
    exact GetLiteral_nm _ _ _ _ heq
  · split at h
    · rename_i e1 heq
      cases h
      exact GetLiteral_nm _ _ _ _ heq
    · split at h
      · cases h
        intro l hl
        cases hl
      · split at h
        · cases h
          intro l hl
          cases hl
        · split at h
          · rename_i e1 heq
            cases h
            exact GetIdentifier_nm _ _ _ heq
          · split at h
            · cases h
              intro l hl
              cases hl
            · split at h
              · cases h
                intro l hl
                cases hl
              · cases h

theorem ParseReplacement_nm (s s2 : CAutoVersion) (op : EReplaceOp) (p : List Nat) (e : Err)
    (h : s.ParseReplacement op p = .throw e s2) : e.NotMissingEnd := by
  unfold CAutoVersion.ParseReplacement at h
  split at h
  · rename_i e1 heq
    cases h
    exact ReadReplacement_nm _ _ _ _ heq
  · cases h

theorem ParseMessage_nm (s s2 : CAutoVersion) (p : List Nat) (e : Err)
    (h : s.ParseMessage p = .throw e s2) : e.NotMissingEnd := by
  unfold CAutoVersion.ParseMessage at h
  split at h
  · rename_i e1 heq
    cases h
    exact ParseMessageLoop_nm _ _ _ _ heq
  · cases h

theorem ParseCommand_nm (s s2 : CAutoVersion) (p : List Nat) (e : Err)
    (h : s.ParseCommand p = .throw e s2) : e.NotMissingEnd := by
  unfold CAutoVersion.ParseCommand at h
  split at h
  · rename_i e1 heq
    cases h
    exact GetIdentifier_nm _ _ _ heq
  · split at h
    · split at h
      · cases h
        intro l hl
        cases hl
      · split at h
        · rename_i e1 heq
          cases h
          exact GetLiteral_nm _ _ _ _ heq
        · cases h
    · split at h
      · split at h
        · rename_i e1 heq
          cases h
          exact GetIdentifier_nm _ _ _ heq
        · split at h
          · cases h
          · split at h
            · rename_i e1 heq
              cases h
              exact SkipBlockLoop_nm _ _ _ _ _ _ heq
            · cases h
      · split at h
        · split at h
          · rename_i e1 heq
            cases h
            exact SkipBlockLoop_nm _ _ _ _ _ _ heq
          · cases h
        · split at h
          · cases h
          · split at h
            · split at h
              · rename_i e1 heq
                cases h
                exact GetLiteral_nm _ _ _ _ heq
              · cases h
            · cases h
              intro l hl
              cases hl

theorem ParseDispatch_nm (s s2 : CAutoVersion) (p : List Nat) (e : Err)
    (h : s.ParseDispatch p = .throw e s2) : e.NotMissingEnd := by
  unfold CAutoVersion.ParseDispatch at h
  simp only [] at h
  split at h
  · split at h
    · exact ParseConstantDef_nm _ _ _ _ h
    · split at h
      · exact ParseReplacement_nm _ _ _ _ _ h
      · split at h
        · exact ParseReplacement_nm _ _ _ _ _ h
        · split at h
          · exact ParseMessage_nm _ _ _ _ h
          · split at h
            · exact ParseCommand_nm _ _ _ _ h
            · split at h
              · cases h
              · cases h
                intro l hl
                cases hl
  · cases h

theorem ParseLine_nm (s s2 : CAutoVersion) (p : List Nat) (e : Err)
    (h : s.ParseLine p = .throw e s2) : e.NotMissingEnd := by
  unfold CAutoVersion.ParseLine at h
  split at h
  · rename_i e1 s1 heq
    cases h
    exact ParseDispatch_nm _ _ _ _ heq
  · split at h
    · rename_i e1 heq
      cases h
      exact SkipLine_nm _ _ _ _ heq
    · cases h

theorem ParseLoop_nm : ∀ (f : Nat) (s s2 : CAutoVersion) (p : List Nat) (e : Err),
    CAutoVersion.ParseLoop f s p = .throw e s2 → e.NotMissingEnd := by
  intro f
  induction f with
  | zero =>
    intro s s2 p e h
    cases h
    intro l hl
    cases hl
  | succ f ih =>
    intro s s2 p e h
    rw [ParseLoop_succ] at h
    split at h
    · split at h
      · rename_i e1 s1 heq
        cases h
        exact ParseLine_nm _ _ _ _ heq
      · exact ih _ _ _ _ h
    · cases h

theorem ParseControlFile_nm (s s2 : CAutoVersion) (fs : FS) (e : Err)
    (h : s.ParseControlFile fs = .throw e s2) : e.NotMissingEnd := by
  unfold CAutoVersion.ParseControlFile at h
  split at h
  · cases h
    intro l hl
    cases hl
  · exact ParseLoop_nm _ _ _ _ _ h

/-- C30.  Unterminated conditional, as the code has it.  The lines `R` after the `%if`
or `%else` line are well nested: every inner block is closed, and no `%else` or `%end`
is left over for the line itself, and they run up to the end of the buffer.  For the
control file `%if X`, `R` with `X` not among the defines, for the control file `%else`,
`R`, and for the control file `%if X`, `%else`, `R` with `X` among the defines,
`ParseControlFile` does not throw the parse error about the missing `%end`.  The skip
loop runs to the end of the buffer; there `Scan` returns with the cursor on the
terminating NUL, the test `if (!p)` looks at the pointer and not at the byte, no token
matches, and `p++` moves the cursor past the terminator, where the next `Scan` reads:
`Err.outOfBounds` in the embedding.  The parse error about the missing `%end` is in fact
never thrown, whatever the control file and the defines. -/
theorem C30_unterminated_conditional (ctl : List Nat) (defines : List (List Nat))
    (interactive : Bool) (fs : FS) (X e e2 : List Nat) (R : List (List Nat × List Nat))
    (hX : IsIdent X) (he : IsEol e) (he2 : IsEol e2) (hR : Nested R)
    (hRl : ∀ l ∈ R, IsLine l) :
    (X ∉ defines → fs ctl = some (ifLine X e ++ linesText R) →
      (CAutoVersion.init ctl defines interactive).ParseControlFile fs =
        .throw .outOfBounds
          { CAutoVersion.init ctl defines interactive with
            m_pBuffer := ifLine X e ++ linesText R }) ∧
    (fs ctl = some (elseLine e ++ linesText R) →
      (CAutoVersion.init ctl defines interactive).ParseControlFile fs =
        .throw .outOfBounds
          { CAutoVersion.init ctl defines interactive with
            m_pBuffer := elseLine e ++ linesText R }) ∧
    (X ∈ defines → fs ctl = some (ifLine X e ++ (elseLine e2 ++ linesText R)) →
      (CAutoVersion.init ctl defines interactive).ParseControlFile fs =
        .throw .outOfBounds
          { CAutoVersion.init ctl defines interactive with
            m_pBuffer := ifLine X e ++ (elseLine e2 ++ linesText R),
            m_nCurrentLine := 2 }) ∧
    (∀ (fs2 : FS) (err : Err) (st : CAutoVersion) (line : Nat),
      (CAutoVersion.init ctl defines interactive).ParseControlFile fs2 = .throw err st →
      err ≠ .parse .missingEnd line) := by
  refine ⟨?_, ?_, ?_, fun fs2 err st line h => ParseControlFile_nm _ _ _ _ h line⟩
  · intro hnd hfs
    have hfs2 : fs (CAutoVersion.init ctl defines interactive).m_strControlFile = some _ := hfs
    unfold CAutoVersion.ParseControlFile
    rw [hfs2]
    simp only
    rw [ParseLoop_succ, if_pos (by simp [ifLine]),
      ParseLine_if_unterminated _ X e R hX he hR hRl hnd]
  · intro hfs
    have hfs2 : fs (CAutoVersion.init ctl defines interactive).m_strControlFile = some _ := hfs
    unfold CAutoVersion.ParseControlFile
    rw [hfs2]
    simp only
    rw [ParseLoop_succ, if_pos (by simp [elseLine]),
      ParseLine_else_unterminated _ e R he hR hRl]
  · intro hdef hfs
    have hfs2 : fs (CAutoVersion.init ctl defines interactive).m_strControlFile = some _ := hfs
    have hlen : (ifLine X e ++ (elseLine e2 ++ linesText R)).length + 1
        = ((X.length + e.length + e2.length + (linesText R).length + 8) + 1) + 1 := by
      simp only [ifLine, elseLine, List.length_append, List.length_cons]; omega
    unfold CAutoVersion.ParseControlFile
    rw [hfs2]
    simp only
    rw [hlen, ParseLoop_succ, if_pos (by simp [ifLine]),
      ParseLine_if_defined _ X e _ hX he hdef]
    simp only
    rw [ParseLoop_succ, if_pos (by simp [elseLine]),
      ParseLine_else_unterminated _ e2 R he2 hR hRl]
    all_goals rfl

/-- C30 on the control files `%if A`, `@V "1"` with no define, `%else`, `@V "1"`, and
`%if A`, `%else`, `@V "1"` with `A` defined: the result is the read outside the buffer,
not a parse error. -/
theorem C30_unterminated_conditional_witness :
    (IsIdent (bytes "A") ∧ IsEol [10] ∧ IsEol [13, 10] ∧
      Nested [(bytes "@V \"1\"", [10])] ∧ ∀ l ∈ [(bytes "@V \"1\"", [10])], IsLine l) ∧
    (CAutoVersion.init (bytes "ctl") [] false).ParseControlFile
        (fsOf [(bytes "ctl", ifLine (bytes "A") [10] ++ linesText [(bytes "@V \"1\"", [10])])])
      = .throw .outOfBounds
          { CAutoVersion.init (bytes "ctl") [] false with
            m_pBuffer := ifLine (bytes "A") [10] ++ linesText [(bytes "@V \"1\"", [10])] } ∧
    (CAutoVersion.init (bytes "ctl") [] false).ParseControlFile
        (fsOf [(bytes "ctl", elseLine [10] ++ linesText [(bytes "@V \"1\"", [10])])])
      = .throw .outOfBounds
          { CAutoVersion.init (bytes "ctl") [] false with
            m_pBuffer := elseLine [10] ++ linesText [(bytes "@V \"1\"", [10])] } ∧
    (CAutoVersion.init (bytes "ctl") [bytes "A"] false).ParseControlFile
        (fsOf [(bytes "ctl", ifLine (bytes "A") [10] ++
          (elseLine [13, 10] ++ linesText [(bytes "@V \"1\"", [10])]))])
      = .throw .outOfBounds
          { CAutoVersion.init (bytes "ctl") [bytes "A"] false with
            m_pBuffer := ifLine (bytes "A") [10] ++
              (elseLine [13, 10] ++ linesText [(bytes "@V \"1\"", [10])]),
            m_nCurrentLine := 2 } ∧
    ((CAutoVersion.init (bytes "ctl") [] false).ParseControlFile
        (fsOf [(bytes "ctl", bytes "%if A\n")])).err = some .outOfBounds ∧
    ((CAutoVersion.init (bytes "ctl") [] false).ParseControlFile
        (fsOf [(bytes "ctl", bytes "%if A")])).err = some .outOfBounds :=
  ⟨⟨by unfold IsIdent; decide, by unfold IsEol; decide, by unfold IsEol; decide,
      Nested.line _ _ (Or.inl (by unfold IsPlain; decide)) Nested.nil,
      by unfold IsLine IsBody IsEol; decide⟩,
    (C30_unterminated_conditional (bytes "ctl") [] false _ (bytes "A") [10] [13, 10]
      [(bytes "@V \"1\"", [10])] (by unfold IsIdent; decide) (by unfold IsEol; decide)
      (by unfold IsEol; decide)
      (Nested.line _ _ (Or.inl (by unfold IsPlain; decide)) Nested.nil)
      (by unfold IsLine IsBody IsEol; decide)).1 (by decide) (by decide),
    (C30_unterminated_conditional (bytes "ctl") [] false _ (bytes "A") [10] [13, 10]
      [(bytes "@V \"1\"", [10])] (by unfold IsIdent; decide) (by unfold IsEol; decide)
      (by unfold IsEol; decide)
      (Nested.line _ _ (Or.inl (by unfold IsPlain; decide)) Nested.nil)
      (by unfold IsLine IsBody IsEol; decide)).2.1 (by decide),
    (C30_unterminated_conditional (bytes "ctl") [bytes "A"] false _ (bytes "A") [10]
      [13, 10] [(bytes "@V \"1\"", [10])] (by unfold IsIdent; decide)
      (by unfold IsEol; decide) (by unfold IsEol; decide)
      (Nested.line _ _ (Or.inl (by unfold IsPlain; decide)) Nested.nil)
      (by unfold IsLine IsBody IsEol; decide)).2.2.1 (by decide) (by decide),
    by decide, by decide⟩

end AutoVersion
